import Mathlib

/-!
# MarkovNode: grid-based Markov localization

A shallow embedding of `src/markov/MarkovNode.cpp`.

Conventions of the embedding.

* A C `double` is an element of a linearly ordered field `K` (exact
  arithmetic).  Definitions are generic in `K`, so they run on `ℚ`; theorems
  that need `exp`/`log` are stated at `K = ℝ`.
* Where rounding decides a property, the function is embedded a second time
  with the arithmetic as a parameter `A : Arith F` (the definitions whose names
  end in `A`): `exactArith K` gives the definition over `K` back, and
  `binary64` computes with IEEE 754 binary64 values, rounding to nearest, ties
  to even.  Infinities, NaN, the sign of zero and overflow are not modelled.
* A C `int` is an element of `Int`; `max_particles_stored` applies the
  conversion to 32 bits where the range matters.
* `exp`, `log`, `cos`, `sin` come from libm; they are passed in a `LibM K`
  record.
* The occupancy map (`map_t`, macros `MAP_GXWX`, `MAP_GYWY`, `MAP_VALID`,
  `MAP_INDEX` of `map.h`) is not part of the sources; the record `map_t K`
  carries what the code reads from it.
* An `assert` checks a condition and changes no state; the functions are
  embedded along the path on which execution continues, and the asserted
  conditions are stated as separate predicates.
* `ROS_DEBUG`/`ROS_INFO` logging, progress counters and message publication
  do not influence any value and are left out.  This includes the progress
  test `sample_counter%percent_count` of lines 102 and 411, whose divisor is
  set to 1 when it would be 0 (lines 92-93 and 425-426).
* A sample set is the list of its samples; `sample_count` is its length.
-/

namespace MarkovNode

/-! ## Data model -/

/-- The type `pf_vector_t`: the three components `v[0]`, `v[1]`, `v[2]`. -/
structure pf_vector_t (K : Type) where
  v0 : K
  v1 : K
  v2 : K
deriving DecidableEq

/-- The type `pf_sample_t`: pose, weight and the running log-weight. -/
structure pf_sample_t (K : Type) where
  pose : pf_vector_t K
  weight : K
  logWeight : K
deriving DecidableEq

/-- The libm functions the code calls. -/
structure LibM (K : Type) where
  exp : K → K
  log : K → K
  cos : K → K
  sin : K → K

/-- What the code reads from the occupancy map: the world-to-grid macros,
the validity test, the per-cell `occ_dist` and `occ_state` (addressed by grid
coordinates, i.e. `cells[MAP_INDEX(map,i,j)]`), `max_occ_dist` and `scale`. -/
structure map_t (K : Type) where
  MAP_GXWX : K → Int
  MAP_GYWY : K → Int
  MAP_VALID : Int → Int → Bool
  occ_dist : Int → Int → K
  occ_state : Int → Int → Int
  max_occ_dist : K
  scale : K

/-- The fields of `amcl::AMCLLaser` used by the sensor update.
`pf_vector_coord_add` belongs to the particle-filter library and is carried
as the field `coord_add`. -/
structure AMCLLaser (K : Type) where
  laser_pose : pf_vector_t K
  coord_add : pf_vector_t K → pf_vector_t K → pf_vector_t K
  sigma_hit : K
  z_hit : K
  z_rand : K
  max_beams : Int
  map : map_t K

/-- The fields of `amcl::AMCLLaserData` used by the sensor update.  Each entry
of `ranges` is `(range, bearing)`; a range of `none` stands for a NaN reading.
`range_count` is the length of `ranges`. -/
structure AMCLLaserData (K : Type) where
  range_max : K
  ranges : List (Option K × K)

variable {K : Type} [LinearOrderedField K]

/-- Sum of the weights of a list of samples. -/
def totalWeight (samples : List (pf_sample_t K)) : K :=
  (samples.map (fun s => s.weight)).sum

/-! ## Sensor update: `UpdateParticle`, `UpdateLaser`, `UpdateLaserParallel` -/

/-- Lines 24-28 (and 164-168): `step = (range_count - 1) / (max_beams - 1)`
with C integer division, then `if (step < 1) step = 1`. -/
def beamStep (range_count max_beams : Int) : Int :=
  let step := Int.tdiv (range_count - 1) (max_beams - 1)
  if step < 1 then 1 else step

/-- The indices visited by `for (i = 0; i < range_count; i += step)`, from
index `i` on; every iteration consumes one unit of `fuel`. -/
def beamIndicesFrom (range_count step : Nat) : Nat → Nat → List Nat
  | 0, _ => []
  | fuel + 1, i =>
    if i < range_count then i :: beamIndicesFrom range_count step fuel (i + step) else []

/-- The beam indices of the sensor update: the loop of line 30 with the step of
lines 24-28.  Since the step is at least 1, `range_count` iterations are
enough. -/
def beamIndices (range_count : Nat) (max_beams : Int) : List Nat :=
  beamIndicesFrom range_count (beamStep range_count max_beams).toNat range_count 0

/-- Lines 62-64: the per-beam probability for nearest-obstacle distance `z`,
`pz = 0; pz += z_hit * exp(-(z*z)/z_hit_denom); pz += z_rand * z_rand_mult`,
with `z_hit_denom = 2*sigma_hit*sigma_hit` and `z_rand_mult = 1/range_max`, in
exact arithmetic; `pzOfDistA` is the same computation in a given arithmetic of
`double`. -/
def pzOfDist (exp : K → K) (z_hit z_rand sigma_hit range_max z : K) : K :=
  let z_hit_denom := 2 * sigma_hit * sigma_hit
  let z_rand_mult := 1 / range_max
  let pz := 0 + z_hit * exp (-(z * z) / z_hit_denom)
  pz + z_rand * z_rand_mult

/-- Lines 46-59: the nearest-obstacle distance looked up for a beam, off-map
endpoints getting `max_occ_dist`. -/
def beamDist (m : LibM K) (self : AMCLLaser K) (pose : pf_vector_t K)
    (obs_range obs_bearing : K) : K :=
  let hit0 := pose.v0 + obs_range * m.cos (pose.v2 + obs_bearing)
  let hit1 := pose.v1 + obs_range * m.sin (pose.v2 + obs_bearing)
  let mi := self.map.MAP_GXWX hit0
  let mj := self.map.MAP_GYWY hit1
  if !self.map.MAP_VALID mi mj then self.map.max_occ_dist else self.map.occ_dist mi mj

/-- Lines 43-64: the per-beam probability `pz` of an evaluated beam. -/
def beamPz (m : LibM K) (self : AMCLLaser K) (ldata : AMCLLaserData K)
    (pose : pf_vector_t K) (obs_range obs_bearing : K) : K :=
  pzOfDist m.exp self.z_hit self.z_rand self.sigma_hit ldata.range_max
    (beamDist m self pose obs_range obs_bearing)

/-- Whether the loop body gets past the two `continue`s of lines 36-41 for the
reading at index `i`: the range is not NaN and is below `range_max`. -/
def beamEvaluated (ldata : AMCLLaserData K) (i : Nat) : Bool :=
  match (ldata.ranges.getD i (none, 0)).1 with
  | none => false
  | some obs_range => !decide (obs_range ≥ ldata.range_max)

/-- One iteration of the beam loop (lines 31-72) on the running `logWeight`. -/
def beamBody (m : LibM K) (self : AMCLLaser K) (ldata : AMCLLaserData K)
    (pose : pf_vector_t K) (logWeight : K) (i : Nat) : K :=
  match ldata.ranges.getD i (none, 0) with
  | (none, _) => logWeight
  | (some obs_range, obs_bearing) =>
    if obs_range ≥ ldata.range_max then logWeight
    else logWeight + m.log (beamPz m self ldata pose obs_range obs_bearing)

/-- Lines 15-72: the value of `sample->logWeight` after the beam loop. -/
def sampleLogWeight (m : LibM K) (self : AMCLLaser K) (ldata : AMCLLaserData K)
    (sample : pf_sample_t K) : K :=
  let pose := self.coord_add self.laser_pose sample.pose
  (beamIndices ldata.ranges.length self.max_beams).foldl (beamBody m self ldata pose) 0

/-- The function `MarkovNode::UpdateParticle`: the updated sample; the value
returned by the C function is its `weight`. -/
def UpdateParticle (m : LibM K) (self : AMCLLaser K) (ldata : AMCLLaserData K)
    (sample : pf_sample_t K) : pf_sample_t K :=
  let logWeight := sampleLogWeight m self ldata sample
  { sample with logWeight := logWeight, weight := sample.weight * m.exp logWeight }

/-- The sample loop of `MarkovNode::UpdateLaser` (lines 149-220) on the
remaining samples, with the running `total_weight`. -/
def UpdateLaserLoop (m : LibM K) (self : AMCLLaser K) (ldata : AMCLLaserData K) :
    List (pf_sample_t K) → K → K × List (pf_sample_t K)
  | [], total_weight => (total_weight, [])
  | sample :: rest, total_weight =>
    let logWeight := sampleLogWeight m self ldata sample
    let sample1 : pf_sample_t K :=
      { sample with logWeight := logWeight, weight := sample.weight * m.exp logWeight }
    let r := UpdateLaserLoop m self ldata rest (total_weight + sample1.weight)
    (r.1, sample1 :: r.2)

/-- The function `MarkovNode::UpdateLaser`: the returned `total_weight` and the
samples of the current set after the call. -/
def UpdateLaser (m : LibM K) (self : AMCLLaser K) (ldata : AMCLLaserData K)
    (samples : List (pf_sample_t K)) : K × List (pf_sample_t K) :=
  UpdateLaserLoop m self ldata samples 0

/-- Lines 109-110 (and 236-237): the number of worker threads. -/
def nbThreads (nb_threads_hint : Nat) : Nat :=
  if nb_threads_hint = 0 then 8 else nb_threads_hint

/-- The loop that hands `[sidx, sidx + grainsize)` to each of the first
`k` threads (lines 115-119); returns the ranges and the final `sidx`. -/
def spawnRanges (grainsize : Nat) : Nat → Nat → List (Nat × Nat) × Nat
  | 0, sidx => ([], sidx)
  | k + 1, sidx =>
    let r := spawnRanges grainsize k (sidx + grainsize)
    ((sidx, sidx + grainsize) :: r.1, r.2)

/-- Lines 111-120: the index range `(beg, end)` of every worker, for `count`
items and `nb_threads` threads; the last thread runs to `count`. -/
def workerRanges (count nb_threads : Nat) : List (Nat × Nat) :=
  let grainsize := count / nb_threads
  let r := spawnRanges grainsize (nb_threads - 1) 0
  r.1 ++ [(r.2, count)]

/-- The worker of `UpdateLaserParallel` (lines 94-107) on `[sidx, sidx + n)`:
each sample is updated in place and its weight added to `total_weight`. -/
def laserWorker (m : LibM K) (self : AMCLLaser K) (ldata : AMCLLaserData K) :
    Nat → Nat → K × List (pf_sample_t K) → K × List (pf_sample_t K)
  | 0, _, st => st
  | n + 1, sidx, (total_weight, samples) =>
    match samples[sidx]? with
    | none => laserWorker m self ldata n (sidx + 1) (total_weight, samples)
    | some sample =>
      let sample1 := UpdateParticle m self ldata sample
      laserWorker m self ldata n (sidx + 1)
        (total_weight + sample1.weight, samples.set sidx sample1)

/-- The function `MarkovNode::UpdateLaserParallel`.  The workers own disjoint
index ranges and meet only in `total_weight += particle_weight` under the
mutex; they are run here one after the other, in thread order. -/
def UpdateLaserParallel (m : LibM K) (self : AMCLLaser K) (ldata : AMCLLaserData K)
    (nb_threads_hint : Nat) (samples : List (pf_sample_t K)) : K × List (pf_sample_t K) :=
  (workerRanges samples.length (nbThreads nb_threads_hint)).foldl
    (fun st r => laserWorker m self ldata (r.2 - r.1) r.1 st) (0, samples)

/-- Modelled from the spec: `pf_normalize_set` of the particle-filter library,
which is not among the sources.  Spec 4.6 step 1: "Divide every sample's
weight by the total weight". -/
def pf_normalize_set (samples : List (pf_sample_t K)) (total : K) : List (pf_sample_t K) :=
  samples.map (fun s => { s with weight := s.weight / total })

/-! ## Inputs used to exercise the sensor update -/

/-- A map whose every cell is valid and touches an obstacle. -/
def demoMap (K : Type) [LinearOrderedField K] : map_t K :=
  { MAP_GXWX := fun _ => 0, MAP_GYWY := fun _ => 0, MAP_VALID := fun _ _ => true,
    occ_dist := fun _ _ => 0, occ_state := fun _ _ => -1, max_occ_dist := 1, scale := 1 }

/-- A laser model with `z_hit = z_rand = 1/2`, `sigma_hit = 1`, two beams. -/
def demoLaser (K : Type) [LinearOrderedField K] : AMCLLaser K :=
  { laser_pose := ⟨0, 0, 0⟩, coord_add := fun _ b => b, sigma_hit := 1,
    z_hit := 1 / 2, z_rand := 1 / 2, max_beams := 2, map := demoMap K }

/-- A scan of two readings, one below `range_max = 1` and one at it. -/
def demoScan (K : Type) [LinearOrderedField K] : AMCLLaserData K :=
  { range_max := 1, ranges := [(some (1 / 2), 0), (some 1, 0)] }

/-- A scan whose two readings are at or beyond `range_max = 1`. -/
def demoMaxScan (K : Type) [LinearOrderedField K] : AMCLLaserData K :=
  { range_max := 1, ranges := [(some 1, 0), (some 2, 0)] }

/-- Two samples of weights `1/4` and `3/4`. -/
def demoSamples (K : Type) [LinearOrderedField K] : List (pf_sample_t K) :=
  [⟨⟨0, 0, 0⟩, 1 / 4, 0⟩, ⟨⟨1, 0, 0⟩, 3 / 4, 0⟩]

/-! ## Grid parameters and active-set maintenance (`laserReceived`) -/

/-- Line 611: `size_a_ = (int)(360.0/ares_)`, the number of heading bins. -/
def size_a (ares : Int) : Int := Int.tdiv 360 ares

/-- Line 612: `max_particles_ = free_space_indices.size() * size_a_`, the
product as an integer; `max_particles_stored` is the value that the `int`
member holds, which is this product when it is at most `2^31 - 1`. -/
def max_particles (numFreeCells : Nat) (size_a_ : Int) : Int := numFreeCells * size_a_

/-- Line 613: `epson_ = 1.0/max_particles_/1024`. -/
def epson (max_particles_ : Int) : K := 1 / (max_particles_ : K) / 1024

/-- Lines 800-804: before the sensor update every weight below `epson_` is
raised to `epson_`. -/
def floorWeights (epson_ : K) (samples : List (pf_sample_t K)) : List (pf_sample_t K) :=
  samples.map (fun s => if s.weight < epson_ then { s with weight := epson_ } else s)

/-- Lines 816-823: the loop that rebuilds `active_sample_indices_`, on the
samples from index `idx` on; `active` is the list built so far.  Returns the
final list and the samples after the loop. -/
def rebuildActiveLoop (epson_ : K) :
    List (pf_sample_t K) → Nat → List Nat → List Nat × List (pf_sample_t K)
  | [], _, active => (active, [])
  | s :: rest, idx, active =>
    if s.weight > epson_ then
      let r := rebuildActiveLoop epson_ rest (idx + 1) (active ++ [idx])
      (r.1, s :: r.2)
    else
      let r := rebuildActiveLoop epson_ rest (idx + 1) active
      (r.1, { s with weight := epson_ } :: r.2)

/-- Lines 810-823: `active_sample_indices_.clear()` followed by the rebuild
loop over the whole current set. -/
def rebuildActive (epson_ : K) (samples : List (pf_sample_t K)) :
    List Nat × List (pf_sample_t K) :=
  rebuildActiveLoop epson_ samples 0 []

/-- A grid buffer of four samples: two weights above the floor, one at zero
and one exactly at the floor `1/4096` of a grid of 2 free cells and 2 heading
bins (`ares_ = 180`). -/
def demoGrid (K : Type) [LinearOrderedField K] : List (pf_sample_t K) :=
  [⟨⟨0, 0, 0⟩, 1 / 2, 0⟩, ⟨⟨0, 0, 1⟩, 0, 0⟩, ⟨⟨1, 0, 0⟩, 1 / 2, 0⟩, ⟨⟨1, 0, 1⟩, 1 / 4096, 0⟩]

/-! ## Resampling: `downsizingSampling` -/

/-- The sample `set->samples[i]`; the default is never read by an in-bounds
access. -/
def sampleAt (set : List (pf_sample_t K)) (i : Nat) : pf_sample_t K :=
  set.getD i ⟨⟨0, 0, 0⟩, 0, 0⟩

/-- The local variables `i`, `c`, `m`, `U` of `downsizingSampling`. -/
structure WalkState (K : Type) where
  i : Nat
  c : K
  m : Nat
  U : K

/-- The inner loop `while(U>c)` (lines 463-475) in exact arithmetic; `innerWalkA`
is the same loop in a given arithmetic of `double`.  Every iteration consumes
one unit of `fuel`; `none` means the fuel ran out before the loop ended. -/
def innerWalk (set_a : List (pf_sample_t K)) (r count_inv : K) :
    Nat → WalkState K → Option (WalkState K)
  | 0, _ => none
  | fuel + 1, st =>
    if st.U > st.c then
      if st.i + 1 ≥ set_a.length then
        innerWalk set_a r count_inv fuel
          { i := 0, c := (sampleAt set_a 0).weight, m := 0, U := r + ((0 : Nat) : K) * count_inv }
      else
        innerWalk set_a r count_inv fuel
          { st with i := st.i + 1, c := st.c + (sampleAt set_a (st.i + 1)).weight }
    else some st

/-- The outer loop `while(set_b->sample_count < target_size)` (lines 459-482)
with `k` outputs still to write; returns the source index `i` copied by each
iteration, in output order. -/
def resampleLoop (set_a : List (pf_sample_t K)) (r count_inv : K) (fuel : Nat) :
    Nat → Nat → K → Nat → Option (List Nat)
  | 0, _, _, _ => some []
  | k + 1, i, c, m =>
    match innerWalk set_a r count_inv fuel { i := i, c := c, m := m, U := r + (m : K) * count_inv } with
    | none => none
    | some st =>
      match resampleLoop set_a r count_inv fuel k st.i st.c (st.m + 1) with
      | none => none
      | some idxs => some (st.i :: idxs)

/-- The source indices copied by `downsizingSampling` (lines 452-482), for the
offset `r` of line 454; `fuel` bounds the iterations of each inner loop. -/
def downsizingIndices (set_a : List (pf_sample_t K)) (target_size : Nat) (r : K)
    (fuel : Nat) : Option (List Nat) :=
  let count_inv := 1 / (target_size : K)
  resampleLoop set_a r count_inv fuel target_size 0 (sampleAt set_a 0).weight 0

/-- The function `MarkovNode::downsizingSampling`: the samples of `set_b` after
the call.  Output `k` gets the pose of the source sample chosen for it and the
weight `1.0 / total`, where `total` adds `1.0` per output; its `logWeight` is
not written and stays what `set_b` held.  The k-d tree and the cluster
statistics are kept by the particle-filter library and left out. -/
def downsizingSamplingFrom (set_a set_b : List (pf_sample_t K)) (target_size : Nat) (r : K)
    (fuel : Nat) : Option (List (pf_sample_t K)) :=
  match downsizingIndices set_a target_size r fuel with
  | none => none
  | some idxs =>
    let total : K := (idxs.map (fun _ => (1 : K))).sum
    some (idxs.enum.map (fun p =>
      { pose := (sampleAt set_a p.2).pose, weight := 1 / total,
        logWeight := (sampleAt set_b p.1).logWeight }))

/-- The function `MarkovNode::downsizingSampling` with the draw `u01` of
`rng_.uniform01()`: line 454 sets `r = u01 * count_inv`. -/
def downsizingSampling (set_a set_b : List (pf_sample_t K)) (target_size : Nat) (u01 : K)
    (fuel : Nat) : Option (List (pf_sample_t K)) :=
  downsizingSamplingFrom set_a set_b target_size (u01 * (1 / (target_size : K))) fuel

/-- The cumulative weight of the source samples `0..j`. -/
def cumWeight (set_a : List (pf_sample_t K)) (j : Nat) : K :=
  totalWeight (set_a.take (j + 1))

/-- A two-sample source set whose whole weight is on the second sample. -/
def demoConcentrated (K : Type) [LinearOrderedField K] : List (pf_sample_t K) :=
  [⟨⟨0, 0, 0⟩, 0, 0⟩, ⟨⟨1, 1, 0⟩, 1, 0⟩]

/-- The two-cell belief with weights `0.9` and `0.1`. -/
def demoTwoCell (K : Type) [LinearOrderedField K] : List (pf_sample_t K) :=
  [⟨⟨0, 0, 0⟩, 9 / 10, 0⟩, ⟨⟨1, 0, 0⟩, 1 / 10, 0⟩]

/-- The index `j` is the first source index whose cumulative weight reaches
`U`. -/
def IsFirstReaching (set_a : List (pf_sample_t K)) (U : K) (j : Nat) : Prop :=
  j < set_a.length ∧ U ≤ cumWeight set_a j ∧ ∀ j', j' < j → cumWeight set_a j' < U

/-- The number of draws `t < N` whose position `r + t * count_inv` is at most
`x`. -/
def drawCount (r count_inv : K) (N : Nat) (x : K) : Nat :=
  (List.range N).countP (fun t : Nat => decide (r + (t : K) * count_inv ≤ x))

/-! ## Motion update: `odometry`, `motionModelO`, `UpdateOdomO` -/

/-- The motion-noise coefficients of `amcl::AMCLOdom`. -/
structure AMCLOdom (K : Type) where
  alpha1 : K
  alpha2 : K
  alpha3 : K
  alpha4 : K

/-- The fields of `amcl::AMCLOdomData`. -/
structure AMCLOdomData (K : Type) where
  pose : pf_vector_t K
  delta : pf_vector_t K

/-- The functions and macros the motion update calls that are defined outside
the sources: `sqrt` and `atan2` of libm, `angle_diff`, `pf_normal_distribution`
and `pf_vector_sub` of the particle-filter library, and the macros `IDX2ANG`
and `ANG2IDX` at the node's angular resolution `ares_`. -/
structure MotionLib (K : Type) where
  sqrt : K → K
  atan2 : K → K → K
  angle_diff : K → K → K
  pf_normal_distribution : K → K → K
  pf_vector_sub : pf_vector_t K → pf_vector_t K → pf_vector_t K
  IDX2ANG : Nat → K
  ANG2IDX : K → Nat

/-- The function `MarkovNode::odometry` (lines 1049-1061); returns
`(delta_rot1_hat, delta_trans_hat, delta_rot2_hat)`. -/
def odometry (L : MotionLib K) (oldx oldy olda newx newy newa : K) : K × K × K :=
  let delta_x := newx - oldx
  let delta_y := newy - oldy
  let delta_a := L.angle_diff newa olda
  let delta_trans_hat := L.sqrt (delta_x * delta_x + delta_y * delta_y)
  let delta_rot1_hat :=
    if delta_trans_hat < 1 / 100 then 0 else L.angle_diff (L.atan2 delta_y delta_x) olda
  let delta_rot2_hat := L.angle_diff delta_a delta_rot1_hat
  (delta_rot1_hat, delta_trans_hat, delta_rot2_hat)

/-- The function `MarkovNode::motionModelO` (lines 1064-1079). -/
def motionModelO (L : MotionLib K) (odom : AMCLOdom K)
    (delta_rot1 delta_trans delta_rot2 delta_rot1_hat delta_trans_hat delta_rot2_hat : K) : K :=
  let a1 := delta_rot1 - delta_rot1_hat
  let b1 := odom.alpha1 * |delta_rot1_hat| + odom.alpha2 * delta_trans_hat
  let a2 := delta_trans - delta_trans_hat
  let b2 := odom.alpha3 * delta_trans_hat + odom.alpha4 * |delta_rot1_hat| +
    odom.alpha4 * |delta_rot2_hat|
  let a3 := delta_rot2 - delta_rot2_hat
  let b3 := odom.alpha1 * |delta_rot2_hat| + odom.alpha2 * delta_trans_hat
  L.pf_normal_distribution a1 b1 * L.pf_normal_distribution a2 b2 *
    L.pf_normal_distribution a3 b3

/-- Lines 234-235: `ang_arr`, the heading of every bin. -/
def angArr (L : MotionLib K) (size_a_ : Nat) : List K :=
  (List.range size_a_).map L.IDX2ANG

/-- Lines 268-269: `for(double p = -scale; p >= -radius; p -= scale)
side.push_back(p)`, from `p` on; one unit of `fuel` per test of the loop. -/
def sideNegLoop (scale radius : K) : Nat → K → List K → Option (List K)
  | 0, _, _ => none
  | fuel + 1, p, side =>
    if p ≥ -radius then sideNegLoop scale radius fuel (p - scale) (side ++ [p]) else some side

/-- Lines 271-272: `for(double p = 0.0; p <= radius; p += scale)
side.push_back(p)`, from `p` on. -/
def sidePosLoop (scale radius : K) : Nat → K → List K → Option (List K)
  | 0, _, _ => none
  | fuel + 1, p, side =>
    if p ≤ radius then sidePosLoop scale radius fuel (p + scale) (side ++ [p]) else some side

/-- Lines 267-272: the offset list `side`. -/
def buildSide (scale radius : K) (fuel : Nat) : Option (List K) :=
  match sideNegLoop scale radius fuel (-scale) [] with
  | none => none
  | some neg => sidePosLoop scale radius fuel 0 neg.reverse

/-- Lines 278-285: the matrices `X` and `Y` of relative positions. -/
def buildXY (side : List K) : List K × List K :=
  (side.flatMap (fun si => side.map (fun _ => si)), side.flatMap (fun _ => side))

/-- The transition kernel `mat_prob_matrices`: one list of matrices per base
heading, one matrix per matrix heading, one entry per offset. -/
abbrev MatMatrices (K : Type) := List (List (List K))

/-- Lines 286-331: the kernel.  Entry `[oa][maidx][i]` is `motionModelO` at the
motion recovered by `odometry` from offset `i` with heading `ang_arr[maidx]` to
the origin with heading `ang_arr[oa]`; the call passes `delta_rot1` also in the
place of `delta_rot2`.  The worker threads fill disjoint ranges of rows that
together are all rows. -/
def buildKernel (L : MotionLib K) (odom : AMCLOdom K) (ang_arr X Y : List K)
    (delta_rot1 delta_trans : K) : MatMatrices K :=
  ang_arr.map (fun particle_orientation =>
    ang_arr.map (fun ang_maidx =>
      (List.range X.length).map (fun i =>
        let h := odometry L (X.getD i 0) (Y.getD i 0) ang_maidx 0 0 particle_orientation
        motionModelO L odom delta_rot1 delta_trans delta_rot1 h.1 h.2.1 h.2.2)))

/-- What the convolution reads besides the two sample sets: the offsets, the
kernel, the number of heading bins, the map and the table `mapidx2freeidx_`. -/
structure ConvInput (K : Type) where
  X : List K
  Y : List K
  mat_prob_matrices : MatMatrices K
  size_a_ : Nat
  map_ : map_t K
  mapidx2freeidx_ : Int → Int → Nat
  ANG2IDX : K → Nat

/-- Lines 377-389: the valid neighbours of a particle, as pairs
`(free_ngb_indices[k], local_ngb_indices[k])`. -/
def validNeighbors (C : ConvInput K) (origin : pf_sample_t K) : List (Nat × Nat) :=
  (List.range C.X.length).filterMap (fun nidx =>
    let ngb_map_idx_x := C.map_.MAP_GXWX (origin.pose.v0 + C.X.getD nidx 0)
    let ngb_map_idx_y := C.map_.MAP_GYWY (origin.pose.v1 + C.Y.getD nidx 0)
    if C.map_.MAP_VALID ngb_map_idx_x ngb_map_idx_y = false ∨
        C.map_.occ_state ngb_map_idx_x ngb_map_idx_y ≠ -1 then none
    else some (C.mapidx2freeidx_ ngb_map_idx_x ngb_map_idx_y, nidx))

/-- Lines 390-405: `accumulative_weight` of a particle of the current set. -/
def accumulativeWeight (C : ConvInput K) (previous_set : List (pf_sample_t K))
    (origin : pf_sample_t K) : K :=
  let ngbs := validNeighbors C origin
  let vec_prob_matrices := C.mat_prob_matrices.getD (C.ANG2IDX origin.pose.v2) []
  (List.range C.size_a_).foldl (fun acc maidx =>
    let motion_prob_mat := vec_prob_matrices.getD maidx []
    ngbs.foldl (fun acc ngb =>
      let sample_ngb_idx := ngb.1 * C.size_a_ + maidx
      acc + (sampleAt previous_set sample_ngb_idx).weight * motion_prob_mat.getD ngb.2 0)
      acc) 0

/-- The worker `worker2` (lines 365-416) on a slice of
`active_sample_indices_`: the state is `total_weight` and the current set. -/
def worker2 (C : ConvInput K) (previous_set : List (pf_sample_t K)) (slice : List Nat)
    (st : K × List (pf_sample_t K)) : K × List (pf_sample_t K) :=
  slice.foldl (fun st idx =>
    let current_origin_particle := sampleAt st.2 idx
    let accumulative_weight := accumulativeWeight C previous_set current_origin_particle
    (st.1 + accumulative_weight,
      st.2.set idx { current_origin_particle with weight := accumulative_weight })) st

/-- Lines 420-437: the convolution.  Every thread runs `worker2` on its range of
`active_sample_indices_`; the threads write disjoint samples of the current set
and meet only in `total_weight` under the mutex, and are run here in thread
order. -/
def convolve (C : ConvInput K) (nb_threads : Nat) (active_sample_indices_ : List Nat)
    (current_set previous_set : List (pf_sample_t K)) : K × List (pf_sample_t K) :=
  (workerRanges active_sample_indices_.length nb_threads).foldl
    (fun st r => worker2 C previous_set
      ((active_sample_indices_.drop r.1).take (r.2 - r.1)) st) (0, current_set)

/-- The state of the node that `UpdateOdomO` reads. -/
structure GridState (K : Type) where
  size_a_ : Nat
  map_ : map_t K
  mapidx2freeidx_ : Int → Int → Nat
  odom_ : AMCLOdom K
  active_sample_indices_ : List Nat
  current_set : List (pf_sample_t K)
  previous_set : List (pf_sample_t K)

/-- Lines 245-252: `delta_rot1`. -/
def odomDeltaRot1 (L : MotionLib K) (ndata : AMCLOdomData K) : K :=
  if L.sqrt (ndata.delta.v1 * ndata.delta.v1 + ndata.delta.v0 * ndata.delta.v0) < 1 / 100
  then 0
  else
    let old_pose := L.pf_vector_sub ndata.pose ndata.delta
    L.angle_diff (L.atan2 ndata.delta.v1 ndata.delta.v0) old_pose.v2

/-- Lines 253-254: `delta_trans`. -/
def odomDeltaTrans (L : MotionLib K) (ndata : AMCLOdomData K) : K :=
  L.sqrt (ndata.delta.v0 * ndata.delta.v0 + ndata.delta.v1 * ndata.delta.v1)

/-- Line 266: `radius = delta_trans*(1+odom_->alpha3*4)`. -/
def odomRadius (L : MotionLib K) (odom_ : AMCLOdom K) (ndata : AMCLOdomData K) : K :=
  odomDeltaTrans L ndata * (1 + odom_.alpha3 * 4)

/-- The offsets and the kernel `UpdateOdomO` builds (lines 273-331) from the
offset list `side`, together with the members the convolution reads. -/
def odomConvInput (L : MotionLib K) (g : GridState K) (ndata : AMCLOdomData K)
    (side : List K) : ConvInput K :=
  let ang_arr := angArr L g.size_a_
  let XY := buildXY side
  { X := XY.1, Y := XY.2,
    mat_prob_matrices :=
      buildKernel L g.odom_ ang_arr XY.1 XY.2 (odomDeltaRot1 L ndata) (odomDeltaTrans L ndata),
    size_a_ := g.size_a_, map_ := g.map_, mapidx2freeidx_ := g.mapidx2freeidx_,
    ANG2IDX := L.ANG2IDX }

/-- The function `MarkovNode::UpdateOdomO`: the returned `total_weight` and the
current set after the call; `none` when a `side` loop runs out of `fuel`. -/
def UpdateOdomO (L : MotionLib K) (g : GridState K) (nb_threads_hint : Nat)
    (ndata : AMCLOdomData K) (fuel : Nat) : Option (K × List (pf_sample_t K)) :=
  match buildSide g.map_.scale (odomRadius L g.odom_ ndata) fuel with
  | none => none
  | some side =>
    some (convolve (odomConvInput L g ndata side) (nbThreads nb_threads_hint)
      g.active_sample_indices_ g.current_set g.previous_set)

/-- Lines 772-780 of `laserReceived`: the motion update followed by
`pf_normalize_set(current_set, totalweight)`; with `motion_update_flag_` off,
`totalweight` stays `1.0`. -/
def motionUpdateAndNormalize (L : MotionLib K) (g : GridState K) (motion_update_flag_ : Bool)
    (nb_threads_hint : Nat) (ndata : AMCLOdomData K) (fuel : Nat) :
    Option (List (pf_sample_t K)) :=
  if motion_update_flag_ then
    match UpdateOdomO L g nb_threads_hint ndata fuel with
    | none => none
    | some r => some (pf_normalize_set r.2 r.1)
  else some (pf_normalize_set g.current_set 1)

/-- Stand-ins for the external functions of the motion update, exact at zero
displacement and zero heading difference; the likelihood
`pf_normal_distribution` is the constant 1. -/
def demoMotionLib (K : Type) [LinearOrderedField K] : MotionLib K :=
  { sqrt := fun _ => 0, atan2 := fun _ _ => 0, angle_diff := fun a b => a - b,
    pf_normal_distribution := fun _ _ => 1,
    pf_vector_sub := fun a b => ⟨a.v0 - b.v0, a.v1 - b.v1, a.v2 - b.v2⟩,
    IDX2ANG := fun i => (i : K), ANG2IDX := fun a => if a = 0 then 0 else 1 }

/-- A grid of one free cell and two heading bins in its second motion update:
the current set still holds the initial uniform weights `1/2`, the previous set
holds the weights left by the first sensor update, and only sample 0 is
active. -/
def demoGridState (K : Type) [LinearOrderedField K] : GridState K :=
  { size_a_ := 2, map_ := demoMap K, mapidx2freeidx_ := fun _ _ => 0,
    odom_ := ⟨1 / 5, 1 / 5, 1 / 5, 1 / 5⟩, active_sample_indices_ := [0],
    current_set := [⟨⟨0, 0, 0⟩, 1 / 2, 0⟩, ⟨⟨0, 0, 1⟩, 1 / 2, 0⟩],
    previous_set := [⟨⟨0, 0, 0⟩, 1, 0⟩, ⟨⟨0, 0, 1⟩, 1 / 2048, 0⟩] }

/-- The same grid with both samples active and a previous set of weights `3/4`
and `1/4`. -/
def demoGridStateAll (K : Type) [LinearOrderedField K] : GridState K :=
  { demoGridState K with
    active_sample_indices_ := [0, 1],
    previous_set := [⟨⟨0, 0, 0⟩, 3 / 4, 0⟩, ⟨⟨0, 0, 1⟩, 1 / 4, 0⟩] }

/-- Stand-ins for the external functions with a noise-free likelihood:
`pf_normal_distribution` is 1 at residual zero and 0 elsewhere. -/
def demoExactLib (K : Type) [LinearOrderedField K] : MotionLib K :=
  { demoMotionLib K with pf_normal_distribution := fun a _ => if a = 0 then 1 else 0 }

/-- Odometry data with zero displacement. -/
def demoOdomData (K : Type) [LinearOrderedField K] : AMCLOdomData K :=
  { pose := ⟨0, 0, 0⟩, delta := ⟨0, 0, 0⟩ }

/-- The kernel entry `mat_prob_matrices[a0][maidx][nidx]`. -/
def kernelEntry (C : ConvInput K) (a0 maidx nidx : Nat) : K :=
  ((C.mat_prob_matrices.getD a0 []).getD maidx []).getD nidx 0

/-- The kernel mass gathered from source heading `maidx`: the sum of
`mat_prob_matrices[a0][maidx][nidx]` over all base headings `a0` and all
offsets `nidx`. -/
def kernelMass (C : ConvInput K) (maidx : Nat) : K :=
  ((List.range C.size_a_).map (fun a0 =>
    ((List.range C.X.length).map (fun nidx => kernelEntry C a0 maidx nidx)).sum)).sum

/-- The weight the previous set holds at heading `maidx`, summed over the
`F` free cells. -/
def headingMass (C : ConvInput K) (previous_set : List (pf_sample_t K)) (F maidx : Nat) : K :=
  ((List.range F).map (fun gidx => (sampleAt previous_set (gidx * C.size_a_ + maidx)).weight)).sum

/-- Every kernel-window offset of every cell lands on a valid free cell: for
the sample of free cell `f` and heading bin `a` the test of line 383 passes at
every offset `nidx`, the neighbour found is the free cell `nb nidx f`, and
`ANG2IDX` gives the heading bin back. -/
def AllNeighborsValid (C : ConvInput K) (current_set : List (pf_sample_t K)) (F : Nat)
    (nb : Nat → Nat → Nat) : Prop :=
  ∀ f a, f < F → a < C.size_a_ →
    C.ANG2IDX (sampleAt current_set (f * C.size_a_ + a)).pose.v2 = a ∧
    ∀ nidx, nidx < C.X.length →
      C.map_.MAP_VALID
        (C.map_.MAP_GXWX ((sampleAt current_set (f * C.size_a_ + a)).pose.v0 + C.X.getD nidx 0))
        (C.map_.MAP_GYWY ((sampleAt current_set (f * C.size_a_ + a)).pose.v1 + C.Y.getD nidx 0))
        = true ∧
      C.map_.occ_state
        (C.map_.MAP_GXWX ((sampleAt current_set (f * C.size_a_ + a)).pose.v0 + C.X.getD nidx 0))
        (C.map_.MAP_GYWY ((sampleAt current_set (f * C.size_a_ + a)).pose.v1 + C.Y.getD nidx 0))
        = -1 ∧
      C.mapidx2freeidx_
        (C.map_.MAP_GXWX ((sampleAt current_set (f * C.size_a_ + a)).pose.v0 + C.X.getD nidx 0))
        (C.map_.MAP_GYWY ((sampleAt current_set (f * C.size_a_ + a)).pose.v1 + C.Y.getD nidx 0))
        = nb nidx f

/-- At every offset, distinct free cells have distinct neighbours, and the
neighbours are free cells. -/
def NeighborsDistinct (C : ConvInput K) (F : Nat) (nb : Nat → Nat → Nat) : Prop :=
  ∀ nidx, nidx < C.X.length →
    (∀ f, f < F → nb nidx f < F) ∧
    (∀ f f', f < F → f' < F → nb nidx f = nb nidx f' → f = f')

/-! ## Grid initialization: `initialMarkovGrid` -/

/-- The grid-to-world macros `MAP_WXGX` and `MAP_WYGY` of `map.h`, which is
not among the sources. -/
structure MapWorld (K : Type) where
  MAP_WXGX : Int → K
  MAP_WYGY : Int → K

/-- Lines 497-504: the table `mapidx2freeidx_`, which starts at `-1`
everywhere (line 601) and gets `i` at the grid coordinates of free cell `i`. -/
def initFreeIdx (free_space_indices : List (Int × Int)) : Int → Int → Int :=
  free_space_indices.enum.foldl
    (fun tbl p => fun x y => if x = p.2.1 ∧ y = p.2.2 then (p.1 : Int) else tbl x y)
    (fun _ _ => -1)

/-- Line 525: `new pf_sample_t[max_particles_]`, an array whose entries hold
whatever `uninit` gives until they are written. -/
def allocSamples (max_particles_ : Int) (uninit : Nat → pf_sample_t K) : List (pf_sample_t K) :=
  (List.range max_particles_.toNat).map uninit

/-- Lines 575-588: the loop over the heading bins `a` of one free cell, for the
set `samples`; `sidx` is the running sample index. -/
def initHeadingLoop (IDX2ANG : Nat → K) (max_particles_ : Int) (position_x position_y : K) :
    List Nat → List (pf_sample_t K) × Nat → List (pf_sample_t K) × Nat
  | [], st => st
  | a :: rest, (samples, sidx) =>
    let ang := IDX2ANG a
    initHeadingLoop IDX2ANG max_particles_ position_x position_y rest
      (samples.set sidx
        { sampleAt samples sidx with
          pose := ⟨position_x, position_y, ang⟩, weight := 1 / (max_particles_ : K) },
        sidx + 1)

/-- Lines 560-589: the loop over the free cells, for the set `samples`. -/
def initCellLoop (W : MapWorld K) (IDX2ANG : Nat → K) (size_a_ : Nat) (max_particles_ : Int) :
    List (Int × Int) → List (pf_sample_t K) × Nat → List (pf_sample_t K) × Nat
  | [], st => st
  | cell :: rest, st =>
    let position_x := W.MAP_WXGX cell.1
    let position_y := W.MAP_WYGY cell.2
    initCellLoop W IDX2ANG size_a_ max_particles_ rest
      (initHeadingLoop IDX2ANG max_particles_ position_x position_y (List.range size_a_) st)

/-- The function `MarkovNode::initialMarkovGrid`, for the samples of the two
generation buffers `grid_->sets[0]` and `grid_->sets[1]` (`current_set` is 0).
Both buffers are allocated with `max_particles_` entries and written by the
same loop; `uninit0` and `uninit1` are their contents before the loop. -/
def initialMarkovGrid (W : MapWorld K) (IDX2ANG : Nat → K)
    (free_space_indices : List (Int × Int)) (size_a_ : Nat) (max_particles_ : Int)
    (uninit0 uninit1 : Nat → pf_sample_t K) : List (pf_sample_t K) × List (pf_sample_t K) :=
  ((initCellLoop W IDX2ANG size_a_ max_particles_ free_space_indices
      (allocSamples max_particles_ uninit0, 0)).1,
    (initCellLoop W IDX2ANG size_a_ max_particles_ free_space_indices
      (allocSamples max_particles_ uninit1, 0)).1)

/-- The free cells of a 10 by 10 grid, row by row. -/
def demoFreeCells : List (Int × Int) :=
  (List.range 10).flatMap (fun i => (List.range 10).map (fun j => ((i : Int), (j : Int))))

/-- A grid-to-world conversion with unit resolution and origin 0. -/
def demoMapWorld (K : Type) [LinearOrderedField K] : MapWorld K :=
  { MAP_WXGX := fun i => (i : K), MAP_WYGY := fun j => (j : K) }

/-- The body of the kernel worker for one row (lines 294-313): the matrix of
every heading `maidx` of the row gets one entry per offset pushed onto it. -/
def kernelFillRow (L : MotionLib K) (odom : AMCLOdom K) (ang_arr X Y : List K)
    (delta_rot1 delta_trans particle_orientation : K) (row : List (List K)) : List (List K) :=
  (List.range ang_arr.length).foldl (fun row maidx =>
    row.set maidx ((List.range X.length).foldl (fun matrix i =>
      let h := odometry L (X.getD i 0) (Y.getD i 0) (ang_arr.getD maidx 0) 0 0 particle_orientation
      matrix ++ [motionModelO L odom delta_rot1 delta_trans delta_rot1 h.1 h.2.1 h.2.2])
      (row.getD maidx []))) row

/-- The kernel worker (lines 287-315) on the rows listed in `rows`: row `k` of
`mat_prob_matrices` is filled for the base heading `ang_arr[k]`. -/
def kernelWorker (L : MotionLib K) (odom : AMCLOdom K) (ang_arr X Y : List K)
    (delta_rot1 delta_trans : K) (rows : List Nat) (mat : MatMatrices K) : MatMatrices K :=
  rows.foldl (fun mat k =>
    mat.set k (kernelFillRow L odom ang_arr X Y delta_rot1 delta_trans (ang_arr.getD k 0)
      (mat.getD k []))) mat

/-- Lines 286 and 317-331: the kernel as the threads build it.  The matrix
array starts as `size_a_` rows of `size_a_` empty matrices; every thread runs
the kernel worker on its range of rows, in thread order. -/
def buildKernelThreads (L : MotionLib K) (odom : AMCLOdom K) (ang_arr X Y : List K)
    (delta_rot1 delta_trans : K) (nb_threads size_a_ : Nat) : MatMatrices K :=
  (workerRanges ang_arr.length nb_threads).foldl
    (fun mat r => kernelWorker L odom ang_arr X Y delta_rot1 delta_trans
      (((List.range ang_arr.length).drop r.1).take (r.2 - r.1)) mat)
    (List.replicate size_a_ (List.replicate size_a_ []))

/-- The node state after `UpdateOdomO`, with the returned `total_weight`: the
function assigns `current_origin_particle->weight` in the current set and
writes no other member of the grid. -/
def UpdateOdomOGrid (L : MotionLib K) (g : GridState K) (nb_threads_hint : Nat)
    (ndata : AMCLOdomData K) (fuel : Nat) : Option (K × GridState K) :=
  match UpdateOdomO L g nb_threads_hint ndata fuel with
  | none => none
  | some r => some (r.1, { g with current_set := r.2 })

/-- A map of 51 free cells in a row: cell `i` covers the world positions
`i ≤ x < i + 1` at `y` in `[0, 1)`. -/
def demoRowMap : map_t ℚ :=
  { MAP_GXWX := fun x => ⌊x⌋, MAP_GYWY := fun y => ⌊y⌋,
    MAP_VALID := fun i j => decide (0 ≤ i ∧ i < 51 ∧ j = 0),
    occ_dist := fun _ _ => 0, occ_state := fun _ _ => -1, max_occ_dist := 1, scale := 1 }

/-- A grid over `demoRowMap` with two heading bins, 102 samples: sample
`2 * c + a` is cell `c` with heading bin `a`.  The previous set holds the
weights left by a sensor update in which the last sample was raised to the
floor `1/104448`; that sample is the only one not active.  The current set
still holds the initial weights `1/102`. -/
def demoRowGrid : GridState ℚ :=
  { size_a_ := 2, map_ := demoRowMap, mapidx2freeidx_ := fun i _ => i.toNat,
    odom_ := ⟨1 / 5, 1 / 5, 1 / 5, 1 / 5⟩, active_sample_indices_ := List.range 101,
    current_set := (List.range 102).map (fun i : Nat =>
      ⟨⟨((i / 2 : Nat) : ℚ), 0, ((i % 2 : Nat) : ℚ)⟩, 1 / 102, 0⟩),
    previous_set := (List.range 102).map (fun i : Nat =>
      ⟨⟨((i / 2 : Nat) : ℚ), 0, ((i % 2 : Nat) : ℚ)⟩,
        if i = 101 then 1 / 104448 else 1 / 101, 0⟩) }

/-- Line 255: `delta_rot2 = angle_diff(ndata->delta.v[2], delta_rot1)`. -/
def odomDeltaRot2 (L : MotionLib K) (ndata : AMCLOdomData K) : K :=
  L.angle_diff ndata.delta.v2 (odomDeltaRot1 L ndata)

/-- Odometry data of a turn in place by one unit of heading. -/
def demoTurnData (K : Type) [LinearOrderedField K] : AMCLOdomData K :=
  { pose := ⟨0, 0, 1⟩, delta := ⟨0, 0, 1⟩ }

/-! ## The motion update with its assertions

The functions below follow the same lines as `buildKernel`, `accumulativeWeight`,
`worker2`, `convolve` and `UpdateOdomO`, and in addition stop at the first
`assert` that fails. -/

/-- The assertions of `UpdateOdomO` that test a value: line 312
`assert(matrix_sum!=0.0)`, line 391 `assert(free_ngb_indices.size()>0)`, line 401
`assert(previous_particle->weight != 0.0)` and line 406
`assert(accumulative_weight != 0.0)`. -/
inductive AssertFailure where
  | matrixSumZero
  | emptyNeighborhood
  | zeroPreviousWeight
  | zeroAccumulativeWeight
deriving DecidableEq

/-- Lines 396-404: the loop over the valid neighbours for one heading `maidx`,
with the assertion of line 401. -/
def neighborLoopChecked (previous_set : List (pf_sample_t K)) (size_a_ maidx : Nat)
    (motion_prob_mat : List K) : List (Nat × Nat) → K → Except AssertFailure K
  | [], acc => .ok acc
  | ngb :: rest, acc =>
    let previous_particle := sampleAt previous_set (ngb.1 * size_a_ + maidx)
    if previous_particle.weight = 0 then .error .zeroPreviousWeight
    else neighborLoopChecked previous_set size_a_ maidx motion_prob_mat rest
      (acc + previous_particle.weight * motion_prob_mat.getD ngb.2 0)

/-- Lines 393-405: the loop over the headings `maidx`. -/
def headingLoopChecked (previous_set : List (pf_sample_t K)) (size_a_ : Nat)
    (vec_prob_matrices : List (List K)) (ngbs : List (Nat × Nat)) :
    List Nat → K → Except AssertFailure K
  | [], acc => .ok acc
  | maidx :: rest, acc =>
    match neighborLoopChecked previous_set size_a_ maidx (vec_prob_matrices.getD maidx []) ngbs
        acc with
    | .error e => .error e
    | .ok acc1 => headingLoopChecked previous_set size_a_ vec_prob_matrices ngbs rest acc1

/-- Lines 377-406: `accumulative_weight` of a particle, with the assertions of
lines 391, 401 and 406. -/
def accumulativeWeightChecked (C : ConvInput K) (previous_set : List (pf_sample_t K))
    (origin : pf_sample_t K) : Except AssertFailure K :=
  let ngbs := validNeighbors C origin
  let vec_prob_matrices := C.mat_prob_matrices.getD (C.ANG2IDX origin.pose.v2) []
  if ngbs.length > 0 then
    match headingLoopChecked previous_set C.size_a_ vec_prob_matrices ngbs
        (List.range C.size_a_) 0 with
    | .error e => .error e
    | .ok accumulative_weight =>
      if accumulative_weight ≠ 0 then .ok accumulative_weight
      else .error .zeroAccumulativeWeight
  else .error .emptyNeighborhood

/-- The worker `worker2` with its assertions, on a slice of
`active_sample_indices_`. -/
def worker2Checked (C : ConvInput K) (previous_set : List (pf_sample_t K)) :
    List Nat → K × List (pf_sample_t K) → Except AssertFailure (K × List (pf_sample_t K))
  | [], st => .ok st
  | idx :: rest, st =>
    let current_origin_particle := sampleAt st.2 idx
    match accumulativeWeightChecked C previous_set current_origin_particle with
    | .error e => .error e
    | .ok accumulative_weight =>
      worker2Checked C previous_set rest
        (st.1 + accumulative_weight,
          st.2.set idx { current_origin_particle with weight := accumulative_weight })

/-- The threads of the convolution, run in thread order, each with the
assertions of `worker2`; a failed assertion ends the process. -/
def convolveRangesChecked (C : ConvInput K) (previous_set : List (pf_sample_t K))
    (active_sample_indices_ : List Nat) :
    List (Nat × Nat) → K × List (pf_sample_t K) →
      Except AssertFailure (K × List (pf_sample_t K))
  | [], st => .ok st
  | r :: rest, st =>
    match worker2Checked C previous_set ((active_sample_indices_.drop r.1).take (r.2 - r.1))
        st with
    | .error e => .error e
    | .ok st1 => convolveRangesChecked C previous_set active_sample_indices_ rest st1

/-- Lines 420-437 with the assertions of `worker2`. -/
def convolveChecked (C : ConvInput K) (nb_threads : Nat) (active_sample_indices_ : List Nat)
    (current_set previous_set : List (pf_sample_t K)) :
    Except AssertFailure (K × List (pf_sample_t K)) :=
  convolveRangesChecked C previous_set active_sample_indices_
    (workerRanges active_sample_indices_.length nb_threads) (0, current_set)

/-- Line 312: `assert(matrix_sum!=0.0)` holds for every matrix of the kernel. -/
def kernelSumsNonzero (mat_prob_matrices : MatMatrices K) : Bool :=
  mat_prob_matrices.all (fun vec => vec.all (fun matrix => decide (matrix.sum ≠ 0)))

/-- The function `MarkovNode::UpdateOdomO` with its assertions: `none` when a
`side` loop runs out of `fuel`, an `AssertFailure` when an assertion fails, and
else the returned `total_weight` and the current set after the call. -/
def UpdateOdomOChecked (L : MotionLib K) (g : GridState K) (nb_threads_hint : Nat)
    (ndata : AMCLOdomData K) (fuel : Nat) :
    Option (Except AssertFailure (K × List (pf_sample_t K))) :=
  match buildSide g.map_.scale (odomRadius L g.odom_ ndata) fuel with
  | none => none
  | some side =>
    let C := odomConvInput L g ndata side
    if kernelSumsNonzero C.mat_prob_matrices then
      some (convolveChecked C (nbThreads nb_threads_hint) g.active_sample_indices_
        g.current_set g.previous_set)
    else some (.error .matrixSumZero)

/-- The demo grid on a map without any valid cell. -/
def demoOffMapGrid (K : Type) [LinearOrderedField K] : GridState K :=
  { demoGridState K with map_ := { demoMap K with MAP_VALID := fun _ _ => false } }

/-! ## The source indices read by `downsizingSampling` -/

/-- The inner loop `while(U>c)` (lines 463-475) as `innerWalk`, with the list
`reads` of the indices at which `set_a->samples` is read: index 0 at the
wrap-around of line 468, index `i` at line 474. -/
def innerWalkTrace (set_a : List (pf_sample_t K)) (r count_inv : K) :
    Nat → WalkState K → List Nat → Option (WalkState K × List Nat)
  | 0, _, _ => none
  | fuel + 1, st, reads =>
    if st.U > st.c then
      if st.i + 1 ≥ set_a.length then
        innerWalkTrace set_a r count_inv fuel
          { i := 0, c := (sampleAt set_a 0).weight, m := 0, U := r + ((0 : Nat) : K) * count_inv }
          (reads ++ [0])
      else
        innerWalkTrace set_a r count_inv fuel
          { st with i := st.i + 1, c := st.c + (sampleAt set_a (st.i + 1)).weight }
          (reads ++ [st.i + 1])
    else some (st, reads)

/-- The outer loop (lines 459-482) as `resampleLoop`, with the indices read:
line 478 reads `set_a->samples[i].pose`. -/
def resampleTrace (set_a : List (pf_sample_t K)) (r count_inv : K) (fuel : Nat) :
    Nat → Nat → K → Nat → List Nat → Option (List Nat × List Nat)
  | 0, _, _, _, reads => some ([], reads)
  | k + 1, i, c, m, reads =>
    match innerWalkTrace set_a r count_inv fuel
        { i := i, c := c, m := m, U := r + (m : K) * count_inv } reads with
    | none => none
    | some st =>
      match resampleTrace set_a r count_inv fuel k st.1.i st.1.c (st.1.m + 1)
          (st.2 ++ [st.1.i]) with
      | none => none
      | some res => some (st.1.i :: res.1, res.2)

/-- The source indices copied by `downsizingSampling` as in `downsizingIndices`,
with all indices at which `set_a->samples` is read, in the order of the reads;
the first is the read of `set_a->samples[0].weight` at line 455. -/
def downsizingTrace (set_a : List (pf_sample_t K)) (target_size : Nat) (r : K)
    (fuel : Nat) : Option (List Nat × List Nat) :=
  let count_inv := 1 / (target_size : K)
  resampleTrace set_a r count_inv fuel target_size 0 (sampleAt set_a 0).weight 0 [0]

/-- A two-sample source set of total weight `1/2`. -/
def demoHalfSet (K : Type) [LinearOrderedField K] : List (pf_sample_t K) :=
  [⟨⟨0, 0, 0⟩, 1 / 4, 0⟩, ⟨⟨1, 0, 0⟩, 1 / 4, 0⟩]

/-! ## The cycle `laserReceived` on the grid -/

/-- The members of the node that `laserReceived` reads and writes along the
grid update: the grid with its two generations and `active_sample_indices_`,
the floor `epson_`, and the flags `pf_init_` and `motion_update_flag_`. -/
structure NodeState (K : Type) where
  grid : GridState K
  epson_ : K
  pf_init_ : Bool
  motion_update_flag_ : Bool

/-- What one call of `laserReceived` takes from outside the grid:
`early_return` says that one of the returns of lines 650-709 is taken;
`lasers_update` is `lasers_update_[laser_index]` after lines 713-732;
`odata` is the odometry data of lines 759-764; `laser` and `ldata` are
`lasers_[laser_index]` and the scan made by `createLaserData`;
`nb_threads_hint` is `std::thread::hardware_concurrency()` and `fuel` bounds
the `side` loops of `UpdateOdomO`. -/
structure CycleInput (K : Type) where
  early_return : Bool
  lasers_update : Bool
  odata : AMCLOdomData K
  laser : AMCLLaser K
  ldata : AMCLLaserData K
  nb_threads_hint : Nat
  fuel : Nat

/-- Lines 751 and 845: `grid_->current_set = (grid_->current_set + 1)%2`; the
current generation becomes the previous one and the previous the current. -/
def swapSets (g : GridState K) : GridState K :=
  { g with current_set := g.previous_set, previous_set := g.current_set }

/-- The constructor (lines 611-613) followed by `initialMarkovGrid` (line 644),
for `size_a_` heading bins: `max_particles_`, `epson_`, the table
`mapidx2freeidx_` and the two generations; `current_set` is 0 and `pf_init_`
is still false. -/
def initialNode (W : MapWorld K) (IDX2ANG : Nat → K) (map_ : map_t K) (odom_ : AMCLOdom K)
    (free_space_indices : List (Int × Int)) (size_a_ : Nat) (motion_update_flag_ : Bool)
    (uninit0 uninit1 : Nat → pf_sample_t K) : NodeState K :=
  let max_particles_ := max_particles free_space_indices.length (size_a_ : Int)
  let sets := initialMarkovGrid W IDX2ANG free_space_indices size_a_ max_particles_
    uninit0 uninit1
  { grid :=
      { size_a_ := size_a_, map_ := map_,
        mapidx2freeidx_ := fun x y => (initFreeIdx free_space_indices x y).toNat,
        odom_ := odom_, active_sample_indices_ := [],
        current_set := sets.1, previous_set := sets.2 },
    epson_ := epson max_particles_, pf_init_ := false,
    motion_update_flag_ := motion_update_flag_ }

/-- Lines 787-853 of `laserReceived` on the grid: the floor before the sensor
update, `UpdateLaserParallel`, `pf_normalize_set`, the rebuild of
`active_sample_indices_`, and the change of generation of line 845.  The
resampling of lines 838-843 writes the particle cloud `pf_` and not the grid. -/
def sensorUpdate (m : LibM K) (inp : CycleInput K) (s : NodeState K) : NodeState K :=
  let set0 := floorWeights s.epson_ s.grid.current_set
  let r := UpdateLaserParallel m inp.laser inp.ldata inp.nb_threads_hint set0
  let set1 := pf_normalize_set r.2 r.1
  let ra := rebuildActive s.epson_ set1
  { s with grid :=
      swapSets { s.grid with current_set := ra.2, active_sample_indices_ := ra.1 } }

/-- The function `MarkovNode::laserReceived` on the grid.  The first call
(`pf_init_` false, lines 735-752) changes the generation and runs the sensor
update; a later call with `lasers_update_[laser_index]` set runs the motion
update with its normalization (lines 754-783) and then the sensor update; any
other call leaves the grid as it is.  The value is `none` when `UpdateOdomO`
runs out of `fuel`. -/
def laserReceived (m : LibM K) (L : MotionLib K) (inp : CycleInput K) (s : NodeState K) :
    Option (NodeState K) :=
  if inp.early_return then some s
  else if s.pf_init_ = false then
    some (sensorUpdate m inp { s with pf_init_ := true, grid := swapSets s.grid })
  else if inp.lasers_update then
    match motionUpdateAndNormalize L s.grid s.motion_update_flag_ inp.nb_threads_hint
        inp.odata inp.fuel with
    | none => none
    | some current_set =>
      some (sensorUpdate m inp { s with grid := { s.grid with current_set := current_set } })
  else some s

/-- A sequence of calls of `laserReceived`, one per scan. -/
def runCycles (m : LibM K) (L : MotionLib K) :
    List (CycleInput K) → NodeState K → Option (NodeState K)
  | [], s => some s
  | inp :: rest, s =>
    match laserReceived m L inp s with
    | none => none
    | some s1 => runCycles m L rest s1

/-- The invariant of the grid between two calls of `laserReceived`, for `F`
free cells and `A` heading bins: the parameters are those of the constructor,
both generations hold `F * A` samples, and every weight of both generations is
at least `epson_`. -/
def GridInvariant (map_ : map_t K) (free_space_indices : List (Int × Int)) (A : Nat)
    (s : NodeState K) : Prop :=
  s.epson_ = epson (max_particles free_space_indices.length (A : Int)) ∧
  s.grid.size_a_ = A ∧ s.grid.map_ = map_ ∧
  s.grid.mapidx2freeidx_ = (fun x y => (initFreeIdx free_space_indices x y).toNat) ∧
  s.grid.current_set.length = free_space_indices.length * A ∧
  s.grid.previous_set.length = free_space_indices.length * A ∧
  (∀ p ∈ s.grid.current_set, s.epson_ ≤ p.weight) ∧
  (∀ p ∈ s.grid.previous_set, s.epson_ ≤ p.weight)

/-- A map with the single valid free cell (0, 0). -/
def demoCellMap (K : Type) [LinearOrderedField K] : map_t K :=
  { demoMap K with MAP_VALID := fun x y => decide (x = 0 ∧ y = 0) }

/-- Stand-ins for the libm functions on the rationals. -/
def demoLibM : LibM ℚ :=
  { exp := fun _ => 1, log := fun _ => 0, cos := fun _ => 1, sin := fun _ => 0 }

/-- A call of `laserReceived` that runs the update, on the demo scan. -/
def demoCycle : CycleInput ℚ :=
  { early_return := false, lasers_update := true, odata := demoOdomData ℚ,
    laser := demoLaser ℚ, ldata := demoScan ℚ, nb_threads_hint := 1, fuel := 2 }





/-- Stand-ins for the external functions with a likelihood that mixes the two
heading bins of the demo grid: at zero displacement the kernel gives `1/8` to
keeping the heading bin and `7/8` to changing it, so that every kernel matrix
has a non-zero sum and every kernel mass is 1. -/
def demoMixLib (K : Type) [LinearOrderedField K] : MotionLib K :=
  { demoMotionLib K with
    pf_normal_distribution := fun a b => if b = 0 then 1 / 2 else if a = 0 then 1 else 7 / 4 }

/-- Conversion of an integer to the 32-bit `int`: the value modulo `2^32` in
`[-2^31, 2^31)`. -/
def wrapInt32 (x : Int) : Int :=
  (x + 2147483648) % 4294967296 - 2147483648

/-- Line 612 as the member holds it: `max_particles_` is an `int`, and the
product `free_space_indices.size() * size_a_`, computed in `size_t`, is
converted to it. -/
def max_particles_stored (numFreeCells : Nat) (size_a_ : Int) : Int :=
  wrapInt32 (max_particles numFreeCells size_a_)

/-- Line 525 with the check made by `new[]`: a negative length throws
(`none`). -/
def allocSamplesChecked (max_particles_ : Int) (uninit : Nat → pf_sample_t K) :
    Option (List (pf_sample_t K)) :=
  if max_particles_ < 0 then none else some (allocSamples max_particles_ uninit)

/-- Line 615 with the check made by `reserve`:
`active_sample_indices_.reserve(max_particles_)` converts the `int` to
`size_t`; a negative value becomes a length above `max_size()`, and `reserve`
throws (`none`). -/
def reserveChecked (max_particles_ : Int) : Option Unit :=
  if max_particles_ < 0 then none else some ()

/-- The constructor (lines 612-615) followed by `initialMarkovGrid` (line 644),
with `max_particles_` as stored and `reserve` and the allocations checked: the
samples of the two generation buffers, or `none` when `reserve` or `new[]`
throws. -/
def initialMarkovGridChecked (W : MapWorld K) (IDX2ANG : Nat → K)
    (free_space_indices : List (Int × Int)) (size_a_ : Nat)
    (uninit0 uninit1 : Nat → pf_sample_t K) :
    Option (List (pf_sample_t K) × List (pf_sample_t K)) :=
  let max_particles_ := max_particles_stored free_space_indices.length (size_a_ : Int)
  (reserveChecked max_particles_).bind fun _ =>
  (allocSamplesChecked max_particles_ uninit0).bind fun samples0 =>
  (allocSamplesChecked max_particles_ uninit1).bind fun samples1 =>
  some ((initCellLoop W IDX2ANG size_a_ max_particles_ free_space_indices (samples0, 0)).1,
    (initCellLoop W IDX2ANG size_a_ max_particles_ free_space_indices (samples1, 0)).1)

/-- The free cells of a map of `n` by `n` cells, all free, row by row. -/
def squareFreeCells (n : Nat) : List (Int × Int) :=
  (List.range (n * n)).map (fun i : Nat => (((i / n : Nat) : Int), ((i % n : Nat) : Int)))

/-! ## The arithmetic of `double`

The definitions above take a `double` for an element of an ordered field.  The
definitions of this part take the arithmetic as a parameter, so that they can
be run both with exact operations and with the operations of IEEE 754
binary64, in which every result is rounded to the nearest representable value,
ties to the value with an even significand. -/

/-- The operations of the type `double` that the code uses: `+`, `-`, `*`, `/`,
unary minus, and the conversion of a non-negative `int` to `double`. -/
structure Arith (F : Type) where
  add : F → F → F
  sub : F → F → F
  mul : F → F → F
  div : F → F → F
  neg : F → F
  ofNat : Nat → F

/-- Exact arithmetic: the operations of an ordered field. -/
def exactArith (K : Type) [LinearOrderedField K] : Arith K :=
  { add := fun a b => a + b, sub := fun a b => a - b, mul := fun a b => a * b,
    div := fun a b => a / b, neg := fun a => -a, ofNat := fun n => (n : K) }

/-- A finite binary64 value `x`, held as the integer `x * 2^1074`: every finite
`double` is an integer multiple of `2^-1074`, the smallest subnormal.  The
order of the integers is the order of the values.  Infinities, NaN and the
sign of zero are not represented. -/
abbrev Double : Type := Int

/-- The scale `2^1074` of `Double`; the integer that holds `1.0`. -/
def Double.scale : Nat := 2 ^ 1074

/-- The number of low bits that rounding to 53 significant bits drops from `k`:
the least `s` with `k / 2^s < 2^53`.  It is found by dropping 64 bits at a time
while `k ≥ 2^117`, then 8 bits at a time while `k ≥ 2^61`, then one bit at a
time, in at most `fuel` steps. -/
def bitShift : Nat → Nat → Nat
  | 0, _ => 0
  | fuel + 1, k =>
    if k < 2 ^ 53 then 0
    else if k < 2 ^ 61 then bitShift fuel (k / 2) + 1
    else if k < 2 ^ 117 then bitShift fuel (k / 2 ^ 8) + 8
    else bitShift fuel (k / 2 ^ 64) + 64

/-- Rounding of the non-negative rational `a / den` to the nearest integer of at
most 53 significant bits, ties to the even significand: with `s` the number of
bits to drop, the quotient by `den * 2^s` is rounded to the nearest integer and
scaled back by `2^s`. -/
def roundNat (a den : Nat) : Nat :=
  let k := a / den
  let s := bitShift k k
  let unit := den * 2 ^ s
  let q := a / unit
  let rem := a % unit
  if unit < 2 * rem ∨ (2 * rem = unit ∧ q % 2 = 1) then (q + 1) * 2 ^ s else q * 2 ^ s

/-- Rounding of the rational `num / den` to the nearest `Double`, ties to even;
the rounding is symmetric in the sign. -/
def roundRat (num : Int) (den : Nat) : Int :=
  if num < 0 then -(roundNat num.natAbs den : Int) else (roundNat num.natAbs den : Int)

/-- The `Double` nearest to the rational `num / den`, as a decimal literal of the
source is read. -/
def Double.ofRat (num : Int) (den : Nat) : Double :=
  roundRat (num * (Double.scale : Int)) den

/-- The `Double` `m * 2^e` for `e ≥ -1074`, exact when `m` has at most 53
significant bits. -/
def Double.ofBits (m : Int) (e : Int) : Double :=
  m * ((2 ^ (e + 1074).toNat : Nat) : Int)

/-- The integer `x` holds a value of the type `double`: rounding to 53
significant bits leaves it as it is. -/
def Double.Representable (x : Double) : Prop := roundRat x 1 = x

instance (x : Double) : Decidable (Double.Representable x) :=
  inferInstanceAs (Decidable (roundRat x 1 = x))

/-- The arithmetic of IEEE 754 binary64 on finite values, rounding to nearest,
ties to even.  Overflow to infinity and division by zero are not modelled. -/
def binary64 : Arith Double :=
  { add := fun a b => roundRat (a + b) 1,
    sub := fun a b => roundRat (a - b) 1,
    mul := fun a b => roundRat (a * b) Double.scale,
    div := fun a b =>
      if b < 0 then roundRat (-(a * (Double.scale : Int))) b.natAbs
      else roundRat (a * (Double.scale : Int)) b.natAbs,
    neg := fun a => -a,
    ofNat := fun n => roundRat ((n : Int) * (Double.scale : Int)) 1 }

/-- The properties of an arithmetic that the bounds of this part use: the
operations are monotone and keep non-negative values non-negative.  Rounding
to nearest has them, and so has exact arithmetic. -/
structure Arith.Monotone {F : Type} [LinearOrder F] (A : Arith F) : Prop where
  add_le_add_left : ∀ a b c : F, a ≤ b → A.add c a ≤ A.add c b
  add_le_add_right : ∀ a b c : F, a ≤ b → A.add a c ≤ A.add b c
  mul_le_mul_left : ∀ a b c : F, A.ofNat 0 ≤ c → a ≤ b → A.mul c a ≤ A.mul c b
  mul_le_mul_right : ∀ a b c : F, A.ofNat 0 ≤ c → a ≤ b → A.mul a c ≤ A.mul b c
  add_nonneg : ∀ a b : F, A.ofNat 0 ≤ a → A.ofNat 0 ≤ b → A.ofNat 0 ≤ A.add a b
  mul_nonneg : ∀ a b : F, A.ofNat 0 ≤ a → A.ofNat 0 ≤ b → A.ofNat 0 ≤ A.mul a b
  div_nonneg : ∀ a b : F, A.ofNat 0 ≤ a → A.ofNat 0 < b → A.ofNat 0 ≤ A.div a b
  ofNat_le : ∀ m n : Nat, m ≤ n → A.ofNat m ≤ A.ofNat n

/-! ## Resampling in a given arithmetic

The function `downsizingSampling` once more, with the arithmetic of `double` as
a parameter: with `exactArith` these definitions are `innerWalk`,
`resampleLoop` and `downsizingSamplingFrom` above, with `binary64` they compute
what the compiled code computes. -/

/-- The sample `set->samples[i]`; the default is never read by an in-bounds
access. -/
def sampleAtA {F : Type} (A : Arith F) (set : List (pf_sample_t F)) (i : Nat) : pf_sample_t F :=
  set.getD i ⟨⟨A.ofNat 0, A.ofNat 0, A.ofNat 0⟩, A.ofNat 0, A.ofNat 0⟩

/-- Lines 462 and 471: the target `U = r + m * count_inv`, the `int` `m` converted
to `double`. -/
def drawA {F : Type} (A : Arith F) (r count_inv : F) (m : Nat) : F :=
  A.add r (A.mul (A.ofNat m) count_inv)

/-- The value that `c` holds at source index `j` when the walk comes from
index 0: line 455 (and 468) sets `c = samples[0].weight`, and line 474 adds the
weight of each further sample, `c += samples[i].weight`. -/
def cumA {F : Type} (A : Arith F) (set_a : List (pf_sample_t F)) : Nat → F
  | 0 => (sampleAtA A set_a 0).weight
  | j + 1 => A.add (cumA A set_a j) (sampleAtA A set_a (j + 1)).weight

/-- The inner loop `while(U>c)` (lines 463-475) with the list `reads` of the
indices at which `set_a->samples` is read: index 0 at the wrap-around of line
468, index `i` at line 474.  Every iteration consumes one unit of `fuel`; the
first component is `none` when the fuel ran out before the loop ended, and the
second holds the reads made up to then. -/
def innerWalkA {F : Type} [LinearOrder F] (A : Arith F) (set_a : List (pf_sample_t F))
    (r count_inv : F) : Nat → WalkState F → List Nat → Option (WalkState F) × List Nat
  | 0, _, reads => (none, reads)
  | fuel + 1, st, reads =>
    if st.U > st.c then
      if st.i + 1 ≥ set_a.length then
        innerWalkA A set_a r count_inv fuel
          { i := 0, c := (sampleAtA A set_a 0).weight, m := 0, U := drawA A r count_inv 0 }
          (reads ++ [0])
      else
        innerWalkA A set_a r count_inv fuel
          { st with i := st.i + 1, c := A.add st.c (sampleAtA A set_a (st.i + 1)).weight }
          (reads ++ [st.i + 1])
    else (some st, reads)

/-- The outer loop `while(set_b->sample_count < target_size)` (lines 459-482)
with `k` outputs still to write: the source index `i` copied by each iteration,
in output order, and the indices read; line 478 reads `set_a->samples[i].pose`. -/
def resampleLoopA {F : Type} [LinearOrder F] (A : Arith F) (set_a : List (pf_sample_t F))
    (r count_inv : F) (fuel : Nat) :
    Nat → Nat → F → Nat → List Nat → Option (List Nat) × List Nat
  | 0, _, _, _, reads => (some [], reads)
  | k + 1, i, c, m, reads =>
    match innerWalkA A set_a r count_inv fuel
        { i := i, c := c, m := m, U := drawA A r count_inv m } reads with
    | (none, reads1) => (none, reads1)
    | (some st, reads1) =>
      match resampleLoopA A set_a r count_inv fuel k st.i st.c (st.m + 1) (reads1 ++ [st.i]) with
      | (none, reads2) => (none, reads2)
      | (some idxs, reads2) => (some (st.i :: idxs), reads2)

/-- The source indices copied by `downsizingSampling` (lines 452-482) for the
offset `r` of line 454, and all indices at which `set_a->samples` is read, in
the order of the reads; the first is the read of `set_a->samples[0].weight` at
line 455.  Line 452: `count_inv = 1.0/target_size`. -/
def downsizingTraceA {F : Type} [LinearOrder F] (A : Arith F) (set_a : List (pf_sample_t F))
    (target_size : Nat) (r : F) (fuel : Nat) : Option (List Nat) × List Nat :=
  let count_inv := A.div (A.ofNat 1) (A.ofNat target_size)
  resampleLoopA A set_a r count_inv fuel target_size 0 (sampleAtA A set_a 0).weight 0 [0]

/-- The value of `total` after `n` outputs: line 453 sets it to 0 and line 480
adds the weight `1.0` of every output. -/
def onesTotalA {F : Type} (A : Arith F) : Nat → F
  | 0 => A.ofNat 0
  | n + 1 => A.add (onesTotalA A n) (A.ofNat 1)

/-- The function `MarkovNode::downsizingSampling`: the samples of `set_b` after
the call.  Output `k` gets the pose of the source sample chosen for it and the
weight `1.0 / total` (lines 479 and 488); its `logWeight` is not written and
stays what `set_b` held. -/
def downsizingSamplingFromA {F : Type} [LinearOrder F] (A : Arith F)
    (set_a set_b : List (pf_sample_t F)) (target_size : Nat) (r : F) (fuel : Nat) :
    Option (List (pf_sample_t F)) :=
  match (downsizingTraceA A set_a target_size r fuel).1 with
  | none => none
  | some idxs =>
    let total : F := idxs.foldl (fun tot _ => A.add tot (A.ofNat 1)) (A.ofNat 0)
    some (idxs.enum.map (fun p =>
      { pose := (sampleAtA A set_a p.2).pose, weight := A.div (A.ofNat 1) total,
        logWeight := (sampleAtA A set_b p.1).logWeight }))

/-- The function `MarkovNode::downsizingSampling` with the draw `u01` of
`rng_.uniform01()`: line 454 sets `r = u01 * count_inv`. -/
def downsizingSamplingA {F : Type} [LinearOrder F] (A : Arith F)
    (set_a set_b : List (pf_sample_t F)) (target_size : Nat) (u01 : F) (fuel : Nat) :
    Option (List (pf_sample_t F)) :=
  downsizingSamplingFromA A set_a set_b target_size
    (A.mul u01 (A.div (A.ofNat 1) (A.ofNat target_size))) fuel

/-- The index `j` is the first source index at which the running sum `c` of the
walk reaches the target `U`. -/
def IsFirstReachingA {F : Type} [LinearOrder F] (A : Arith F) (set_a : List (pf_sample_t F))
    (U : F) (j : Nat) : Prop :=
  j < set_a.length ∧ U ≤ cumA A set_a j ∧ ∀ j', j' < j → cumA A set_a j' < U

instance {F : Type} [LinearOrder F] (A : Arith F) (set_a : List (pf_sample_t F)) (U : F)
    (j : Nat) : Decidable (IsFirstReachingA A set_a U j) :=
  inferInstanceAs (Decidable (_ ∧ _ ∧ ∀ j', j' < j → _))

/-- The weight `1 - 2^-52` in binary64. -/
def demoTieW0 : Double := Double.ofBits (2 ^ 52 - 1) (-52)

/-- The weight `2^-54` in binary64: half the distance from `1 - 2^-52` to the
next `double`. -/
def demoTieEps : Double := Double.ofBits 1 (-54)

/-- The offset `1 - 2^-53` in binary64, the largest `double` below 1. -/
def demoTieOffset : Double := Double.ofBits (2 ^ 53 - 1) (-53)

/-- A source set in binary64 whose weights `1 - 2^-52, 2^-54, 2^-54, 2^-54, 2^-54`
sum to 1 as real numbers. -/
def demoTieSet : List (pf_sample_t Double) :=
  [⟨⟨0, 0, 0⟩, demoTieW0, 0⟩, ⟨⟨Double.ofBits 1 0, 0, 0⟩, demoTieEps, 0⟩,
    ⟨⟨Double.ofBits 2 0, 0, 0⟩, demoTieEps, 0⟩, ⟨⟨Double.ofBits 3 0, 0, 0⟩, demoTieEps, 0⟩,
    ⟨⟨Double.ofBits 4 0, 0, 0⟩, demoTieEps, 0⟩]

/-- A two-sample source set in binary64 of total weight `1/2`. -/
def demoHalfSetD : List (pf_sample_t Double) :=
  [⟨⟨0, 0, 0⟩, Double.ofBits 1 (-2), 0⟩, ⟨⟨Double.ofBits 1 0, 0, 0⟩, Double.ofBits 1 (-2), 0⟩]

/-- The two-cell belief with weights `0.9` and `0.1` in binary64, each the
`double` nearest to the decimal literal. -/
def demoTwoCellD : List (pf_sample_t Double) :=
  [⟨⟨0, 0, 0⟩, Double.ofRat 9 10, 0⟩, ⟨⟨Double.ofBits 1 0, 0, 0⟩, Double.ofRat 1 10, 0⟩]

/-- A source set in binary64 whose weights `7/16, 1/8, 7/16 - 2^-52` and four
times `2^-54` sum to 1 as real numbers. -/
def demoSkewSet : List (pf_sample_t Double) :=
  [⟨⟨0, 0, 0⟩, Double.ofBits 7 (-4), 0⟩, ⟨⟨Double.ofBits 1 0, 0, 0⟩, Double.ofBits 1 (-3), 0⟩,
    ⟨⟨Double.ofBits 2 0, 0, 0⟩, Double.ofBits (7 * 2 ^ 48 - 1) (-52), 0⟩,
    ⟨⟨Double.ofBits 3 0, 0, 0⟩, Double.ofBits 1 (-54), 0⟩,
    ⟨⟨Double.ofBits 4 0, 0, 0⟩, Double.ofBits 1 (-54), 0⟩,
    ⟨⟨Double.ofBits 5 0, 0, 0⟩, Double.ofBits 1 (-54), 0⟩,
    ⟨⟨Double.ofBits 6 0, 0, 0⟩, Double.ofBits 1 (-54), 0⟩]

/-- The offset `1/2 - 2^-53` in binary64, the largest `double` below `1/2`. -/
def demoSkewOffset : Double := Double.ofBits (2 ^ 52 - 1) (-53)

/-! ## The sensor update in a given arithmetic -/

/-- Lines 21-22 and 62-64 with the arithmetic as a parameter: the per-beam
probability for nearest-obstacle distance `z`.  `z_hit_denom` is
`2 * sigma_hit * sigma_hit`, evaluated from the left, `z_rand_mult` is
`1.0/range_max`, and `pz` starts at `0.0` and receives the two terms by `+=`. -/
def pzOfDistA {F : Type} (A : Arith F) (exp : F → F) (z_hit z_rand sigma_hit range_max z : F) :
    F :=
  let z_hit_denom := A.mul (A.mul (A.ofNat 2) sigma_hit) sigma_hit
  let z_rand_mult := A.div (A.ofNat 1) range_max
  let pz := A.add (A.ofNat 0) (A.mul z_hit (exp (A.div (A.neg (A.mul z z)) z_hit_denom)))
  A.add pz (A.mul z_rand z_rand_mult)

/-- Lines 46-59 with the arithmetic as a parameter: the nearest-obstacle
distance looked up for a beam. -/
def beamDistA {F : Type} (A : Arith F) (m : LibM F) (self : AMCLLaser F) (pose : pf_vector_t F)
    (obs_range obs_bearing : F) : F :=
  let hit0 := A.add pose.v0 (A.mul obs_range (m.cos (A.add pose.v2 obs_bearing)))
  let hit1 := A.add pose.v1 (A.mul obs_range (m.sin (A.add pose.v2 obs_bearing)))
  let mi := self.map.MAP_GXWX hit0
  let mj := self.map.MAP_GYWY hit1
  if !self.map.MAP_VALID mi mj then self.map.max_occ_dist else self.map.occ_dist mi mj

/-- Lines 43-64 with the arithmetic as a parameter: the per-beam probability
`pz` of an evaluated beam. -/
def beamPzA {F : Type} (A : Arith F) (m : LibM F) (self : AMCLLaser F) (ldata : AMCLLaserData F)
    (pose : pf_vector_t F) (obs_range obs_bearing : F) : F :=
  pzOfDistA A m.exp self.z_hit self.z_rand self.sigma_hit ldata.range_max
    (beamDistA A m self pose obs_range obs_bearing)

/-- The value of `pz` when `exp` returns 1: `z_hit * 1 + z_rand * (1/range_max)`
evaluated as the code evaluates `pz`. -/
def pzBoundA {F : Type} (A : Arith F) (z_hit z_rand range_max : F) : F :=
  A.add (A.add (A.ofNat 0) (A.mul z_hit (A.ofNat 1))) (A.mul z_rand (A.div (A.ofNat 1) range_max))

/-- The weight `z_hit = 0x1.2222222222222p-6` of the sensor model
`demoLaserD`. -/
def demoZHit : Double := Double.ofBits 2552039788843281 (-57)

/-- The weight `z_rand = 73.671875` of the sensor model `demoLaserD`. -/
def demoZRand : Double := Double.ofBits 4715 (-6)

/-- A map in binary64 whose every cell is valid and touches an obstacle. -/
def demoMapD : map_t Double :=
  { MAP_GXWX := fun _ => 0, MAP_GYWY := fun _ => 0, MAP_VALID := fun _ _ => true,
    occ_dist := fun _ _ => 0, occ_state := fun _ _ => -1, max_occ_dist := Double.ofBits 1 0,
    scale := Double.ofBits 1 0 }

/-- A laser model in binary64 with `sigma_hit = 1`, `z_hit = demoZHit` and
`z_rand = demoZRand`; as real numbers `z_hit + z_rand / 75 ≤ 1`. -/
def demoLaserD : AMCLLaser Double :=
  { laser_pose := ⟨0, 0, 0⟩, coord_add := fun _ b => b, sigma_hit := Double.ofBits 1 0,
    z_hit := demoZHit, z_rand := demoZRand, max_beams := 2, map := demoMapD }

/-- A scan in binary64 with `range_max = 75` and one reading of range 1. -/
def demoScanD : AMCLLaserData Double :=
  { range_max := Double.ofBits 75 0, ranges := [(some (Double.ofBits 1 0), 0)] }

/-- A laser model in binary64 with `z_hit = z_rand = 1/2` and `sigma_hit = 1`,
two beams. -/
def demoHalfLaserD : AMCLLaser Double :=
  { laser_pose := ⟨0, 0, 0⟩, coord_add := fun _ b => b, sigma_hit := Double.ofBits 1 0,
    z_hit := Double.ofBits 1 (-1), z_rand := Double.ofBits 1 (-1), max_beams := 2,
    map := demoMapD }

/-- A scan in binary64 of two readings, one below `range_max = 1` and one at
it. -/
def demoHalfScanD : AMCLLaserData Double :=
  { range_max := Double.ofBits 1 0, ranges := [(some (Double.ofBits 1 (-1)), 0),
      (some (Double.ofBits 1 0), 0)] }

/-- Stand-ins for the libm functions on `Double`: `exp` returns `1.0` at 0 and
`0.5` elsewhere, `log` returns 0 at `1.0` and `-1.0` elsewhere. -/
def demoLibD : LibM Double :=
  { exp := fun x => if x = 0 then Double.ofBits 1 0 else Double.ofBits 1 (-1),
    log := fun x => if x = Double.ofBits 1 0 then 0 else -Double.ofBits 1 0,
    cos := fun _ => Double.ofBits 1 0, sin := fun _ => 0 }

/-- One iteration of the beam loop (lines 31-72) on the running `logWeight`,
with the arithmetic as a parameter. -/
def beamBodyA {F : Type} [LinearOrder F] (A : Arith F) (m : LibM F) (self : AMCLLaser F)
    (ldata : AMCLLaserData F) (pose : pf_vector_t F) (logWeight : F) (i : Nat) : F :=
  match ldata.ranges.getD i (none, A.ofNat 0) with
  | (none, _) => logWeight
  | (some obs_range, obs_bearing) =>
    if obs_range ≥ ldata.range_max then logWeight
    else A.add logWeight (m.log (beamPzA A m self ldata pose obs_range obs_bearing))

/-- Lines 15-72 with the arithmetic as a parameter: the value of
`sample->logWeight` after the beam loop, which starts from `0.0`. -/
def sampleLogWeightA {F : Type} [LinearOrder F] (A : Arith F) (m : LibM F) (self : AMCLLaser F)
    (ldata : AMCLLaserData F) (sample : pf_sample_t F) : F :=
  let pose := self.coord_add self.laser_pose sample.pose
  (beamIndices ldata.ranges.length self.max_beams).foldl (beamBodyA A m self ldata pose)
    (A.ofNat 0)

/-- The function `MarkovNode::UpdateParticle` with the arithmetic as a
parameter: line 75 is `sample->weight *= exp(sample->logWeight)`. -/
def UpdateParticleA {F : Type} [LinearOrder F] (A : Arith F) (m : LibM F) (self : AMCLLaser F)
    (ldata : AMCLLaserData F) (sample : pf_sample_t F) : pf_sample_t F :=
  let logWeight := sampleLogWeightA A m self ldata sample
  { sample with logWeight := logWeight, weight := A.mul sample.weight (m.exp logWeight) }

/-- The sample loop of `MarkovNode::UpdateLaser` (lines 149-220) with the
arithmetic as a parameter, on the remaining samples and the running
`total_weight`. -/
def UpdateLaserLoopA {F : Type} [LinearOrder F] (A : Arith F) (m : LibM F) (self : AMCLLaser F)
    (ldata : AMCLLaserData F) : List (pf_sample_t F) → F → F × List (pf_sample_t F)
  | [], total_weight => (total_weight, [])
  | sample :: rest, total_weight =>
    let logWeight := sampleLogWeightA A m self ldata sample
    let sample1 : pf_sample_t F :=
      { sample with logWeight := logWeight, weight := A.mul sample.weight (m.exp logWeight) }
    let r := UpdateLaserLoopA A m self ldata rest (A.add total_weight sample1.weight)
    (r.1, sample1 :: r.2)

/-- The function `MarkovNode::UpdateLaser` with the arithmetic as a parameter;
line 146 sets `total_weight = 0.0`. -/
def UpdateLaserA {F : Type} [LinearOrder F] (A : Arith F) (m : LibM F) (self : AMCLLaser F)
    (ldata : AMCLLaserData F) (samples : List (pf_sample_t F)) : F × List (pf_sample_t F) :=
  UpdateLaserLoopA A m self ldata samples (A.ofNat 0)

/-- The worker of `UpdateLaserParallel` (lines 94-107) on `[sidx, sidx + n)`
with the arithmetic as a parameter. -/
def laserWorkerA {F : Type} [LinearOrder F] (A : Arith F) (m : LibM F) (self : AMCLLaser F)
    (ldata : AMCLLaserData F) :
    Nat → Nat → F × List (pf_sample_t F) → F × List (pf_sample_t F)
  | 0, _, st => st
  | n + 1, sidx, (total_weight, samples) =>
    match samples[sidx]? with
    | none => laserWorkerA A m self ldata n (sidx + 1) (total_weight, samples)
    | some sample =>
      let sample1 := UpdateParticleA A m self ldata sample
      laserWorkerA A m self ldata n (sidx + 1)
        (A.add total_weight sample1.weight, samples.set sidx sample1)

/-- The function `MarkovNode::UpdateLaserParallel` with the arithmetic as a
parameter.  As in `UpdateLaserParallel` the workers are run one after the
other, in thread order: the additions `total_weight += particle_weight` are
made in the order of the sample index.  The threads of the code make them in
the order in which they take the mutex; `laserScheduleA` runs the iterations in
any given order. -/
def UpdateLaserParallelA {F : Type} [LinearOrder F] (A : Arith F) (m : LibM F)
    (self : AMCLLaser F) (ldata : AMCLLaserData F) (nb_threads_hint : Nat)
    (samples : List (pf_sample_t F)) : F × List (pf_sample_t F) :=
  (workerRanges samples.length (nbThreads nb_threads_hint)).foldl
    (fun st r => laserWorkerA A m self ldata (r.2 - r.1) r.1 st) (A.ofNat 0, samples)

/-- The iterations of the workers of `UpdateLaserParallel` (lines 96-107) in a
given order: `order` lists the sample indices in the order in which their
iterations take the mutex of line 99.  An iteration writes only its own sample
and, under the mutex, adds its weight to `total_weight`. -/
def laserScheduleA {F : Type} [LinearOrder F] (A : Arith F) (m : LibM F) (self : AMCLLaser F)
    (ldata : AMCLLaserData F) :
    List Nat → F × List (pf_sample_t F) → F × List (pf_sample_t F)
  | [], st => st
  | sidx :: rest, (total_weight, samples) =>
    match samples[sidx]? with
    | none => laserScheduleA A m self ldata rest (total_weight, samples)
    | some sample =>
      let sample1 := UpdateParticleA A m self ldata sample
      laserScheduleA A m self ldata rest
        (A.add total_weight sample1.weight, samples.set sidx sample1)

/-- Modelled from the spec as `pf_normalize_set`, with the arithmetic as a
parameter: every weight is divided by the total. -/
def pf_normalize_setA {F : Type} (A : Arith F) (samples : List (pf_sample_t F)) (total : F) :
    List (pf_sample_t F) :=
  samples.map (fun s => { s with weight := A.div s.weight total })

/-- The running total after the weights of `samples` have been added to
`total_weight` one by one, in the order of the list. -/
def sumFromA {F : Type} (A : Arith F) (total_weight : F) (samples : List (pf_sample_t F)) : F :=
  samples.foldl (fun tot s => A.add tot s.weight) total_weight

/-- A map in binary64 whose every cell is valid and at distance `1.0` from the
nearest obstacle. -/
def demoFarMapD : map_t Double :=
  { demoMapD with occ_dist := fun _ _ => Double.ofBits 1 0 }

/-- The laser model `demoHalfLaserD` on the map `demoFarMapD`. -/
def demoFarLaserD : AMCLLaser Double :=
  { demoHalfLaserD with map := demoFarMapD }

/-- Two samples of weights `1/4` and `3/4` in binary64. -/
def demoSamplesD : List (pf_sample_t Double) :=
  [⟨⟨0, 0, 0⟩, Double.ofBits 1 (-2), 0⟩, ⟨⟨Double.ofBits 1 0, 0, 0⟩, Double.ofBits 3 (-2), 0⟩]

/-- Ten samples of weight `1.0` in binary64. -/
def demoTenSamples : List (pf_sample_t Double) :=
  (List.range 10).map (fun i => ⟨⟨Double.ofBits i 0, 0, 0⟩, Double.ofBits 1 0, 0⟩)

/-! # Theorems -/

/-! ## Sensor update -/

theorem totalWeight_nil : totalWeight ([] : List (pf_sample_t K)) = 0 := rfl

theorem totalWeight_cons (s : pf_sample_t K) (l : List (pf_sample_t K)) :
    totalWeight (s :: l) = s.weight + totalWeight l := by
  simp [totalWeight]

theorem totalWeight_append (l₁ l₂ : List (pf_sample_t K)) :
    totalWeight (l₁ ++ l₂) = totalWeight l₁ + totalWeight l₂ := by
  simp [totalWeight]

/-- The sample loop of `UpdateLaser` applies the body of `UpdateParticle` to
every sample and adds the new weights to the running total. -/
theorem UpdateLaserLoop_eq (m : LibM K) (self : AMCLLaser K) (ldata : AMCLLaserData K)
    (samples : List (pf_sample_t K)) (t : K) :
    UpdateLaserLoop m self ldata samples t =
      (t + totalWeight (samples.map (UpdateParticle m self ldata)),
        samples.map (UpdateParticle m self ldata)) := by
  induction samples generalizing t with
  | nil => simp [UpdateLaserLoop, totalWeight_nil]
  | cons s rest ih =>
    simp only [UpdateLaserLoop, ih, List.map_cons, totalWeight_cons]
    simp [UpdateParticle, add_assoc]

theorem UpdateLaser_eq (m : LibM K) (self : AMCLLaser K) (ldata : AMCLLaserData K)
    (samples : List (pf_sample_t K)) :
    UpdateLaser m self ldata samples =
      (totalWeight (samples.map (UpdateParticle m self ldata)),
        samples.map (UpdateParticle m self ldata)) := by
  simp [UpdateLaser, UpdateLaserLoop_eq]

/-- A worker started at `sidx = pre.length` updates the next `n` samples. -/
theorem laserWorker_eq (m : LibM K) (self : AMCLLaser K) (ldata : AMCLLaserData K)
    (n : Nat) (pre rest : List (pf_sample_t K)) (t : K) (hn : n ≤ rest.length) :
    laserWorker m self ldata n pre.length (t, pre ++ rest) =
      (t + totalWeight ((rest.take n).map (UpdateParticle m self ldata)),
        pre ++ (rest.take n).map (UpdateParticle m self ldata) ++ rest.drop n) := by
  induction n generalizing pre rest t with
  | zero => simp [laserWorker, totalWeight_nil]
  | succ n ih =>
    cases rest with
    | nil => simp at hn
    | cons s rest =>
      have hn1 : n ≤ rest.length := by simpa using hn
      have hget : (pre ++ s :: rest)[pre.length]? = some s := by
        rw [List.getElem?_append_right (le_refl _)]; simp
      have hset : (pre ++ s :: rest).set pre.length (UpdateParticle m self ldata s) =
          (pre ++ [UpdateParticle m self ldata s]) ++ rest := by
        simp [List.set_append]
      have hlen : pre.length + 1 = (pre ++ [UpdateParticle m self ldata s]).length := by simp
      simp only [laserWorker, hget, hset]
      rw [hlen, ih _ _ _ hn1]
      simp [totalWeight_cons, add_assoc]

/-- The state of `UpdateLaserParallel` once the samples `[0, p)` are done. -/
theorem laserWorker_done (m : LibM K) (self : AMCLLaser K) (ldata : AMCLLaserData K)
    (samples : List (pf_sample_t K)) (p n : Nat) (hpn : p + n ≤ samples.length) :
    laserWorker m self ldata n p
        (totalWeight ((samples.take p).map (UpdateParticle m self ldata)),
          (samples.take p).map (UpdateParticle m self ldata) ++ samples.drop p) =
      (totalWeight ((samples.take (p + n)).map (UpdateParticle m self ldata)),
        (samples.take (p + n)).map (UpdateParticle m self ldata) ++ samples.drop (p + n)) := by
  have hp : ((samples.take p).map (UpdateParticle m self ldata)).length = p := by
    simp; omega
  have hn : n ≤ (samples.drop p).length := by simp; omega
  have h := laserWorker_eq m self ldata n
    ((samples.take p).map (UpdateParticle m self ldata)) (samples.drop p)
    (totalWeight ((samples.take p).map (UpdateParticle m self ldata))) hn
  rw [hp] at h
  have ht : samples.take p ++ (samples.drop p).take n = samples.take (p + n) := by
    rw [List.take_add]
  rw [h, ← totalWeight_append, ← List.map_append, ht, List.drop_drop]

/-- Folding the workers over the ranges produced by `spawnRanges` advances the
done prefix by `k * grainsize`. -/
theorem spawnRanges_fold (m : LibM K) (self : AMCLLaser K) (ldata : AMCLLaserData K)
    (samples : List (pf_sample_t K)) (g k p : Nat) (h : p + k * g ≤ samples.length) :
    (spawnRanges g k p).2 = p + k * g ∧
    (spawnRanges g k p).1.foldl (fun st r => laserWorker m self ldata (r.2 - r.1) r.1 st)
        (totalWeight ((samples.take p).map (UpdateParticle m self ldata)),
          (samples.take p).map (UpdateParticle m self ldata) ++ samples.drop p) =
      (totalWeight ((samples.take (p + k * g)).map (UpdateParticle m self ldata)),
        (samples.take (p + k * g)).map (UpdateParticle m self ldata) ++
          samples.drop (p + k * g)) := by
  induction k generalizing p with
  | zero => simp [spawnRanges]
  | succ k ih =>
    have h1 : p + g + k * g ≤ samples.length := by
      have : (k + 1) * g = g + k * g := by ring
      omega
    have hk : p + (k + 1) * g = p + g + k * g := by ring
    obtain ⟨ih1, ih2⟩ := ih (p + g) h1
    refine ⟨by simp [spawnRanges, ih1, hk], ?_⟩
    simp only [spawnRanges, List.foldl_cons, Nat.add_sub_cancel_left]
    rw [laserWorker_done m self ldata samples p g (by omega), ih2, hk]

theorem UpdateLaserParallel_eq (m : LibM K) (self : AMCLLaser K) (ldata : AMCLLaserData K)
    (nb_threads_hint : Nat) (samples : List (pf_sample_t K)) :
    UpdateLaserParallel m self ldata nb_threads_hint samples =
      (totalWeight (samples.map (UpdateParticle m self ldata)),
        samples.map (UpdateParticle m self ldata)) := by
  have hle : 0 + (nbThreads nb_threads_hint - 1) * (samples.length / nbThreads nb_threads_hint)
      ≤ samples.length := by
    have h1 : (nbThreads nb_threads_hint - 1) * (samples.length / nbThreads nb_threads_hint)
        ≤ nbThreads nb_threads_hint * (samples.length / nbThreads nb_threads_hint) :=
      Nat.mul_le_mul_right _ (Nat.sub_le _ _)
    have h2 := Nat.mul_div_le samples.length (nbThreads nb_threads_hint)
    omega
  obtain ⟨h1, h2⟩ := spawnRanges_fold m self ldata samples
    (samples.length / nbThreads nb_threads_hint) (nbThreads nb_threads_hint - 1) 0 hle
  have h0 : ((0 : K), samples) =
      (totalWeight ((samples.take 0).map (UpdateParticle m self ldata)),
        (samples.take 0).map (UpdateParticle m self ldata) ++ samples.drop 0) := by
    simp [totalWeight_nil]
  simp only [UpdateLaserParallel, workerRanges, List.foldl_append, List.foldl_cons,
    List.foldl_nil]
  rw [h0, h2, h1]
  have h3 := laserWorker_done m self ldata samples
    (0 + (nbThreads nb_threads_hint - 1) * (samples.length / nbThreads nb_threads_hint))
    (samples.length -
      (0 + (nbThreads nb_threads_hint - 1) * (samples.length / nbThreads nb_threads_hint)))
    (by omega)
  rw [h3]
  have h4 : 0 + (nbThreads nb_threads_hint - 1) * (samples.length / nbThreads nb_threads_hint) +
      (samples.length -
        (0 + (nbThreads nb_threads_hint - 1) * (samples.length / nbThreads nb_threads_hint)))
      = samples.length := by omega
  rw [h4]
  simp

/-- Dividing every weight by a non-zero total that equals their sum leaves
weights that sum to one. -/
theorem totalWeight_pf_normalize_set (samples : List (pf_sample_t K)) (total : K) :
    totalWeight (pf_normalize_set samples total) = totalWeight samples / total := by
  induction samples with
  | nil => simp [pf_normalize_set, totalWeight]
  | cons s rest ih =>
    simp only [pf_normalize_set, totalWeight, List.map_cons, List.sum_cons] at ih ⊢
    rw [ih, add_div]

/-- The total of the demo samples after the sensor update is positive. -/
theorem demo_total_pos :
    0 < (UpdateLaser (⟨Real.exp, Real.log, Real.cos, Real.sin⟩ : LibM ℝ)
      (demoLaser ℝ) (demoScan ℝ) (demoSamples ℝ)).1 := by
  rw [UpdateLaser_eq]
  simp only [demoSamples, UpdateParticle, List.map_cons, List.map_nil, totalWeight_cons,
    totalWeight_nil]
  positivity

/-- Bounds of the per-beam probability for any distance value. -/
theorem pzOfDist_bounds (z_hit z_rand sigma_hit range_max z : ℝ)
    (hh : 0 ≤ z_hit) (hr : 0 ≤ z_rand) (hm : 0 < range_max)
    (hsum : z_hit + z_rand * (1 / range_max) ≤ 1) :
    0 ≤ pzOfDist Real.exp z_hit z_rand sigma_hit range_max z ∧
      pzOfDist Real.exp z_hit z_rand sigma_hit range_max z ≤ 1 := by
  have hden : 0 ≤ 2 * sigma_hit * sigma_hit := by nlinarith [mul_self_nonneg sigma_hit]
  have harg : -(z * z) / (2 * sigma_hit * sigma_hit) ≤ 0 :=
    div_nonpos_of_nonpos_of_nonneg (by nlinarith [mul_self_nonneg z]) hden
  have hexp1 : Real.exp (-(z * z) / (2 * sigma_hit * sigma_hit)) ≤ 1 := by
    simpa using Real.exp_le_exp.mpr harg
  have hexp0 : 0 < Real.exp (-(z * z) / (2 * sigma_hit * sigma_hit)) := Real.exp_pos _
  have hrm : 0 ≤ z_rand * (1 / range_max) := by positivity
  have hmul : z_hit * Real.exp (-(z * z) / (2 * sigma_hit * sigma_hit)) ≤ z_hit := by
    simpa using mul_le_mul_of_nonneg_left hexp1 hh
  have hmul0 : 0 ≤ z_hit * Real.exp (-(z * z) / (2 * sigma_hit * sigma_hit)) := by positivity
  simp only [pzOfDist, zero_add]
  constructor <;> linarith

/-- With every reading at or beyond `range_max` (or NaN), an iteration of the
beam loop leaves `logWeight` as it is. -/
theorem beamBody_skip (m : LibM K) (self : AMCLLaser K) (ldata : AMCLLaserData K)
    (hmax : ∀ e ∈ ldata.ranges, ∀ r, e.1 = some r → ldata.range_max ≤ r)
    (pose : pf_vector_t K) (logWeight : K) (i : Nat) :
    beamBody m self ldata pose logWeight i = logWeight := by
  unfold beamBody
  rcases hlt : ldata.ranges.getD i (none, 0) with ⟨_ | obs_range, obs_bearing⟩
  · rfl
  · have hi : i < ldata.ranges.length := by
      by_contra hge
      rw [List.getD_eq_default _ _ (not_lt.mp hge)] at hlt
      simp at hlt
    have hmem : (some obs_range, obs_bearing) ∈ ldata.ranges := by
      rw [List.getD_eq_getElem _ _ hi] at hlt
      rw [← hlt]
      exact List.getElem_mem _
    have hge := hmax _ hmem obs_range rfl
    simp [hge]

theorem beamEvaluated_skip (ldata : AMCLLaserData K)
    (hmax : ∀ e ∈ ldata.ranges, ∀ r, e.1 = some r → ldata.range_max ≤ r) (i : Nat) :
    beamEvaluated ldata i = false := by
  unfold beamEvaluated
  rcases hlt : ldata.ranges.getD i (none, 0) with ⟨_ | obs_range, obs_bearing⟩
  · rfl
  · have hi : i < ldata.ranges.length := by
      by_contra hge
      rw [List.getD_eq_default _ _ (not_lt.mp hge)] at hlt
      simp at hlt
    have hmem : (some obs_range, obs_bearing) ∈ ldata.ranges := by
      rw [List.getD_eq_getElem _ _ hi] at hlt
      rw [← hlt]
      exact List.getElem_mem _
    have hge := hmax _ hmem obs_range rfl
    simp [hge]

theorem sampleLogWeight_skip (m : LibM K) (self : AMCLLaser K) (ldata : AMCLLaserData K)
    (hmax : ∀ e ∈ ldata.ranges, ∀ r, e.1 = some r → ldata.range_max ≤ r)
    (sample : pf_sample_t K) : sampleLogWeight m self ldata sample = 0 := by
  unfold sampleLogWeight
  generalize beamIndices ldata.ranges.length self.max_beams = idxs
  induction idxs with
  | nil => rfl
  | cons i rest ih => simpa [List.foldl_cons, beamBody_skip m self ldata hmax] using ih

/-- C8: when every range reading is at or beyond `range_max`, no beam is
evaluated, `UpdateParticle` and `UpdateLaser` leave every weight as it was, and
`UpdateLaser` returns the sum of the input weights. -/
theorem UpdateLaser_max_range_scan (m : LibM ℝ) (hexp : m.exp = Real.exp)
    (self : AMCLLaser ℝ) (ldata : AMCLLaserData ℝ) (samples : List (pf_sample_t ℝ))
    (hmax : ∀ e ∈ ldata.ranges, ∀ r, e.1 = some r → ldata.range_max ≤ r) :
    (∀ i, beamEvaluated ldata i = false) ∧
    (∀ sample, (UpdateParticle m self ldata sample).weight = sample.weight) ∧
    (UpdateLaser m self ldata samples).2.map (fun s => s.weight) =
      samples.map (fun s => s.weight) ∧
    (UpdateLaser m self ldata samples).1 = totalWeight samples := by
  have hw : ∀ sample, (UpdateParticle m self ldata sample).weight = sample.weight := by
    intro sample
    simp [UpdateParticle, sampleLogWeight_skip m self ldata hmax, hexp]
  have hmap : (samples.map (UpdateParticle m self ldata)).map (fun s => s.weight) =
      samples.map (fun s => s.weight) := by
    rw [List.map_map]
    exact List.map_congr_left (fun s _ => hw s)
  refine ⟨beamEvaluated_skip ldata hmax, hw, ?_, ?_⟩
  · rw [UpdateLaser_eq]; exact hmap
  · rw [UpdateLaser_eq]
    simp only [totalWeight]
    rw [hmap]

/-- C8 at the demo scan whose readings are `1` and `2` with `range_max = 1`. -/
theorem UpdateLaser_max_range_scan_witness :
    (∀ e ∈ (demoMaxScan ℝ).ranges, ∀ r, e.1 = some r → (demoMaxScan ℝ).range_max ≤ r) ∧
    (UpdateLaser (⟨Real.exp, Real.log, Real.cos, Real.sin⟩ : LibM ℝ) (demoLaser ℝ)
      (demoMaxScan ℝ) (demoSamples ℝ)).1 = totalWeight (demoSamples ℝ) :=
  have h : ∀ e ∈ (demoMaxScan ℝ).ranges, ∀ r, e.1 = some r → (demoMaxScan ℝ).range_max ≤ r := by
    intro e he r hr
    simp only [demoMaxScan, List.mem_cons, List.mem_singleton, List.not_mem_nil, or_false] at he
    rcases he with rfl | rfl <;> simp at hr <;> subst hr <;> norm_num [demoMaxScan]
  ⟨h, (UpdateLaser_max_range_scan (⟨Real.exp, Real.log, Real.cos, Real.sin⟩ : LibM ℝ) rfl
    (demoLaser ℝ) (demoMaxScan ℝ) (demoSamples ℝ) h).2.2.2⟩

/-- C9 fails at `range_count = 5`, `max_beams = 4`: the stride is
`max(1, floor(4/3)) = 1` and the loop visits the five indices `0, 1, 2, 3, 4`,
one more than `max_beams`; a scan of 100 readings with `max_beams = 30` has
stride 3 and 34 visited indices. -/
theorem beamIndices_exceed_max_beams :
    beamStep 5 4 = 1 ∧ beamIndices 5 4 = [0, 1, 2, 3, 4] ∧ ¬ (beamIndices 5 4).length ≤ 4 ∧
    beamStep 100 30 = 3 ∧ (beamIndices 100 30).length = 34 := by
  decide

/-- For non-negative operands the C division of the stride is the division of
natural numbers. -/
theorem beamStep_toNat (range_count max_beams : Nat) (hr : 1 ≤ range_count)
    (hb : 2 ≤ max_beams) :
    (beamStep (range_count : Int) (max_beams : Int)).toNat =
      max 1 ((range_count - 1) / (max_beams - 1)) := by
  have h1 : ((range_count : Int) - 1) = ((range_count - 1 : Nat) : Int) := by omega
  have h2 : ((max_beams : Int) - 1) = ((max_beams - 1 : Nat) : Int) := by omega
  simp only [beamStep]
  rw [h1, h2, ← Int.ofNat_tdiv]
  by_cases hq : (range_count - 1) / (max_beams - 1) < 1
  · have : (((range_count - 1) / (max_beams - 1) : Nat) : Int) < 1 := by exact_mod_cast hq
    rw [if_pos this]
    simp
    omega
  · have : ¬ (((range_count - 1) / (max_beams - 1) : Nat) : Int) < 1 := by
      intro h; exact hq (by exact_mod_cast h)
    rw [if_neg this]
    simp
    omega

/-- The loop `for (i = 0; i < range_count; i += step)` with `step ≥ 1` visits
`ceil((range_count - i) / step)` indices from `i` on. -/
theorem beamIndicesFrom_length (range_count step : Nat) (hs : 1 ≤ step) (fuel : Nat) :
    ∀ i, range_count ≤ fuel + i →
      (beamIndicesFrom range_count step fuel i).length = (range_count - i + step - 1) / step := by
  induction fuel with
  | zero =>
    intro i hi
    have : range_count - i = 0 := by omega
    simp only [beamIndicesFrom, List.length_nil, this, Nat.zero_add]
    exact (Nat.div_eq_of_lt (by omega)).symm
  | succ fuel ih =>
    intro i hi
    by_cases hlt : i < range_count
    · simp only [beamIndicesFrom, hlt, if_true, List.length_cons]
      rw [ih (i + step) (by omega)]
      by_cases hge : step ≤ range_count - i
      · have : range_count - i + step - 1 = (range_count - (i + step) + step - 1) + step := by
          omega
        rw [this, Nat.add_div_right _ (by omega)]
      · have h0 : range_count - (i + step) = 0 := by omega
        have h1 : (range_count - (i + step) + step - 1) / step = 0 := by
          rw [h0]; exact Nat.div_eq_of_lt (by omega)
        have h2 : (range_count - i + step - 1) / step = 1 := by
          have : range_count - i + step - 1 = (range_count - i - 1) + step := by omega
          rw [this, Nat.add_div_right _ (by omega), Nat.div_eq_of_lt (by omega)]
        rw [h1, h2]
    · have : range_count - i = 0 := by omega
      simp only [beamIndicesFrom, hlt, if_false, List.length_nil, this, Nat.zero_add]
      exact (Nat.div_eq_of_lt (by omega)).symm
theorem stride_mul (q b : Nat) (hb : 1 ≤ b) : q * b = (b - 1) * q + q := by
  obtain ⟨c, rfl⟩ : ∃ c, b = c + 1 := ⟨b - 1, by omega⟩
  simp only [Nat.add_sub_cancel]
  ring

/-- C9 (amended): for `range_count ≥ 1` and `max_beams ≥ 2` the stride is
`step = max(1, floor((range_count-1)/(max_beams-1)))` and the loop visits
`ceil(range_count/step)` indices; that number is at most `max_beams` when the
remainder of `range_count-1` by `max_beams-1` is below `step`, and at most
`2*max_beams - 2` in every case. -/
theorem beamIndices_count (range_count max_beams : Nat) (hr : 1 ≤ range_count)
    (hb : 2 ≤ max_beams) :
    beamStep (range_count : Int) (max_beams : Int) =
      ((max 1 ((range_count - 1) / (max_beams - 1)) : Nat) : Int) ∧
    (beamIndices range_count (max_beams : Int)).length =
      (range_count + max 1 ((range_count - 1) / (max_beams - 1)) - 1) /
        max 1 ((range_count - 1) / (max_beams - 1)) ∧
    ((range_count - 1) % (max_beams - 1) < max 1 ((range_count - 1) / (max_beams - 1)) →
      (beamIndices range_count (max_beams : Int)).length ≤ max_beams) ∧
    (beamIndices range_count (max_beams : Int)).length ≤ 2 * max_beams - 2 := by
  have hstep := beamStep_toNat range_count max_beams hr hb
  have hnonneg : 0 ≤ beamStep (range_count : Int) (max_beams : Int) := by
    simp only [beamStep]
    split_ifs with h
    · exact Int.one_nonneg
    · omega
  have hlen : (beamIndices range_count (max_beams : Int)).length =
      (range_count + max 1 ((range_count - 1) / (max_beams - 1)) - 1) /
        max 1 ((range_count - 1) / (max_beams - 1)) := by
    simp only [beamIndices]
    rw [hstep, beamIndicesFrom_length range_count _ (le_max_left 1 _) range_count 0 (by omega)]
    simp
  have hdm := Nat.div_add_mod (range_count - 1) (max_beams - 1)
  have hmod : (range_count - 1) % (max_beams - 1) < max_beams - 1 := Nat.mod_lt _ (by omega)
  refine ⟨?_, hlen, ?_, ?_⟩
  · rw [← hstep, Int.toNat_of_nonneg hnonneg]
  · intro hrem
    rw [hlen]
    rcases Nat.eq_zero_or_pos ((range_count - 1) / (max_beams - 1)) with hq | hq
    · rw [hq] at hdm ⊢
      simp only [Nat.zero_le, max_eq_left, Nat.add_sub_cancel, Nat.div_one]
      omega
    · have hmax : max 1 ((range_count - 1) / (max_beams - 1)) =
          (range_count - 1) / (max_beams - 1) := max_eq_right hq
      rw [hmax] at hrem ⊢
      have hnum : range_count + (range_count - 1) / (max_beams - 1) - 1 =
          (range_count - 1) % (max_beams - 1) +
            (range_count - 1) / (max_beams - 1) * max_beams := by
        have := stride_mul ((range_count - 1) / (max_beams - 1)) max_beams (by omega)
        omega
      rw [hnum, Nat.add_mul_div_left _ _ hq, Nat.div_eq_of_lt hrem]
      omega
  · rw [hlen]
    rcases Nat.eq_zero_or_pos ((range_count - 1) / (max_beams - 1)) with hq | hq
    · rw [hq] at hdm ⊢
      simp only [Nat.zero_le, max_eq_left, Nat.add_sub_cancel, Nat.div_one]
      omega
    · have hmax : max 1 ((range_count - 1) / (max_beams - 1)) =
          (range_count - 1) / (max_beams - 1) := max_eq_right hq
      rw [hmax]
      have hnum : range_count + (range_count - 1) / (max_beams - 1) - 1 =
          (range_count - 1) % (max_beams - 1) +
            (range_count - 1) / (max_beams - 1) * max_beams := by
        have := stride_mul ((range_count - 1) / (max_beams - 1)) max_beams (by omega)
        omega
      rw [hnum, Nat.add_mul_div_left _ _ hq]
      have hdiv : (range_count - 1) % (max_beams - 1) / ((range_count - 1) / (max_beams - 1)) ≤
          (range_count - 1) % (max_beams - 1) := Nat.div_le_self _ _
      omega

/-- C9 (amended) at `range_count = 5`, `max_beams = 4`: the stride is 1 and the
five visited indices are within `2*4 - 2`. -/
theorem beamIndices_count_witness :
    beamStep ((5 : Nat) : Int) ((4 : Nat) : Int) =
      ((max 1 ((5 - 1) / (4 - 1)) : Nat) : Int) ∧
    (beamIndices 5 ((4 : Nat) : Int)).length ≤ 2 * 4 - 2 :=
  ⟨(beamIndices_count 5 4 (by decide) (by decide)).1,
    (beamIndices_count 5 4 (by decide) (by decide)).2.2.2⟩

/-! ## Active-set maintenance -/

/-- The list built so far is a prefix of the result of the rebuild loop. -/
theorem rebuildActiveLoop_acc (epson_ : K) (l : List (pf_sample_t K)) (idx : Nat)
    (active : List Nat) :
    rebuildActiveLoop epson_ l idx active =
      (active ++ (rebuildActiveLoop epson_ l idx []).1, (rebuildActiveLoop epson_ l idx []).2) := by
  induction l generalizing idx active with
  | nil => simp [rebuildActiveLoop]
  | cons s rest ih =>
    by_cases h : s.weight > epson_
    · simp only [rebuildActiveLoop, h, if_true]
      rw [ih (idx + 1) (active ++ [idx]), ih (idx + 1) ([] ++ [idx])]
      simp
    · simp only [rebuildActiveLoop, h, if_false]
      rw [ih (idx + 1) active]

/-- The samples after the rebuild loop: a weight above `epson_` is kept, any
other weight becomes `epson_`. -/
theorem rebuildActiveLoop_samples (epson_ : K) (l : List (pf_sample_t K)) (idx : Nat)
    (active : List Nat) :
    (rebuildActiveLoop epson_ l idx active).2 =
      l.map (fun s => if s.weight > epson_ then s else { s with weight := epson_ }) := by
  induction l generalizing idx active with
  | nil => simp [rebuildActiveLoop]
  | cons s rest ih =>
    by_cases h : s.weight > epson_
    · simp [rebuildActiveLoop, h, ih]
    · simp [rebuildActiveLoop, h, ih]

/-- Membership in the list built by the rebuild loop started at `idx`. -/
theorem rebuildActiveLoop_mem (epson_ : K) (l : List (pf_sample_t K)) (idx : Nat) (i : Nat) :
    i ∈ (rebuildActiveLoop epson_ l idx []).1 ↔
      idx ≤ i ∧ ∃ s, l[i - idx]? = some s ∧ epson_ < s.weight := by
  induction l generalizing idx with
  | nil => simp [rebuildActiveLoop]
  | cons s rest ih =>
    have hstep : ∀ j, idx + 1 ≤ j → (s :: rest)[j - idx]? = rest[j - (idx + 1)]? := by
      intro j hj
      have : j - idx = (j - (idx + 1)) + 1 := by omega
      rw [this, List.getElem?_cons_succ]
    by_cases h : s.weight > epson_
    · simp only [rebuildActiveLoop, h, if_true]
      rw [rebuildActiveLoop_acc]
      simp only [List.nil_append, List.singleton_append, List.mem_cons, ih]
      constructor
      · rintro (rfl | ⟨hle, t, ht, hw⟩)
        · exact ⟨le_refl _, s, by simp, h⟩
        · exact ⟨by omega, t, by rw [hstep i hle]; exact ht, hw⟩
      · rintro ⟨hle, t, ht, hw⟩
        rcases Nat.eq_or_lt_of_le hle with heq | hlt
        · exact Or.inl heq.symm
        · exact Or.inr ⟨hlt, t, by rw [← hstep i hlt]; exact ht, hw⟩
    · simp only [rebuildActiveLoop, h, if_false, ih]
      constructor
      · rintro ⟨hle, t, ht, hw⟩
        exact ⟨by omega, t, by rw [hstep i hle]; exact ht, hw⟩
      · rintro ⟨hle, t, ht, hw⟩
        rcases Nat.eq_or_lt_of_le hle with heq | hlt
        · subst heq
          simp at ht
          subst ht
          exact absurd hw h
        · exact ⟨hlt, t, by rw [← hstep i hlt]; exact ht, hw⟩

/-- The list built by the rebuild loop is strictly increasing. -/
theorem rebuildActiveLoop_sorted (epson_ : K) (l : List (pf_sample_t K)) (idx : Nat) :
    List.Sorted (fun a b => a < b) (rebuildActiveLoop epson_ l idx []).1 := by
  induction l generalizing idx with
  | nil => simp [rebuildActiveLoop]
  | cons s rest ih =>
    by_cases h : s.weight > epson_
    · simp only [rebuildActiveLoop, h, if_true]
      rw [rebuildActiveLoop_acc]
      simp only [List.nil_append, List.singleton_append, List.sorted_cons]
      refine ⟨?_, ih (idx + 1)⟩
      intro b hb
      have := (rebuildActiveLoop_mem epson_ rest (idx + 1) b).mp hb
      omega
    · simp only [rebuildActiveLoop, h, if_false]
      exact ih (idx + 1)

/-- C2: after the active-set rebuild loop of `laserReceived`, no sample of the
current set has a weight below `epson_ = 1/(max_particles_ * 1024)`, with
`max_particles_` the number of free cells times the number of heading bins. -/
theorem floor_invariant (numFreeCells : Nat) (ares : Int) (samples : List (pf_sample_t K))
    (s : pf_sample_t K)
    (hs : s ∈ (rebuildActive (epson (max_particles numFreeCells (size_a ares))) samples).2) :
    ¬ s.weight < epson (max_particles numFreeCells (size_a ares)) ∧
    epson (max_particles numFreeCells (size_a ares)) =
      (1 : K) / ((((numFreeCells : Int) * size_a ares : Int) : K) * 1024) := by
  constructor
  · rw [rebuildActive, rebuildActiveLoop_samples, List.mem_map] at hs
    obtain ⟨t, _, rfl⟩ := hs
    by_cases h : t.weight > epson (max_particles numFreeCells (size_a ares))
    · simpa [h] using le_of_lt h
    · simp [h]
  · simp only [epson, max_particles, div_div]

/-- C2 at the demo grid: the sample whose weight was zero is in the buffer
with the floor weight after the loop. -/
theorem floor_invariant_witness :
    (⟨⟨0, 0, 1⟩, 1 / 4096, 0⟩ : pf_sample_t ℚ) ∈
      (rebuildActive (epson (max_particles 2 (size_a 180))) (demoGrid ℚ)).2 ∧
    ¬ (⟨⟨0, 0, 1⟩, 1 / 4096, 0⟩ : pf_sample_t ℚ).weight <
      epson (max_particles 2 (size_a 180)) :=
  have h : (⟨⟨0, 0, 1⟩, 1 / 4096, 0⟩ : pf_sample_t ℚ) ∈
      (rebuildActive (epson (max_particles 2 (size_a 180))) (demoGrid ℚ)).2 := by
    have hs : size_a 180 = 2 := by decide
    rw [rebuildActive, rebuildActiveLoop_samples, hs]
    norm_num [demoGrid, epson, max_particles]
  ⟨h, (floor_invariant 2 180 (demoGrid ℚ) _ h).1⟩

/-- C10: after the active-set rebuild, `active_sample_indices_` holds exactly
the indices whose weight was strictly above `epson_`, each once and in strictly
increasing order; those samples are unchanged and every other sample has its
weight set to `epson_`. -/
theorem active_set_rebuild (epson_ : K) (samples : List (pf_sample_t K)) :
    List.Sorted (fun a b => a < b) (rebuildActive epson_ samples).1 ∧
    (rebuildActive epson_ samples).1.Nodup ∧
    (∀ i, i ∈ (rebuildActive epson_ samples).1 ↔
      ∃ s, samples[i]? = some s ∧ epson_ < s.weight) ∧
    (rebuildActive epson_ samples).2.length = samples.length ∧
    (∀ i s, samples[i]? = some s →
      (i ∈ (rebuildActive epson_ samples).1 → (rebuildActive epson_ samples).2[i]? = some s) ∧
      (i ∉ (rebuildActive epson_ samples).1 →
        (rebuildActive epson_ samples).2[i]? = some { s with weight := epson_ })) := by
  have hsorted := rebuildActiveLoop_sorted epson_ samples 0
  have hmem : ∀ i, i ∈ (rebuildActive epson_ samples).1 ↔
      ∃ s, samples[i]? = some s ∧ epson_ < s.weight := by
    intro i
    simpa [rebuildActive] using rebuildActiveLoop_mem epson_ samples 0 i
  refine ⟨hsorted, ?_, hmem, ?_, ?_⟩
  · exact (List.Sorted.nodup hsorted : _)
  · simp [rebuildActive, rebuildActiveLoop_samples]
  · intro i s hi
    have hval : (rebuildActive epson_ samples).2[i]? =
        some (if s.weight > epson_ then s else { s with weight := epson_ }) := by
      simp [rebuildActive, rebuildActiveLoop_samples, List.getElem?_map, hi]
    constructor
    · intro hin
      obtain ⟨t, ht, hw⟩ := (hmem i).mp hin
      rw [hi] at ht
      cases ht
      rw [hval, if_pos hw]
    · intro hnin
      have hw : ¬ s.weight > epson_ := fun hw => hnin ((hmem i).mpr ⟨s, hi, hw⟩)
      rw [hval, if_neg hw]

/-- C10 at the demo grid with floor `1/4096`: the active list is `[0, 2]`; the
sample at the floor and the sample at zero are not in it. -/
theorem active_set_rebuild_demo :
    (rebuildActive (1 / 4096) (demoGrid ℚ)).1 = [0, 2] ∧
    (rebuildActive (1 / 4096) (demoGrid ℚ)).2.map (fun s => s.weight) =
      [1 / 2, 1 / 4096, 1 / 2, 1 / 4096] := by
  norm_num [rebuildActive, rebuildActiveLoop, demoGrid]

/-! ## Resampling -/

theorem sampleAt_of_lt (set : List (pf_sample_t K)) (i : Nat) (h : i < set.length) :
    sampleAt set i = set[i] := by
  simp [sampleAt, List.getElem?_eq_getElem h]

theorem cumWeight_zero (set_a : List (pf_sample_t K)) (h : 0 < set_a.length) :
    cumWeight set_a 0 = (sampleAt set_a 0).weight := by
  cases set_a with
  | nil => simp at h
  | cons s rest => simp [cumWeight, totalWeight, sampleAt]

theorem cumWeight_succ (set_a : List (pf_sample_t K)) (j : Nat) (h : j + 1 < set_a.length) :
    cumWeight set_a (j + 1) = cumWeight set_a j + (sampleAt set_a (j + 1)).weight := by
  rw [sampleAt_of_lt set_a (j + 1) h]
  simp only [cumWeight]
  rw [List.take_succ, totalWeight_append, List.getElem?_eq_getElem h]
  simp [totalWeight]

/-- Past the end of the set the cumulative weight is the total weight. -/
theorem cumWeight_last (set_a : List (pf_sample_t K)) :
    cumWeight set_a (set_a.length - 1) = totalWeight set_a := by
  simp only [cumWeight]
  rw [List.take_of_length_le (by omega)]

/-- Without wrap-around: from index `i` with `c` the cumulative weight at `i`
and a target `U` not above the total weight, the inner loop stops at the first
index `j ≥ i` whose cumulative weight reaches `U`, within `length - i`
iterations, and leaves `m` and `U` as they were. -/
theorem innerWalk_advance (set_a : List (pf_sample_t K)) (r count_inv : K) (m : Nat) (U : K)
    (hU : U ≤ cumWeight set_a (set_a.length - 1)) (d : Nat) :
    ∀ i, i + d + 1 = set_a.length →
      ∃ j, i ≤ j ∧ j < set_a.length ∧ (∀ j', i ≤ j' → j' < j → cumWeight set_a j' < U) ∧
        U ≤ cumWeight set_a j ∧
        ∀ fuel, set_a.length ≤ fuel + i →
          innerWalk set_a r count_inv fuel { i := i, c := cumWeight set_a i, m := m, U := U } =
            some { i := j, c := cumWeight set_a j, m := m, U := U } := by
  have hstop : ∀ i, i < set_a.length → U ≤ cumWeight set_a i →
      ∃ j, i ≤ j ∧ j < set_a.length ∧ (∀ j', i ≤ j' → j' < j → cumWeight set_a j' < U) ∧
        U ≤ cumWeight set_a j ∧
        ∀ fuel, set_a.length ≤ fuel + i →
          innerWalk set_a r count_inv fuel { i := i, c := cumWeight set_a i, m := m, U := U } =
            some { i := j, c := cumWeight set_a j, m := m, U := U } := by
    intro i hi hle
    refine ⟨i, le_refl _, hi, fun j' h1 h2 => absurd h2 (by omega), hle, ?_⟩
    intro fuel hfuel
    obtain ⟨f, rfl⟩ : ∃ f, fuel = f + 1 := ⟨fuel - 1, by omega⟩
    simp [innerWalk, not_lt.mpr hle]
  induction d with
  | zero =>
    intro i hi
    have hin : i = set_a.length - 1 := by omega
    exact hstop i (by omega) (by rw [hin]; exact hU)
  | succ d ih =>
    intro i hi
    by_cases hle : U ≤ cumWeight set_a i
    · exact hstop i (by omega) hle
    · have hgt : cumWeight set_a i < U := not_le.mp hle
      obtain ⟨j, hij, hjn, hbelow, hreach, hrun⟩ := ih (i + 1) (by omega)
      refine ⟨j, by omega, hjn, ?_, hreach, ?_⟩
      · intro j' h1 h2
        rcases Nat.eq_or_lt_of_le h1 with heq | hlt
        · rw [← heq]; exact hgt
        · exact hbelow j' hlt h2
      · intro fuel hfuel
        obtain ⟨f, rfl⟩ : ∃ f, fuel = f + 1 := ⟨fuel - 1, by omega⟩
        have hnot : ¬ (i + 1 ≥ set_a.length) := by omega
        simp only [innerWalk, gt_iff_lt, hgt, if_true, hnot, if_false]
        rw [← cumWeight_succ set_a i (by omega)]
        exact hrun f (by omega)

/-- Without wrap-around the outer loop writes `k` outputs, and output `t` is
the first source index whose cumulative weight reaches `r + (m + t) * count_inv`. -/
theorem resampleLoop_spec (set_a : List (pf_sample_t K)) (r count_inv : K)
    (hc : 0 ≤ count_inv) (fuel : Nat) (hf : set_a.length ≤ fuel) :
    ∀ k i m : Nat, i < set_a.length →
      (∀ j', j' < i → cumWeight set_a j' < r + (m : K) * count_inv) →
      (∀ t : Nat, t < k →
        r + ((m + t : Nat) : K) * count_inv ≤ cumWeight set_a (set_a.length - 1)) →
      ∃ idxs, resampleLoop set_a r count_inv fuel k i (cumWeight set_a i) m = some idxs ∧
        idxs.length = k ∧
        ∀ (t : Nat) (j : Nat), idxs[t]? = some j →
          IsFirstReaching set_a (r + ((m + t : Nat) : K) * count_inv) j := by
  intro k
  induction k with
  | zero =>
    intro i m _ _ _
    exact ⟨[], by simp [resampleLoop], rfl, by simp⟩
  | succ k ih =>
    intro i m hi hbelow htot
    have hU : r + (m : K) * count_inv ≤ cumWeight set_a (set_a.length - 1) := by
      simpa using htot 0 (Nat.succ_pos k)
    obtain ⟨j, hij, hjn, hb, hreach, hrun⟩ :=
      innerWalk_advance set_a r count_inv m (r + (m : K) * count_inv) hU
        (set_a.length - 1 - i) i (by omega)
    have hbj : ∀ j', j' < j → cumWeight set_a j' < r + (m : K) * count_inv := by
      intro j' hj'
      by_cases h : j' < i
      · exact hbelow j' h
      · exact hb j' (not_lt.mp h) hj'
    have hmono : r + (m : K) * count_inv ≤ r + ((m + 1 : Nat) : K) * count_inv := by
      push_cast
      nlinarith
    obtain ⟨idxs, hres, hlen, hspec⟩ := ih j (m + 1) hjn
      (fun j' hj' => lt_of_lt_of_le (hbj j' hj') hmono)
      (fun t ht => by
        have := htot (t + 1) (by omega)
        rwa [show m + (t + 1) = m + 1 + t by omega] at this)
    refine ⟨j :: idxs, ?_, by simp [hlen], ?_⟩
    · simp only [resampleLoop]
      rw [hrun fuel (by omega)]
      simp only [hres]
    · intro t j2 ht
      cases t with
      | zero =>
        simp at ht
        subst ht
        exact ⟨hjn, by simpa using hreach, by simpa using hbj⟩
      | succ t =>
        simp at ht
        have := hspec t j2 ht
        rwa [show m + 1 + t = m + (t + 1) by omega] at this

/-- The cumulative weights of a set whose whole weight `1` is on sample `k`. -/
theorem cumWeight_concentrated (set_a : List (pf_sample_t K)) (k : Nat)
    (hwk : (sampleAt set_a k).weight = 1)
    (hw0 : ∀ j, j < set_a.length → j ≠ k → (sampleAt set_a j).weight = 0) :
    ∀ j, j < set_a.length → cumWeight set_a j = if j < k then 0 else 1 := by
  intro j
  induction j with
  | zero =>
    intro hj
    rw [cumWeight_zero set_a hj]
    by_cases h : 0 < k
    · rw [if_pos h, hw0 0 hj (by omega)]
    · have hk0 : k = 0 := by omega
      rw [if_neg h, ← hk0, hwk]
  | succ j ih =>
    intro hj
    rw [cumWeight_succ set_a j hj, ih (by omega)]
    by_cases h1 : j + 1 < k
    · rw [if_pos h1, if_pos (by omega), hw0 (j + 1) hj (by omega)]; simp
    · by_cases h2 : j + 1 = k
      · rw [if_neg h1, if_pos (by omega), h2, hwk]; simp
      · rw [if_neg h1, if_neg (by omega), hw0 (j + 1) hj h2]; simp

/-- In a set concentrated on sample `k`, the first index whose cumulative
weight reaches a target `U ≤ 1` is `k`, when `U > 0` or `k = 0`. -/
theorem IsFirstReaching_concentrated (set_a : List (pf_sample_t K)) (k : Nat)
    (hk : k < set_a.length) (hwk : (sampleAt set_a k).weight = 1)
    (hw0 : ∀ j, j < set_a.length → j ≠ k → (sampleAt set_a j).weight = 0)
    (U : K) (hU1 : U ≤ 1) (hpos : 0 < U ∨ k = 0) (j : Nat)
    (hj : IsFirstReaching set_a U j) : j = k := by
  obtain ⟨hjn, hreach, hbelow⟩ := hj
  have hcum := cumWeight_concentrated set_a k hwk hw0
  by_contra hne
  rcases Nat.lt_or_gt_of_ne hne with hlt | hgt
  · rw [hcum j hjn, if_pos hlt] at hreach
    rcases hpos with hp | hk0
    · exact absurd hreach (not_le.mpr hp)
    · omega
  · have := hbelow k hgt
    rw [hcum k hk, if_neg (lt_irrefl k)] at this
    exact absurd hU1 (not_le.mpr this)

/-- The draw positions `r + t/N`, `t < N`, stay below 1 for `r < 1/N`. -/
theorem draw_lt_one (target_size : Nat) (r : K) (hr1 : r < 1 / (target_size : K))
    (t : Nat) (ht : t < target_size) : r + (t : K) * (1 / (target_size : K)) < 1 := by
  have hN : (0 : K) < (target_size : K) := by exact_mod_cast (by omega : 0 < target_size)
  have ht1 : (t : K) + 1 ≤ (target_size : K) := by exact_mod_cast ht
  have h1 : r + (t : K) * (1 / (target_size : K)) < ((t : K) + 1) * (1 / (target_size : K)) := by
    linarith
  have h2 : ((t : K) + 1) * (1 / (target_size : K)) ≤ 1 := by
    rw [mul_one_div, div_le_one hN]
    exact ht1
  linarith

/-- C3 (amended): for a source set whose whole weight 1 is on sample `k`, a
target size `N ≥ 1` and an offset `r` in `[0, 1/N)` that is positive unless
`k = 0`, `downsizingSampling` terminates, writes exactly `N` samples, and every
one of them has the pose of source sample `k`. -/
theorem downsizingSampling_concentrated (set_a set_b : List (pf_sample_t K))
    (k target_size : Nat) (r : K) (fuel : Nat)
    (hk : k < set_a.length) (hwk : (sampleAt set_a k).weight = 1)
    (hw0 : ∀ j, j < set_a.length → j ≠ k → (sampleAt set_a j).weight = 0)
    (hN : 1 ≤ target_size) (_hr0 : 0 ≤ r) (hr1 : r < 1 / (target_size : K))
    (hpos : 0 < r ∨ k = 0) (hfuel : set_a.length ≤ fuel) :
    ∃ out, downsizingSamplingFrom set_a set_b target_size r fuel = some out ∧
      out.length = target_size ∧ ∀ s ∈ out, s.pose = (sampleAt set_a k).pose := by
  have hNK : (0 : K) < (target_size : K) := by exact_mod_cast (by omega : 0 < target_size)
  have hc : (0 : K) ≤ 1 / (target_size : K) := by positivity
  have hlast : cumWeight set_a (set_a.length - 1) = 1 := by
    rw [cumWeight_concentrated set_a k hwk hw0 _ (by omega), if_neg (by omega)]
  obtain ⟨idxs, hres, hlen, hspec⟩ := resampleLoop_spec set_a r (1 / (target_size : K)) hc fuel
    hfuel target_size 0 0 (by omega) (fun j' hj' => absurd hj' (by omega))
    (fun t ht => by
      rw [hlast, Nat.zero_add]
      exact le_of_lt (draw_lt_one target_size r hr1 t ht))
  have hall : ∀ j ∈ idxs, j = k := by
    intro j hj
    obtain ⟨t, ht, hget⟩ := List.getElem_of_mem hj
    have hfirst := hspec t j (by rw [List.getElem?_eq_getElem ht, hget])
    rw [Nat.zero_add] at hfirst
    refine IsFirstReaching_concentrated set_a k hk hwk hw0 _
      (le_of_lt (draw_lt_one target_size r hr1 t (by omega))) ?_ j hfirst
    rcases hpos with hp | hk0
    · left
      have : (0 : K) ≤ (t : K) * (1 / (target_size : K)) := by positivity
      linarith
    · exact Or.inr hk0
  rw [cumWeight_zero set_a (by omega)] at hres
  have hout : downsizingSamplingFrom set_a set_b target_size r fuel =
      some (idxs.enum.map (fun p =>
        { pose := (sampleAt set_a p.2).pose, weight := 1 / (idxs.map (fun _ => (1 : K))).sum,
          logWeight := (sampleAt set_b p.1).logWeight })) := by
    simp only [downsizingSamplingFrom, downsizingIndices, hres]
  refine ⟨_, hout, by simp [hlen], ?_⟩
  intro s hs
  simp only [List.mem_map] at hs
  obtain ⟨p, hp, rfl⟩ := hs
  have hp2 : p.2 ∈ idxs := by
    obtain ⟨a, b⟩ := p
    obtain ⟨ha, hb⟩ := List.mem_enum hp
    rw [hb]
    exact List.getElem_mem ha
  simp [hall p.2 hp2]

/-- C3 at the set concentrated on sample 1 with `N = 2`, `r = 1/4`. -/
theorem downsizingSampling_concentrated_witness :
    ∃ out, downsizingSamplingFrom (demoConcentrated ℚ) [] 2 (1 / 4) 2 = some out ∧
      out.length = 2 ∧ ∀ s ∈ out, s.pose = (sampleAt (demoConcentrated ℚ) 1).pose :=
  downsizingSampling_concentrated (demoConcentrated ℚ) [] 1 2 (1 / 4) 2
    (by simp [demoConcentrated]) (by simp [demoConcentrated, sampleAt])
    (by
      intro j hj hne
      have hj2 : j < 2 := by simpa [demoConcentrated] using hj
      interval_cases j
      · simp [demoConcentrated, sampleAt]
      · exact absurd rfl hne)
    (by norm_num) (by norm_num) (by norm_num) (Or.inl (by norm_num))
    (by simp [demoConcentrated])

/-- C3 fails at offset `r = 0` when the weight is not on sample 0: for the
source set with weights `[0, 1]`, target size `N = 1` and `r = 0` (which lies
in `[0, 1/N)`), the single output is a copy of sample 0, whose pose differs
from that of sample 1. -/
theorem downsizingSampling_concentrated_counterexample :
    (sampleAt (demoConcentrated ℚ) 1).weight = 1 ∧
    (sampleAt (demoConcentrated ℚ) 0).weight = 0 ∧
    (0 : ℚ) ≤ 0 ∧ (0 : ℚ) < 1 / ((1 : Nat) : ℚ) ∧
    downsizingIndices (demoConcentrated ℚ) 1 0 2 = some [0] ∧
    downsizingSamplingFrom (demoConcentrated ℚ) [] 1 0 2 =
      some [⟨(sampleAt (demoConcentrated ℚ) 0).pose, 1, 0⟩] ∧
    (sampleAt (demoConcentrated ℚ) 0).pose ≠ (sampleAt (demoConcentrated ℚ) 1).pose := by
  have hidx : downsizingIndices (demoConcentrated ℚ) 1 0 2 = some [0] := by
    norm_num [downsizingIndices, resampleLoop, innerWalk, demoConcentrated, sampleAt]
  refine ⟨by simp [demoConcentrated, sampleAt], by simp [demoConcentrated, sampleAt],
    le_refl _, by norm_num, hidx, ?_, ?_⟩
  · simp only [downsizingSamplingFrom, hidx]
    norm_num [List.enum, demoConcentrated, sampleAt]
  · simp [demoConcentrated, sampleAt]

/-- For a predicate on naturals that is closed downwards, the number `F` of
`t < N` that satisfy it marks the boundary: it holds below `F` and fails at
`F` when `F < N`. -/
theorem countP_range_downward (p : Nat → Bool) (hdown : ∀ t, p (t + 1) = true → p t = true)
    (N : Nat) :
    (∀ t, t < (List.range N).countP p → p t = true) ∧
    ((List.range N).countP p < N → p ((List.range N).countP p) = false) := by
  have hall : ∀ t s, s ≤ t → p t = true → p s = true := by
    intro t
    induction t with
    | zero => intro s hs h; rwa [Nat.le_zero.mp hs]
    | succ t ih =>
      intro s hs h
      rcases Nat.eq_or_lt_of_le hs with heq | hlt
      · rwa [heq]
      · exact ih s (by omega) (hdown t h)
  induction N with
  | zero => simp
  | succ N ih =>
    obtain ⟨ih1, ih2⟩ := ih
    have hle : (List.range N).countP p ≤ N := by
      simpa using List.countP_le_length p (l := List.range N)
    rw [List.range_succ, List.countP_append]
    by_cases hN : p N = true
    · have hfull : (List.range N).countP p = N := by
        by_contra hne
        have hlt : (List.range N).countP p < N := by omega
        have h1 := ih2 hlt
        have h2 := hall N _ hle hN
        rw [h1] at h2
        exact absurd h2 (by simp)
      simp only [List.countP_cons, List.countP_nil, hN, if_true, hfull]
      refine ⟨fun t ht => hall N t (by omega) hN, fun h => absurd h (by omega)⟩
    · have hN' : p N = false := by simpa using hN
      simp only [List.countP_cons, List.countP_nil, hN', Bool.false_eq_true, if_false,
        Nat.add_zero]
      refine ⟨ih1, fun _ => ?_⟩
      rcases Nat.eq_or_lt_of_le hle with heq | hlt
      · rw [heq]; exact hN'
      · exact ih2 hlt

/-- A draw position compared with `x`, cleared of the division by `N`. -/
theorem draw_le_iff (N : Nat) (hN : 1 ≤ N) (r x : K) (t : Nat) :
    r + (t : K) * (1 / (N : K)) ≤ x ↔ (N : K) * r + (t : K) ≤ (N : K) * x := by
  have hNK : (0 : K) < (N : K) := by exact_mod_cast (by omega : 0 < N)
  have h : (N : K) * (r + (t : K) * (1 / (N : K))) = (N : K) * r + (t : K) := by
    field_simp
    ring
  rw [← h]
  exact (mul_le_mul_left hNK).symm

/-- The number of draws at or below `x ∈ [0, 1]` differs from `N * x - N * r`
by at most one, from above. -/
theorem drawCount_bounds (N : Nat) (hN : 1 ≤ N) (r : K) (hr0 : 0 ≤ r)
    (hr1 : r < 1 / (N : K)) (x : K) (hx0 : 0 ≤ x) (hx1 : x ≤ 1) :
    (N : K) * x - (N : K) * r ≤ (drawCount r (1 / (N : K)) N x : K) ∧
    (drawCount r (1 / (N : K)) N x : K) ≤ (N : K) * x - (N : K) * r + 1 := by
  have hNK : (0 : K) < (N : K) := by exact_mod_cast (by omega : 0 < N)
  have hNr : (N : K) * r < 1 := by
    have := mul_lt_mul_of_pos_left hr1 hNK
    rwa [mul_one_div, div_self (ne_of_gt hNK)] at this
  have hNr0 : 0 ≤ (N : K) * r := by positivity
  have hNx0 : 0 ≤ (N : K) * x := by positivity
  have hNx1 : (N : K) * x ≤ (N : K) := by
    have := mul_le_mul_of_nonneg_left hx1 (le_of_lt hNK)
    rwa [mul_one] at this
  have hdown : ∀ t : Nat,
      (fun t : Nat => decide (r + (t : K) * (1 / (N : K)) ≤ x)) (t + 1) = true →
      (fun t : Nat => decide (r + (t : K) * (1 / (N : K)) ≤ x)) t = true := by
    intro t ht
    simp only [decide_eq_true_eq] at ht ⊢
    rw [draw_le_iff N hN] at ht ⊢
    push_cast at ht
    linarith
  obtain ⟨h1, h2⟩ :=
    countP_range_downward (fun t : Nat => decide (r + (t : K) * (1 / (N : K)) ≤ x)) hdown N
  have hF : (List.range N).countP (fun t : Nat => decide (r + (t : K) * (1 / (N : K)) ≤ x)) =
      drawCount r (1 / (N : K)) N x := rfl
  rw [hF] at h1 h2
  have hle : drawCount r (1 / (N : K)) N x ≤ N := by
    have := List.countP_le_length (fun t : Nat => decide (r + (t : K) * (1 / (N : K)) ≤ x))
      (l := List.range N)
    rwa [hF, List.length_range] at this
  constructor
  · rcases Nat.eq_or_lt_of_le hle with heq | hlt
    · rw [heq]; linarith
    · have := h2 hlt
      simp only [decide_eq_false_iff_not, not_le] at this
      have h3 := (not_le.mpr this)
      rw [draw_le_iff N hN] at h3
      have h4 := not_le.mp h3
      linarith
  · by_cases hz : drawCount r (1 / (N : K)) N x = 0
    · rw [hz]; simp; linarith
    · have hpos : drawCount r (1 / (N : K)) N x - 1 < drawCount r (1 / (N : K)) N x := by omega
      have := h1 _ hpos
      simp only [decide_eq_true_eq] at this
      rw [draw_le_iff N hN] at this
      have hcast : ((drawCount r (1 / (N : K)) N x - 1 : Nat) : K) =
          (drawCount r (1 / (N : K)) N x : K) - 1 := by
        rw [Nat.cast_sub (by omega)]; simp
      rw [hcast] at this
      linarith

theorem sampleAt_weight_nonneg (set_a : List (pf_sample_t K))
    (hw : ∀ s ∈ set_a, 0 ≤ s.weight) (i : Nat) (hi : i < set_a.length) :
    0 ≤ (sampleAt set_a i).weight := by
  rw [sampleAt_of_lt set_a i hi]
  exact hw _ (List.getElem_mem hi)

/-- With non-negative weights the cumulative weight does not decrease. -/
theorem cumWeight_mono (set_a : List (pf_sample_t K)) (hw : ∀ s ∈ set_a, 0 ≤ s.weight)
    (j : Nat) : ∀ j', j ≤ j' → j' < set_a.length → cumWeight set_a j ≤ cumWeight set_a j' := by
  intro j'
  induction j' with
  | zero => intro h _; rw [Nat.le_zero.mp h]
  | succ j' ih =>
    intro h hlt
    rcases Nat.eq_or_lt_of_le h with heq | hlt'
    · rw [heq]
    · have h1 := ih (by omega) (by omega)
      rw [cumWeight_succ set_a j' hlt]
      have := sampleAt_weight_nonneg set_a hw (j' + 1) hlt
      linarith

theorem cumWeight_nonneg (set_a : List (pf_sample_t K)) (hw : ∀ s ∈ set_a, 0 ≤ s.weight)
    (j : Nat) (hj : j < set_a.length) : 0 ≤ cumWeight set_a j := by
  have h0 : 0 ≤ cumWeight set_a 0 := by
    rw [cumWeight_zero set_a (by omega)]
    exact sampleAt_weight_nonneg set_a hw 0 (by omega)
  exact le_trans h0 (cumWeight_mono set_a hw 0 j (by omega) hj)

theorem cumWeight_le_total (set_a : List (pf_sample_t K)) (hw : ∀ s ∈ set_a, 0 ≤ s.weight)
    (j : Nat) (hj : j < set_a.length) : cumWeight set_a j ≤ totalWeight set_a := by
  rw [← cumWeight_last]
  exact cumWeight_mono set_a hw j _ (by omega) (by omega)

/-- With non-negative weights, the first index reaching `U` is `i` exactly when
the cumulative weight at `i` reaches `U` and the one before `i` does not. -/
theorem IsFirstReaching_iff (set_a : List (pf_sample_t K)) (hw : ∀ s ∈ set_a, 0 ≤ s.weight)
    (U : K) (i j : Nat) (hi : i < set_a.length) (hj : IsFirstReaching set_a U j) :
    j = i ↔ (U ≤ cumWeight set_a i ∧ ¬ (i ≠ 0 ∧ U ≤ cumWeight set_a (i - 1))) := by
  obtain ⟨hjn, hreach, hbelow⟩ := hj
  constructor
  · rintro rfl
    refine ⟨hreach, ?_⟩
    rintro ⟨hne, hle⟩
    exact absurd hle (not_le.mpr (hbelow (j - 1) (by omega)))
  · rintro ⟨hle, hnot⟩
    by_contra hne
    rcases Nat.lt_or_gt_of_ne hne with hlt | hgt
    · apply hnot
      refine ⟨by omega, le_trans hreach (cumWeight_mono set_a hw j (i - 1) (by omega) (by omega))⟩
    · exact absurd hle (not_le.mpr (hbelow i hgt))

/-- The occurrences of `i` in a list, counted over the positions. -/
theorem count_eq_countP_range (l : List Nat) (i : Nat) :
    l.count i = (List.range l.length).countP (fun t => decide (l[t]? = some i)) := by
  induction l using List.reverseRecOn with
  | nil => simp
  | append_singleton l a ih =>
    rw [List.count_append, List.length_append, List.length_singleton, List.range_succ,
      List.countP_append, ih]
    congr 1
    · apply List.countP_congr
      intro t ht
      have htl : t < l.length := List.mem_range.mp ht
      simp [List.getElem?_append_left htl]
    · by_cases h : a = i <;> simp [h, List.count_cons]

/-- Splitting a count along a condition implied by the counted one. -/
theorem countP_diff {α : Type} (p q : α → Bool) (hqp : ∀ a, q a = true → p a = true)
    (l : List α) : l.countP (fun a => p a && !q a) + l.countP q = l.countP p := by
  induction l with
  | nil => simp
  | cons a l ih =>
    simp only [List.countP_cons]
    cases hq : q a
    · cases hp : p a <;> simp <;> omega
    · have hp := hqp a hq
      simp [hp]
      omega

/-- For non-negative source weights that sum to 1, a target size `N ≥ 1` and
an offset `r` in `[0, 1/N)`, `downsizingSampling` terminates (any fuel of at
least the source size is enough for each inner loop), writes `N` outputs, and
copies every source index `i` a number of times within 1 of `N * w_i`. -/
theorem resample_count_bound (set_a : List (pf_sample_t K)) (N : Nat) (r : K) (fuel : Nat)
    (hw : ∀ s ∈ set_a, 0 ≤ s.weight) (hsum : totalWeight set_a = 1) (hN : 1 ≤ N)
    (hr0 : 0 ≤ r) (hr1 : r < 1 / (N : K)) (hfuel : set_a.length ≤ fuel) :
    ∃ idxs, downsizingIndices set_a N r fuel = some idxs ∧ idxs.length = N ∧
      ∀ i, i < set_a.length →
        |((idxs.count i : Nat) : K) - (N : K) * (sampleAt set_a i).weight| ≤ 1 := by
  have hn : 0 < set_a.length := by
    rcases set_a with _ | ⟨s, rest⟩
    · simp [totalWeight] at hsum
    · simp
  have hNK : (0 : K) < (N : K) := by exact_mod_cast (by omega : 0 < N)
  have hc : (0 : K) ≤ 1 / (N : K) := by positivity
  have hNr : (N : K) * r < 1 := by
    have := mul_lt_mul_of_pos_left hr1 hNK
    rwa [mul_one_div, div_self (ne_of_gt hNK)] at this
  have hNr0 : 0 ≤ (N : K) * r := by positivity
  have hlast : cumWeight set_a (set_a.length - 1) = 1 := by rw [cumWeight_last, hsum]
  obtain ⟨idxs, hres, hlen, hspec⟩ := resampleLoop_spec set_a r (1 / (N : K)) hc fuel
    hfuel N 0 0 hn (fun j' hj' => absurd hj' (by omega))
    (fun t ht => by
      rw [hlast, Nat.zero_add]
      exact le_of_lt (draw_lt_one N r hr1 t ht))
  rw [cumWeight_zero set_a hn] at hres
  refine ⟨idxs, by simp only [downsizingIndices, hres], hlen, ?_⟩
  intro i hi
  have hcount : idxs.count i =
      (List.range N).countP (fun t : Nat =>
        decide (r + (t : K) * (1 / (N : K)) ≤ cumWeight set_a i) &&
          !decide (i ≠ 0 ∧ r + (t : K) * (1 / (N : K)) ≤ cumWeight set_a (i - 1))) := by
    rw [count_eq_countP_range, hlen]
    apply List.countP_congr
    intro t ht
    have htN : t < idxs.length := by rw [hlen]; exact List.mem_range.mp ht
    have hfirst := hspec t idxs[t] (List.getElem?_eq_getElem htN)
    rw [Nat.zero_add] at hfirst
    have hiff := IsFirstReaching_iff set_a hw _ i idxs[t] hi hfirst
    simp only [List.getElem?_eq_getElem htN, Option.some.injEq, decide_eq_true_eq,
      Bool.and_eq_true, Bool.not_eq_true', decide_eq_false_iff_not]
    exact hiff
  have hsplit := countP_diff
    (fun t : Nat => decide (r + (t : K) * (1 / (N : K)) ≤ cumWeight set_a i))
    (fun t : Nat => decide (i ≠ 0 ∧ r + (t : K) * (1 / (N : K)) ≤ cumWeight set_a (i - 1)))
    (by
      intro t ht
      simp only [decide_eq_true_eq] at ht ⊢
      exact le_trans ht.2 (cumWeight_mono set_a hw (i - 1) i (by omega) hi))
    (List.range N)
  rw [← hcount] at hsplit
  have hbi := drawCount_bounds N hN r hr0 hr1 (cumWeight set_a i)
    (cumWeight_nonneg set_a hw i hi) (by rw [← hsum]; exact cumWeight_le_total set_a hw i hi)
  have hPi : (List.range N).countP
      (fun t : Nat => decide (r + (t : K) * (1 / (N : K)) ≤ cumWeight set_a i)) =
      drawCount r (1 / (N : K)) N (cumWeight set_a i) := rfl
  rw [hPi] at hsplit
  rcases Nat.eq_zero_or_pos i with hi0 | hipos
  · subst hi0
    have hQ : (List.range N).countP (fun t : Nat =>
        decide ((0 : Nat) ≠ 0 ∧ r + (t : K) * (1 / (N : K)) ≤ cumWeight set_a (0 - 1))) = 0 := by
      simp
    rw [hQ, Nat.add_zero] at hsplit
    rw [hsplit, ← cumWeight_zero set_a hn, abs_le]
    constructor <;> linarith [hbi.1, hbi.2]
  · have hQ : (List.range N).countP (fun t : Nat =>
        decide (i ≠ 0 ∧ r + (t : K) * (1 / (N : K)) ≤ cumWeight set_a (i - 1))) =
        drawCount r (1 / (N : K)) N (cumWeight set_a (i - 1)) := by
      simp only [drawCount]
      apply List.countP_congr
      intro t _
      have : i ≠ 0 := by omega
      simp [this]
    rw [hQ] at hsplit
    have hbp := drawCount_bounds N hN r hr0 hr1 (cumWeight set_a (i - 1))
      (cumWeight_nonneg set_a hw (i - 1) (by omega))
      (by rw [← hsum]; exact cumWeight_le_total set_a hw (i - 1) (by omega))
    have hwi : (sampleAt set_a i).weight = cumWeight set_a i - cumWeight set_a (i - 1) := by
      have := cumWeight_succ set_a (i - 1) (by omega)
      rw [show i - 1 + 1 = i by omega] at this
      linarith
    have hcast : ((idxs.count i : Nat) : K) =
        (drawCount r (1 / (N : K)) N (cumWeight set_a i) : K) -
          (drawCount r (1 / (N : K)) N (cumWeight set_a (i - 1)) : K) := by
      rw [← hsplit]; push_cast; ring
    rw [hcast, hwi, abs_le, mul_sub]
    constructor <;> linarith [hbi.1, hbi.2, hbp.1, hbp.2]

/-- The two-cell belief `{0.9, 0.1}` resampled to 1000 outputs: for every
offset `r` in `[0, 1/1000)` between 899 and 901 outputs are copies of cell 0. -/
theorem twoCell_count (r : K) (hr0 : 0 ≤ r) (hr1 : r < 1 / ((1000 : Nat) : K)) (fuel : Nat)
    (hfuel : 2 ≤ fuel) :
    ∃ idxs, downsizingIndices (demoTwoCell K) 1000 r fuel = some idxs ∧ idxs.length = 1000 ∧
      899 ≤ idxs.count 0 ∧ idxs.count 0 ≤ 901 := by
  obtain ⟨idxs, hres, hlen, hb⟩ := resample_count_bound (demoTwoCell K) 1000 r fuel
    (by
      intro s hs
      simp only [demoTwoCell, List.mem_cons, List.mem_singleton, List.not_mem_nil,
        or_false] at hs
      rcases hs with rfl | rfl <;> norm_num)
    (by norm_num [demoTwoCell, totalWeight]) (by norm_num) hr0 hr1
    (by simpa [demoTwoCell] using hfuel)
  refine ⟨idxs, hres, hlen, ?_⟩
  have h0 := hb 0 (by simp [demoTwoCell])
  have hw0 : (sampleAt (demoTwoCell K) 0).weight = 9 / 10 := by simp [demoTwoCell, sampleAt]
  rw [hw0, abs_le] at h0
  obtain ⟨hlo, hhi⟩ := h0
  have hlo' : ((899 : Nat) : K) ≤ ((idxs.count 0 : Nat) : K) := by
    push_cast at hlo ⊢; linarith
  have hhi' : ((idxs.count 0 : Nat) : K) ≤ ((901 : Nat) : K) := by
    push_cast at hhi ⊢; linarith
  exact ⟨Nat.cast_le.mp hlo', Nat.cast_le.mp hhi'⟩

/-! ## Motion update -/

/-- Folding a slice-wise operation over the ranges of `spawnRanges` processes
the `k * grainsize` items from `p` on. -/
theorem spawnRanges_slices {σ : Type} (W : List Nat → σ → σ) (hW0 : ∀ s, W [] s = s)
    (hW : ∀ a b s, W (a ++ b) s = W b (W a s)) (l : List Nat) (g k p : Nat) (st : σ) :
    (spawnRanges g k p).2 = p + k * g ∧
    (spawnRanges g k p).1.foldl (fun st r => W ((l.drop r.1).take (r.2 - r.1)) st) st =
      W ((l.drop p).take (k * g)) st := by
  induction k generalizing p st with
  | zero => simp [spawnRanges, hW0]
  | succ k ih =>
    obtain ⟨ih1, ih2⟩ := ih (p + g) (W ((l.drop p).take g) st)
    have hk : p + (k + 1) * g = p + g + k * g := by ring
    refine ⟨by simp [spawnRanges, ih1, hk], ?_⟩
    simp only [spawnRanges, List.foldl_cons, Nat.add_sub_cancel_left]
    rw [ih2, ← hW]
    have : (k + 1) * g = g + k * g := by ring
    rw [this, List.take_add, List.drop_drop]

/-- Folding a slice-wise operation over the worker ranges of a list processes
the whole list, whatever the number of threads. -/
theorem workerRanges_slices {σ : Type} (W : List Nat → σ → σ) (hW0 : ∀ s, W [] s = s)
    (hW : ∀ a b s, W (a ++ b) s = W b (W a s)) (l : List Nat) (nb_threads : Nat) (st : σ) :
    (workerRanges l.length nb_threads).foldl
      (fun st r => W ((l.drop r.1).take (r.2 - r.1)) st) st = W l st := by
  obtain ⟨h1, h2⟩ := spawnRanges_slices W hW0 hW l (l.length / nb_threads) (nb_threads - 1) 0 st
  simp only [workerRanges, List.foldl_append, List.foldl_cons, List.foldl_nil]
  rw [h2, h1, ← hW]
  have hlen : (List.take ((nb_threads - 1) * (l.length / nb_threads)) (List.drop 0 l) ++
      List.take (l.length - (0 + (nb_threads - 1) * (l.length / nb_threads)))
        (List.drop (0 + (nb_threads - 1) * (l.length / nb_threads)) l)) = l := by
    simp only [List.drop_zero, Nat.zero_add]
    rw [List.take_of_length_le (l := List.drop _ l) (by simp), List.take_append_drop]
  rw [hlen]

/-- The convolution is `worker2` run on the whole of `active_sample_indices_`. -/
theorem convolve_eq (C : ConvInput K) (nb_threads : Nat) (active : List Nat)
    (current_set previous_set : List (pf_sample_t K)) :
    convolve C nb_threads active current_set previous_set =
      worker2 C previous_set active (0, current_set) := by
  simp only [convolve]
  exact workerRanges_slices (worker2 C previous_set) (fun _ => rfl)
    (fun a b s => by simp [worker2, List.foldl_append]) active nb_threads (0, current_set)

/-- The weight accumulated for a particle depends on its pose only. -/
theorem accumulativeWeight_congr (C : ConvInput K) (previous_set : List (pf_sample_t K))
    (s s' : pf_sample_t K) (h : s.pose = s'.pose) :
    accumulativeWeight C previous_set s = accumulativeWeight C previous_set s' := by
  simp only [accumulativeWeight, validNeighbors, h]

theorem totalWeight_set (l : List (pf_sample_t K)) (i : Nat) (s : pf_sample_t K)
    (hi : i < l.length) :
    totalWeight (l.set i s) = totalWeight l - (sampleAt l i).weight + s.weight := by
  induction l generalizing i with
  | nil => simp at hi
  | cons a l ih =>
    cases i with
    | zero => simp [totalWeight, sampleAt, add_comm]
    | succ i =>
      have hi' : i < l.length := by simpa using hi
      have h := ih i hi'
      simp only [totalWeight, sampleAt, List.set_cons_succ, List.map_cons, List.sum_cons,
        List.getD_cons_succ] at h ⊢
      rw [h]; ring

theorem sampleAt_set (l : List (pf_sample_t K)) (i j : Nat) (s : pf_sample_t K) :
    sampleAt (l.set i s) j = if i = j ∧ i < l.length then s else sampleAt l j := by
  simp only [sampleAt, List.getD_eq_getElem?_getD, List.getElem?_set]
  by_cases hij : i = j
  · subst hij
    by_cases hi : i < l.length
    · simp [hi]
    · simp [hi, List.getElem?_eq_none (not_lt.mp hi)]
  · simp [hij]

/-- The result of `worker2` on a list of distinct in-range indices: the total
grows by the accumulated weights, the samples at the listed indices get their
accumulated weight, and every other sample is as before. -/
theorem worker2_spec (C : ConvInput K) (previous_set : List (pf_sample_t K))
    (slice : List Nat) :
    ∀ (t : K) (cur : List (pf_sample_t K)), slice.Nodup → (∀ idx ∈ slice, idx < cur.length) →
      (worker2 C previous_set slice (t, cur)).1 =
        t + (slice.map (fun idx => accumulativeWeight C previous_set (sampleAt cur idx))).sum ∧
      (worker2 C previous_set slice (t, cur)).2.length = cur.length ∧
      (∀ j, sampleAt (worker2 C previous_set slice (t, cur)).2 j =
        if j ∈ slice then
          { sampleAt cur j with weight := accumulativeWeight C previous_set (sampleAt cur j) }
        else sampleAt cur j) ∧
      totalWeight (worker2 C previous_set slice (t, cur)).2 =
        totalWeight cur - (slice.map (fun idx => (sampleAt cur idx).weight)).sum +
          (slice.map (fun idx => accumulativeWeight C previous_set (sampleAt cur idx))).sum := by
  induction slice with
  | nil => intro t cur _ _; simp [worker2]
  | cons idx rest ih =>
    intro t cur hnd hin
    have hidx : idx < cur.length := hin idx (List.mem_cons_self _ _)
    have hnotin : idx ∉ rest := (List.nodup_cons.mp hnd).1
    have hstep : worker2 C previous_set (idx :: rest) (t, cur) =
        worker2 C previous_set rest
          (t + accumulativeWeight C previous_set (sampleAt cur idx),
            cur.set idx { sampleAt cur idx with
              weight := accumulativeWeight C previous_set (sampleAt cur idx) }) := by
      simp [worker2]
    obtain ⟨ih1, ih2, ih3, ih4⟩ := ih
      (t + accumulativeWeight C previous_set (sampleAt cur idx))
      (cur.set idx { sampleAt cur idx with
        weight := accumulativeWeight C previous_set (sampleAt cur idx) })
      (List.nodup_cons.mp hnd).2
      (fun j hj => by simpa using hin j (List.mem_cons_of_mem _ hj))
    have hsame : ∀ j ∈ rest, sampleAt (cur.set idx { sampleAt cur idx with
        weight := accumulativeWeight C previous_set (sampleAt cur idx) }) j = sampleAt cur j := by
      intro j hj
      rw [sampleAt_set]
      have : idx ≠ j := fun h => hnotin (h ▸ hj)
      simp [this]
    have hmapA : rest.map (fun j => accumulativeWeight C previous_set
        (sampleAt (cur.set idx { sampleAt cur idx with
          weight := accumulativeWeight C previous_set (sampleAt cur idx) }) j)) =
        rest.map (fun j => accumulativeWeight C previous_set (sampleAt cur j)) :=
      List.map_congr_left (fun j hj => by rw [hsame j hj])
    have hmapW : rest.map (fun j => (sampleAt (cur.set idx { sampleAt cur idx with
          weight := accumulativeWeight C previous_set (sampleAt cur idx) }) j).weight) =
        rest.map (fun j => (sampleAt cur j).weight) :=
      List.map_congr_left (fun j hj => by rw [hsame j hj])
    rw [hstep]
    refine ⟨?_, ?_, ?_, ?_⟩
    · rw [ih1, hmapA]; simp [add_assoc]
    · rw [ih2]; simp
    · intro j
      rw [ih3 j, sampleAt_set]
      by_cases hj : j ∈ rest
      · have hne : idx ≠ j := fun h => hnotin (h ▸ hj)
        simp [hj, hne]
      · by_cases hij : idx = j
        · subst hij
          simp [hj, hidx]
        · have hij' : ¬ j = idx := fun h => hij h.symm
          simp [hj, hij, hij']
    · rw [ih4, hmapA, hmapW, totalWeight_set _ _ _ hidx]
      simp only [List.map_cons, List.sum_cons]
      ring

/-- The loop over the negative offsets ends within `f + 1` tests once
`p - f * scale` is below `-radius`. -/
theorem sideNegLoop_some (scale radius : K) (f : Nat) :
    ∀ (p : K) (side : List K), p - (f : K) * scale < -radius →
      ∃ out, sideNegLoop scale radius (f + 1) p side = some out := by
  induction f with
  | zero =>
    intro p side h
    have : ¬ p ≥ -radius := by simpa using h
    exact ⟨side, by simp [sideNegLoop, this]⟩
  | succ f ih =>
    intro p side h
    by_cases hp : p ≥ -radius
    · obtain ⟨out, hout⟩ := ih (p - scale) (side ++ [p]) (by push_cast at h; linarith)
      exact ⟨out, by rw [sideNegLoop, if_pos hp, hout]⟩
    · exact ⟨side, by rw [sideNegLoop, if_neg hp]⟩

/-- The loop over the non-negative offsets ends within `f + 1` tests once
`p + f * scale` is above `radius`. -/
theorem sidePosLoop_some (scale radius : K) (f : Nat) :
    ∀ (p : K) (side : List K), radius < p + (f : K) * scale →
      ∃ out, sidePosLoop scale radius (f + 1) p side = some out := by
  induction f with
  | zero =>
    intro p side h
    have : ¬ p ≤ radius := by simpa using h
    exact ⟨side, by simp [sidePosLoop, this]⟩
  | succ f ih =>
    intro p side h
    by_cases hp : p ≤ radius
    · obtain ⟨out, hout⟩ := ih (p + scale) (side ++ [p]) (by push_cast at h; linarith)
      exact ⟨out, by rw [sidePosLoop, if_pos hp, hout]⟩
    · exact ⟨side, by rw [sidePosLoop, if_neg hp]⟩

/-- With a positive map scale, `f + 1` units of fuel build `side` as soon as
`radius < f * scale`. -/
theorem buildSide_some (scale radius : K) (f : Nat) (hs : 0 < scale)
    (hf : radius < (f : K) * scale) : ∃ side, buildSide scale radius (f + 1) = some side := by
  obtain ⟨neg, hneg⟩ := sideNegLoop_some scale radius f (-scale) [] (by linarith)
  obtain ⟨side, hside⟩ := sidePosLoop_some scale radius f 0 neg.reverse (by linarith)
  exact ⟨side, by rw [buildSide, hneg]; exact hside⟩

/-- Whatever `UpdateOdomO` returns is the result of `worker2` on the whole
active list for the kernel it built. -/
theorem UpdateOdomO_some (L : MotionLib K) (g : GridState K) (nb_threads_hint : Nat)
    (ndata : AMCLOdomData K) (fuel : Nat) (r : K × List (pf_sample_t K))
    (hr : UpdateOdomO L g nb_threads_hint ndata fuel = some r) :
    ∃ C : ConvInput K,
      r = worker2 C g.previous_set g.active_sample_indices_ (0, g.current_set) := by
  simp only [UpdateOdomO] at hr
  rcases hside : buildSide g.map_.scale (odomRadius L g.odom_ ndata) fuel with _ | side
  · rw [hside] at hr; simp at hr
  · rw [hside] at hr
    simp only [Option.some.injEq] at hr
    rw [convolve_eq] at hr
    exact ⟨_, hr.symm⟩

/-- With enough fuel `UpdateOdomO` returns. -/
theorem UpdateOdomO_returns (L : MotionLib K) (g : GridState K) (nb_threads_hint : Nat)
    (ndata : AMCLOdomData K) (f : Nat) (hs : 0 < g.map_.scale)
    (hf : odomRadius L g.odom_ ndata < (f : K) * g.map_.scale) :
    ∃ r, UpdateOdomO L g nb_threads_hint ndata (f + 1) = some r := by
  obtain ⟨side, hside⟩ := buildSide_some g.map_.scale (odomRadius L g.odom_ ndata) f hs hf
  simp only [UpdateOdomO, hside]
  exact ⟨_, rfl⟩

theorem map_sampleAt_range (l : List (pf_sample_t K)) :
    (List.range l.length).map (sampleAt l) = l := by
  apply List.ext_getElem
  · simp
  · intro i h1 h2
    simp only [List.getElem_map, List.getElem_range]
    exact sampleAt_of_lt l i h2

/-- What `worker2` on the whole active list leaves: the returned total is the
sum of the new weights of the active samples, and the total weight of the
current set is that value plus the weights of the samples not listed. -/
theorem worker2_total (C : ConvInput K) (previous_set cur : List (pf_sample_t K))
    (active : List Nat) (hnd : active.Nodup) (hin : ∀ idx ∈ active, idx < cur.length) :
    (worker2 C previous_set active (0, cur)).1 =
      (active.map (fun idx =>
        (sampleAt (worker2 C previous_set active (0, cur)).2 idx).weight)).sum ∧
    totalWeight (worker2 C previous_set active (0, cur)).2 =
      (worker2 C previous_set active (0, cur)).1 +
        (totalWeight cur - (active.map (fun idx => (sampleAt cur idx).weight)).sum) ∧
    (active = List.range cur.length →
      (worker2 C previous_set active (0, cur)).1 =
        totalWeight (worker2 C previous_set active (0, cur)).2) := by
  obtain ⟨h1, _, h3, h4⟩ := worker2_spec C previous_set active 0 cur hnd hin
  have hmap : active.map (fun idx =>
      (sampleAt (worker2 C previous_set active (0, cur)).2 idx).weight) =
      active.map (fun idx => accumulativeWeight C previous_set (sampleAt cur idx)) :=
    List.map_congr_left (fun idx hidx => by rw [h3 idx, if_pos hidx])
  refine ⟨by rw [h1, hmap, zero_add], by rw [h4, h1]; ring, ?_⟩
  intro hall
  rw [h4, h1]
  have : (active.map (fun idx => (sampleAt cur idx).weight)).sum = totalWeight cur := by
    have hcomp : (List.range cur.length).map (fun idx => (sampleAt cur idx).weight) =
        ((List.range cur.length).map (sampleAt cur)).map (fun s => s.weight) := by
      rw [List.map_map]; rfl
    rw [hall, hcomp, map_sampleAt_range, totalWeight]
  rw [this]; ring

/-- C6 (amended): `UpdateOdomO` returns (given fuel for the `side` loops) the
sum of the new weights of the active samples; the total weight of the current
set after the motion update is that value plus the weights left in the samples
that are not active.  When every sample is active the returned value is the
total weight of the current set, and the normalization that follows in
`laserReceived` leaves weights that sum to 1 if that value is non-zero. -/
theorem UpdateOdomO_returns_active_total (L : MotionLib K) (g : GridState K)
    (nb_threads_hint : Nat) (ndata : AMCLOdomData K) (f : Nat) (hs : 0 < g.map_.scale)
    (hf : odomRadius L g.odom_ ndata < (f : K) * g.map_.scale)
    (hnd : g.active_sample_indices_.Nodup)
    (hin : ∀ idx ∈ g.active_sample_indices_, idx < g.current_set.length) :
    ∃ r, UpdateOdomO L g nb_threads_hint ndata (f + 1) = some r ∧
      r.1 = (g.active_sample_indices_.map (fun idx => (sampleAt r.2 idx).weight)).sum ∧
      totalWeight r.2 = r.1 + (totalWeight g.current_set -
        (g.active_sample_indices_.map (fun idx => (sampleAt g.current_set idx).weight)).sum) ∧
      (g.active_sample_indices_ = List.range g.current_set.length →
        r.1 = totalWeight r.2 ∧
        (r.1 ≠ 0 →
          motionUpdateAndNormalize L g true nb_threads_hint ndata (f + 1) =
            some (pf_normalize_set r.2 r.1) ∧
          totalWeight (pf_normalize_set r.2 r.1) = 1)) := by
  obtain ⟨r, hr⟩ := UpdateOdomO_returns L g nb_threads_hint ndata f hs hf
  obtain ⟨C, hC⟩ := UpdateOdomO_some L g nb_threads_hint ndata (f + 1) r hr
  obtain ⟨h1, h2, h3⟩ := worker2_total C g.previous_set g.current_set
    g.active_sample_indices_ hnd hin
  rw [← hC] at h1 h2 h3
  refine ⟨r, hr, h1, h2, fun hall => ⟨h3 hall, fun hne => ⟨?_, ?_⟩⟩⟩
  · simp [motionUpdateAndNormalize, hr]
  · rw [totalWeight_pf_normalize_set, ← h3 hall]
    exact div_self hne

/-- C6 (amended) at the demo grid with both samples active and zero
displacement. -/
theorem UpdateOdomO_returns_active_total_witness :
    ∃ r, UpdateOdomO (demoMotionLib ℚ) (demoGridStateAll ℚ) 1 (demoOdomData ℚ) (1 + 1) = some r ∧
      r.1 = ((demoGridStateAll ℚ).active_sample_indices_.map
        (fun idx => (sampleAt r.2 idx).weight)).sum ∧
      totalWeight r.2 = r.1 + (totalWeight (demoGridStateAll ℚ).current_set -
        ((demoGridStateAll ℚ).active_sample_indices_.map
          (fun idx => (sampleAt (demoGridStateAll ℚ).current_set idx).weight)).sum) ∧
      ((demoGridStateAll ℚ).active_sample_indices_ =
          List.range (demoGridStateAll ℚ).current_set.length →
        r.1 = totalWeight r.2 ∧
        (r.1 ≠ 0 →
          motionUpdateAndNormalize (demoMotionLib ℚ) (demoGridStateAll ℚ) true 1
            (demoOdomData ℚ) (1 + 1) = some (pf_normalize_set r.2 r.1) ∧
          totalWeight (pf_normalize_set r.2 r.1) = 1)) :=
  UpdateOdomO_returns_active_total (demoMotionLib ℚ) (demoGridStateAll ℚ) 1 (demoOdomData ℚ) 1
    (by norm_num [demoGridStateAll, demoGridState, demoMap])
    (by norm_num [odomRadius, odomDeltaTrans, demoMotionLib, demoGridStateAll, demoGridState,
      demoMap])
    (by simp [demoGridStateAll])
    (by simp [demoGridStateAll, demoGridState])

/-- C6 fails when a sample is not active: on the demo grid, where only sample 0
is active and sample 1 still holds its earlier weight `1/2`, `UpdateOdomO`
returns `2049/2048` while the current set then weighs `2049/2048 + 1/2`; and
whatever the external functions, the odometry and the thread count are, the
returned value is not the total weight of the current set and the normalized
weights do not sum to 1. -/
theorem UpdateOdomO_total_counterexample :
    UpdateOdomO (demoMotionLib ℚ) (demoGridState ℚ) 1 (demoOdomData ℚ) 2 =
      some (2049 / 2048, [⟨⟨0, 0, 0⟩, 2049 / 2048, 0⟩, ⟨⟨0, 0, 1⟩, 1 / 2, 0⟩]) ∧
    ¬ ∃ (L : MotionLib ℚ) (nb_threads_hint fuel : Nat) (ndata : AMCLOdomData ℚ)
        (r : ℚ × List (pf_sample_t ℚ)),
      UpdateOdomO L (demoGridState ℚ) nb_threads_hint ndata fuel = some r ∧
        (r.1 = totalWeight r.2 ∨ totalWeight (pf_normalize_set r.2 r.1) = 1) := by
  constructor
  · have hside : buildSide (demoGridState ℚ).map_.scale
        (odomRadius (demoMotionLib ℚ) (demoGridState ℚ).odom_ (demoOdomData ℚ)) 2 = some [0] := by
      norm_num [buildSide, sideNegLoop, sidePosLoop, odomRadius, odomDeltaTrans, demoMotionLib,
        demoGridState, demoMap]
    simp only [UpdateOdomO, hside, convolve_eq]
    norm_num [worker2, accumulativeWeight, validNeighbors, odomConvInput, buildXY, buildKernel,
      angArr,
      odometry, motionModelO, sampleAt, demoMotionLib, demoGridState, demoMap, demoOdomData,
      odomDeltaRot1, odomDeltaTrans, List.range_succ, List.filterMap_cons]
  · rintro ⟨L, hint, fuel, ndata, r, hr, hclaim⟩
    obtain ⟨C, hC⟩ := UpdateOdomO_some L (demoGridState ℚ) hint ndata fuel r hr
    obtain ⟨_, h2, _⟩ := worker2_total C (demoGridState ℚ).previous_set
      (demoGridState ℚ).current_set (demoGridState ℚ).active_sample_indices_
      (by simp [demoGridState]) (by simp [demoGridState])
    rw [← hC] at h2
    have hstale : totalWeight (demoGridState ℚ).current_set -
        ((demoGridState ℚ).active_sample_indices_.map
          (fun idx => (sampleAt (demoGridState ℚ).current_set idx).weight)).sum = 1 / 2 := by
      norm_num [demoGridState, totalWeight, sampleAt]
    rw [hstale] at h2
    rcases hclaim with h | h
    · rw [← h] at h2; linarith
    · rw [totalWeight_pf_normalize_set] at h
      have hne : r.1 ≠ 0 := by
        intro h0
        rw [h0, div_zero] at h
        exact zero_ne_one h
      rw [div_eq_one_iff_eq hne] at h
      rw [h] at h2; linarith

theorem list_sum_range (f : Nat → K) (n : Nat) :
    ((List.range n).map f).sum = ∑ i ∈ Finset.range n, f i := by
  induction n with
  | zero => simp
  | succ n ih => rw [List.range_succ, List.map_append, List.sum_append, ih, Finset.sum_range_succ]; simp

theorem foldl_add_eq {α : Type} (f : α → K) (l : List α) (a : K) :
    l.foldl (fun acc x => acc + f x) a = a + (l.map f).sum := by
  induction l generalizing a with
  | nil => simp
  | cons x l ih => simp [ih, add_assoc]

/-- The accumulated weight of a particle as a double sum. -/
theorem accumulativeWeight_eq (C : ConvInput K) (previous_set : List (pf_sample_t K))
    (origin : pf_sample_t K) :
    accumulativeWeight C previous_set origin =
      ((List.range C.size_a_).map (fun maidx =>
        ((validNeighbors C origin).map (fun ngb =>
          (sampleAt previous_set (ngb.1 * C.size_a_ + maidx)).weight *
            kernelEntry C (C.ANG2IDX origin.pose.v2) maidx ngb.2)).sum)).sum := by
  simp only [accumulativeWeight, kernelEntry]
  have h : ∀ (l : List Nat) (a : K),
      l.foldl (fun acc maidx =>
        (validNeighbors C origin).foldl (fun acc ngb =>
          acc + (sampleAt previous_set (ngb.1 * C.size_a_ + maidx)).weight *
            ((C.mat_prob_matrices.getD (C.ANG2IDX origin.pose.v2) []).getD maidx []).getD ngb.2 0)
          acc) a =
      a + (l.map (fun maidx =>
        ((validNeighbors C origin).map (fun ngb =>
          (sampleAt previous_set (ngb.1 * C.size_a_ + maidx)).weight *
            ((C.mat_prob_matrices.getD (C.ANG2IDX origin.pose.v2) []).getD maidx []).getD
              ngb.2 0)).sum)).sum := by
    intro l
    induction l with
    | nil => intro a; simp
    | cons x l ih =>
      intro a
      rw [List.foldl_cons, ih, foldl_add_eq]
      simp [add_assoc]
  rw [h, zero_add]

/-- When every offset lands on a valid free cell, the neighbour list has one
entry per offset. -/
theorem validNeighbors_all (C : ConvInput K) (current_set : List (pf_sample_t K)) (F : Nat)
    (nb : Nat → Nat → Nat) (hv : AllNeighborsValid C current_set F nb) (f a : Nat)
    (hf : f < F) (ha : a < C.size_a_) :
    validNeighbors C (sampleAt current_set (f * C.size_a_ + a)) =
      (List.range C.X.length).map (fun nidx => (nb nidx f, nidx)) := by
  simp only [validNeighbors]
  rw [← List.filterMap_eq_map]
  apply List.filterMap_congr
  intro nidx hn
  obtain ⟨h1, h2, h3⟩ := (hv f a hf ha).2 nidx (List.mem_range.mp hn)
  simp only [h1, h2, h3]
  simp
theorem sum_range_mul_split (G : Nat → K) (F A : Nat) :
    ∑ s ∈ Finset.range (F * A), G s = ∑ f ∈ Finset.range F, ∑ a ∈ Finset.range A, G (f * A + a) := by
  induction F with
  | zero => simp
  | succ F ih =>
    rw [Nat.succ_mul, Finset.sum_range_add, ih, Finset.sum_range_succ]

/-- Summing over the neighbours of all free cells at one offset is summing over
all free cells. -/
theorem sum_neighbors (F : Nat) (nbf : Nat → Nat) (hmaps : ∀ f, f < F → nbf f < F)
    (hinj : ∀ f f', f < F → f' < F → nbf f = nbf f' → f = f') (h : Nat → K) :
    ∑ f ∈ Finset.range F, h (nbf f) = ∑ gidx ∈ Finset.range F, h gidx := by
  have hinjOn : Set.InjOn nbf (Finset.range F : Set Nat) := by
    intro f hf f' hf' heq
    exact hinj f f' (by simpa using hf) (by simpa using hf') heq
  have himg : (Finset.range F).image nbf = Finset.range F := by
    apply Finset.eq_of_subset_of_card_le
    · intro x hx
      obtain ⟨f, hf, rfl⟩ := Finset.mem_image.mp hx
      exact Finset.mem_range.mpr (hmaps f (Finset.mem_range.mp hf))
    · rw [Finset.card_image_of_injOn hinjOn]
  conv_rhs => rw [← himg]
  rw [Finset.sum_image (fun f hf f' hf' heq => hinjOn hf hf' heq)]
/-- The total returned by the convolution when every sample is active and every
offset of every cell lands on a valid free cell: each source heading
contributes the weight the previous set holds at it times the kernel mass
gathered from it. -/
theorem worker2_mass (C : ConvInput K) (previous_set cur : List (pf_sample_t K)) (F : Nat)
    (nb : Nat → Nat → Nat) (hlen : cur.length = F * C.size_a_)
    (hv : AllNeighborsValid C cur F nb) (hd : NeighborsDistinct C F nb) :
    (worker2 C previous_set (List.range cur.length) (0, cur)).1 =
      ((List.range C.size_a_).map
        (fun maidx => kernelMass C maidx * headingMass C previous_set F maidx)).sum := by
  obtain ⟨h1, _, _, _⟩ := worker2_spec C previous_set (List.range cur.length) 0 cur
    (List.nodup_range _) (fun idx hidx => List.mem_range.mp hidx)
  rw [h1, zero_add, list_sum_range, list_sum_range, hlen, sum_range_mul_split]
  have hacc : ∀ f ∈ Finset.range F, ∀ a ∈ Finset.range C.size_a_,
      accumulativeWeight C previous_set (sampleAt cur (f * C.size_a_ + a)) =
        ∑ maidx ∈ Finset.range C.size_a_, ∑ nidx ∈ Finset.range C.X.length,
          (sampleAt previous_set (nb nidx f * C.size_a_ + maidx)).weight *
            kernelEntry C a maidx nidx := by
    intro f hf a ha
    have hf' := Finset.mem_range.mp hf
    have ha' := Finset.mem_range.mp ha
    rw [accumulativeWeight_eq, validNeighbors_all C cur F nb hv f a hf' ha', (hv f a hf' ha').1,
      list_sum_range]
    apply Finset.sum_congr rfl
    intro maidx _
    rw [List.map_map, list_sum_range]
    rfl
  rw [Finset.sum_congr rfl (fun f hf => Finset.sum_congr rfl (fun a ha => hacc f hf a ha))]
  have hinner : ∀ maidx ∈ Finset.range C.size_a_, ∀ a ∈ Finset.range C.size_a_,
      ∀ nidx ∈ Finset.range C.X.length,
      ∑ f ∈ Finset.range F, (sampleAt previous_set (nb nidx f * C.size_a_ + maidx)).weight *
          kernelEntry C a maidx nidx =
        kernelEntry C a maidx nidx * headingMass C previous_set F maidx := by
    intro maidx _ a _ nidx hn
    obtain ⟨hmaps, hinj⟩ := hd nidx (Finset.mem_range.mp hn)
    rw [sum_neighbors F (nb nidx) hmaps hinj
      (fun gidx => (sampleAt previous_set (gidx * C.size_a_ + maidx)).weight *
        kernelEntry C a maidx nidx), ← Finset.sum_mul, headingMass, list_sum_range, mul_comm]
  calc ∑ f ∈ Finset.range F, ∑ a ∈ Finset.range C.size_a_,
        ∑ maidx ∈ Finset.range C.size_a_, ∑ nidx ∈ Finset.range C.X.length,
          (sampleAt previous_set (nb nidx f * C.size_a_ + maidx)).weight *
            kernelEntry C a maidx nidx
      = ∑ maidx ∈ Finset.range C.size_a_, ∑ a ∈ Finset.range C.size_a_,
          ∑ nidx ∈ Finset.range C.X.length, ∑ f ∈ Finset.range F,
            (sampleAt previous_set (nb nidx f * C.size_a_ + maidx)).weight *
              kernelEntry C a maidx nidx := by
        rw [Finset.sum_congr rfl (fun f _ => Finset.sum_comm), Finset.sum_comm]
        apply Finset.sum_congr rfl
        intro maidx _
        rw [Finset.sum_comm]
        apply Finset.sum_congr rfl
        intro a _
        rw [Finset.sum_comm]
    _ = ∑ maidx ∈ Finset.range C.size_a_, ∑ a ∈ Finset.range C.size_a_,
          ∑ nidx ∈ Finset.range C.X.length,
            kernelEntry C a maidx nidx * headingMass C previous_set F maidx :=
        Finset.sum_congr rfl (fun maidx hm => Finset.sum_congr rfl (fun a ha =>
          Finset.sum_congr rfl (fun nidx hn => hinner maidx hm a ha nidx hn)))
    _ = ∑ maidx ∈ Finset.range C.size_a_,
          kernelMass C maidx * headingMass C previous_set F maidx := by
        apply Finset.sum_congr rfl
        intro maidx _
        rw [kernelMass, list_sum_range, Finset.sum_mul]
        apply Finset.sum_congr rfl
        intro a _
        rw [list_sum_range, Finset.sum_mul]

/-- The heading masses of a set of `F * size_a_` samples add up to its total
weight. -/
theorem headingMass_total (C : ConvInput K) (previous_set : List (pf_sample_t K)) (F : Nat)
    (hlen : previous_set.length = F * C.size_a_) :
    ((List.range C.size_a_).map (fun maidx => headingMass C previous_set F maidx)).sum =
      totalWeight previous_set := by
  have h : totalWeight previous_set =
      ((List.range previous_set.length).map (fun s => (sampleAt previous_set s).weight)).sum := by
    have hcomp : (List.range previous_set.length).map (fun s => (sampleAt previous_set s).weight) =
        ((List.range previous_set.length).map (sampleAt previous_set)).map (fun s => s.weight) := by
      rw [List.map_map]; rfl
    rw [hcomp, map_sampleAt_range, totalWeight]
  rw [h, list_sum_range, list_sum_range, hlen, sum_range_mul_split, Finset.sum_comm]
  apply Finset.sum_congr rfl
  intro maidx _
  rw [headingMass, list_sum_range]

/-- C5 (amended): when every sample is active and every kernel-window offset of
every cell lands on a valid free cell (distinct cells having distinct
neighbours), the total weight of the current set after the convolution of
`UpdateOdomO` is the sum over the source headings of the previous weight held
at that heading times the kernel mass gathered from it; it is the total weight
of the previous set when every such kernel mass is 1. -/
theorem UpdateOdomO_mass (L : MotionLib K) (g : GridState K) (nb_threads_hint : Nat)
    (ndata : AMCLOdomData K) (f F : Nat) (nb : Nat → Nat → Nat) (hs : 0 < g.map_.scale)
    (hf : odomRadius L g.odom_ ndata < (f : K) * g.map_.scale)
    (hactive : g.active_sample_indices_ = List.range g.current_set.length)
    (hcur : g.current_set.length = F * g.size_a_)
    (hprev : g.previous_set.length = F * g.size_a_)
    (hv : ∀ side, buildSide g.map_.scale (odomRadius L g.odom_ ndata) (f + 1) = some side →
      AllNeighborsValid (odomConvInput L g ndata side) g.current_set F nb ∧
      NeighborsDistinct (odomConvInput L g ndata side) F nb) :
    ∃ side r, buildSide g.map_.scale (odomRadius L g.odom_ ndata) (f + 1) = some side ∧
      UpdateOdomO L g nb_threads_hint ndata (f + 1) = some r ∧
      totalWeight r.2 = ((List.range g.size_a_).map (fun maidx =>
        kernelMass (odomConvInput L g ndata side) maidx *
          headingMass (odomConvInput L g ndata side) g.previous_set F maidx)).sum ∧
      ((∀ maidx, maidx < g.size_a_ → kernelMass (odomConvInput L g ndata side) maidx = 1) →
        totalWeight r.2 = totalWeight g.previous_set) := by
  obtain ⟨side, hside⟩ := buildSide_some g.map_.scale (odomRadius L g.odom_ ndata) f hs hf
  obtain ⟨hvalid, hdist⟩ := hv side hside
  have hr : UpdateOdomO L g nb_threads_hint ndata (f + 1) =
      some (worker2 (odomConvInput L g ndata side) g.previous_set
        (List.range g.current_set.length) (0, g.current_set)) := by
    simp only [UpdateOdomO, hside, convolve_eq, hactive]
  have hmass := worker2_mass (odomConvInput L g ndata side) g.previous_set g.current_set F nb
    hcur hvalid hdist
  obtain ⟨_, _, htot⟩ := worker2_total (odomConvInput L g ndata side) g.previous_set
    g.current_set (List.range g.current_set.length) (List.nodup_range _)
    (fun idx hidx => List.mem_range.mp hidx)
  have hsz : (odomConvInput L g ndata side).size_a_ = g.size_a_ := rfl
  rw [hsz] at hmass
  refine ⟨side, _, hside, hr, ?_, ?_⟩
  · rw [← htot rfl, hmass]
  · intro hone
    rw [← htot rfl, hmass, ← headingMass_total (odomConvInput L g ndata side) g.previous_set F
      (by rw [hprev, hsz])]
    rw [hsz]
    apply congrArg
    apply List.map_congr_left
    intro maidx hm
    rw [hone maidx (List.mem_range.mp hm), one_mul]

/-- The offset list of the demo grid at zero displacement is `[0]`. -/
theorem demo_side (L : MotionLib ℚ) (hsqrt : L.sqrt 0 = 0) (g : GridState ℚ)
    (hscale : g.map_.scale = 1) (side : List ℚ)
    (h : buildSide g.map_.scale (odomRadius L g.odom_ (demoOdomData ℚ)) 2 = some side) :
    side = [0] := by
  have hrad : odomRadius L g.odom_ (demoOdomData ℚ) = 0 := by
    simp [odomRadius, odomDeltaTrans, demoOdomData, hsqrt]
  rw [hrad, hscale] at h
  norm_num [buildSide, sideNegLoop, sidePosLoop] at h
  exact h.symm

/-- On the demo grid every sample is active and the single offset of the single
cell lands on that cell. -/
theorem demo_neighbors_valid (L : MotionLib ℚ)
    (hidx : L.ANG2IDX = fun a => if a = 0 then 0 else 1) :
    AllNeighborsValid (odomConvInput L (demoGridStateAll ℚ) (demoOdomData ℚ) [0])
        (demoGridStateAll ℚ).current_set 1 (fun _ _ => 0) ∧
      NeighborsDistinct (odomConvInput L (demoGridStateAll ℚ) (demoOdomData ℚ) [0]) 1
        (fun _ _ => 0) := by
  constructor
  · intro f a hf ha
    have hf0 : f = 0 := by omega
    have ha2 : a < 2 := ha
    subst hf0
    interval_cases a <;>
      simp [odomConvInput, buildXY, demoGridStateAll, demoGridState, demoMap, sampleAt, hidx]
  · intro nidx _
    exact ⟨fun f _ => Nat.zero_lt_one, fun f f' hf hf' _ => by omega⟩

/-- C5 fails for a kernel that is not normalized: on the demo grid (one free
cell, two heading bins, both samples active, the only offset landing on the
cell itself) with the likelihood `pf_normal_distribution` constant 1, every
kernel entry is 1, the previous set weighs `3/4 + 1/4 = 1` and the current set
weighs 2 after the convolution. -/
theorem UpdateOdomO_mass_counterexample :
    (demoGridStateAll ℚ).active_sample_indices_ =
      List.range (demoGridStateAll ℚ).current_set.length ∧
    buildSide (demoGridStateAll ℚ).map_.scale
      (odomRadius (demoMotionLib ℚ) (demoGridStateAll ℚ).odom_ (demoOdomData ℚ)) 2 = some [0] ∧
    AllNeighborsValid (odomConvInput (demoMotionLib ℚ) (demoGridStateAll ℚ) (demoOdomData ℚ) [0])
      (demoGridStateAll ℚ).current_set 1 (fun _ _ => 0) ∧
    UpdateOdomO (demoMotionLib ℚ) (demoGridStateAll ℚ) 1 (demoOdomData ℚ) 2 =
      some (2, [⟨⟨0, 0, 0⟩, 1, 0⟩, ⟨⟨0, 0, 1⟩, 1, 0⟩]) ∧
    totalWeight (demoGridStateAll ℚ).previous_set = 1 ∧
    totalWeight ([⟨⟨0, 0, 0⟩, 1, 0⟩, ⟨⟨0, 0, 1⟩, 1, 0⟩] : List (pf_sample_t ℚ)) = 2 := by
  have hside : buildSide (demoGridStateAll ℚ).map_.scale
      (odomRadius (demoMotionLib ℚ) (demoGridStateAll ℚ).odom_ (demoOdomData ℚ)) 2 = some [0] := by
    norm_num [buildSide, sideNegLoop, sidePosLoop, odomRadius, odomDeltaTrans, demoMotionLib,
      demoGridStateAll, demoGridState, demoMap]
  refine ⟨by simp [demoGridStateAll, demoGridState, List.range_succ], hside,
    (demo_neighbors_valid (demoMotionLib ℚ) rfl).1, ?_, ?_, ?_⟩
  · simp only [UpdateOdomO, hside, convolve_eq]
    norm_num [worker2, accumulativeWeight, validNeighbors, odomConvInput, buildXY, buildKernel,
      angArr, odometry, motionModelO, sampleAt, demoMotionLib, demoGridStateAll, demoGridState,
      demoMap, demoOdomData, odomDeltaRot1, odomDeltaTrans, List.range_succ,
      List.filterMap_cons]
  · norm_num [demoGridStateAll, demoGridState, totalWeight]
  · norm_num [totalWeight]

/-! ## Grid initialization -/

/-- The loop over the heading bins writes the samples `sidx, sidx + 1, ...`,
one per listed bin, and leaves every other sample as it was. -/
theorem initHeadingLoop_spec (IDX2ANG : Nat → K) (max_particles_ : Int) (px py : K)
    (bins : List Nat) :
    ∀ (samples : List (pf_sample_t K)) (sidx : Nat),
      (initHeadingLoop IDX2ANG max_particles_ px py bins (samples, sidx)).2 =
        sidx + bins.length ∧
      (initHeadingLoop IDX2ANG max_particles_ px py bins (samples, sidx)).1.length =
        samples.length ∧
      ∀ j, sampleAt (initHeadingLoop IDX2ANG max_particles_ px py bins (samples, sidx)).1 j =
        if sidx ≤ j ∧ j < sidx + bins.length ∧ j < samples.length then
          { sampleAt samples j with
            pose := ⟨px, py, IDX2ANG (bins.getD (j - sidx) 0)⟩,
            weight := 1 / (max_particles_ : K) }
        else sampleAt samples j := by
  induction bins with
  | nil =>
    intro samples sidx
    refine ⟨rfl, rfl, fun j => ?_⟩
    have : ¬ (sidx ≤ j ∧ j < sidx + ([] : List Nat).length ∧ j < samples.length) := by
      simp; omega
    rw [if_neg this]
    rfl
  | cons a rest ih =>
    intro samples sidx
    obtain ⟨ih1, ih2, ih3⟩ := ih
      (samples.set sidx { sampleAt samples sidx with
        pose := ⟨px, py, IDX2ANG a⟩, weight := 1 / (max_particles_ : K) }) (sidx + 1)
    simp only [initHeadingLoop]
    refine ⟨by rw [ih1]; simp; omega, by rw [ih2]; simp, fun j => ?_⟩
    rw [ih3 j]
    simp only [List.length_set, List.length_cons, sampleAt_set]
    by_cases hj : sidx = j
    · subst hj
      by_cases hlen : sidx < samples.length
      · simp [hlen]
      · simp [hlen]
    · by_cases hlt : sidx + 1 ≤ j ∧ j < sidx + 1 + rest.length ∧ j < samples.length
      · have h2 : sidx ≤ j ∧ j < sidx + (rest.length + 1) ∧ j < samples.length := by omega
        have h3 : j - sidx = (j - (sidx + 1)) + 1 := by omega
        simp [hlt, h2, hj, h3]
      · have h2 : ¬ (sidx ≤ j ∧ j < sidx + (rest.length + 1) ∧ j < samples.length) := by omega
        simp [hlt, h2, hj]

/-- The loop over the free cells writes `size_a_` consecutive samples per cell
and leaves the samples before `sidx` as they were. -/
theorem initCellLoop_spec (W : MapWorld K) (IDX2ANG : Nat → K) (size_a_ : Nat)
    (max_particles_ : Int) (cells : List (Int × Int)) :
    ∀ (samples : List (pf_sample_t K)) (sidx : Nat),
      (initCellLoop W IDX2ANG size_a_ max_particles_ cells (samples, sidx)).1.length =
        samples.length ∧
      (∀ j, j < sidx →
        sampleAt (initCellLoop W IDX2ANG size_a_ max_particles_ cells (samples, sidx)).1 j =
          sampleAt samples j) ∧
      (∀ f a cell, cells[f]? = some cell → a < size_a_ →
        sidx + f * size_a_ + a < samples.length →
        sampleAt (initCellLoop W IDX2ANG size_a_ max_particles_ cells (samples, sidx)).1
            (sidx + f * size_a_ + a) =
          { sampleAt samples (sidx + f * size_a_ + a) with
            pose := ⟨W.MAP_WXGX cell.1, W.MAP_WYGY cell.2, IDX2ANG a⟩,
            weight := 1 / (max_particles_ : K) }) := by
  induction cells with
  | nil =>
    intro samples sidx
    exact ⟨rfl, fun _ _ => rfl, fun f a cell h => by simp at h⟩
  | cons c rest ih =>
    intro samples sidx
    obtain ⟨h1, h2, h3⟩ := initHeadingLoop_spec IDX2ANG max_particles_ (W.MAP_WXGX c.1)
      (W.MAP_WYGY c.2) (List.range size_a_) samples sidx
    simp only [List.length_range] at h1 h3
    have hst : initHeadingLoop IDX2ANG max_particles_ (W.MAP_WXGX c.1) (W.MAP_WYGY c.2)
        (List.range size_a_) (samples, sidx) =
        ((initHeadingLoop IDX2ANG max_particles_ (W.MAP_WXGX c.1) (W.MAP_WYGY c.2)
          (List.range size_a_) (samples, sidx)).1, sidx + size_a_) := by
      exact Prod.ext rfl h1
    obtain ⟨ih1, ih2, ih3⟩ := ih
      (initHeadingLoop IDX2ANG max_particles_ (W.MAP_WXGX c.1) (W.MAP_WYGY c.2)
        (List.range size_a_) (samples, sidx)).1 (sidx + size_a_)
    simp only [initCellLoop]
    rw [hst]
    refine ⟨by rw [ih1, h2], ?_, ?_⟩
    · intro j hj
      rw [ih2 j (by omega), h3 j, if_neg (by omega)]
    · intro f a cell hf ha hlt
      cases f with
      | zero =>
        simp only [List.getElem?_cons_zero, Option.some.injEq] at hf
        subst hf
        simp only [Nat.zero_mul, Nat.add_zero] at hlt ⊢
        rw [ih2 _ (by omega), h3, if_pos ⟨by omega, by simp; omega, hlt⟩]
        have : (List.range size_a_).getD (sidx + a - sidx) 0 = a := by
          rw [Nat.add_sub_cancel_left]
          simp [List.getD_eq_getElem?_getD, List.getElem?_range ha]
        rw [this]
      | succ f =>
        simp only [List.getElem?_cons_succ] at hf
        have hidx : sidx + (f + 1) * size_a_ + a = sidx + size_a_ + f * size_a_ + a := by ring
        rw [hidx] at hlt ⊢
        rw [ih3 f a cell hf ha (by rw [h2]; exact hlt), h3, if_neg (by omega)]

theorem totalWeight_const (l : List (pf_sample_t K)) (c : K) (h : ∀ s ∈ l, s.weight = c) :
    totalWeight l = (l.length : K) * c := by
  induction l with
  | nil => simp [totalWeight]
  | cons s rest ih =>
    rw [totalWeight_cons, ih (fun t ht => h t (List.mem_cons_of_mem _ ht)),
      h s (List.mem_cons_self _ _)]
    simp only [List.length_cons]
    push_cast
    ring

/-- One generation buffer after `initialMarkovGrid`. -/
theorem initSet_spec (W : MapWorld K) (IDX2ANG : Nat → K) (cells : List (Int × Int))
    (A : Nat) (uninit : Nat → pf_sample_t K) (hFA : 1 ≤ cells.length * A) :
    (initCellLoop W IDX2ANG A (max_particles cells.length (A : Int)) cells
      (allocSamples (max_particles cells.length (A : Int)) uninit, 0)).1.length =
        cells.length * A ∧
    (∀ f a cell, cells[f]? = some cell → a < A →
      (sampleAt (initCellLoop W IDX2ANG A (max_particles cells.length (A : Int)) cells
        (allocSamples (max_particles cells.length (A : Int)) uninit, 0)).1 (f * A + a)).pose =
          ⟨W.MAP_WXGX cell.1, W.MAP_WYGY cell.2, IDX2ANG a⟩) ∧
    (∀ s ∈ (initCellLoop W IDX2ANG A (max_particles cells.length (A : Int)) cells
        (allocSamples (max_particles cells.length (A : Int)) uninit, 0)).1,
      s.weight = 1 / ((cells.length * A : Nat) : K)) ∧
    totalWeight (initCellLoop W IDX2ANG A (max_particles cells.length (A : Int)) cells
      (allocSamples (max_particles cells.length (A : Int)) uninit, 0)).1 = 1 := by
  have hmp : (max_particles cells.length (A : Int)).toNat = cells.length * A := by
    simp only [max_particles]
    have : ((cells.length : Int) * (A : Int)) = ((cells.length * A : Nat) : Int) := by
      push_cast; ring
    rw [this, Int.toNat_ofNat]
  have hmpK : ((max_particles cells.length (A : Int) : Int) : K) =
      ((cells.length * A : Nat) : K) := by
    simp only [max_particles]
    push_cast
    ring
  have hlen0 : (allocSamples (max_particles cells.length (A : Int)) uninit).length =
      cells.length * A := by
    simp [allocSamples, hmp]
  obtain ⟨h1, _, h3⟩ := initCellLoop_spec W IDX2ANG A (max_particles cells.length (A : Int))
    cells (allocSamples (max_particles cells.length (A : Int)) uninit) 0
  have hA : 0 < A := Nat.pos_of_ne_zero (fun h => by rw [h] at hFA; simp at hFA)
  have hidx : ∀ f a, f < cells.length → a < A → f * A + a < cells.length * A := by
    intro f a hf ha
    calc f * A + a < f * A + A := by omega
      _ = (f + 1) * A := by ring
      _ ≤ cells.length * A := Nat.mul_le_mul_right _ hf
  have hval : ∀ f a cell, cells[f]? = some cell → a < A →
      sampleAt (initCellLoop W IDX2ANG A (max_particles cells.length (A : Int)) cells
        (allocSamples (max_particles cells.length (A : Int)) uninit, 0)).1 (f * A + a) =
      { sampleAt (allocSamples (max_particles cells.length (A : Int)) uninit) (f * A + a) with
        pose := ⟨W.MAP_WXGX cell.1, W.MAP_WYGY cell.2, IDX2ANG a⟩,
        weight := 1 / ((max_particles cells.length (A : Int) : Int) : K) } := by
    intro f a cell hf ha
    have hfl : f < cells.length := by
      by_contra hge
      rw [List.getElem?_eq_none (not_lt.mp hge)] at hf
      exact Option.noConfusion hf
    have := h3 f a cell hf ha (by rw [hlen0, Nat.zero_add]; exact hidx f a hfl ha)
    simpa only [Nat.zero_add] using this
  have hw : ∀ s ∈ (initCellLoop W IDX2ANG A (max_particles cells.length (A : Int)) cells
        (allocSamples (max_particles cells.length (A : Int)) uninit, 0)).1,
      s.weight = 1 / ((cells.length * A : Nat) : K) := by
    intro s hs
    obtain ⟨j, hj, rfl⟩ := List.getElem_of_mem hs
    rw [h1, hlen0] at hj
    have hjf : j / A < cells.length := Nat.div_lt_of_lt_mul (by rw [Nat.mul_comm]; exact hj)
    have hja : j % A < A := Nat.mod_lt _ hA
    have hdecomp : j / A * A + j % A = j := by
      rw [Nat.mul_comm]; exact Nat.div_add_mod j A
    have hv := hval (j / A) (j % A) cells[j / A] (List.getElem?_eq_getElem hjf) hja
    rw [hdecomp, sampleAt_of_lt _ j (by rw [h1, hlen0]; exact hj)] at hv
    rw [hv, hmpK]
  refine ⟨by rw [h1, hlen0], ?_, hw, ?_⟩
  · intro f a cell hf ha
    rw [hval f a cell hf ha]
  · rw [totalWeight_const _ _ hw, h1, hlen0]
    have : ((cells.length * A : Nat) : K) ≠ 0 := by
      exact_mod_cast (by omega : cells.length * A ≠ 0)
    rw [mul_one_div, div_self this]

/-! ## Partition of the work among the threads -/

/-- The ranges of the first `k` threads, started at `sidx`. -/
theorem spawnRanges_closed (g : Nat) (k : Nat) :
    ∀ sidx, spawnRanges g k sidx =
      ((List.range k).map (fun j => (sidx + j * g, sidx + (j + 1) * g)), sidx + k * g) := by
  induction k with
  | zero => intro sidx; simp [spawnRanges]
  | succ k ih =>
    intro sidx
    simp only [spawnRanges, ih (sidx + g), List.range_succ_eq_map, List.map_cons, List.map_map]
    refine Prod.ext ?_ (by simp; ring)
    simp only [Nat.zero_mul, Nat.add_zero, Nat.zero_add, Nat.one_mul, List.cons.injEq,
      true_and]
    apply List.map_congr_left
    intro j _
    simp only [Function.comp, Nat.succ_eq_add_one]
    refine Prod.ext (by simp; ring) (by simp; ring)

/-- The number of ranges of `spawnRanges` that contain the index `i`. -/
theorem spawnRanges_count (g i : Nat) (k : Nat) :
    ∀ sidx, (spawnRanges g k sidx).1.countP (fun r => decide (r.1 ≤ i ∧ i < r.2)) =
      if sidx ≤ i ∧ i < sidx + k * g then 1 else 0 := by
  induction k with
  | zero =>
    intro sidx
    simp only [spawnRanges, List.countP_nil, Nat.zero_mul, Nat.add_zero]
    rw [if_neg (by omega)]
  | succ k ih =>
    intro sidx
    have hk : (k + 1) * g = k * g + g := by ring
    simp only [spawnRanges, List.countP_cons, ih (sidx + g), hk, decide_eq_true_eq]
    by_cases h1 : sidx ≤ i ∧ i < sidx + g
    · rw [if_pos h1, if_neg (by omega), if_pos (by omega)]
    · rw [if_neg h1]
      by_cases h2 : sidx + g ≤ i ∧ i < sidx + g + k * g
      · rw [if_pos h2, if_pos (by omega)]
      · rw [if_neg h2, if_neg (by omega)]

/-- C12: for `c` items and `W ≥ 1` workers the ranges handed out are
`[k*g, (k+1)*g)` for the first `W - 1` workers and `[(W-1)*g, c)` for the last,
with `g = floor(c/W)`; they are contiguous from 0 to `c`, and every index below
`c` lies in exactly one of them (no index from `c` on lies in any), and the
indices of the ranges, one range after the other, are `0, 1, ..., c-1`; so the
sample indices of the sensor update, the heading bins of the kernel build and
the active-sample positions of the convolution are each processed once. -/
theorem workerRanges_partition (c W : Nat) (hW : 1 ≤ W) :
    workerRanges c W =
      (List.range (W - 1)).map (fun k => (k * (c / W), (k + 1) * (c / W))) ++
        [((W - 1) * (c / W), c)] ∧
    (workerRanges c W).length = W ∧
    (W - 1) * (c / W) ≤ c ∧
    ((workerRanges c W).getD 0 (0, 0)).1 = 0 ∧
    (∀ k, k + 1 < W →
      ((workerRanges c W).getD k (0, 0)).2 = ((workerRanges c W).getD (k + 1) (0, 0)).1) ∧
    ((workerRanges c W).getD (W - 1) (0, 0)).2 = c ∧
    (∀ i, (workerRanges c W).countP (fun r => decide (r.1 ≤ i ∧ i < r.2)) =
      if i < c then 1 else 0) ∧
    (workerRanges c W).foldl
      (fun done r => done ++ ((List.range c).drop r.1).take (r.2 - r.1)) [] = List.range c := by
  have hclosed : workerRanges c W =
      (List.range (W - 1)).map (fun k => (k * (c / W), (k + 1) * (c / W))) ++
        [((W - 1) * (c / W), c)] := by
    simp only [workerRanges, spawnRanges_closed, Nat.zero_add]
  have hle : (W - 1) * (c / W) ≤ c := by
    have h1 : (W - 1) * (c / W) ≤ W * (c / W) := Nat.mul_le_mul_right _ (Nat.sub_le _ _)
    have h2 := Nat.mul_div_le c W
    omega
  have hget : ∀ k, k < W - 1 →
      (workerRanges c W).getD k (0, 0) = (k * (c / W), (k + 1) * (c / W)) := by
    intro k hk
    rw [hclosed, List.getD_eq_getElem?_getD, List.getElem?_append_left (by simpa using hk)]
    simp [List.getElem?_range hk]
  have hlast : (workerRanges c W).getD (W - 1) (0, 0) = ((W - 1) * (c / W), c) := by
    rw [hclosed, List.getD_eq_getElem?_getD, List.getElem?_append_right (by simp)]
    simp
  have hcat := workerRanges_slices (fun (a : List Nat) (st : List Nat) => st ++ a)
    (fun s => by simp) (fun a b s => by simp) (List.range c) W []
  rw [List.length_range] at hcat
  refine ⟨hclosed, by rw [hclosed]; simp; omega, hle, ?_, ?_, by rw [hlast], ?_,
    by rw [hcat]; simp⟩
  · rcases Nat.eq_or_lt_of_le hW with h1 | h1
    · have : W - 1 = 0 := by omega
      have h0 := hlast
      rw [this] at h0
      rw [h0]; simp
    · rw [hget 0 (by omega)]; simp
  · intro k hk
    rw [hget k (by omega)]
    rcases Nat.eq_or_lt_of_le (show k + 1 ≤ W - 1 by omega) with h1 | h1
    · rw [h1, hlast]
    · rw [hget (k + 1) h1]
  · intro i
    simp only [workerRanges, List.countP_append, spawnRanges_count, List.countP_cons,
      List.countP_nil]
    have h2 : (spawnRanges (c / W) (W - 1) 0).2 = (W - 1) * (c / W) := by
      rw [spawnRanges_closed]; simp
    rw [h2]
    simp only [decide_eq_true_eq, Nat.zero_add, Nat.zero_le, true_and]
    by_cases h1 : i < (W - 1) * (c / W)
    · rw [if_pos h1, if_neg (by omega), if_pos (by omega)]
    · rw [if_neg h1]
      by_cases h3 : i < c
      · rw [if_pos ⟨by omega, h3⟩, if_pos h3]
      · rw [if_neg (by omega), if_neg h3]

/-- C12 at 10 items and 4 workers: the ranges are `[0,2)`, `[2,4)`, `[4,6)` and
`[6,10)`. -/
theorem workerRanges_partition_witness :
    workerRanges 10 4 = [(0, 2), (2, 4), (4, 6), (6, 10)] ∧
    (∀ i, (workerRanges 10 4).countP (fun r => decide (r.1 ≤ i ∧ i < r.2)) =
      if i < 10 then 1 else 0) :=
  ⟨by decide, (workerRanges_partition 10 4 (by decide)).2.2.2.2.2.2.1⟩

theorem foldl_push_eq {α β : Type} (f : β → α) (l : List β) (a : List α) :
    l.foldl (fun acc x => acc ++ [f x]) a = a ++ l.map f := by
  induction l generalizing a with
  | nil => simp
  | cons x l ih => simp [ih]

/-- Rewriting the entries `0 .. n-1` of a list one after the other. -/
theorem foldl_set_range {α : Type} (G : Nat → α → α) (d : α) (row : List α) (n : Nat)
    (hn : n ≤ row.length) :
    (List.range n).foldl (fun r k => r.set k (G k (r.getD k d))) row =
      (List.range n).map (fun k => G k (row.getD k d)) ++ row.drop n := by
  induction n with
  | zero => simp
  | succ n ih =>
    rw [List.range_succ, List.foldl_append, ih (by omega)]
    simp only [List.foldl_cons, List.foldl_nil, List.map_append, List.map_cons, List.map_nil]
    have hlen : ((List.range n).map (fun k => G k (row.getD k d))).length = n := by simp
    have hdrop : row.drop n = row.getD n d :: row.drop (n + 1) := by
      rw [List.getD_eq_getElem?_getD, List.getElem?_eq_getElem (by omega), Option.getD_some]
      exact List.drop_eq_getElem_cons (by omega)
    have hget : ((List.range n).map (fun k => G k (row.getD k d)) ++ row.drop n).getD n d =
        row.getD n d := by
      rw [hdrop, List.getD_eq_getElem?_getD, List.getElem?_append_right (by simp)]
      simp
    rw [hget, hdrop]
    have hset : ∀ (pre : List α) (x y : α) (tl : List α), pre.length = n →
        (pre ++ x :: tl).set n y = pre ++ y :: tl := by
      intro pre x y tl hp
      subst hp
      simp
    rw [hset _ _ _ _ hlen]
    simp

theorem map_eq_map_range {α β : Type} (f : α → β) (d : α) (l : List α) :
    l.map f = (List.range l.length).map (fun k => f (l.getD k d)) := by
  apply List.ext_getElem
  · simp
  · intro i h1 h2
    simp only [List.getElem_map, List.getElem_range]
    rw [List.getD_eq_getElem?_getD, List.getElem?_eq_getElem (by simpa using h1)]
    rfl

/-- The kernel the threads build is the kernel `buildKernel`: every row is
filled once, whatever the number of threads. -/
theorem buildKernelThreads_eq (L : MotionLib K) (odom : AMCLOdom K) (ang_arr X Y : List K)
    (delta_rot1 delta_trans : K) (nb_threads size_a_ : Nat) (hsize : ang_arr.length = size_a_) :
    buildKernelThreads L odom ang_arr X Y delta_rot1 delta_trans nb_threads size_a_ =
      buildKernel L odom ang_arr X Y delta_rot1 delta_trans := by
  have hrow : ∀ po : K,
      kernelFillRow L odom ang_arr X Y delta_rot1 delta_trans po (List.replicate size_a_ []) =
        ang_arr.map (fun ang_maidx =>
          (List.range X.length).map (fun i =>
            motionModelO L odom delta_rot1 delta_trans delta_rot1
              (odometry L (X.getD i 0) (Y.getD i 0) ang_maidx 0 0 po).1
              (odometry L (X.getD i 0) (Y.getD i 0) ang_maidx 0 0 po).2.1
              (odometry L (X.getD i 0) (Y.getD i 0) ang_maidx 0 0 po).2.2)) := by
    intro po
    simp only [kernelFillRow, foldl_push_eq]
    rw [foldl_set_range (fun maidx (matrix : List K) =>
      matrix ++ (List.range X.length).map (fun i =>
        motionModelO L odom delta_rot1 delta_trans delta_rot1
          (odometry L (X.getD i 0) (Y.getD i 0) (ang_arr.getD maidx 0) 0 0 po).1
          (odometry L (X.getD i 0) (Y.getD i 0) (ang_arr.getD maidx 0) 0 0 po).2.1
          (odometry L (X.getD i 0) (Y.getD i 0) (ang_arr.getD maidx 0) 0 0 po).2.2))
      [] (List.replicate size_a_ []) ang_arr.length (by simp [hsize])]
    rw [map_eq_map_range _ (0 : K) ang_arr, hsize]
    simp only [List.drop_replicate, Nat.sub_self, List.replicate_zero, List.append_nil]
    apply List.map_congr_left
    intro k hk
    have hk' : k < size_a_ := List.mem_range.mp hk
    simp [List.getD_eq_getElem?_getD, List.getElem?_replicate, hk']
  simp only [buildKernelThreads]
  have hsl := workerRanges_slices (kernelWorker L odom ang_arr X Y delta_rot1 delta_trans)
    (fun _ => rfl) (fun a b s => by simp [kernelWorker, List.foldl_append])
    (List.range ang_arr.length) nb_threads
    (List.replicate size_a_ (List.replicate size_a_ []))
  rw [List.length_range] at hsl
  rw [hsl]
  simp only [kernelWorker]
  rw [foldl_set_range (fun k (row : List (List K)) =>
      kernelFillRow L odom ang_arr X Y delta_rot1 delta_trans (ang_arr.getD k 0) row)
    [] (List.replicate size_a_ (List.replicate size_a_ [])) ang_arr.length (by simp [hsize])]
  simp only [buildKernel]
  rw [map_eq_map_range _ (0 : K) ang_arr, hsize]
  simp only [List.drop_replicate, Nat.sub_self, List.replicate_zero, List.append_nil]
  apply List.map_congr_left
  intro k hk
  have hk' : k < size_a_ := List.mem_range.mp hk
  have hget : (List.replicate size_a_ (List.replicate size_a_ ([] : List K))).getD k [] =
      List.replicate size_a_ [] := by
    simp [List.getD_eq_getElem?_getD, List.getElem?_replicate, hk']
  rw [hget, hrow]

/-! ## The weight written by `UpdateParticle` -/

/-- The number of indices the rebuild loop lists is the number of samples whose
weight is above `epson_`. -/
theorem rebuildActiveLoop_length (epson_ : K) (l : List (pf_sample_t K)) (idx : Nat) :
    (rebuildActiveLoop epson_ l idx []).1.length =
      l.countP (fun s => decide (s.weight > epson_)) := by
  induction l generalizing idx with
  | nil => simp [rebuildActiveLoop]
  | cons s rest ih =>
    by_cases h : s.weight > epson_
    · simp only [rebuildActiveLoop, h, if_true]
      rw [rebuildActiveLoop_acc]
      simp [ih (idx + 1), h, Nat.add_comm]
    · simp only [rebuildActiveLoop, h, if_false]
      simp [ih (idx + 1), h]

/-- Raising the weights at or below `epson_` to `epson_` does not lower the
total weight, and raises it by at most `epson_` per raised sample. -/
theorem totalWeight_floor_bounds (epson_ : K) (l : List (pf_sample_t K))
    (hnonneg : ∀ s ∈ l, 0 ≤ s.weight) :
    totalWeight l ≤
      totalWeight (l.map (fun s => if s.weight > epson_ then s else { s with weight := epson_ })) ∧
    totalWeight (l.map (fun s => if s.weight > epson_ then s else { s with weight := epson_ })) ≤
      totalWeight l + (l.countP (fun s => !decide (s.weight > epson_)) : K) * epson_ := by
  induction l with
  | nil => simp [totalWeight]
  | cons s rest ih =>
    obtain ⟨ih1, ih2⟩ := ih (fun t ht => hnonneg t (List.mem_cons_of_mem _ ht))
    have hs := hnonneg s (List.mem_cons_self _ _)
    simp only [List.map_cons, totalWeight_cons, List.countP_cons]
    by_cases h : s.weight > epson_
    · simp only [h, if_true, decide_True, Bool.not_true, Bool.false_eq_true, if_false,
        Nat.add_zero]
      constructor <;> linarith
    · have hle : s.weight ≤ epson_ := not_lt.mp h
      simp only [h, if_false, decide_False, Bool.not_false, if_true]
      push_cast
      constructor <;> nlinarith

/-- C20: for a generation buffer of `F * A` samples whose weights are
non-negative and sum to 1, the total weight after the active-set rebuild loop
is at least 1 and at most `1 + k * epson_`, with `k` the number of samples that
are not active; so it is at most `1 + 1/1024`. -/
theorem rebuild_total_bounds (F A : Nat) (samples : List (pf_sample_t K))
    (hlen : samples.length = F * A) (hnonneg : ∀ s ∈ samples, 0 ≤ s.weight)
    (hsum : totalWeight samples = 1) :
    1 ≤ totalWeight (rebuildActive (epson (max_particles F (A : Int))) samples).2 ∧
    totalWeight (rebuildActive (epson (max_particles F (A : Int))) samples).2 ≤
      1 + ((samples.length -
        (rebuildActive (epson (max_particles F (A : Int))) samples).1.length : Nat) : K) *
          epson (max_particles F (A : Int)) ∧
    totalWeight (rebuildActive (epson (max_particles F (A : Int))) samples).2 ≤
      1 + 1 / 1024 := by
  obtain ⟨h1, h2⟩ := totalWeight_floor_bounds (epson (max_particles F (A : Int))) samples hnonneg
  have hk : samples.length -
      (rebuildActive (epson (max_particles F (A : Int))) samples).1.length =
      samples.countP (fun s => !decide (s.weight > epson (max_particles F (A : Int)))) := by
    rw [rebuildActive, rebuildActiveLoop_length]
    have := List.length_eq_countP_add_countP
      (fun s : pf_sample_t K => decide (s.weight > epson (max_particles F (A : Int)))) samples
    have hnot : samples.countP
        (fun s => !decide (s.weight > epson (max_particles F (A : Int)))) =
        samples.countP
        (fun a => decide ¬ (fun s : pf_sample_t K =>
          decide (s.weight > epson (max_particles F (A : Int)))) a = true) := by
      apply List.countP_congr
      intro s _
      simp
    rw [hnot]
    exact Nat.sub_eq_of_eq_add (by rw [Nat.add_comm]; exact this)
  have hn : 1 ≤ samples.length := by
    rcases samples with _ | ⟨s, rest⟩
    · simp [totalWeight] at hsum
    · simp
  have hnK : (0 : K) < ((F * A : Nat) : K) := by
    exact_mod_cast (by omega : 0 < F * A)
  have heps : epson (max_particles F (A : Int)) = 1 / ((F * A : Nat) : K) / 1024 := by
    simp only [epson, max_particles]
    push_cast
    ring
  have heps0 : (0 : K) ≤ epson (max_particles F (A : Int)) := by
    rw [heps]; positivity
  have hkn : (samples.countP
      (fun s => !decide (s.weight > epson (max_particles F (A : Int)))) : K) ≤
      ((F * A : Nat) : K) := by
    have := List.countP_le_length
      (fun s : pf_sample_t K => !decide (s.weight > epson (max_particles F (A : Int))))
      (l := samples)
    rw [hlen] at this
    exact_mod_cast this
  have hkeps : (samples.countP
      (fun s => !decide (s.weight > epson (max_particles F (A : Int)))) : K) *
      epson (max_particles F (A : Int)) ≤ 1 / 1024 := by
    calc _ ≤ ((F * A : Nat) : K) * epson (max_particles F (A : Int)) :=
          mul_le_mul_of_nonneg_right hkn heps0
      _ = 1 / 1024 := by
          rw [heps]
          generalize ((F * A : Nat) : K) = n at hnK
          field_simp
  rw [rebuildActive, rebuildActiveLoop_samples, ← rebuildActive, hk]
  rw [hsum] at h1 h2
  exact ⟨h1, h2, le_trans h2 (by linarith)⟩

/-- C20 at the demo grid (2 free cells, 2 heading bins, floor `1/4096`): the
two samples that are not active are raised to the floor. -/
theorem rebuild_total_bounds_witness :
    1 ≤ totalWeight (rebuildActive (epson (max_particles 2 ((2 : Nat) : Int)))
      ([⟨⟨0, 0, 0⟩, 1 / 2, 0⟩, ⟨⟨0, 0, 1⟩, 0, 0⟩, ⟨⟨1, 0, 0⟩, 1 / 2, 0⟩, ⟨⟨1, 0, 1⟩, 0, 0⟩] :
        List (pf_sample_t ℚ))).2 ∧
    totalWeight (rebuildActive (epson (max_particles 2 ((2 : Nat) : Int)))
      ([⟨⟨0, 0, 0⟩, 1 / 2, 0⟩, ⟨⟨0, 0, 1⟩, 0, 0⟩, ⟨⟨1, 0, 0⟩, 1 / 2, 0⟩, ⟨⟨1, 0, 1⟩, 0, 0⟩] :
        List (pf_sample_t ℚ))).2 ≤ 1 + 1 / 1024 :=
  have h := rebuild_total_bounds 2 2
    ([⟨⟨0, 0, 0⟩, 1 / 2, 0⟩, ⟨⟨0, 0, 1⟩, 0, 0⟩, ⟨⟨1, 0, 0⟩, 1 / 2, 0⟩, ⟨⟨1, 0, 1⟩, 0, 0⟩] :
      List (pf_sample_t ℚ)) (by simp)
    (by
      intro s hs
      simp only [List.mem_cons, List.mem_singleton, List.not_mem_nil, or_false] at hs
      rcases hs with rfl | rfl | rfl | rfl <;> norm_num)
    (by norm_num [totalWeight])
  ⟨h.1, h.2.2⟩

/-! ## What the motion update leaves unchanged -/

/-- The worker `worker2` keeps the number of samples, every pose and
`logWeight`, and every sample whose index is not in its slice. -/
theorem worker2_frame (C : ConvInput K) (previous_set : List (pf_sample_t K))
    (slice : List Nat) :
    ∀ (t : K) (cur : List (pf_sample_t K)),
      (worker2 C previous_set slice (t, cur)).2.length = cur.length ∧
      (∀ j, j ∉ slice →
        sampleAt (worker2 C previous_set slice (t, cur)).2 j = sampleAt cur j) ∧
      (∀ j, (sampleAt (worker2 C previous_set slice (t, cur)).2 j).pose = (sampleAt cur j).pose ∧
        (sampleAt (worker2 C previous_set slice (t, cur)).2 j).logWeight =
          (sampleAt cur j).logWeight) := by
  induction slice with
  | nil => intro t cur; simp [worker2]
  | cons idx rest ih =>
    intro t cur
    have hstep : worker2 C previous_set (idx :: rest) (t, cur) =
        worker2 C previous_set rest
          (t + accumulativeWeight C previous_set (sampleAt cur idx),
            cur.set idx { sampleAt cur idx with
              weight := accumulativeWeight C previous_set (sampleAt cur idx) }) := by
      simp [worker2]
    obtain ⟨ih1, ih2, ih3⟩ := ih
      (t + accumulativeWeight C previous_set (sampleAt cur idx))
      (cur.set idx { sampleAt cur idx with
        weight := accumulativeWeight C previous_set (sampleAt cur idx) })
    rw [hstep]
    refine ⟨by rw [ih1]; simp, ?_, ?_⟩
    · intro j hj
      have hne : idx ≠ j := fun h => hj (h ▸ List.mem_cons_self _ _)
      rw [ih2 j (fun h => hj (List.mem_cons_of_mem _ h)), sampleAt_set]
      simp [hne]
    · intro j
      rw [(ih3 j).1, (ih3 j).2, sampleAt_set]
      by_cases h : idx = j ∧ idx < cur.length
      · rw [if_pos h, ← h.1]
        exact ⟨rfl, rfl⟩
      · rw [if_neg h]
        exact ⟨rfl, rfl⟩

/-- C17: `UpdateOdomO` changes no weight of the previous generation and changes
the current-generation weight only of samples whose index is in
`active_sample_indices_`: every sample of the current set that is not active is
the same after the call, and every pose and the number of samples are kept.
The call returns once the fuel covers the `side` loops. -/
theorem UpdateOdomO_frame (L : MotionLib K) (g : GridState K) (nb_threads_hint : Nat)
    (ndata : AMCLOdomData K) :
    (∀ fuel r, UpdateOdomOGrid L g nb_threads_hint ndata fuel = some r →
      r.2.previous_set = g.previous_set ∧
      r.2.active_sample_indices_ = g.active_sample_indices_ ∧
      r.2.current_set.length = g.current_set.length ∧
      (∀ j, j ∉ g.active_sample_indices_ →
        sampleAt r.2.current_set j = sampleAt g.current_set j) ∧
      (∀ j, (sampleAt r.2.current_set j).pose = (sampleAt g.current_set j).pose)) ∧
    (∀ f : Nat, 0 < g.map_.scale → odomRadius L g.odom_ ndata < (f : K) * g.map_.scale →
      ∃ r, UpdateOdomOGrid L g nb_threads_hint ndata (f + 1) = some r) := by
  constructor
  · intro fuel r hr
    simp only [UpdateOdomOGrid] at hr
    rcases hu : UpdateOdomO L g nb_threads_hint ndata fuel with _ | u
    · rw [hu] at hr; simp at hr
    · rw [hu] at hr
      simp only [Option.some.injEq] at hr
      obtain ⟨C, hC⟩ := UpdateOdomO_some L g nb_threads_hint ndata fuel u hu
      obtain ⟨h1, h2, h3⟩ := worker2_frame C g.previous_set g.active_sample_indices_ 0
        g.current_set
      rw [← hC] at h1 h2 h3
      subst hr
      exact ⟨rfl, rfl, h1, h2, fun j => (h3 j).1⟩
  · intro f hs hf
    obtain ⟨u, hu⟩ := UpdateOdomO_returns L g nb_threads_hint ndata f hs hf
    refine ⟨(u.1, { g with current_set := u.2 }), ?_⟩
    simp only [UpdateOdomOGrid, hu]

/-- C17 at the demo grid with only sample 0 active: sample 1 keeps its weight
`1/2` and the previous set is as before. -/
theorem UpdateOdomO_frame_demo :
    ∃ r, UpdateOdomOGrid (demoMotionLib ℚ) (demoGridState ℚ) 1 (demoOdomData ℚ) 2 = some r ∧
      r.2.previous_set = (demoGridState ℚ).previous_set ∧
      (sampleAt r.2.current_set 1).weight = 1 / 2 := by
  have hside : buildSide (demoGridState ℚ).map_.scale
      (odomRadius (demoMotionLib ℚ) (demoGridState ℚ).odom_ (demoOdomData ℚ)) 2 = some [0] := by
    norm_num [buildSide, sideNegLoop, sidePosLoop, odomRadius, odomDeltaTrans, demoMotionLib,
      demoGridState, demoMap]
  refine ⟨((convolve (odomConvInput (demoMotionLib ℚ) (demoGridState ℚ) (demoOdomData ℚ) [0])
      (nbThreads 1) (demoGridState ℚ).active_sample_indices_ (demoGridState ℚ).current_set
      (demoGridState ℚ).previous_set).1,
    { demoGridState ℚ with current_set :=
      (convolve (odomConvInput (demoMotionLib ℚ) (demoGridState ℚ) (demoOdomData ℚ) [0])
      (nbThreads 1) (demoGridState ℚ).active_sample_indices_ (demoGridState ℚ).current_set
      (demoGridState ℚ).previous_set).2 }), ?_, rfl, ?_⟩
  · simp only [UpdateOdomOGrid, UpdateOdomO, hside]
  obtain ⟨_, h2, _⟩ := worker2_frame
    (odomConvInput (demoMotionLib ℚ) (demoGridState ℚ) (demoOdomData ℚ) [0])
    (demoGridState ℚ).previous_set (demoGridState ℚ).active_sample_indices_ 0
    (demoGridState ℚ).current_set
  simp only [convolve_eq]
  rw [h2 1 (by simp [demoGridState])]
  simp [demoGridState, sampleAt]

/-! ## The convolution gathers into the active pose -/

/-- The samples after `worker2` on a slice of in-range indices, which may
repeat: a sample of the slice has the accumulated weight of its pose, every
other sample is as before. -/
theorem worker2_weights (C : ConvInput K) (previous_set : List (pf_sample_t K))
    (slice : List Nat) :
    ∀ (t : K) (cur : List (pf_sample_t K)), (∀ idx ∈ slice, idx < cur.length) →
      ∀ j, sampleAt (worker2 C previous_set slice (t, cur)).2 j =
        if j ∈ slice then
          { sampleAt cur j with weight := accumulativeWeight C previous_set (sampleAt cur j) }
        else sampleAt cur j := by
  induction slice with
  | nil => intro t cur _ j; simp [worker2]
  | cons idx rest ih =>
    intro t cur hin j
    have hidx : idx < cur.length := hin idx (List.mem_cons_self _ _)
    have hstep : worker2 C previous_set (idx :: rest) (t, cur) =
        worker2 C previous_set rest
          (t + accumulativeWeight C previous_set (sampleAt cur idx),
            cur.set idx { sampleAt cur idx with
              weight := accumulativeWeight C previous_set (sampleAt cur idx) }) := by
      simp [worker2]
    have hlen : ∀ i ∈ rest, i < (cur.set idx { sampleAt cur idx with
        weight := accumulativeWeight C previous_set (sampleAt cur idx) }).length := fun i hi => by
      rw [List.length_set]; exact hin i (List.mem_cons_of_mem _ hi)
    rw [hstep, ih _ _ hlen j]
    by_cases hj : idx = j
    · subst hj
      have hs1 : sampleAt (cur.set idx { sampleAt cur idx with
          weight := accumulativeWeight C previous_set (sampleAt cur idx) }) idx =
          { sampleAt cur idx with
            weight := accumulativeWeight C previous_set (sampleAt cur idx) } := by
        rw [sampleAt_set, if_pos ⟨rfl, hidx⟩]
      rw [hs1, if_pos (List.mem_cons_self _ _)]
      by_cases hr : idx ∈ rest
      · rw [if_pos hr]
        rw [accumulativeWeight_congr C previous_set
          { sampleAt cur idx with
            weight := accumulativeWeight C previous_set (sampleAt cur idx) }
          (sampleAt cur idx) rfl]
      · rw [if_neg hr]
    · have hs1 : sampleAt (cur.set idx { sampleAt cur idx with
          weight := accumulativeWeight C previous_set (sampleAt cur idx) }) j =
          sampleAt cur j := by
        rw [sampleAt_set, if_neg (fun h => hj h.1)]
      rw [hs1]
      by_cases hr : j ∈ rest
      · rw [if_pos hr, if_pos (List.mem_cons_of_mem _ hr)]
      · rw [if_neg hr, if_neg (fun h => by
          rcases List.mem_cons.mp h with h | h
          · exact hj h.symm
          · exact hr h)]

/-- The valid neighbours of a particle are the offsets `o` of the window whose
cell passes the test of line 383, paired with the free-cell index of that
cell. -/
theorem mem_validNeighbors (C : ConvInput K) (origin : pf_sample_t K) (n o : Nat) :
    (n, o) ∈ validNeighbors C origin ↔
      o < C.X.length ∧
      C.map_.MAP_VALID (C.map_.MAP_GXWX (origin.pose.v0 + C.X.getD o 0))
        (C.map_.MAP_GYWY (origin.pose.v1 + C.Y.getD o 0)) = true ∧
      C.map_.occ_state (C.map_.MAP_GXWX (origin.pose.v0 + C.X.getD o 0))
        (C.map_.MAP_GYWY (origin.pose.v1 + C.Y.getD o 0)) = -1 ∧
      n = C.mapidx2freeidx_ (C.map_.MAP_GXWX (origin.pose.v0 + C.X.getD o 0))
        (C.map_.MAP_GYWY (origin.pose.v1 + C.Y.getD o 0)) := by
  simp only [validNeighbors, List.mem_filterMap, List.mem_range]
  constructor
  · rintro ⟨nidx, hlt, h⟩
    split_ifs at h with hc
    simp only [Option.some.injEq, Prod.mk.injEq] at h
    obtain ⟨h1, h2⟩ := h
    subst h2
    push_neg at hc
    refine ⟨hlt, ?_, hc.2, h1.symm⟩
    cases hv : C.map_.MAP_VALID (C.map_.MAP_GXWX (origin.pose.v0 + C.X.getD nidx 0))
      (C.map_.MAP_GYWY (origin.pose.v1 + C.Y.getD nidx 0))
    · exact absurd hv hc.1
    · rfl
  · rintro ⟨hlt, hv, ho, hn⟩
    refine ⟨o, hlt, ?_⟩
    rw [if_neg (by rw [hv, ho]; simp), hn]

/-- The offset list of `demoRowGrid` at zero displacement is `[0]`. -/
theorem demoRowGrid_side :
    buildSide demoRowGrid.map_.scale
      (odomRadius (demoMotionLib ℚ) demoRowGrid.odom_ (demoOdomData ℚ)) 2 = some [0] := by
  norm_num [buildSide, sideNegLoop, sidePosLoop, odomRadius, odomDeltaTrans, demoMotionLib,
    demoRowGrid, demoRowMap, demoOdomData]

/-- C14 fails where a cell is active in one heading bin only.  On
`demoRowGrid`, cell 50 is active with heading bin 0 (sample 100) and not with
heading bin 1 (sample 101); its single valid neighbour is cell 50 itself at
offset 0.  The product `previousWeight(50, 0) × kernel` for source bin 0 and
target bin 1 is `1/101`, yet the pose (50, 1) keeps its weight `1/102`: nothing
is accumulated into it.  And the weight written to the pose (50, 0) is
`1/101 + 1/104448`, which contains the previous weight of the pose (50, 1),
a source pose that is not active. -/
theorem UpdateOdomO_scatter_counterexample :
    ∃ r, UpdateOdomO (demoMotionLib ℚ) demoRowGrid 1 (demoOdomData ℚ) 2 = some r ∧
      100 ∈ demoRowGrid.active_sample_indices_ ∧
      101 ∉ demoRowGrid.active_sample_indices_ ∧
      validNeighbors (odomConvInput (demoMotionLib ℚ) demoRowGrid (demoOdomData ℚ) [0])
        (sampleAt demoRowGrid.current_set 100) = [(50, 0)] ∧
      (sampleAt demoRowGrid.previous_set (50 * 2 + 0)).weight *
        kernelEntry (odomConvInput (demoMotionLib ℚ) demoRowGrid (demoOdomData ℚ) [0]) 1 0 0
        = 1 / 101 ∧
      (sampleAt demoRowGrid.current_set 101).weight = 1 / 102 ∧
      (sampleAt r.2 101).weight = 1 / 102 ∧
      (sampleAt r.2 100).weight = 1 / 101 + 1 / 104448 := by
  have hcur : ∀ i, i < 102 → sampleAt demoRowGrid.current_set i =
      ⟨⟨((i / 2 : Nat) : ℚ), 0, ((i % 2 : Nat) : ℚ)⟩, 1 / 102, 0⟩ := by
    intro i hi
    simp [sampleAt, demoRowGrid, List.getD, List.getElem?_map, List.getElem?_range hi]
  have hprev : ∀ i, i < 102 → (sampleAt demoRowGrid.previous_set i).weight =
      if i = 101 then 1 / 104448 else 1 / 101 := by
    intro i hi
    simp [sampleAt, demoRowGrid, List.getD, List.getElem?_map, List.getElem?_range hi]
  have hsa : demoRowGrid.size_a_ = 2 := rfl
  have hod : demoRowGrid.odom_ = ⟨1 / 5, 1 / 5, 1 / 5, 1 / 5⟩ := rfl
  have hmap : demoRowGrid.map_ = demoRowMap := rfl
  have hfree : demoRowGrid.mapidx2freeidx_ = fun i _ => i.toNat := rfl
  have hngb : validNeighbors (odomConvInput (demoMotionLib ℚ) demoRowGrid (demoOdomData ℚ) [0])
      (sampleAt demoRowGrid.current_set 100) = [(50, 0)] := by
    rw [hcur 100 (by norm_num)]
    norm_num [validNeighbors, odomConvInput, buildXY, hmap, hfree, demoRowMap, List.range_succ,
      List.filterMap_cons]
    rfl
  have hk : ∀ a s, a < 2 → s < 2 →
      kernelEntry (odomConvInput (demoMotionLib ℚ) demoRowGrid (demoOdomData ℚ) [0]) a s 0
        = 1 := by
    intro a s ha hs
    interval_cases a <;> interval_cases s <;>
      norm_num [kernelEntry, odomConvInput, buildXY, buildKernel, angArr, odometry, motionModelO,
        demoMotionLib, hsa, hod, List.range_succ]
  have hw := worker2_weights (odomConvInput (demoMotionLib ℚ) demoRowGrid (demoOdomData ℚ) [0])
    demoRowGrid.previous_set demoRowGrid.active_sample_indices_ 0 demoRowGrid.current_set
    (by
      intro idx hidx
      simp only [demoRowGrid, List.mem_range] at hidx
      simp only [demoRowGrid, List.length_map, List.length_range]
      omega)
  have h100 : 100 ∈ demoRowGrid.active_sample_indices_ := by simp [demoRowGrid]
  have h101 : 101 ∉ demoRowGrid.active_sample_indices_ := by simp [demoRowGrid]
  refine ⟨convolve (odomConvInput (demoMotionLib ℚ) demoRowGrid (demoOdomData ℚ) [0])
      (nbThreads 1) demoRowGrid.active_sample_indices_ demoRowGrid.current_set
      demoRowGrid.previous_set, ?_, h100, h101, hngb, ?_, ?_, ?_, ?_⟩
  · simp only [UpdateOdomO, demoRowGrid_side]
  · rw [hprev 100 (by norm_num), hk 1 0 (by norm_num) (by norm_num)]
    norm_num
  · rw [hcur 101 (by norm_num)]
  · rw [convolve_eq, hw 101, if_neg h101, hcur 101 (by norm_num)]
  · rw [convolve_eq, hw 100, if_pos h100]
    show accumulativeWeight _ _ _ = _
    rw [accumulativeWeight_eq, hngb]
    have hsz : (odomConvInput (demoMotionLib ℚ) demoRowGrid (demoOdomData ℚ) [0]).size_a_ = 2 :=
      rfl
    have hang : (odomConvInput (demoMotionLib ℚ) demoRowGrid (demoOdomData ℚ) [0]).ANG2IDX
        (sampleAt demoRowGrid.current_set 100).pose.v2 = 0 := by
      rw [hcur 100 (by norm_num)]
      norm_num [odomConvInput, demoMotionLib]
    rw [hsz, hang]
    simp only [List.range_succ, List.range_zero, List.nil_append, List.map_cons, List.map_nil,
      List.sum_cons, List.sum_nil, List.cons_append]
    rw [hprev (50 * 2 + 0) (by norm_num), hprev (50 * 2 + 1) (by norm_num),
      hk 0 0 (by norm_num) (by norm_num), hk 0 1 (by norm_num) (by norm_num)]
    norm_num

/-! ## The kernel entries and the observed decomposition -/

/-- The kernel entry `mat_prob_matrices[t][s][i]` that `UpdateOdomO` stores: the
value of `motionModelO` at the motion recovered by `odometry` from offset `i`
with heading `IDX2ANG(s)` to the origin with heading `IDX2ANG(t)`, called with
`delta_rot1` in the place of both `delta_rot1` and `delta_rot2`. -/
theorem kernelEntry_eq (L : MotionLib K) (g : GridState K) (ndata : AMCLOdomData K)
    (side : List K) (t s i : Nat) (ht : t < g.size_a_) (hs : s < g.size_a_)
    (hi : i < (buildXY side).1.length) :
    kernelEntry (odomConvInput L g ndata side) t s i =
      motionModelO L g.odom_ (odomDeltaRot1 L ndata) (odomDeltaTrans L ndata)
        (odomDeltaRot1 L ndata)
        (odometry L ((buildXY side).1.getD i 0) ((buildXY side).2.getD i 0) (L.IDX2ANG s) 0 0
          (L.IDX2ANG t)).1
        (odometry L ((buildXY side).1.getD i 0) ((buildXY side).2.getD i 0) (L.IDX2ANG s) 0 0
          (L.IDX2ANG t)).2.1
        (odometry L ((buildXY side).1.getD i 0) ((buildXY side).2.getD i 0) (L.IDX2ANG s) 0 0
          (L.IDX2ANG t)).2.2 := by
  simp only [kernelEntry, odomConvInput, buildKernel, angArr, List.getD_eq_getElem?_getD,
    List.getElem?_map, List.getElem?_range ht, List.getElem?_range hs, List.getElem?_range hi,
    Option.map_some', Option.getD_some]

/-- C15: the stored kernel entry is `motionModelO` evaluated with
`(delta_rot1, delta_trans, delta_rot1)`, not with the observed decomposition
`(delta_rot1, delta_trans, delta_rot2)`.  For a turn in place by one heading
bin, with a noise-free likelihood, the observed decomposition is `(0, 0, 1)`;
the likelihood of the transition from heading bin 0 to heading bin 1 at offset
0 is 1 and that of staying in bin 0 is 0, but the stored entries are 0 and 1:
the kernel keeps every heading where it was. -/
theorem kernel_ignores_delta_rot2 :
    odomDeltaRot1 (demoExactLib ℚ) (demoTurnData ℚ) = 0 ∧
    odomDeltaTrans (demoExactLib ℚ) (demoTurnData ℚ) = 0 ∧
    odomDeltaRot2 (demoExactLib ℚ) (demoTurnData ℚ) = 1 ∧
    buildSide (demoGridState ℚ).map_.scale
      (odomRadius (demoExactLib ℚ) (demoGridState ℚ).odom_ (demoTurnData ℚ)) 2 = some [0] ∧
    kernelEntry (odomConvInput (demoExactLib ℚ) (demoGridState ℚ) (demoTurnData ℚ) [0]) 1 0 0
      = 0 ∧
    motionModelO (demoExactLib ℚ) (demoGridState ℚ).odom_
      (odomDeltaRot1 (demoExactLib ℚ) (demoTurnData ℚ))
      (odomDeltaTrans (demoExactLib ℚ) (demoTurnData ℚ))
      (odomDeltaRot2 (demoExactLib ℚ) (demoTurnData ℚ))
      (odometry (demoExactLib ℚ) 0 0 ((demoExactLib ℚ).IDX2ANG 0) 0 0
        ((demoExactLib ℚ).IDX2ANG 1)).1
      (odometry (demoExactLib ℚ) 0 0 ((demoExactLib ℚ).IDX2ANG 0) 0 0
        ((demoExactLib ℚ).IDX2ANG 1)).2.1
      (odometry (demoExactLib ℚ) 0 0 ((demoExactLib ℚ).IDX2ANG 0) 0 0
        ((demoExactLib ℚ).IDX2ANG 1)).2.2 = 1 ∧
    kernelEntry (odomConvInput (demoExactLib ℚ) (demoGridState ℚ) (demoTurnData ℚ) [0]) 0 0 0
      = 1 ∧
    motionModelO (demoExactLib ℚ) (demoGridState ℚ).odom_
      (odomDeltaRot1 (demoExactLib ℚ) (demoTurnData ℚ))
      (odomDeltaTrans (demoExactLib ℚ) (demoTurnData ℚ))
      (odomDeltaRot2 (demoExactLib ℚ) (demoTurnData ℚ))
      (odometry (demoExactLib ℚ) 0 0 ((demoExactLib ℚ).IDX2ANG 0) 0 0
        ((demoExactLib ℚ).IDX2ANG 0)).1
      (odometry (demoExactLib ℚ) 0 0 ((demoExactLib ℚ).IDX2ANG 0) 0 0
        ((demoExactLib ℚ).IDX2ANG 0)).2.1
      (odometry (demoExactLib ℚ) 0 0 ((demoExactLib ℚ).IDX2ANG 0) 0 0
        ((demoExactLib ℚ).IDX2ANG 0)).2.2 = 0 := by
  have h1 : odomDeltaRot1 (demoExactLib ℚ) (demoTurnData ℚ) = 0 := by
    norm_num [odomDeltaRot1, demoExactLib, demoMotionLib, demoTurnData]
  have h2 : odomDeltaTrans (demoExactLib ℚ) (demoTurnData ℚ) = 0 := by
    norm_num [odomDeltaTrans, demoExactLib, demoMotionLib, demoTurnData]
  have h3 : odomDeltaRot2 (demoExactLib ℚ) (demoTurnData ℚ) = 1 := by
    norm_num [odomDeltaRot2, odomDeltaRot1, demoExactLib, demoMotionLib, demoTurnData]
  refine ⟨h1, h2, h3, ?_, ?_, ?_, ?_, ?_⟩
  · norm_num [buildSide, sideNegLoop, sidePosLoop, odomRadius, h2, demoGridState, demoMap]
  · rw [kernelEntry_eq _ _ _ _ 1 0 0 (by norm_num [demoGridState]) (by norm_num [demoGridState])
      (by norm_num [buildXY]), h1, h2]
    norm_num [motionModelO, odometry, buildXY, demoExactLib, demoMotionLib, demoGridState]
  · rw [h1, h2, h3]
    norm_num [motionModelO, odometry, demoExactLib, demoMotionLib, demoGridState]
  · rw [kernelEntry_eq _ _ _ _ 0 0 0 (by norm_num [demoGridState]) (by norm_num [demoGridState])
      (by norm_num [buildXY]), h1, h2]
    norm_num [motionModelO, odometry, buildXY, demoExactLib, demoMotionLib, demoGridState]
  · rw [h1, h2, h3]
    norm_num [motionModelO, odometry, demoExactLib, demoMotionLib, demoGridState]

/-! ## The assertions of the motion update -/

/-- The valid neighbours of a particle depend on its pose only. -/
theorem validNeighbors_congr (C : ConvInput K) (s s' : pf_sample_t K) (h : s.pose = s'.pose) :
    validNeighbors C s = validNeighbors C s' := by
  simp only [validNeighbors, h]

/-- The checked weight of a particle depends on its pose only. -/
theorem accumulativeWeightChecked_congr (C : ConvInput K) (previous_set : List (pf_sample_t K))
    (s s' : pf_sample_t K) (h : s.pose = s'.pose) :
    accumulativeWeightChecked C previous_set s = accumulativeWeightChecked C previous_set s' := by
  simp only [accumulativeWeightChecked, validNeighbors, h]

/-- With no valid neighbour the assertion of line 391 fails. -/
theorem accumulativeWeightChecked_empty (C : ConvInput K) (previous_set : List (pf_sample_t K))
    (origin : pf_sample_t K) (h : validNeighbors C origin = []) :
    accumulativeWeightChecked C previous_set origin = .error .emptyNeighborhood := by
  simp [accumulativeWeightChecked, h]

/-- With no valid neighbour the loops of lines 393-405 add nothing. -/
theorem accumulativeWeight_empty (C : ConvInput K) (previous_set : List (pf_sample_t K))
    (origin : pf_sample_t K) (h : validNeighbors C origin = []) :
    accumulativeWeight C previous_set origin = 0 := by
  rw [accumulativeWeight_eq, h]
  simp

theorem neighborLoopChecked_ok (previous_set : List (pf_sample_t K)) (size_a_ maidx : Nat)
    (motion_prob_mat : List K) (ngbs : List (Nat × Nat)) :
    ∀ (acc r : K),
      neighborLoopChecked previous_set size_a_ maidx motion_prob_mat ngbs acc = .ok r →
      r = ngbs.foldl (fun acc ngb =>
          acc + (sampleAt previous_set (ngb.1 * size_a_ + maidx)).weight *
            motion_prob_mat.getD ngb.2 0) acc ∧
        ∀ ngb ∈ ngbs, (sampleAt previous_set (ngb.1 * size_a_ + maidx)).weight ≠ 0 := by
  induction ngbs with
  | nil =>
    intro acc r h
    simp only [neighborLoopChecked, Except.ok.injEq] at h
    simp [h]
  | cons ngb rest ih =>
    intro acc r h
    simp only [neighborLoopChecked] at h
    split_ifs at h with hz
    obtain ⟨h1, h2⟩ := ih _ _ h
    refine ⟨by simpa using h1, ?_⟩
    intro n hn
    rcases List.mem_cons.mp hn with hn | hn
    · rw [hn]; exact hz
    · exact h2 n hn

theorem neighborLoopChecked_of_nonzero (previous_set : List (pf_sample_t K)) (size_a_ maidx : Nat)
    (motion_prob_mat : List K) (ngbs : List (Nat × Nat))
    (hnz : ∀ ngb ∈ ngbs, (sampleAt previous_set (ngb.1 * size_a_ + maidx)).weight ≠ 0) :
    ∀ acc : K,
      neighborLoopChecked previous_set size_a_ maidx motion_prob_mat ngbs acc =
        .ok (ngbs.foldl (fun acc ngb =>
          acc + (sampleAt previous_set (ngb.1 * size_a_ + maidx)).weight *
            motion_prob_mat.getD ngb.2 0) acc) := by
  induction ngbs with
  | nil => intro acc; simp [neighborLoopChecked]
  | cons ngb rest ih =>
    intro acc
    simp only [neighborLoopChecked]
    rw [if_neg (hnz ngb (List.mem_cons_self _ _))]
    rw [ih (fun n hn => hnz n (List.mem_cons_of_mem _ hn))]
    simp

theorem headingLoopChecked_ok (previous_set : List (pf_sample_t K)) (size_a_ : Nat)
    (vec_prob_matrices : List (List K)) (ngbs : List (Nat × Nat)) (l : List Nat) :
    ∀ (acc r : K),
      headingLoopChecked previous_set size_a_ vec_prob_matrices ngbs l acc = .ok r →
      r = l.foldl (fun acc maidx =>
          ngbs.foldl (fun acc ngb =>
            acc + (sampleAt previous_set (ngb.1 * size_a_ + maidx)).weight *
              (vec_prob_matrices.getD maidx []).getD ngb.2 0) acc) acc ∧
        ∀ maidx ∈ l, ∀ ngb ∈ ngbs,
          (sampleAt previous_set (ngb.1 * size_a_ + maidx)).weight ≠ 0 := by
  induction l with
  | nil =>
    intro acc r h
    simp only [headingLoopChecked, Except.ok.injEq] at h
    simp [h]
  | cons maidx rest ih =>
    intro acc r h
    simp only [headingLoopChecked] at h
    rcases hn : neighborLoopChecked previous_set size_a_ maidx (vec_prob_matrices.getD maidx [])
      ngbs acc with e | acc1
    · rw [hn] at h; simp at h
    · rw [hn] at h
      simp only at h
      obtain ⟨h1, h2⟩ := ih _ _ h
      obtain ⟨h3, h4⟩ := neighborLoopChecked_ok _ _ _ _ _ _ _ hn
      refine ⟨by rw [h1, h3]; simp, ?_⟩
      intro m hm
      rcases List.mem_cons.mp hm with hm | hm
      · rw [hm]; exact h4
      · exact h2 m hm

theorem headingLoopChecked_of_nonzero (previous_set : List (pf_sample_t K)) (size_a_ : Nat)
    (vec_prob_matrices : List (List K)) (ngbs : List (Nat × Nat)) (l : List Nat)
    (hnz : ∀ maidx ∈ l, ∀ ngb ∈ ngbs,
      (sampleAt previous_set (ngb.1 * size_a_ + maidx)).weight ≠ 0) :
    ∀ acc : K,
      headingLoopChecked previous_set size_a_ vec_prob_matrices ngbs l acc =
        .ok (l.foldl (fun acc maidx =>
          ngbs.foldl (fun acc ngb =>
            acc + (sampleAt previous_set (ngb.1 * size_a_ + maidx)).weight *
              (vec_prob_matrices.getD maidx []).getD ngb.2 0) acc) acc) := by
  induction l with
  | nil => intro acc; simp [headingLoopChecked]
  | cons maidx rest ih =>
    intro acc
    simp only [headingLoopChecked]
    rw [neighborLoopChecked_of_nonzero _ _ _ _ _ (hnz maidx (List.mem_cons_self _ _))]
    simp only
    rw [ih (fun m hm => hnz m (List.mem_cons_of_mem _ hm))]
    simp

/-- A checked weight that is returned is the weight `accumulativeWeight`; it is
not zero, the particle has a valid neighbour and every previous weight read is
not zero. -/
theorem accumulativeWeightChecked_ok (C : ConvInput K) (previous_set : List (pf_sample_t K))
    (origin : pf_sample_t K) (a : K)
    (h : accumulativeWeightChecked C previous_set origin = .ok a) :
    a = accumulativeWeight C previous_set origin ∧ a ≠ 0 ∧ validNeighbors C origin ≠ [] ∧
      ∀ maidx, maidx < C.size_a_ → ∀ ngb ∈ validNeighbors C origin,
        (sampleAt previous_set (ngb.1 * C.size_a_ + maidx)).weight ≠ 0 := by
  simp only [accumulativeWeightChecked] at h
  split_ifs at h with hlen
  rcases hh : headingLoopChecked previous_set C.size_a_
    (C.mat_prob_matrices.getD (C.ANG2IDX origin.pose.v2) []) (validNeighbors C origin)
    (List.range C.size_a_) 0 with e | acc
  · rw [hh] at h; simp at h
  · rw [hh] at h
    simp only at h
    split_ifs at h with hz
    simp only [Except.ok.injEq] at h
    obtain ⟨h1, h2⟩ := headingLoopChecked_ok _ _ _ _ _ _ _ hh
    subst h
    refine ⟨h1, hz, ?_, fun m hm => h2 m (List.mem_range.mpr hm)⟩
    intro hnil
    rw [hnil] at hlen
    simp at hlen

/-- The assertions of a particle can fail in three ways only; when the
particle has a valid neighbour and every previous weight read is not zero, the
only one left is `assert(accumulative_weight != 0.0)`. -/
theorem accumulativeWeightChecked_of_nonzero (C : ConvInput K)
    (previous_set : List (pf_sample_t K)) (origin : pf_sample_t K)
    (hne : validNeighbors C origin ≠ [])
    (hnz : ∀ maidx, maidx < C.size_a_ → ∀ ngb ∈ validNeighbors C origin,
        (sampleAt previous_set (ngb.1 * C.size_a_ + maidx)).weight ≠ 0) :
    accumulativeWeightChecked C previous_set origin =
      if accumulativeWeight C previous_set origin ≠ 0
      then .ok (accumulativeWeight C previous_set origin)
      else .error .zeroAccumulativeWeight := by
  have hlen : (validNeighbors C origin).length > 0 := List.length_pos.mpr hne
  simp only [accumulativeWeightChecked, accumulativeWeight]
  rw [if_pos hlen, headingLoopChecked_of_nonzero _ _ _ _ _
    (fun m hm => hnz m (List.mem_range.mp hm))]

/-- A run of `worker2` that passes every assertion gives what `worker2` gives. -/
theorem worker2Checked_ok (C : ConvInput K) (previous_set : List (pf_sample_t K))
    (slice : List Nat) :
    ∀ (st r : K × List (pf_sample_t K)),
      worker2Checked C previous_set slice st = .ok r → r = worker2 C previous_set slice st := by
  induction slice with
  | nil =>
    intro st r h
    simp only [worker2Checked, Except.ok.injEq] at h
    simp [worker2, h]
  | cons idx rest ih =>
    intro st r h
    simp only [worker2Checked] at h
    rcases ha : accumulativeWeightChecked C previous_set (sampleAt st.2 idx) with e | a
    · rw [ha] at h; simp at h
    · rw [ha] at h
      simp only at h
      rw [ih _ _ h, (accumulativeWeightChecked_ok C previous_set _ a ha).1]
      simp [worker2]

/-- When a particle of the slice has no valid neighbour, `worker2` stops at an
assertion. -/
theorem worker2Checked_empty (C : ConvInput K) (previous_set : List (pf_sample_t K))
    (slice : List Nat) :
    ∀ (st : K × List (pf_sample_t K)) (idx : Nat), idx ∈ slice →
      validNeighbors C (sampleAt st.2 idx) = [] →
      ∃ e, worker2Checked C previous_set slice st = .error e := by
  induction slice with
  | nil => intro st idx h; simp at h
  | cons i rest ih =>
    intro st idx hidx hempty
    simp only [worker2Checked]
    rcases ha : accumulativeWeightChecked C previous_set (sampleAt st.2 i) with e | a
    · exact ⟨e, rfl⟩
    · simp only
      have hne := (accumulativeWeightChecked_ok C previous_set _ a ha).2.2.1
      have hi : idx ≠ i := fun h => hne (h ▸ hempty)
      have hrest : idx ∈ rest := by
        rcases List.mem_cons.mp hidx with h | h
        · exact absurd h hi
        · exact h
      apply ih _ idx hrest
      show validNeighbors C (sampleAt (st.2.set i _) idx) = []
      rw [sampleAt_set, if_neg (fun h => hi h.1.symm)]
      exact hempty

theorem worker2Checked_append (C : ConvInput K) (previous_set : List (pf_sample_t K))
    (a b : List Nat) :
    ∀ st : K × List (pf_sample_t K),
      worker2Checked C previous_set (a ++ b) st =
        match worker2Checked C previous_set a st with
        | .error e => .error e
        | .ok st1 => worker2Checked C previous_set b st1 := by
  induction a with
  | nil => intro st; simp [worker2Checked]
  | cons i rest ih =>
    intro st
    simp only [List.cons_append, worker2Checked]
    rcases accumulativeWeightChecked C previous_set (sampleAt st.2 i) with e | x
    · rfl
    · simp only
      exact ih _

/-- The threads of the convolution together run `worker2` once over the whole
of `active_sample_indices_`. -/
theorem convolveChecked_eq (C : ConvInput K) (nb_threads : Nat) (active : List Nat)
    (current_set previous_set : List (pf_sample_t K)) :
    convolveChecked C nb_threads active current_set previous_set =
      worker2Checked C previous_set active (0, current_set) := by
  have hfold : ∀ (ranges : List (Nat × Nat)) (st : K × List (pf_sample_t K)),
      convolveRangesChecked C previous_set active ranges st =
        ranges.foldl (fun (x : Except AssertFailure (K × List (pf_sample_t K))) r =>
          match x with
          | .error e => .error e
          | .ok s => worker2Checked C previous_set ((active.drop r.1).take (r.2 - r.1)) s)
          (.ok st) := by
    intro ranges
    induction ranges with
    | nil => intro st; rfl
    | cons r rest ih =>
      intro st
      simp only [convolveRangesChecked, List.foldl_cons]
      rcases worker2Checked C previous_set ((active.drop r.1).take (r.2 - r.1)) st with e | s
      · simp only
        clear ih
        induction rest with
        | nil => rfl
        | cons r2 rest2 ih2 => simpa using ih2
      · simp only
        exact ih s
  simp only [convolveChecked]
  rw [hfold]
  exact workerRanges_slices
    (fun (l : List Nat) (x : Except AssertFailure (K × List (pf_sample_t K))) =>
      match x with
      | .error e => .error e
      | .ok s => worker2Checked C previous_set l s)
    (fun x => by cases x <;> rfl)
    (fun a b x => by
      cases x with
      | error e => rfl
      | ok s => exact worker2Checked_append C previous_set a b s)
    active nb_threads (.ok (0, current_set))

/-- A call of `UpdateOdomO` that passes every assertion returns what the
function without the assertions returns. -/
theorem UpdateOdomOChecked_ok (L : MotionLib K) (g : GridState K) (nb_threads_hint : Nat)
    (ndata : AMCLOdomData K) (fuel : Nat) (r : K × List (pf_sample_t K))
    (h : UpdateOdomOChecked L g nb_threads_hint ndata fuel = some (.ok r)) :
    UpdateOdomO L g nb_threads_hint ndata fuel = some r := by
  simp only [UpdateOdomOChecked] at h
  simp only [UpdateOdomO]
  rcases hside : buildSide g.map_.scale (odomRadius L g.odom_ ndata) fuel with _ | side
  · rw [hside] at h; simp at h
  · rw [hside] at h
    simp only at h
    split_ifs at h with hk
    · simp only [Option.some.injEq] at h
      rw [convolveChecked_eq] at h
      simp only
      rw [convolve_eq, worker2Checked_ok _ _ _ _ _ h]
    · simp at h

/-- On the demo grid with a map without valid cells the update ends in the
assertion `emptyNeighborhood` itself. -/
theorem UpdateOdomOChecked_demoOffMap :
    UpdateOdomOChecked (demoMotionLib ℚ) (demoOffMapGrid ℚ) 1 (demoOdomData ℚ) 2 =
      some (.error .emptyNeighborhood) := by
  have hside : buildSide (demoOffMapGrid ℚ).map_.scale
      (odomRadius (demoMotionLib ℚ) (demoOffMapGrid ℚ).odom_ (demoOdomData ℚ)) 2 = some [0] := by
    norm_num [buildSide, sideNegLoop, sidePosLoop, odomRadius, odomDeltaTrans, demoMotionLib,
      demoOffMapGrid, demoGridState, demoMap]
  have hk : kernelSumsNonzero (odomConvInput (demoMotionLib ℚ) (demoOffMapGrid ℚ)
      (demoOdomData ℚ) [0]).mat_prob_matrices = true := by
    norm_num [kernelSumsNonzero, odomConvInput, buildXY, buildKernel, angArr, odometry,
      motionModelO, demoMotionLib, demoOffMapGrid, demoGridState, List.range_succ]
  have hempty : validNeighbors
      (odomConvInput (demoMotionLib ℚ) (demoOffMapGrid ℚ) (demoOdomData ℚ) [0])
      (sampleAt (demoOffMapGrid ℚ).current_set 0) = [] := by
    norm_num [validNeighbors, odomConvInput, buildXY, demoOffMapGrid, demoGridState, demoMap,
      sampleAt, List.range_succ, List.filterMap_cons]
  simp only [UpdateOdomOChecked, hside, hk, if_true, convolveChecked_eq]
  have hact : (demoOffMapGrid ℚ).active_sample_indices_ = [0] := rfl
  rw [hact]
  simp only [worker2Checked]
  rw [accumulativeWeightChecked_empty _ _ _ hempty]

/-! ## Termination and bounds of `downsizingSampling` -/

/-- Leaving out the list of reads gives `innerWalk`. -/
theorem innerWalkTrace_erase (set_a : List (pf_sample_t K)) (r count_inv : K) (fuel : Nat) :
    ∀ (st : WalkState K) (reads : List Nat),
      (innerWalkTrace set_a r count_inv fuel st reads).map Prod.fst =
        innerWalk set_a r count_inv fuel st := by
  induction fuel with
  | zero => intro st reads; rfl
  | succ fuel ih =>
    intro st reads
    simp only [innerWalkTrace, innerWalk]
    split_ifs
    · exact ih _ _
    · exact ih _ _
    · rfl

/-- Leaving out the list of reads gives `resampleLoop`. -/
theorem resampleTrace_erase (set_a : List (pf_sample_t K)) (r count_inv : K) (fuel : Nat)
    (k : Nat) :
    ∀ (i : Nat) (c : K) (m : Nat) (reads : List Nat),
      (resampleTrace set_a r count_inv fuel k i c m reads).map Prod.fst =
        resampleLoop set_a r count_inv fuel k i c m := by
  induction k with
  | zero => intro i c m reads; rfl
  | succ k ih =>
    intro i c m reads
    simp only [resampleTrace, resampleLoop]
    have he := innerWalkTrace_erase set_a r count_inv fuel
      { i := i, c := c, m := m, U := r + (m : K) * count_inv } reads
    rcases hw : innerWalkTrace set_a r count_inv fuel
      { i := i, c := c, m := m, U := r + (m : K) * count_inv } reads with _ | st
    · rw [hw] at he
      simp only [Option.map_none'] at he
      rw [← he]
      rfl
    · rw [hw] at he
      simp only [Option.map_some'] at he
      rw [← he]
      simp only
      have hr := ih st.1.i st.1.c (st.1.m + 1) (st.2 ++ [st.1.i])
      rcases hres : resampleTrace set_a r count_inv fuel k st.1.i st.1.c (st.1.m + 1)
        (st.2 ++ [st.1.i]) with _ | res
      · rw [hres] at hr
        simp only [Option.map_none'] at hr
        rw [← hr]
        rfl
      · rw [hres] at hr
        simp only [Option.map_some'] at hr
        rw [← hr]
        rfl

/-- From index `i` with a target `U` not above the total weight, the inner loop
ends within `length - i` iterations at an index below the length, without
wrap-around, and reads only indices below the length. -/
theorem innerWalkTrace_advance (set_a : List (pf_sample_t K)) (r count_inv : K) (m : Nat)
    (U : K) (hU : U ≤ cumWeight set_a (set_a.length - 1)) (d : Nat) :
    ∀ (i : Nat) (reads : List Nat) (fuel : Nat), i + d + 1 = set_a.length →
      set_a.length ≤ fuel + i → (∀ j ∈ reads, j < set_a.length) →
      ∃ j reads1, innerWalkTrace set_a r count_inv fuel
          { i := i, c := cumWeight set_a i, m := m, U := U } reads =
            some ({ i := j, c := cumWeight set_a j, m := m, U := U }, reads1) ∧
        j < set_a.length ∧ ∀ j' ∈ reads1, j' < set_a.length := by
  have hstop : ∀ (i : Nat) (reads : List Nat) (fuel : Nat), i < set_a.length →
      U ≤ cumWeight set_a i → set_a.length ≤ fuel + i → (∀ j ∈ reads, j < set_a.length) →
      ∃ j reads1, innerWalkTrace set_a r count_inv fuel
          { i := i, c := cumWeight set_a i, m := m, U := U } reads =
            some ({ i := j, c := cumWeight set_a j, m := m, U := U }, reads1) ∧
        j < set_a.length ∧ ∀ j' ∈ reads1, j' < set_a.length := by
    intro i reads fuel hi hle hfuel hreads
    obtain ⟨f, rfl⟩ : ∃ f, fuel = f + 1 := ⟨fuel - 1, by omega⟩
    exact ⟨i, reads, by simp [innerWalkTrace, not_lt.mpr hle], hi, hreads⟩
  induction d with
  | zero =>
    intro i reads fuel hi hfuel hreads
    have hin : i = set_a.length - 1 := by omega
    exact hstop i reads fuel (by omega) (by rw [hin]; exact hU) hfuel hreads
  | succ d ih =>
    intro i reads fuel hi hfuel hreads
    by_cases hle : U ≤ cumWeight set_a i
    · exact hstop i reads fuel (by omega) hle hfuel hreads
    · have hgt : cumWeight set_a i < U := not_le.mp hle
      obtain ⟨f, rfl⟩ : ∃ f, fuel = f + 1 := ⟨fuel - 1, by omega⟩
      have hnot : ¬ (i + 1 ≥ set_a.length) := by omega
      obtain ⟨j, reads1, hrun, hj, hr1⟩ := ih (i + 1) (reads ++ [i + 1]) f (by omega) (by omega)
        (by
          intro j hjm
          rcases List.mem_append.mp hjm with h | h
          · exact hreads j h
          · simp only [List.mem_singleton] at h
            omega)
      refine ⟨j, reads1, ?_, hj, hr1⟩
      simp only [innerWalkTrace, gt_iff_lt, hgt, if_true, hnot, if_false]
      rw [← cumWeight_succ set_a i (by omega)]
      exact hrun

/-- From any index `i` below the length, with `c` the cumulative weight at `i`
and any target `U`, the inner loop ends within `2 * length - i` iterations: it
stops at an index whose cumulative weight reaches `U`, or runs to the last
sample, restarts from index 0 with the target `r`, and stops from there.  It
reads only indices below the length. -/
theorem innerWalkTrace_terminates (set_a : List (pf_sample_t K)) (r count_inv : K)
    (hr : r ≤ totalWeight set_a) (d : Nat) :
    ∀ (i m : Nat) (U : K) (reads : List Nat) (fuel : Nat), i + d + 1 = set_a.length →
      2 * set_a.length ≤ fuel + i → (∀ j ∈ reads, j < set_a.length) →
      ∃ st reads1, innerWalkTrace set_a r count_inv fuel
          { i := i, c := cumWeight set_a i, m := m, U := U } reads = some (st, reads1) ∧
        st.i < set_a.length ∧ st.c = cumWeight set_a st.i ∧
        ∀ j' ∈ reads1, j' < set_a.length := by
  have hstop : ∀ (i m : Nat) (U : K) (reads : List Nat) (fuel : Nat), i < set_a.length →
      U ≤ cumWeight set_a i → 2 * set_a.length ≤ fuel + i →
      (∀ j ∈ reads, j < set_a.length) →
      ∃ st reads1, innerWalkTrace set_a r count_inv fuel
          { i := i, c := cumWeight set_a i, m := m, U := U } reads = some (st, reads1) ∧
        st.i < set_a.length ∧ st.c = cumWeight set_a st.i ∧
        ∀ j' ∈ reads1, j' < set_a.length := by
    intro i m U reads fuel hi hle hfuel hreads
    obtain ⟨f, rfl⟩ : ∃ f, fuel = f + 1 := ⟨fuel - 1, by omega⟩
    exact ⟨{ i := i, c := cumWeight set_a i, m := m, U := U }, reads,
      by simp [innerWalkTrace, not_lt.mpr hle], hi, rfl, hreads⟩
  induction d with
  | zero =>
    intro i m U reads fuel hi hfuel hreads
    by_cases hle : U ≤ cumWeight set_a i
    · exact hstop i m U reads fuel (by omega) hle hfuel hreads
    · have hgt : cumWeight set_a i < U := not_le.mp hle
      obtain ⟨f, rfl⟩ : ∃ f, fuel = f + 1 := ⟨fuel - 1, by omega⟩
      have hwrap : i + 1 ≥ set_a.length := by omega
      have hr0 : r + ((0 : Nat) : K) * count_inv ≤ cumWeight set_a (set_a.length - 1) := by
        rw [cumWeight_last]
        simpa using hr
      obtain ⟨j, reads1, hrun, hj, hr1⟩ := innerWalkTrace_advance set_a r count_inv 0
        (r + ((0 : Nat) : K) * count_inv) hr0 (set_a.length - 1) 0 (reads ++ [0]) f (by omega)
        (by omega)
        (by
          intro j hjm
          rcases List.mem_append.mp hjm with h | h
          · exact hreads j h
          · simp only [List.mem_singleton] at h
            omega)
      refine ⟨{ i := j, c := cumWeight set_a j, m := 0, U := r + ((0 : Nat) : K) * count_inv },
        reads1, ?_, hj, rfl, hr1⟩
      simp only [innerWalkTrace, gt_iff_lt, hgt, if_true, hwrap]
      rw [← cumWeight_zero set_a (by omega)]
      exact hrun
  | succ d ih =>
    intro i m U reads fuel hi hfuel hreads
    by_cases hle : U ≤ cumWeight set_a i
    · exact hstop i m U reads fuel (by omega) hle hfuel hreads
    · have hgt : cumWeight set_a i < U := not_le.mp hle
      obtain ⟨f, rfl⟩ : ∃ f, fuel = f + 1 := ⟨fuel - 1, by omega⟩
      have hnot : ¬ (i + 1 ≥ set_a.length) := by omega
      obtain ⟨st, reads1, hrun, hst⟩ := ih (i + 1) m U (reads ++ [i + 1]) f (by omega)
        (by omega)
        (by
          intro j hjm
          rcases List.mem_append.mp hjm with h | h
          · exact hreads j h
          · simp only [List.mem_singleton] at h
            omega)
      refine ⟨st, reads1, ?_, hst⟩
      simp only [innerWalkTrace, gt_iff_lt, hgt, if_true, hnot, if_false]
      rw [← cumWeight_succ set_a i (by omega)]
      exact hrun

/-- The outer loop writes `k` outputs whatever the targets are; the indices it
copies and the indices it reads are below the length. -/
theorem resampleTrace_terminates (set_a : List (pf_sample_t K)) (r count_inv : K)
    (hr : r ≤ totalWeight set_a) (fuel : Nat) (hfuel : 2 * set_a.length ≤ fuel) (k : Nat) :
    ∀ (i m : Nat) (reads : List Nat), i < set_a.length → (∀ j ∈ reads, j < set_a.length) →
      ∃ idxs reads1, resampleTrace set_a r count_inv fuel k i (cumWeight set_a i) m reads =
          some (idxs, reads1) ∧
        idxs.length = k ∧ (∀ j ∈ idxs, j < set_a.length) ∧
        ∀ j ∈ reads1, j < set_a.length := by
  induction k with
  | zero =>
    intro i m reads _ hreads
    exact ⟨[], reads, rfl, rfl, by simp, hreads⟩
  | succ k ih =>
    intro i m reads hi hreads
    obtain ⟨st, reads1, hrun, hsti, hstc, hr1⟩ := innerWalkTrace_terminates set_a r count_inv hr
      (set_a.length - 1 - i) i m (r + (m : K) * count_inv) reads fuel (by omega) (by omega) hreads
    obtain ⟨idxs, reads2, hres, hlen, hidx, hr2⟩ := ih st.i (st.m + 1) (reads1 ++ [st.i]) hsti
      (by
        intro j hjm
        rcases List.mem_append.mp hjm with h | h
        · exact hr1 j h
        · simp only [List.mem_singleton] at h
          omega)
    refine ⟨st.i :: idxs, reads2, ?_, by simp [hlen], ?_, hr2⟩
    · simp only [resampleTrace, hrun]
      rw [hstc, hres]
    · intro j hj
      rcases List.mem_cons.mp hj with h | h
      · omega
      · exact hidx j h

/-- The run of C18 on `demoHalfSet`: the second target `3/4` is above the
total weight `1/2`; the walk reads sample 1, restarts at sample 0, and both
outputs copy sample 0. -/
theorem downsizingTrace_demoHalfSet :
    downsizingTrace (demoHalfSet ℚ) 2 (1 / 4) 4 = some ([0, 0], [0, 0, 1, 0, 0]) := by
  norm_num [downsizingTrace, resampleTrace, innerWalkTrace, demoHalfSet, sampleAt]

/-! ## The floor on the previous generation -/

theorem index_bounds_step (k n : Nat) (v : Int) (a : ((k + 1 : Nat) : Int) ≤ v)
    (b : v < ((k + 1 + n : Nat) : Int)) :
    (k : Int) ≤ v ∧ v < ((k + (n + 1) : Nat) : Int) := by
  push_cast at a b ⊢
  omega

theorem index_bounds_here (k n : Nat) :
    (k : Int) ≤ (k : Int) ∧ (k : Int) < ((k + (n + 1) : Nat) : Int) := by
  push_cast
  omega

theorem index_bounds_toNat (n : Nat) (v : Int) (a : ((0 : Nat) : Int) ≤ v)
    (b : v < ((0 + n : Nat) : Int)) : v.toNat < n := by
  push_cast at a b
  omega

/-- A free cell outside the list keeps the entry the table had. -/
theorem initFreeIdx_loop_notin (cells : List (Int × Int)) (x y : Int) :
    ∀ (k : Nat) (tbl : Int → Int → Int), (x, y) ∉ cells →
      (cells.enumFrom k).foldl
        (fun tbl p => fun x y => if x = p.2.1 ∧ y = p.2.2 then (p.1 : Int) else tbl x y)
        tbl x y = tbl x y := by
  induction cells with
  | nil => intro k tbl _; rfl
  | cons c rest ih =>
    intro k tbl hnot
    simp only [List.enumFrom_cons, List.foldl_cons]
    rw [ih (k + 1) _ (fun h => hnot (List.mem_cons_of_mem _ h))]
    have hne : ¬ (x = c.1 ∧ y = c.2) := by
      intro h
      apply hnot
      rw [h.1, h.2]
      exact List.mem_cons_self _ _
    simp only [hne, if_false]

/-- A free cell of the list gets an index of the list. -/
theorem initFreeIdx_loop_mem (cells : List (Int × Int)) (x y : Int) :
    ∀ (k : Nat) (tbl : Int → Int → Int), (x, y) ∈ cells →
      (k : Int) ≤ (cells.enumFrom k).foldl
        (fun tbl p => fun x y => if x = p.2.1 ∧ y = p.2.2 then (p.1 : Int) else tbl x y)
        tbl x y ∧
      (cells.enumFrom k).foldl
        (fun tbl p => fun x y => if x = p.2.1 ∧ y = p.2.2 then (p.1 : Int) else tbl x y)
        tbl x y < ((k + cells.length : Nat) : Int) := by
  induction cells with
  | nil => intro k tbl h; simp at h
  | cons c rest ih =>
    intro k tbl hmem
    simp only [List.enumFrom_cons, List.foldl_cons, List.length_cons]
    by_cases hrest : (x, y) ∈ rest
    · obtain ⟨h1, h2⟩ := ih (k + 1) _ hrest
      exact index_bounds_step k rest.length _ h1 h2
    · rw [initFreeIdx_loop_notin rest x y (k + 1) _ hrest]
      have hc : (x, y) = c := by
        rcases List.mem_cons.mp hmem with h | h
        · exact h
        · exact absurd h hrest
      have hxy : x = c.1 ∧ y = c.2 := by
        rw [← hc]
        exact ⟨rfl, rfl⟩
      simp only [hxy, and_self, if_true]
      exact index_bounds_here k rest.length

/-- The table `mapidx2freeidx_` holds an index below the number of free cells
at every free cell. -/
theorem initFreeIdx_lt (cells : List (Int × Int)) (x y : Int) (h : (x, y) ∈ cells) :
    (initFreeIdx cells x y).toNat < cells.length := by
  obtain ⟨h1, h2⟩ := initFreeIdx_loop_mem cells x y 0 (fun _ _ => -1) h
  simp only [initFreeIdx, List.enum]
  exact index_bounds_toNat cells.length _ h1 h2

/-- The floor `epson_` is positive when the grid has a sample. -/
theorem epson_pos (F A : Nat) (hFA : 1 ≤ F * A) :
    (0 : K) < epson (max_particles F (A : Int)) := by
  have hpos : (0 : K) < ((F * A : Nat) : K) := by
    have : 0 < F * A := hFA
    exact_mod_cast this
  have hcast : ((max_particles F (A : Int) : Int) : K) = ((F * A : Nat) : K) := by
    simp only [max_particles]
    push_cast
    ring
  simp only [epson]
  rw [hcast]
  positivity

/-- The initial weight `1/(F * A)` is at least the floor. -/
theorem epson_le_initial (F A : Nat) (hFA : 1 ≤ F * A) :
    epson (max_particles F (A : Int)) ≤ (1 : K) / ((F * A : Nat) : K) := by
  have hpos : (0 : K) < ((F * A : Nat) : K) := by
    have : 0 < F * A := hFA
    exact_mod_cast this
  have hcast : ((max_particles F (A : Int) : Int) : K) = ((F * A : Nat) : K) := by
    simp only [max_particles]
    push_cast
    ring
  simp only [epson]
  rw [hcast]
  have h1 : (0 : K) < 1 / ((F * A : Nat) : K) := by positivity
  rw [div_le_iff₀ (by norm_num : (0 : K) < 1024)]
  nlinarith

/-- After the rebuild of `active_sample_indices_` every weight of the set is at
least `epson_`. -/
theorem rebuildActive_floor (epson_ : K) (samples : List (pf_sample_t K)) :
    ∀ p ∈ (rebuildActive epson_ samples).2, epson_ ≤ p.weight := by
  intro p hp
  rw [rebuildActive, rebuildActiveLoop_samples, List.mem_map] at hp
  obtain ⟨t, _, rfl⟩ := hp
  by_cases h : t.weight > epson_
  · simpa [h] using le_of_lt h
  · simp [h]

/-- The sensor update keeps the number of samples of the set it works on. -/
theorem sensorUpdate_length (m : LibM K) (inp : CycleInput K) (s : NodeState K) :
    (sensorUpdate m inp s).grid.previous_set.length = s.grid.current_set.length := by
  simp only [sensorUpdate, swapSets, rebuildActive, rebuildActiveLoop_samples,
    UpdateLaserParallel_eq, pf_normalize_set, floorWeights, List.length_map]

/-- The motion update with its normalization keeps the number of samples. -/
theorem motionUpdateAndNormalize_length (L : MotionLib K) (g : GridState K) (flag : Bool)
    (nb_threads_hint : Nat) (ndata : AMCLOdomData K) (fuel : Nat)
    (cur : List (pf_sample_t K))
    (h : motionUpdateAndNormalize L g flag nb_threads_hint ndata fuel = some cur) :
    cur.length = g.current_set.length := by
  simp only [motionUpdateAndNormalize] at h
  split_ifs at h
  · rcases hu : UpdateOdomO L g nb_threads_hint ndata fuel with _ | u
    · rw [hu] at h; simp at h
    · rw [hu] at h
      simp only [Option.some.injEq] at h
      obtain ⟨C, hC⟩ := UpdateOdomO_some L g nb_threads_hint ndata fuel u hu
      rw [← h, pf_normalize_set, List.length_map, hC]
      exact (worker2_frame C g.previous_set g.active_sample_indices_ 0 g.current_set).1
  · simp only [Option.some.injEq] at h
    rw [← h, pf_normalize_set, List.length_map]

/-- The sensor update makes the invariant hold again, whatever the weights of
the current generation were before it. -/
theorem sensorUpdate_invariant (m : LibM K) (inp : CycleInput K) (map_ : map_t K)
    (cells : List (Int × Int)) (A : Nat) (s : NodeState K)
    (he : s.epson_ = epson (max_particles cells.length (A : Int)))
    (hA : s.grid.size_a_ = A) (hmap : s.grid.map_ = map_)
    (htbl : s.grid.mapidx2freeidx_ = (fun x y => (initFreeIdx cells x y).toNat))
    (hcur : s.grid.current_set.length = cells.length * A)
    (hprev : s.grid.previous_set.length = cells.length * A)
    (hw : ∀ p ∈ s.grid.previous_set, s.epson_ ≤ p.weight) :
    GridInvariant map_ cells A (sensorUpdate m inp s) := by
  refine ⟨he, hA, hmap, htbl, hprev, ?_, hw, ?_⟩
  · rw [sensorUpdate_length, hcur]
  · exact rebuildActive_floor s.epson_ _

/-- One call of `laserReceived` keeps the invariant. -/
theorem laserReceived_invariant (m : LibM K) (L : MotionLib K) (inp : CycleInput K)
    (map_ : map_t K) (cells : List (Int × Int)) (A : Nat) (s s1 : NodeState K)
    (hinv : GridInvariant map_ cells A s) (h : laserReceived m L inp s = some s1) :
    GridInvariant map_ cells A s1 := by
  obtain ⟨he, hA, hmap, htbl, hcur, hprev, hwc, hwp⟩ := hinv
  simp only [laserReceived] at h
  split_ifs at h with h1 h2 h3
  · simp only [Option.some.injEq] at h
    rw [← h]
    exact ⟨he, hA, hmap, htbl, hcur, hprev, hwc, hwp⟩
  · simp only [Option.some.injEq] at h
    rw [← h]
    exact sensorUpdate_invariant m inp map_ cells A _ he hA hmap htbl hprev hcur hwc
  · rcases hm : motionUpdateAndNormalize L s.grid s.motion_update_flag_ inp.nb_threads_hint
      inp.odata inp.fuel with _ | cur
    · rw [hm] at h; simp at h
    · rw [hm] at h
      simp only [Option.some.injEq] at h
      rw [← h]
      refine sensorUpdate_invariant m inp map_ cells A _ he hA hmap htbl ?_ hprev hwp
      show cur.length = cells.length * A
      rw [motionUpdateAndNormalize_length L s.grid _ _ _ _ cur hm, hcur]
  · simp only [Option.some.injEq] at h
    rw [← h]
    exact ⟨he, hA, hmap, htbl, hcur, hprev, hwc, hwp⟩

/-- Every sequence of calls keeps the invariant. -/
theorem runCycles_invariant (m : LibM K) (L : MotionLib K) (map_ : map_t K)
    (cells : List (Int × Int)) (A : Nat) (inputs : List (CycleInput K)) :
    ∀ s s1 : NodeState K, GridInvariant map_ cells A s → runCycles m L inputs s = some s1 →
      GridInvariant map_ cells A s1 := by
  induction inputs with
  | nil =>
    intro s s1 hinv h
    simp only [runCycles, Option.some.injEq] at h
    rw [← h]
    exact hinv
  | cons inp rest ih =>
    intro s s1 hinv h
    simp only [runCycles] at h
    rcases hl : laserReceived m L inp s with _ | s2
    · rw [hl] at h; simp at h
    · rw [hl] at h
      exact ih s2 s1 (laserReceived_invariant m L inp map_ cells A s s2 hinv hl) h

/-- The node satisfies the invariant after `initialMarkovGrid`. -/
theorem initialNode_invariant (W : MapWorld K) (IDX2ANG : Nat → K) (map_ : map_t K)
    (odom_ : AMCLOdom K) (cells : List (Int × Int)) (A : Nat) (flag : Bool)
    (uninit0 uninit1 : Nat → pf_sample_t K) (hFA : 1 ≤ cells.length * A) :
    GridInvariant map_ cells A
      (initialNode W IDX2ANG map_ odom_ cells A flag uninit0 uninit1) := by
  obtain ⟨h0l, _, h0w, _⟩ := initSet_spec W IDX2ANG cells A uninit0 hFA
  obtain ⟨h1l, _, h1w, _⟩ := initSet_spec W IDX2ANG cells A uninit1 hFA
  refine ⟨rfl, rfl, rfl, rfl, h0l, h1l, ?_, ?_⟩
  · intro p hp
    have := h0w p hp
    show epson (max_particles cells.length (A : Int)) ≤ p.weight
    rw [this]
    exact epson_le_initial cells.length A hFA
  · intro p hp
    have := h1w p hp
    show epson (max_particles cells.length (A : Int)) ≤ p.weight
    rw [this]
    exact epson_le_initial cells.length A hFA

/-- When no previous weight that the convolution reads is zero, the worker
`worker2` does not stop at the assertion of line 401. -/
theorem worker2Checked_previous_nonzero (C : ConvInput K) (previous_set : List (pf_sample_t K))
    (hnz : ∀ (origin : pf_sample_t K) (maidx : Nat), maidx < C.size_a_ →
      ∀ ngb ∈ validNeighbors C origin,
        (sampleAt previous_set (ngb.1 * C.size_a_ + maidx)).weight ≠ 0)
    (slice : List Nat) :
    ∀ st : K × List (pf_sample_t K),
      worker2Checked C previous_set slice st ≠ .error .zeroPreviousWeight := by
  induction slice with
  | nil => intro st; simp [worker2Checked]
  | cons idx rest ih =>
    intro st
    simp only [worker2Checked]
    by_cases hne : validNeighbors C (sampleAt st.2 idx) = []
    · rw [accumulativeWeightChecked_empty C previous_set _ hne]
      simp
    · rw [accumulativeWeightChecked_of_nonzero C previous_set _ hne
        (fun maidx hm ngb hn => hnz _ maidx hm ngb hn)]
      split_ifs
      · exact ih _
      · simp

/-- Under the invariant, `UpdateOdomO` does not stop at
`assert(previous_particle->weight != 0.0)`: every previous sample that the
convolution reads belongs to a free cell of the list and weighs at least
`epson_ > 0`. -/
theorem UpdateOdomOChecked_previous_nonzero (L : MotionLib K) (map_ : map_t K)
    (cells : List (Int × Int)) (A : Nat) (s : NodeState K)
    (hFA : 1 ≤ cells.length * A)
    (hfree : ∀ x y, map_.MAP_VALID x y = true → map_.occ_state x y = -1 → (x, y) ∈ cells)
    (hinv : GridInvariant map_ cells A s) (nb_threads_hint : Nat) (odata : AMCLOdomData K)
    (fuel : Nat) :
    UpdateOdomOChecked L s.grid nb_threads_hint odata fuel ≠
      some (.error .zeroPreviousWeight) := by
  obtain ⟨he, hA, hmap, htbl, _, hprev, _, hwp⟩ := hinv
  have hpos : (0 : K) < s.epson_ := by
    rw [he]
    exact epson_pos cells.length A hFA
  simp only [UpdateOdomOChecked]
  rcases buildSide s.grid.map_.scale (odomRadius L s.grid.odom_ odata) fuel with _ | side
  · simp
  · simp only
    split_ifs
    · rw [convolveChecked_eq]
      intro h
      simp only [Option.some.injEq] at h
      refine worker2Checked_previous_nonzero (odomConvInput L s.grid odata side)
        s.grid.previous_set ?_ s.grid.active_sample_indices_ (0, s.grid.current_set) h
      intro origin maidx hm ngb hn
      have hsz : (odomConvInput L s.grid odata side).size_a_ = A := hA
      rw [hsz] at hm ⊢
      obtain ⟨_, hv, ho, hn1⟩ := (mem_validNeighbors (odomConvInput L s.grid odata side) origin
        ngb.1 ngb.2).mp hn
      have hm1 : (odomConvInput L s.grid odata side).map_ = map_ := hmap
      have ht1 : (odomConvInput L s.grid odata side).mapidx2freeidx_ =
          (fun x y => (initFreeIdx cells x y).toNat) := htbl
      rw [hm1] at hv ho hn1
      rw [ht1] at hn1
      have hlt : ngb.1 < cells.length := by
        rw [hn1]
        exact initFreeIdx_lt cells _ _ (hfree _ _ hv ho)
      have hidx : ngb.1 * A + maidx < s.grid.previous_set.length := by
        rw [hprev]
        calc ngb.1 * A + maidx < ngb.1 * A + A := by omega
          _ = (ngb.1 + 1) * A := by ring
          _ ≤ cells.length * A := Nat.mul_le_mul_right A hlt
      have hmem : sampleAt s.grid.previous_set (ngb.1 * A + maidx) ∈ s.grid.previous_set := by
        rw [sampleAt_of_lt _ _ hidx]
        exact List.getElem_mem _
      exact ne_of_gt (lt_of_lt_of_le hpos (hwp _ hmem))
    · simp

/-- C19: in every state reached from `initialMarkovGrid` by a sequence of calls
of `laserReceived`, `epson_` is positive and every weight of the previous
generation, the one the motion update of the next call reads, is at least
`epson_`; so `UpdateOdomO` run in that state never stops at
`assert(previous_particle->weight != 0.0)`.  The grid has at least one sample
and the free cells listed are all the valid free cells of the map. -/
theorem previous_weights_floor (m : LibM K) (L : MotionLib K) (W : MapWorld K)
    (IDX2ANG : Nat → K) (map_ : map_t K) (odom_ : AMCLOdom K) (cells : List (Int × Int))
    (A : Nat) (flag : Bool) (uninit0 uninit1 : Nat → pf_sample_t K)
    (hFA : 1 ≤ cells.length * A)
    (hfree : ∀ x y, map_.MAP_VALID x y = true → map_.occ_state x y = -1 → (x, y) ∈ cells)
    (inputs : List (CycleInput K)) (s : NodeState K)
    (hs : runCycles m L inputs
      (initialNode W IDX2ANG map_ odom_ cells A flag uninit0 uninit1) = some s) :
    0 < s.epson_ ∧
    (∀ p ∈ s.grid.previous_set, s.epson_ ≤ p.weight) ∧
    (∀ p ∈ s.grid.previous_set, p.weight ≠ 0) ∧
    s.grid.previous_set.length = cells.length * A ∧
    ∀ (L1 : MotionLib K) (nb_threads_hint : Nat) (odata : AMCLOdomData K) (fuel : Nat),
      UpdateOdomOChecked L1 s.grid nb_threads_hint odata fuel ≠
        some (.error .zeroPreviousWeight) := by
  have hinv := runCycles_invariant m L map_ cells A inputs _ s
    (initialNode_invariant W IDX2ANG map_ odom_ cells A flag uninit0 uninit1 hFA) hs
  have hpos : (0 : K) < s.epson_ := by
    rw [hinv.1]
    exact epson_pos cells.length A hFA
  refine ⟨hpos, hinv.2.2.2.2.2.2.2, ?_, hinv.2.2.2.2.2.1, ?_⟩
  · intro p hp
    exact ne_of_gt (lt_of_lt_of_le hpos (hinv.2.2.2.2.2.2.2 p hp))
  · intro L1 hint odata fuel
    exact UpdateOdomOChecked_previous_nonzero L1 map_ cells A s hFA hfree hinv hint odata fuel

/-- C19 after the first call of `laserReceived` on a grid of one free cell and
two heading bins. -/
theorem previous_weights_floor_witness :
    0 < (sensorUpdate demoLibM demoCycle
      { initialNode (demoMapWorld ℚ) (fun a => (a : ℚ)) (demoCellMap ℚ) ⟨1 / 5, 1 / 5, 1 / 5, 1 / 5⟩
          [(0, 0)] 2 true (fun _ => ⟨⟨0, 0, 0⟩, 0, 0⟩) (fun _ => ⟨⟨0, 0, 0⟩, 0, 0⟩) with
        pf_init_ := true,
        grid := swapSets (initialNode (demoMapWorld ℚ) (fun a => (a : ℚ)) (demoCellMap ℚ)
          ⟨1 / 5, 1 / 5, 1 / 5, 1 / 5⟩ [(0, 0)] 2 true (fun _ => ⟨⟨0, 0, 0⟩, 0, 0⟩)
          (fun _ => ⟨⟨0, 0, 0⟩, 0, 0⟩)).grid }).epson_ ∧
    ∀ p ∈ (sensorUpdate demoLibM demoCycle
      { initialNode (demoMapWorld ℚ) (fun a => (a : ℚ)) (demoCellMap ℚ) ⟨1 / 5, 1 / 5, 1 / 5, 1 / 5⟩
          [(0, 0)] 2 true (fun _ => ⟨⟨0, 0, 0⟩, 0, 0⟩) (fun _ => ⟨⟨0, 0, 0⟩, 0, 0⟩) with
        pf_init_ := true,
        grid := swapSets (initialNode (demoMapWorld ℚ) (fun a => (a : ℚ)) (demoCellMap ℚ)
          ⟨1 / 5, 1 / 5, 1 / 5, 1 / 5⟩ [(0, 0)] 2 true (fun _ => ⟨⟨0, 0, 0⟩, 0, 0⟩)
          (fun _ => ⟨⟨0, 0, 0⟩, 0, 0⟩)).grid }).grid.previous_set, p.weight ≠ 0 :=
  have h := previous_weights_floor demoLibM (demoMotionLib ℚ) (demoMapWorld ℚ)
    (fun a => (a : ℚ)) (demoCellMap ℚ) ⟨1 / 5, 1 / 5, 1 / 5, 1 / 5⟩ [(0, 0)] 2 true
    (fun _ => ⟨⟨0, 0, 0⟩, 0, 0⟩) (fun _ => ⟨⟨0, 0, 0⟩, 0, 0⟩) (by decide)
    (by
      intro x y hv _
      simp only [demoCellMap, decide_eq_true_eq] at hv
      simp [hv.1, hv.2])
    [demoCycle] _ rfl
  ⟨h.1, h.2.2.1⟩

/-- C14 (amended): with the offsets of the kernel window built (enough `fuel`
for the `side` loops) and the active indices in range, `UpdateOdomO` returns,
and for every active pose, of index `idx` in `active_sample_indices_`, cell `c`
and heading bin `t = ANG2IDX(pose.v[2])`, it has set the current-generation
weight to the sum over every source heading bin `s` and every valid free-space
neighbour `n` of `c` at window offset `o` of
`previousWeight(n, s) × mat_prob_matrices[t][s][o]`; the neighbours in the sum
are exactly the offsets that land on a valid free cell, and a sample whose
index is not active is not written. -/
theorem UpdateOdomO_gathers (L : MotionLib K) (g : GridState K) (nb_threads_hint : Nat)
    (ndata : AMCLOdomData K) (f : Nat) (hs : 0 < g.map_.scale)
    (hf : odomRadius L g.odom_ ndata < (f : K) * g.map_.scale)
    (hin : ∀ idx ∈ g.active_sample_indices_, idx < g.current_set.length) :
    ∃ side r, buildSide g.map_.scale (odomRadius L g.odom_ ndata) (f + 1) = some side ∧
      UpdateOdomO L g nb_threads_hint ndata (f + 1) = some r ∧
      r.2.length = g.current_set.length ∧
      (∀ idx ∈ g.active_sample_indices_,
        (sampleAt r.2 idx).weight =
          ((List.range g.size_a_).map (fun s =>
            ((validNeighbors (odomConvInput L g ndata side) (sampleAt g.current_set idx)).map
              (fun ngb =>
                (sampleAt g.previous_set (ngb.1 * g.size_a_ + s)).weight *
                  kernelEntry (odomConvInput L g ndata side)
                    (L.ANG2IDX (sampleAt g.current_set idx).pose.v2) s ngb.2)).sum)).sum) ∧
      (∀ (origin : pf_sample_t K) (n o : Nat),
        (n, o) ∈ validNeighbors (odomConvInput L g ndata side) origin ↔
          o < (buildXY side).1.length ∧
          g.map_.MAP_VALID (g.map_.MAP_GXWX (origin.pose.v0 + (buildXY side).1.getD o 0))
            (g.map_.MAP_GYWY (origin.pose.v1 + (buildXY side).2.getD o 0)) = true ∧
          g.map_.occ_state (g.map_.MAP_GXWX (origin.pose.v0 + (buildXY side).1.getD o 0))
            (g.map_.MAP_GYWY (origin.pose.v1 + (buildXY side).2.getD o 0)) = -1 ∧
          n = g.mapidx2freeidx_ (g.map_.MAP_GXWX (origin.pose.v0 + (buildXY side).1.getD o 0))
            (g.map_.MAP_GYWY (origin.pose.v1 + (buildXY side).2.getD o 0))) ∧
      (∀ j, j ∉ g.active_sample_indices_ → sampleAt r.2 j = sampleAt g.current_set j) := by
  obtain ⟨side, hside⟩ := buildSide_some g.map_.scale (odomRadius L g.odom_ ndata) f hs hf
  have hw := worker2_weights (odomConvInput L g ndata side) g.previous_set
    g.active_sample_indices_ 0 g.current_set hin
  have hlen := (worker2_frame (odomConvInput L g ndata side) g.previous_set
    g.active_sample_indices_ 0 g.current_set).1
  refine ⟨side, worker2 (odomConvInput L g ndata side) g.previous_set
    g.active_sample_indices_ (0, g.current_set), hside, ?_, hlen, ?_, ?_, ?_⟩
  · simp only [UpdateOdomO, hside, convolve_eq]
  · intro idx hidx
    rw [hw idx, if_pos hidx]
    exact accumulativeWeight_eq (odomConvInput L g ndata side) g.previous_set
      (sampleAt g.current_set idx)
  · intro origin n o
    exact mem_validNeighbors (odomConvInput L g ndata side) origin n o
  · intro j hj
    rw [hw j, if_neg hj]

/-- C14 (amended) on `demoRowGrid`: the update returns, and the active sample
100, cell 50 with heading bin 0, gets the sum over both source heading bins of
the previous weights of its valid neighbours times the kernel entries. -/
theorem UpdateOdomO_gathers_witness :
    ∃ side r, buildSide demoRowGrid.map_.scale
        (odomRadius (demoMotionLib ℚ) demoRowGrid.odom_ (demoOdomData ℚ)) 2 = some side ∧
      UpdateOdomO (demoMotionLib ℚ) demoRowGrid 1 (demoOdomData ℚ) 2 = some r ∧
      (sampleAt r.2 100).weight =
        ((List.range demoRowGrid.size_a_).map (fun s =>
          ((validNeighbors (odomConvInput (demoMotionLib ℚ) demoRowGrid (demoOdomData ℚ) side)
              (sampleAt demoRowGrid.current_set 100)).map
            (fun ngb =>
              (sampleAt demoRowGrid.previous_set (ngb.1 * demoRowGrid.size_a_ + s)).weight *
                kernelEntry (odomConvInput (demoMotionLib ℚ) demoRowGrid (demoOdomData ℚ) side)
                  ((demoMotionLib ℚ).ANG2IDX (sampleAt demoRowGrid.current_set 100).pose.v2)
                  s ngb.2)).sum)).sum := by
  obtain ⟨side, r, hs, hr, _, h, _⟩ := UpdateOdomO_gathers (demoMotionLib ℚ) demoRowGrid 1
    (demoOdomData ℚ) 1
    (by norm_num [demoRowGrid, demoRowMap])
    (by norm_num [odomRadius, odomDeltaTrans, demoMotionLib, demoRowGrid, demoRowMap,
      demoOdomData])
    (by
      intro idx hidx
      simp only [demoRowGrid, List.mem_range] at hidx
      simp only [demoRowGrid, List.length_map, List.length_range]
      omega)
  exact ⟨side, r, hs, hr, h 100 (by simp [demoRowGrid])⟩

/-- When the samples of the active list before a particle without valid
neighbour pass their assertions, `worker2` stops at the assertion of line 391
for that particle. -/
theorem worker2Checked_stops_at_empty (C : ConvInput K) (previous_set : List (pf_sample_t K))
    (pre post : List Nat) (idx : Nat) (st st1 : K × List (pf_sample_t K))
    (hpre : worker2Checked C previous_set pre st = .ok st1)
    (hempty : validNeighbors C (sampleAt st.2 idx) = []) :
    worker2Checked C previous_set (pre ++ idx :: post) st = .error .emptyNeighborhood := by
  rw [worker2Checked_append, hpre]
  simp only [worker2Checked]
  have hst1 := worker2Checked_ok C previous_set pre st st1 hpre
  have hpose : (sampleAt st1.2 idx).pose = (sampleAt st.2 idx).pose := by
    rw [hst1]
    exact ((worker2_frame C previous_set pre st.1 st.2).2.2 idx).1
  rw [accumulativeWeightChecked_empty C previous_set _
    (by rw [validNeighbors_congr C _ _ hpose]; exact hempty)]

/-- C13 (amended): let an active cell have no valid neighbour, that is, no
offset of the kernel window lands on a map-valid free cell.  With the
assertions compiled in, `UpdateOdomO` ends in a failed assertion and returns
nothing: when the active samples before the cell pass their assertions, the
one that fails is `assert(free_ngb_indices.size()>0)` of line 391.  With the
assertions compiled out (`NDEBUG`), `UpdateOdomO` returns and has set the
current-generation weight of the cell to 0.  In both cases the `side` loops
end (enough `fuel`). -/
theorem UpdateOdomO_empty_neighborhood (L : MotionLib K) (g : GridState K)
    (nb_threads_hint : Nat) (ndata : AMCLOdomData K) (f : Nat) (hs : 0 < g.map_.scale)
    (hf : odomRadius L g.odom_ ndata < (f : K) * g.map_.scale)
    (hin : ∀ i ∈ g.active_sample_indices_, i < g.current_set.length)
    (idx : Nat) (hidx : idx ∈ g.active_sample_indices_)
    (hempty : ∀ side, buildSide g.map_.scale (odomRadius L g.odom_ ndata) (f + 1) = some side →
      validNeighbors (odomConvInput L g ndata side) (sampleAt g.current_set idx) = []) :
    (∃ e, UpdateOdomOChecked L g nb_threads_hint ndata (f + 1) = some (.error e)) ∧
    (∀ side pre post st1,
      buildSide g.map_.scale (odomRadius L g.odom_ ndata) (f + 1) = some side →
      kernelSumsNonzero (odomConvInput L g ndata side).mat_prob_matrices = true →
      g.active_sample_indices_ = pre ++ idx :: post →
      worker2Checked (odomConvInput L g ndata side) g.previous_set pre (0, g.current_set)
        = .ok st1 →
      UpdateOdomOChecked L g nb_threads_hint ndata (f + 1) =
        some (.error .emptyNeighborhood)) ∧
    (∃ r, UpdateOdomO L g nb_threads_hint ndata (f + 1) = some r ∧
      (sampleAt r.2 idx).weight = 0 ∧ r.2.length = g.current_set.length) := by
  obtain ⟨side, hside⟩ := buildSide_some g.map_.scale (odomRadius L g.odom_ ndata) f hs hf
  have he := hempty side hside
  refine ⟨?_, ?_, ?_⟩
  · simp only [UpdateOdomOChecked, hside]
    split_ifs with hk
    · rw [convolveChecked_eq]
      obtain ⟨e, he'⟩ := worker2Checked_empty (odomConvInput L g ndata side) g.previous_set
        g.active_sample_indices_ (0, g.current_set) idx hidx he
      exact ⟨e, by rw [he']⟩
    · exact ⟨_, rfl⟩
  · intro side' pre post st1 hside' hk hact hpre
    rw [hside] at hside'
    simp only [Option.some.injEq] at hside'
    subst hside'
    simp only [UpdateOdomOChecked, hside, hk, if_true, convolveChecked_eq]
    rw [hact, worker2Checked_stops_at_empty _ _ pre post idx (0, g.current_set) st1 hpre he]
  · have hw := worker2_weights (odomConvInput L g ndata side) g.previous_set
      g.active_sample_indices_ 0 g.current_set hin
    refine ⟨worker2 (odomConvInput L g ndata side) g.previous_set
      g.active_sample_indices_ (0, g.current_set), ?_, ?_, ?_⟩
    · simp only [UpdateOdomO, hside, convolve_eq]
    · rw [hw idx, if_pos hidx]
      exact accumulativeWeight_empty _ _ _ he
    · exact (worker2_frame (odomConvInput L g ndata side) g.previous_set
        g.active_sample_indices_ 0 g.current_set).1

/-- C13 (amended) on the demo grid with a map without valid cells: the active
sample 0 has no valid neighbour; with assertions the update ends at line 391,
without them it returns with the weight of sample 0 set to 0. -/
theorem UpdateOdomO_empty_neighborhood_witness :
    UpdateOdomOChecked (demoMotionLib ℚ) (demoOffMapGrid ℚ) 1 (demoOdomData ℚ) 2 =
      some (.error .emptyNeighborhood) ∧
    ∃ r, UpdateOdomO (demoMotionLib ℚ) (demoOffMapGrid ℚ) 1 (demoOdomData ℚ) 2 = some r ∧
      (sampleAt r.2 0).weight = 0 ∧ r.2.length = (demoOffMapGrid ℚ).current_set.length := by
  have hside : buildSide (demoOffMapGrid ℚ).map_.scale
      (odomRadius (demoMotionLib ℚ) (demoOffMapGrid ℚ).odom_ (demoOdomData ℚ)) 2 = some [0] := by
    norm_num [buildSide, sideNegLoop, sidePosLoop, odomRadius, odomDeltaTrans, demoMotionLib,
      demoOffMapGrid, demoGridState, demoMap]
  have h := UpdateOdomO_empty_neighborhood (demoMotionLib ℚ) (demoOffMapGrid ℚ) 1
    (demoOdomData ℚ) 1
    (by
      show (0 : ℚ) < 1
      norm_num)
    (by
      show odomRadius (demoMotionLib ℚ) (demoOffMapGrid ℚ).odom_ (demoOdomData ℚ) < ((1 : Nat) : ℚ) * 1
      norm_num [odomRadius, odomDeltaTrans, demoMotionLib])
    (by simp [demoOffMapGrid, demoGridState])
    0 (by simp [demoOffMapGrid, demoGridState])
    (by
      intro side hs
      rw [hside] at hs
      simp only [Option.some.injEq] at hs
      subst hs
      norm_num [validNeighbors, odomConvInput, buildXY, demoOffMapGrid, demoGridState, demoMap,
        sampleAt, List.range_succ, List.filterMap_cons])
  refine ⟨h.2.1 [0] [] [] (0, (demoOffMapGrid ℚ).current_set) hside ?_ rfl rfl, h.2.2⟩
  norm_num [kernelSumsNonzero, odomConvInput, buildXY, buildKernel, angArr, odometry,
    motionModelO, demoMotionLib, demoOffMapGrid, demoGridState, List.range_succ]

/-- C13 fails as stated: no error condition is returned in place of the zero.
On the demo grid with a map without valid cells, the function without the
assertions (the build with `NDEBUG`) returns normally, with total weight 0 and
the weight of the active sample 0 set to 0; with the assertions the call does
not return at all. -/
theorem UpdateOdomO_zero_weight_counterexample :
    (demoOffMapGrid ℚ).active_sample_indices_ = [0] ∧
    validNeighbors (odomConvInput (demoMotionLib ℚ) (demoOffMapGrid ℚ) (demoOdomData ℚ) [0])
      (sampleAt (demoOffMapGrid ℚ).current_set 0) = [] ∧
    UpdateOdomO (demoMotionLib ℚ) (demoOffMapGrid ℚ) 1 (demoOdomData ℚ) 2 =
      some (0, [⟨⟨0, 0, 0⟩, 0, 0⟩, ⟨⟨0, 0, 1⟩, 1 / 2, 0⟩]) ∧
    UpdateOdomOChecked (demoMotionLib ℚ) (demoOffMapGrid ℚ) 1 (demoOdomData ℚ) 2 =
      some (.error .emptyNeighborhood) := by
  have hside : buildSide (demoOffMapGrid ℚ).map_.scale
      (odomRadius (demoMotionLib ℚ) (demoOffMapGrid ℚ).odom_ (demoOdomData ℚ)) 2 = some [0] := by
    norm_num [buildSide, sideNegLoop, sidePosLoop, odomRadius, odomDeltaTrans, demoMotionLib,
      demoOffMapGrid, demoGridState, demoMap]
  refine ⟨rfl, ?_, ?_, UpdateOdomOChecked_demoOffMap⟩
  · norm_num [validNeighbors, odomConvInput, buildXY, demoOffMapGrid, demoGridState, demoMap,
      sampleAt, List.range_succ, List.filterMap_cons]
  · simp only [UpdateOdomO, hside, convolve_eq]
    norm_num [worker2, accumulativeWeight, validNeighbors, odomConvInput, buildXY, buildKernel,
      angArr, odometry, motionModelO, sampleAt, demoMotionLib, demoOffMapGrid, demoGridState,
      demoMap, demoOdomData, odomDeltaRot1, odomDeltaTrans, List.range_succ,
      List.filterMap_cons]

/-- C5 (amended) at the demo grid with the mixing likelihood and zero
displacement: every assertion of `UpdateOdomO` passes, the kernel masses are 1,
the update moves weight between the two heading bins (`3/4, 1/4` becomes
`5/16, 11/16`) and keeps the total weight of the previous set. -/
theorem UpdateOdomO_mass_witness :
    ∃ r, UpdateOdomO (demoMixLib ℚ) (demoGridStateAll ℚ) 1 (demoOdomData ℚ) (1 + 1) = some r ∧
      totalWeight r.2 = totalWeight (demoGridStateAll ℚ).previous_set ∧
      UpdateOdomOChecked (demoMixLib ℚ) (demoGridStateAll ℚ) 1 (demoOdomData ℚ) (1 + 1) =
        some (.ok r) ∧
      r.2 = [⟨⟨0, 0, 0⟩, 5 / 16, 0⟩, ⟨⟨0, 0, 1⟩, 11 / 16, 0⟩] := by
  obtain ⟨side, r, hside, hr, _, hcons⟩ :=
    UpdateOdomO_mass (demoMixLib ℚ) (demoGridStateAll ℚ) 1 (demoOdomData ℚ) 1 1 (fun _ _ => 0)
      (by norm_num [demoGridStateAll, demoGridState, demoMap])
      (by norm_num [odomRadius, odomDeltaTrans, demoMixLib, demoMotionLib, demoGridStateAll,
        demoGridState, demoMap])
      (by simp [demoGridStateAll, demoGridState, List.range_succ])
      (by simp [demoGridStateAll, demoGridState])
      (by simp [demoGridStateAll, demoGridState])
      (fun side hside => by
        have hs := demo_side (demoMixLib ℚ) rfl (demoGridStateAll ℚ) rfl side hside
        subst hs
        exact demo_neighbors_valid (demoMixLib ℚ) rfl)
  have hs := demo_side (demoMixLib ℚ) rfl (demoGridStateAll ℚ) rfl side hside
  subst hs
  have hval : UpdateOdomO (demoMixLib ℚ) (demoGridStateAll ℚ) 1 (demoOdomData ℚ) (1 + 1) =
      some (1, [⟨⟨0, 0, 0⟩, 5 / 16, 0⟩, ⟨⟨0, 0, 1⟩, 11 / 16, 0⟩]) := by
    simp only [UpdateOdomO, hside, convolve_eq]
    norm_num [worker2, accumulativeWeight, validNeighbors, odomConvInput, buildXY, buildKernel,
      angArr, odometry, motionModelO, sampleAt, demoMixLib, demoMotionLib, demoGridStateAll,
      demoGridState, demoMap, demoOdomData, odomDeltaRot1, odomDeltaTrans, List.range_succ,
      List.filterMap_cons]
  have hreq : r = (1, [⟨⟨0, 0, 0⟩, 5 / 16, 0⟩, ⟨⟨0, 0, 1⟩, 11 / 16, 0⟩]) := by
    rw [hr] at hval
    exact Option.some.inj hval
  refine ⟨r, hr, hcons ?_, ?_, by rw [hreq]⟩
  · intro maidx hm
    have hm2 : maidx < 2 := hm
    interval_cases maidx <;>
      norm_num [kernelMass, kernelEntry, odomConvInput, buildXY, buildKernel, angArr, odometry,
        motionModelO, odomDeltaRot1, odomDeltaTrans, demoMixLib, demoMotionLib,
        demoGridStateAll, demoGridState, demoOdomData, List.range_succ]
  · rw [hreq]
    have hk : kernelSumsNonzero (odomConvInput (demoMixLib ℚ) (demoGridStateAll ℚ)
        (demoOdomData ℚ) [0]).mat_prob_matrices = true := by
      norm_num [kernelSumsNonzero, odomConvInput, buildXY, buildKernel, angArr, odometry,
        motionModelO, odomDeltaRot1, odomDeltaTrans, demoMixLib, demoMotionLib,
        demoGridStateAll, demoGridState, demoOdomData, List.range_succ]
    simp only [UpdateOdomOChecked, hside, hk, if_true, convolveChecked_eq]
    norm_num [worker2Checked, accumulativeWeightChecked, headingLoopChecked,
      neighborLoopChecked, validNeighbors, odomConvInput, buildXY, buildKernel,
      angArr, odometry, motionModelO, sampleAt, demoMixLib, demoMotionLib, demoGridStateAll,
      demoGridState, demoMap, demoOdomData, odomDeltaRot1, odomDeltaTrans, List.range_succ,
      List.filterMap_cons]

/-- Within the range of `int` the stored `max_particles_` is the product. -/
theorem max_particles_stored_eq (F A : Nat) (hmax : F * A ≤ 2147483647) :
    max_particles_stored F (A : Int) = max_particles F (A : Int) := by
  have h0 : (0 : Int) ≤ (F : Int) * (A : Int) :=
    Int.mul_nonneg (Int.ofNat_nonneg _) (Int.ofNat_nonneg _)
  have h1 : ((F * A : Nat) : Int) ≤ 2147483647 := by omega
  rw [Nat.cast_mul] at h1
  simp only [max_particles_stored, wrapInt32, max_particles]
  generalize (F : Int) * (A : Int) = x at h0 h1
  rw [Int.emod_eq_of_lt (by omega) (by omega)]
  omega

/-- C11 (amended): for `F` free cells and `A` heading bins with
`1 ≤ F * A ≤ 2^31 - 1`, `reserve` and the allocations succeed, both
generation buffers hold `F * A` samples, the sample at index `f * A + a`
carries the world position of free cell `f` and the heading of bin `a`, every
weight is `1 / (F * A)`, and the weights of each generation sum to 1. -/
theorem initialMarkovGrid_uniform (W : MapWorld K) (IDX2ANG : Nat → K)
    (cells : List (Int × Int)) (A : Nat) (uninit0 uninit1 : Nat → pf_sample_t K)
    (hFA : 1 ≤ cells.length * A) (hmax : cells.length * A ≤ 2147483647) :
    ∃ sets, initialMarkovGridChecked W IDX2ANG cells A uninit0 uninit1 = some sets ∧
      max_particles_stored cells.length (A : Int) = ((cells.length * A : Nat) : Int) ∧
      sets.1.length = cells.length * A ∧ sets.2.length = cells.length * A ∧
      (∀ f a cell, cells[f]? = some cell → a < A →
        (sampleAt sets.1 (f * A + a)).pose = ⟨W.MAP_WXGX cell.1, W.MAP_WYGY cell.2, IDX2ANG a⟩ ∧
        (sampleAt sets.2 (f * A + a)).pose = ⟨W.MAP_WXGX cell.1, W.MAP_WYGY cell.2, IDX2ANG a⟩) ∧
      (∀ s, s ∈ sets.1 ∨ s ∈ sets.2 → s.weight = 1 / ((cells.length * A : Nat) : K)) ∧
      totalWeight sets.1 = 1 ∧ totalWeight sets.2 = 1 := by
  have hst := max_particles_stored_eq cells.length A hmax
  have hnn : ¬ max_particles cells.length (A : Int) < 0 := by
    simp only [max_particles, not_lt]
    exact Int.mul_nonneg (Int.ofNat_nonneg _) (Int.ofNat_nonneg _)
  obtain ⟨h0l, h0p, h0w, h0t⟩ := initSet_spec W IDX2ANG cells A uninit0 hFA
  obtain ⟨h1l, h1p, h1w, h1t⟩ := initSet_spec W IDX2ANG cells A uninit1 hFA
  refine ⟨((initCellLoop W IDX2ANG A (max_particles cells.length (A : Int)) cells
      (allocSamples (max_particles cells.length (A : Int)) uninit0, 0)).1,
    (initCellLoop W IDX2ANG A (max_particles cells.length (A : Int)) cells
      (allocSamples (max_particles cells.length (A : Int)) uninit1, 0)).1), ?_, ?_, h0l, h1l,
    ?_, ?_, h0t, h1t⟩
  · rw [initialMarkovGridChecked, reserveChecked, allocSamplesChecked, allocSamplesChecked, hst,
      if_neg hnn]
    rfl
  · rw [hst]
    simp only [max_particles]
    push_cast
    rfl
  · intro f a cell hc ha
    exact ⟨h0p f a cell hc ha, h1p f a cell hc ha⟩
  · intro s hs
    rcases hs with hs | hs
    · exact h0w s hs
    · exact h1w s hs

/-- C11 (amended) on the 10 by 10 free grid with 4 heading bins: 400 samples of
weight `1/400` in each generation. -/
theorem initialMarkovGrid_uniform_witness :
    ∃ sets, initialMarkovGridChecked (demoMapWorld ℚ) (fun a => (a : ℚ)) demoFreeCells 4
        (fun _ => ⟨⟨0, 0, 0⟩, 0, 0⟩) (fun _ => ⟨⟨0, 0, 0⟩, 0, 0⟩) = some sets ∧
      sets.1.length = 400 ∧ sets.2.length = 400 ∧
      (∀ s, s ∈ sets.1 ∨ s ∈ sets.2 → s.weight = 1 / 400) ∧
      totalWeight sets.1 = 1 ∧ totalWeight sets.2 = 1 := by
  have hlen : demoFreeCells.length = 100 := rfl
  obtain ⟨sets, h, _, h1, h2, _, hw, ht1, ht2⟩ := initialMarkovGrid_uniform (demoMapWorld ℚ)
    (fun a => (a : ℚ)) demoFreeCells 4 (fun _ => ⟨⟨0, 0, 0⟩, 0, 0⟩) (fun _ => ⟨⟨0, 0, 0⟩, 0, 0⟩)
    (by rw [hlen]; norm_num) (by rw [hlen]; norm_num)
  rw [hlen] at h1 h2 hw
  refine ⟨sets, h, h1, h2, ?_, ht1, ht2⟩
  intro s hs
  rw [hw s hs]
  norm_num

/-- C11 fails for a large grid: for the 6002500 free cells of a map of 2450 by
2450 cells and 360 heading bins the product 2160900000 exceeds `2^31 - 1`; the
`int` member `max_particles_` holds -2134067296, `reserve` of line 615 throws
(as `new[]` of line 525 would), and no generation buffer of `F * A` samples
exists. -/
theorem initialMarkovGrid_overflow_counterexample :
    1 ≤ (squareFreeCells 2450).length * 360 ∧
    (squareFreeCells 2450).length * 360 = 2160900000 ∧
    max_particles_stored (squareFreeCells 2450).length ((360 : Nat) : Int) = -2134067296 ∧
    initialMarkovGridChecked (demoMapWorld ℚ) (fun a => (a : ℚ)) (squareFreeCells 2450) 360
      (fun _ => ⟨⟨0, 0, 0⟩, 0, 0⟩) (fun _ => ⟨⟨0, 0, 0⟩, 0, 0⟩) = none := by
  have hlen : (squareFreeCells 2450).length = 6002500 := by
    rw [squareFreeCells, List.length_map, List.length_range]
  have hst : max_particles_stored (squareFreeCells 2450).length ((360 : Nat) : Int) = -2134067296 := by
    rw [hlen]
    norm_num [max_particles_stored, wrapInt32, max_particles]
  refine ⟨by rw [hlen]; norm_num, by rw [hlen], hst, ?_⟩
  rw [initialMarkovGridChecked, reserveChecked, hst, if_pos (by norm_num)]
  rfl

/-! ## Rounding to nearest is monotone -/

/-- Dropping `c` bits and then `s` bits is dropping `s + c` bits. -/
theorem div_pow_add (k s c : Nat) : k / 2 ^ (s + c) = k / 2 ^ c / 2 ^ s := by
  rw [Nat.div_div_eq_div_mul, ← pow_add, Nat.add_comm]

theorem bitShift_lt (fuel : Nat) :
    ∀ k, k < 2 ^ 53 * 2 ^ fuel → k / 2 ^ bitShift fuel k < 2 ^ 53 := by
  induction fuel with
  | zero => intro k hk; simpa [bitShift] using hk
  | succ fuel ih =>
    intro k hk
    have hstep : ∀ c, 1 ≤ c → k / 2 ^ c < 2 ^ 53 * 2 ^ fuel := by
      intro c hc
      have h1 : k / 2 ^ c ≤ k / 2 ^ 1 :=
        Nat.div_le_div_left (Nat.pow_le_pow_right (by norm_num) hc) (by norm_num)
      have h2 : k / 2 ^ 1 < 2 ^ 53 * 2 ^ fuel := by
        rw [Nat.div_lt_iff_lt_mul (by norm_num)]
        calc k < 2 ^ 53 * 2 ^ (fuel + 1) := hk
          _ = 2 ^ 53 * 2 ^ fuel * 2 ^ 1 := by ring
      omega
    simp only [bitShift]
    split_ifs with h h8 h64
    · simpa using h
    · have := ih (k / 2) (by simpa using hstep 1 (le_refl _))
      rw [div_pow_add]
      simpa using this
    · have := ih (k / 2 ^ 8) (hstep 8 (by norm_num))
      rw [div_pow_add]
      exact this
    · have := ih (k / 2 ^ 64) (hstep 64 (by norm_num))
      rw [div_pow_add]
      exact this

/-- After dropping `c` bits from a number of at least `2^(53 + c)` at least 53
bits are left, and so it is after dropping fewer. -/
theorem le_div_pow_of_lt (k c t : Nat) (hk : 2 ^ (53 + c) ≤ k) (ht : t ≤ c) :
    2 ^ 53 ≤ k / 2 ^ t := by
  rw [Nat.le_div_iff_mul_le (by positivity)]
  calc 2 ^ 53 * 2 ^ t ≤ 2 ^ 53 * 2 ^ c :=
        Nat.mul_le_mul_left _ (Nat.pow_le_pow_right (by norm_num) ht)
    _ = 2 ^ (53 + c) := by rw [pow_add]
    _ ≤ k := hk

theorem bitShift_ge (fuel : Nat) :
    ∀ k t, t < bitShift fuel k → 2 ^ 53 ≤ k / 2 ^ t := by
  induction fuel with
  | zero => intro k t h; simp [bitShift] at h
  | succ fuel ih =>
    intro k t h
    have hstep : ∀ c, 2 ^ (53 + c) ≤ k → t < bitShift fuel (k / 2 ^ c) + c →
        2 ^ 53 ≤ k / 2 ^ t := by
      intro c hk ht
      by_cases htc : t ≤ c
      · exact le_div_pow_of_lt k c t hk htc
      · have := ih (k / 2 ^ c) (t - c) (by omega)
        rw [← div_pow_add, Nat.sub_add_cancel (by omega)] at this
        exact this
    simp only [bitShift] at h
    split_ifs at h with hk h8 h64
    · simp at h
    · by_cases ht0 : t = 0
      · subst ht0
        simpa using not_lt.mp hk
      · have := ih (k / 2) (t - 1) (by omega)
        have e : k / 2 ^ t = k / 2 / 2 ^ (t - 1) := by
          rw [show t = (t - 1) + 1 by omega, div_pow_add]
          simp
        rw [e]
        exact this
    · exact hstep 8 (by simpa using not_lt.mp h8) h
    · exact hstep 64 (by simpa using not_lt.mp h64) h

theorem self_lt_fuel (k : Nat) : k < 2 ^ 53 * 2 ^ k :=
  lt_of_lt_of_le (Nat.lt_two_pow k) (Nat.le_mul_of_pos_left _ (by positivity))

/-- The number of bits dropped grows with the number rounded. -/
theorem bitShift_mono (k k' : Nat) (h : k ≤ k') : bitShift k k ≤ bitShift k' k' := by
  by_contra hlt
  push_neg at hlt
  have h1 := bitShift_ge k k (bitShift k' k') hlt
  have h2 := bitShift_lt k' k' (self_lt_fuel k')
  have h3 : k / 2 ^ bitShift k' k' ≤ k' / 2 ^ bitShift k' k' := Nat.div_le_div_right h
  omega

/-- With the same unit, rounding a quotient to the nearest integer, ties to
even, is monotone. -/
theorem roundUnit_mono (u a b : Nat) (h : a ≤ b) :
    (if u < 2 * (a % u) ∨ (2 * (a % u) = u ∧ a / u % 2 = 1) then a / u + 1 else a / u) ≤
      (if u < 2 * (b % u) ∨ (2 * (b % u) = u ∧ b / u % 2 = 1) then b / u + 1 else b / u) := by
  have hq : a / u ≤ b / u := Nat.div_le_div_right h
  rcases Nat.lt_or_eq_of_le hq with hlt | heq
  · split_ifs <;> omega
  · have hr : a % u ≤ b % u := by
      have ha := Nat.div_add_mod a u
      have hb := Nat.div_add_mod b u
      rw [heq] at ha
      omega
    rw [heq]
    split_ifs with h1 h2 h2
    · exact le_refl _
    · exfalso
      apply h2
      rcases h1 with h1 | ⟨h1, h1'⟩
      · left; omega
      · rcases Nat.lt_or_eq_of_le hr with hr' | hr'
        · left; omega
        · right; rw [← hr']; exact ⟨h1, h1'⟩
    · omega
    · exact le_refl _

theorem roundNat_le (a den : Nat) :
    roundNat a den ≤ 2 ^ 53 * 2 ^ bitShift (a / den) (a / den) := by
  have hlt := bitShift_lt (a / den) (a / den) (self_lt_fuel _)
  have hq : a / (den * 2 ^ bitShift (a / den) (a / den)) < 2 ^ 53 := by
    rw [← Nat.div_div_eq_div_mul]
    exact hlt
  simp only [roundNat]
  split_ifs
  · exact Nat.mul_le_mul_right _ hq
  · exact Nat.mul_le_mul_right _ (le_of_lt hq)

theorem roundNat_ge (a den : Nat) (hs : 0 < bitShift (a / den) (a / den)) :
    2 ^ 52 * 2 ^ bitShift (a / den) (a / den) ≤ roundNat a den := by
  have hge := bitShift_ge (a / den) (a / den) (bitShift (a / den) (a / den) - 1) (by omega)
  have hq : 2 ^ 52 ≤ a / (den * 2 ^ bitShift (a / den) (a / den)) := by
    rw [← Nat.div_div_eq_div_mul]
    obtain ⟨s, hs'⟩ : ∃ s, bitShift (a / den) (a / den) = s + 1 := ⟨_, (Nat.succ_pred_eq_of_pos hs).symm⟩
    rw [hs'] at hge ⊢
    simp only [Nat.add_sub_cancel] at hge
    have e : 2 ^ (s + 1) = 2 ^ s * 2 := by ring
    rw [e, ← Nat.div_div_eq_div_mul]
    omega
  simp only [roundNat]
  split_ifs
  · exact Nat.mul_le_mul_right _ (le_trans hq (Nat.le_succ _))
  · exact Nat.mul_le_mul_right _ hq

/-- Rounding to nearest is monotone in the numerator. -/
theorem roundNat_mono (a b den : Nat) (h : a ≤ b) :
    roundNat a den ≤ roundNat b den := by
  have hk : a / den ≤ b / den := Nat.div_le_div_right h
  have hs := bitShift_mono _ _ hk
  rcases Nat.lt_or_eq_of_le hs with hlt | heq
  · calc roundNat a den ≤ 2 ^ 53 * 2 ^ bitShift (a / den) (a / den) := roundNat_le a den
      _ = 2 ^ 52 * 2 ^ (bitShift (a / den) (a / den) + 1) := by ring
      _ ≤ 2 ^ 52 * 2 ^ bitShift (b / den) (b / den) :=
        Nat.mul_le_mul_left _ (Nat.pow_le_pow_right (by norm_num) hlt)
      _ ≤ roundNat b den := roundNat_ge b den (by omega)
  · have := roundUnit_mono (den * 2 ^ bitShift (b / den) (b / den)) a b h
    simp only [roundNat]
    rw [heq]
    split_ifs at this ⊢ with h1 h2 h2
    · exact Nat.mul_le_mul_right _ this
    · exact Nat.mul_le_mul_right _ this
    · exact Nat.mul_le_mul_right _ this
    · exact Nat.mul_le_mul_right _ this

theorem roundRat_nonneg (num : Int) (den : Nat) (h : 0 ≤ num) : 0 ≤ roundRat num den := by
  simp only [roundRat, not_lt.mpr h, if_false]
  exact Int.natCast_nonneg _

theorem roundRat_nonpos (num : Int) (den : Nat) (h : num ≤ 0) : roundRat num den ≤ 0 := by
  simp only [roundRat]
  split_ifs
  · simp
  · have : num = 0 := by omega
    subst this
    simp [roundNat, bitShift]

/-- Rounding to the nearest `Double` is monotone in the numerator. -/
theorem roundRat_mono (a b : Int) (den : Nat) (h : a ≤ b) :
    roundRat a den ≤ roundRat b den := by
  by_cases ha : a < 0
  · by_cases hb : b < 0
    · simp only [roundRat, ha, hb, if_true]
      have : b.natAbs ≤ a.natAbs := by omega
      have := roundNat_mono _ _ den this
      omega
    · exact le_trans (roundRat_nonpos a den (le_of_lt ha)) (roundRat_nonneg b den (not_lt.mp hb))
  · have hb : ¬ b < 0 := by omega
    simp only [roundRat, ha, hb, if_false]
    have : a.natAbs ≤ b.natAbs := by omega
    exact_mod_cast roundNat_mono _ _ den this

theorem Double.scale_pos : 0 < Double.scale := by
  simp only [Double.scale]
  positivity

theorem binary64_zero : binary64.ofNat 0 = 0 := by
  simp only [binary64, Nat.cast_zero, zero_mul]
  simp [roundRat, roundNat, bitShift]

/-- The arithmetic `binary64` is monotone. -/
theorem binary64_monotone : binary64.Monotone where
  add_le_add_left := fun a b c h => roundRat_mono _ _ 1 (Int.add_le_add_left h c)
  add_le_add_right := fun a b c h => roundRat_mono _ _ 1 (Int.add_le_add_right h c)
  mul_le_mul_left := fun a b c hc h => by
    rw [binary64_zero] at hc
    exact roundRat_mono _ _ _ (mul_le_mul_of_nonneg_left h hc)
  mul_le_mul_right := fun a b c hc h => by
    rw [binary64_zero] at hc
    exact roundRat_mono _ _ _ (mul_le_mul_of_nonneg_right h hc)
  add_nonneg := fun a b ha hb => by
    rw [binary64_zero] at ha hb ⊢
    exact roundRat_nonneg _ _ (Int.add_nonneg ha hb)
  mul_nonneg := fun a b ha hb => by
    rw [binary64_zero] at ha hb ⊢
    exact roundRat_nonneg _ _ (mul_nonneg ha hb)
  div_nonneg := fun a b ha hb => by
    rw [binary64_zero] at ha hb ⊢
    simp only [binary64, not_lt.mpr (le_of_lt hb), if_false]
    exact roundRat_nonneg _ _ (mul_nonneg ha (by exact_mod_cast Nat.zero_le _))
  ofNat_le := fun m n h => by
    simp only [binary64]
    exact roundRat_mono _ _ 1
      (mul_le_mul_of_nonneg_right (by exact_mod_cast h) (by exact_mod_cast Nat.zero_le _))

/-- Exact arithmetic is monotone. -/
theorem exactArith_monotone (K : Type) [LinearOrderedField K] : (exactArith K).Monotone where
  add_le_add_left := fun a b c h => by simp only [exactArith]; linarith
  add_le_add_right := fun a b c h => by simp only [exactArith]; linarith
  mul_le_mul_left := fun a b c hc h => by
    simp only [exactArith, Nat.cast_zero] at hc ⊢
    exact mul_le_mul_of_nonneg_left h hc
  mul_le_mul_right := fun a b c hc h => by
    simp only [exactArith, Nat.cast_zero] at hc ⊢
    exact mul_le_mul_of_nonneg_right h hc
  add_nonneg := fun a b ha hb => by
    simp only [exactArith, Nat.cast_zero] at ha hb ⊢
    linarith
  mul_nonneg := fun a b ha hb => by
    simp only [exactArith, Nat.cast_zero] at ha hb ⊢
    exact mul_nonneg ha hb
  div_nonneg := fun a b ha hb => by
    simp only [exactArith, Nat.cast_zero] at ha hb ⊢
    exact div_nonneg ha (le_of_lt hb)
  ofNat_le := fun m n h => by
    simp only [exactArith]
    exact_mod_cast h

/-! ## Resampling in a given arithmetic -/

theorem sampleAtA_exact (set : List (pf_sample_t K)) (i : Nat) :
    sampleAtA (exactArith K) set i = sampleAt set i := by
  simp [sampleAtA, sampleAt, exactArith]

theorem drawA_exact (r count_inv : K) (m : Nat) :
    drawA (exactArith K) r count_inv m = r + (m : K) * count_inv := rfl

/-- In exact arithmetic the running sum of the walk is the cumulative weight. -/
theorem cumA_exact (set_a : List (pf_sample_t K)) (j : Nat) (hj : j < set_a.length) :
    cumA (exactArith K) set_a j = cumWeight set_a j := by
  induction j with
  | zero => rw [cumWeight_zero set_a hj, cumA, sampleAtA_exact]
  | succ j ih =>
    rw [cumWeight_succ set_a j hj, cumA, sampleAtA_exact, ih (by omega)]
    rfl

/-- With exact arithmetic `innerWalkA` is `innerWalk`. -/
theorem innerWalkA_exact (set_a : List (pf_sample_t K)) (r count_inv : K) (fuel : Nat) :
    ∀ (st : WalkState K) (reads : List Nat),
      (innerWalkA (exactArith K) set_a r count_inv fuel st reads).1 =
        innerWalk set_a r count_inv fuel st := by
  induction fuel with
  | zero => intro st reads; rfl
  | succ fuel ih =>
    intro st reads
    simp only [innerWalkA, innerWalk]
    split_ifs
    · rw [ih, sampleAtA_exact, drawA_exact]
    · rw [ih, sampleAtA_exact]
      rfl
    · rfl

/-- With exact arithmetic `resampleLoopA` is `resampleLoop`. -/
theorem resampleLoopA_exact (set_a : List (pf_sample_t K)) (r count_inv : K) (fuel : Nat)
    (k : Nat) :
    ∀ (i : Nat) (c : K) (m : Nat) (reads : List Nat),
      (resampleLoopA (exactArith K) set_a r count_inv fuel k i c m reads).1 =
        resampleLoop set_a r count_inv fuel k i c m := by
  induction k with
  | zero => intro i c m reads; rfl
  | succ k ih =>
    intro i c m reads
    simp only [resampleLoopA, resampleLoop]
    have he := innerWalkA_exact set_a r count_inv fuel
      { i := i, c := c, m := m, U := drawA (exactArith K) r count_inv m } reads
    rw [drawA_exact] at he ⊢
    rw [← he]
    rcases hw : innerWalkA (exactArith K) set_a r count_inv fuel
      { i := i, c := c, m := m, U := r + (m : K) * count_inv } reads with ⟨_ | st, reads1⟩
    · rfl
    · simp only
      have hr := ih st.i st.c (st.m + 1) (reads1 ++ [st.i])
      rw [← hr]
      rcases resampleLoopA (exactArith K) set_a r count_inv fuel k st.i st.c (st.m + 1)
        (reads1 ++ [st.i]) with ⟨_ | idxs, reads2⟩
      · rfl
      · rfl

theorem onesTotalA_foldl {F : Type} (A : Arith F) (l : List Nat) :
    l.foldl (fun tot _ => A.add tot (A.ofNat 1)) (A.ofNat 0) = onesTotalA A l.length := by
  induction l using List.reverseRecOn with
  | nil => rfl
  | append_singleton l a ih =>
    rw [List.foldl_append, ih, List.length_append]
    rfl

theorem onesTotalA_exact (n : Nat) : onesTotalA (exactArith K) n = (n : K) := by
  induction n with
  | zero => simp [onesTotalA, exactArith]
  | succ n ih =>
    rw [onesTotalA, ih]
    simp [exactArith]

/-- With exact arithmetic `downsizingSamplingFromA` is `downsizingSamplingFrom`. -/
theorem downsizingSamplingFromA_exact (set_a set_b : List (pf_sample_t K)) (N : Nat) (r : K)
    (fuel : Nat) :
    downsizingSamplingFromA (exactArith K) set_a set_b N r fuel =
      downsizingSamplingFrom set_a set_b N r fuel := by
  have h1 : (downsizingTraceA (exactArith K) set_a N r fuel).1 =
      downsizingIndices set_a N r fuel := by
    simp only [downsizingTraceA, downsizingIndices]
    rw [resampleLoopA_exact, sampleAtA_exact]
    simp [exactArith]
  simp only [downsizingSamplingFromA, downsizingSamplingFrom, h1]
  rcases downsizingIndices set_a N r fuel with _ | idxs
  · rfl
  · simp only [onesTotalA_foldl, onesTotalA_exact]
    have hs : (idxs.map (fun _ => (1 : K))).sum = (idxs.length : K) := by
      simp
    rw [hs]
    simp only [sampleAtA_exact]
    simp [exactArith]
theorem reads_snoc_lt (reads : List Nat) (n j : Nat) (hreads : ∀ a ∈ reads, a < n) (hj : j < n) :
    ∀ a ∈ reads ++ [j], a < n := by
  intro a ha
  rcases List.mem_append.mp ha with h | h
  · exact hreads a h
  · simp only [List.mem_singleton] at h
    omega

/-- Whatever the arithmetic, the fuel and the outcome: the inner loop reads the
source set only at indices below its length, and ends at such an index. -/
theorem innerWalkA_reads {F : Type} [LinearOrder F] (A : Arith F)
    (set_a : List (pf_sample_t F)) (r count_inv : F) (hn : 0 < set_a.length) (fuel : Nat) :
    ∀ (st : WalkState F) (reads : List Nat), st.i < set_a.length →
      (∀ j ∈ reads, j < set_a.length) →
      (∀ j ∈ (innerWalkA A set_a r count_inv fuel st reads).2, j < set_a.length) ∧
      ∀ st1, (innerWalkA A set_a r count_inv fuel st reads).1 = some st1 →
        st1.i < set_a.length := by
  induction fuel with
  | zero =>
    intro st reads _ hreads
    exact ⟨hreads, fun st1 h => by simp [innerWalkA] at h⟩
  | succ fuel ih =>
    intro st reads hi hreads
    simp only [innerWalkA]
    split_ifs with hU hwrap
    · exact ih _ _ hn (reads_snoc_lt reads _ 0 hreads hn)
    · exact ih _ _ (by simp only; omega) (reads_snoc_lt reads _ _ hreads (by omega))
    · refine ⟨hreads, fun st1 h => ?_⟩
      simp only [Option.some.injEq] at h
      rw [← h]
      exact hi

/-- Whatever the arithmetic, the fuel and the outcome: the outer loop reads the
source set only at indices below its length; if it ends, it has written `k`
outputs, copied from indices below the length. -/
theorem resampleLoopA_reads {F : Type} [LinearOrder F] (A : Arith F)
    (set_a : List (pf_sample_t F)) (r count_inv : F) (hn : 0 < set_a.length) (fuel : Nat)
    (k : Nat) :
    ∀ (i : Nat) (c : F) (m : Nat) (reads : List Nat), i < set_a.length →
      (∀ j ∈ reads, j < set_a.length) →
      (∀ j ∈ (resampleLoopA A set_a r count_inv fuel k i c m reads).2, j < set_a.length) ∧
      ∀ idxs, (resampleLoopA A set_a r count_inv fuel k i c m reads).1 = some idxs →
        idxs.length = k ∧ ∀ j ∈ idxs, j < set_a.length := by
  induction k with
  | zero =>
    intro i c m reads _ hreads
    refine ⟨hreads, fun idxs h => ?_⟩
    simp only [resampleLoopA, Option.some.injEq] at h
    subst h
    simp
  | succ k ih =>
    intro i c m reads hi hreads
    have hw := innerWalkA_reads A set_a r count_inv hn fuel
      { i := i, c := c, m := m, U := drawA A r count_inv m } reads hi hreads
    simp only [resampleLoopA]
    rcases hres : innerWalkA A set_a r count_inv fuel
      { i := i, c := c, m := m, U := drawA A r count_inv m } reads with ⟨_ | st, reads1⟩
    · rw [hres] at hw
      exact ⟨hw.1, fun idxs h => by simp at h⟩
    · rw [hres] at hw
      have hsti := hw.2 st rfl
      have hrec := ih st.i st.c (st.m + 1) (reads1 ++ [st.i]) hsti
        (reads_snoc_lt reads1 _ _ hw.1 hsti)
      simp only
      rcases hres2 : resampleLoopA A set_a r count_inv fuel k st.i st.c (st.m + 1)
        (reads1 ++ [st.i]) with ⟨_ | idxs, reads2⟩
      · rw [hres2] at hrec
        exact ⟨hrec.1, fun idxs h => by simp at h⟩
      · rw [hres2] at hrec
        refine ⟨hrec.1, fun idxs1 h => ?_⟩
        simp only [Option.some.injEq] at h
        subst h
        obtain ⟨hl, hm⟩ := hrec.2 idxs rfl
        refine ⟨by simp [hl], ?_⟩
        intro j hj
        rcases List.mem_cons.mp hj with h | h
        · omega
        · exact hm j h

/-- Without wrap-around: from index `i` with `c` the running sum at `i` and a
target `U` not above the running sum at the last sample, the inner loop stops
at the first index `j ≥ i` whose running sum reaches `U`, within `length - i`
iterations, and leaves `m` and `U` as they were. -/
theorem innerWalkA_advance {F : Type} [LinearOrder F] (A : Arith F)
    (set_a : List (pf_sample_t F)) (r count_inv : F) (m : Nat) (U : F)
    (hU : U ≤ cumA A set_a (set_a.length - 1)) (d : Nat) :
    ∀ i, i + d + 1 = set_a.length →
      ∃ j, i ≤ j ∧ j < set_a.length ∧ (∀ j', i ≤ j' → j' < j → cumA A set_a j' < U) ∧
        U ≤ cumA A set_a j ∧
        ∀ fuel reads, set_a.length ≤ fuel + i →
          (innerWalkA A set_a r count_inv fuel
            { i := i, c := cumA A set_a i, m := m, U := U } reads).1 =
            some { i := j, c := cumA A set_a j, m := m, U := U } := by
  have hstop : ∀ i, i < set_a.length → U ≤ cumA A set_a i →
      ∃ j, i ≤ j ∧ j < set_a.length ∧ (∀ j', i ≤ j' → j' < j → cumA A set_a j' < U) ∧
        U ≤ cumA A set_a j ∧
        ∀ fuel reads, set_a.length ≤ fuel + i →
          (innerWalkA A set_a r count_inv fuel
            { i := i, c := cumA A set_a i, m := m, U := U } reads).1 =
            some { i := j, c := cumA A set_a j, m := m, U := U } := by
    intro i hi hle
    refine ⟨i, le_refl _, hi, fun j' h1 h2 => absurd h2 (by omega), hle, ?_⟩
    intro fuel reads hfuel
    obtain ⟨f, rfl⟩ : ∃ f, fuel = f + 1 := ⟨fuel - 1, by omega⟩
    simp [innerWalkA, not_lt.mpr hle]
  induction d with
  | zero =>
    intro i hi
    have hin : i = set_a.length - 1 := by omega
    exact hstop i (by omega) (by rw [hin]; exact hU)
  | succ d ih =>
    intro i hi
    by_cases hle : U ≤ cumA A set_a i
    · exact hstop i (by omega) hle
    · have hgt : cumA A set_a i < U := not_le.mp hle
      obtain ⟨j, hij, hjn, hbelow, hreach, hrun⟩ := ih (i + 1) (by omega)
      refine ⟨j, by omega, hjn, ?_, hreach, ?_⟩
      · intro j' h1 h2
        rcases Nat.eq_or_lt_of_le h1 with heq | hlt
        · rw [← heq]; exact hgt
        · exact hbelow j' hlt h2
      · intro fuel reads hfuel
        obtain ⟨f, rfl⟩ : ∃ f, fuel = f + 1 := ⟨fuel - 1, by omega⟩
        have hnot : ¬ (i + 1 ≥ set_a.length) := by omega
        simp only [innerWalkA, gt_iff_lt, hgt, if_true, hnot, if_false]
        exact hrun f _ (by omega)

/-- From any index `i` below the length, with `c` the running sum at `i` and
any target `U`: if the restart target `r + 0 * count_inv` is not above the
running sum at the last sample, the inner loop ends within `2 * length - i`
iterations.  It stops at an index whose running sum reaches `U`, or runs to the
last sample, restarts from index 0, and stops from there. -/
theorem innerWalkA_terminates {F : Type} [LinearOrder F] (A : Arith F)
    (set_a : List (pf_sample_t F)) (r count_inv : F)
    (hr : drawA A r count_inv 0 ≤ cumA A set_a (set_a.length - 1)) (d : Nat) :
    ∀ (i m : Nat) (U : F) (reads : List Nat) (fuel : Nat), i + d + 1 = set_a.length →
      2 * set_a.length ≤ fuel + i →
      ∃ st, (innerWalkA A set_a r count_inv fuel
          { i := i, c := cumA A set_a i, m := m, U := U } reads).1 = some st ∧
        st.i < set_a.length ∧ st.c = cumA A set_a st.i := by
  have hstop : ∀ (i m : Nat) (U : F) (reads : List Nat) (fuel : Nat), i < set_a.length →
      U ≤ cumA A set_a i → 2 * set_a.length ≤ fuel + i →
      ∃ st, (innerWalkA A set_a r count_inv fuel
          { i := i, c := cumA A set_a i, m := m, U := U } reads).1 = some st ∧
        st.i < set_a.length ∧ st.c = cumA A set_a st.i := by
    intro i m U reads fuel hi hle hfuel
    obtain ⟨f, rfl⟩ : ∃ f, fuel = f + 1 := ⟨fuel - 1, by omega⟩
    exact ⟨{ i := i, c := cumA A set_a i, m := m, U := U },
      by simp [innerWalkA, not_lt.mpr hle], hi, rfl⟩
  induction d with
  | zero =>
    intro i m U reads fuel hi hfuel
    by_cases hle : U ≤ cumA A set_a i
    · exact hstop i m U reads fuel (by omega) hle hfuel
    · have hgt : cumA A set_a i < U := not_le.mp hle
      obtain ⟨f, rfl⟩ : ∃ f, fuel = f + 1 := ⟨fuel - 1, by omega⟩
      have hwrap : i + 1 ≥ set_a.length := by omega
      obtain ⟨j, _, hjn, _, _, hrun⟩ := innerWalkA_advance A set_a r count_inv 0
        (drawA A r count_inv 0) hr (set_a.length - 1) 0 (by omega)
      refine ⟨{ i := j, c := cumA A set_a j, m := 0, U := drawA A r count_inv 0 }, ?_, hjn, rfl⟩
      simp only [innerWalkA, gt_iff_lt, hgt, if_true, hwrap]
      exact hrun f _ (by omega)
  | succ d ih =>
    intro i m U reads fuel hi hfuel
    by_cases hle : U ≤ cumA A set_a i
    · exact hstop i m U reads fuel (by omega) hle hfuel
    · have hgt : cumA A set_a i < U := not_le.mp hle
      obtain ⟨f, rfl⟩ : ∃ f, fuel = f + 1 := ⟨fuel - 1, by omega⟩
      have hnot : ¬ (i + 1 ≥ set_a.length) := by omega
      obtain ⟨st, hrun, hst⟩ := ih (i + 1) m U (reads ++ [i + 1]) f (by omega) (by omega)
      refine ⟨st, ?_, hst⟩
      simp only [innerWalkA, gt_iff_lt, hgt, if_true, hnot, if_false]
      exact hrun

/-- If the restart target is not above the running sum at the last sample, the
outer loop writes `k` outputs whatever the targets are. -/
theorem resampleLoopA_terminates {F : Type} [LinearOrder F] (A : Arith F)
    (set_a : List (pf_sample_t F)) (r count_inv : F)
    (hr : drawA A r count_inv 0 ≤ cumA A set_a (set_a.length - 1)) (fuel : Nat)
    (hfuel : 2 * set_a.length ≤ fuel) (k : Nat) :
    ∀ (i m : Nat) (reads : List Nat), i < set_a.length →
      ∃ idxs, (resampleLoopA A set_a r count_inv fuel k i (cumA A set_a i) m reads).1 =
        some idxs := by
  induction k with
  | zero =>
    intro i m reads _
    exact ⟨[], rfl⟩
  | succ k ih =>
    intro i m reads hi
    obtain ⟨st, hrun, hsti, hstc⟩ := innerWalkA_terminates A set_a r count_inv hr
      (set_a.length - 1 - i) i m (drawA A r count_inv m) reads fuel (by omega) (by omega)
    simp only [resampleLoopA]
    rcases hres : innerWalkA A set_a r count_inv fuel
      { i := i, c := cumA A set_a i, m := m, U := drawA A r count_inv m } reads with ⟨o, reads1⟩
    rw [hres] at hrun
    simp only at hrun
    subst hrun
    obtain ⟨idxs, hrec⟩ := ih st.i (st.m + 1) (reads1 ++ [st.i]) hsti
    simp only
    rw [hstc]
    rcases hres2 : resampleLoopA A set_a r count_inv fuel k st.i (cumA A set_a st.i) (st.m + 1)
      (reads1 ++ [st.i]) with ⟨o2, reads2⟩
    rw [hres2] at hrec
    simp only at hrec
    subst hrec
    exact ⟨st.i :: idxs, rfl⟩
/-- Without wrap-around, and with targets that do not decrease from one output
to the next, the outer loop writes `k` outputs, and output `t` is the first
source index whose running sum reaches the target `r + (m + t) * count_inv`. -/
theorem resampleLoopA_spec {F : Type} [LinearOrder F] (A : Arith F)
    (set_a : List (pf_sample_t F)) (r count_inv : F) (fuel : Nat)
    (hf : set_a.length ≤ fuel) :
    ∀ (k i m : Nat) (reads : List Nat), i < set_a.length →
      (0 < k → ∀ j', j' < i → cumA A set_a j' < drawA A r count_inv m) →
      (∀ t : Nat, t + 1 < k →
        drawA A r count_inv (m + t) ≤ drawA A r count_inv (m + t + 1)) →
      (∀ t : Nat, t < k → drawA A r count_inv (m + t) ≤ cumA A set_a (set_a.length - 1)) →
      ∃ idxs, (resampleLoopA A set_a r count_inv fuel k i (cumA A set_a i) m reads).1 =
          some idxs ∧
        idxs.length = k ∧
        ∀ (t : Nat) (j : Nat), idxs[t]? = some j →
          IsFirstReachingA A set_a (drawA A r count_inv (m + t)) j := by
  intro k
  induction k with
  | zero =>
    intro i m reads _ _ _ _
    exact ⟨[], rfl, rfl, by simp⟩
  | succ k ih =>
    intro i m reads hi hbelow hmono htot
    have hU : drawA A r count_inv m ≤ cumA A set_a (set_a.length - 1) := by
      simpa using htot 0 (Nat.succ_pos k)
    obtain ⟨j, hij, hjn, hb, hreach, hrun⟩ :=
      innerWalkA_advance A set_a r count_inv m (drawA A r count_inv m) hU
        (set_a.length - 1 - i) i (by omega)
    have hbj : ∀ j', j' < j → cumA A set_a j' < drawA A r count_inv m := by
      intro j' hj'
      by_cases h : j' < i
      · exact hbelow (Nat.succ_pos k) j' h
      · exact hb j' (not_lt.mp h) hj'
    have hrun1 := hrun fuel reads (by omega)
    rcases hres : innerWalkA A set_a r count_inv fuel
      { i := i, c := cumA A set_a i, m := m, U := drawA A r count_inv m } reads with ⟨o, reads1⟩
    rw [hres] at hrun1
    simp only at hrun1
    subst hrun1
    obtain ⟨idxs, hrec, hlen, hspec⟩ := ih j (m + 1) (reads1 ++ [j]) hjn
      (fun hk j' hj' => lt_of_lt_of_le (hbj j' hj') (by simpa using hmono 0 (by omega)))
      (fun t ht => by
        have := hmono (t + 1) (by omega)
        rwa [show m + (t + 1) = m + 1 + t by omega] at this)
      (fun t ht => by
        have := htot (t + 1) (by omega)
        rwa [show m + (t + 1) = m + 1 + t by omega] at this)
    rcases hres2 : resampleLoopA A set_a r count_inv fuel k j (cumA A set_a j) (m + 1)
      (reads1 ++ [j]) with ⟨o2, reads2⟩
    rw [hres2] at hrec
    simp only at hrec
    subst hrec
    refine ⟨j :: idxs, ?_, by simp [hlen], ?_⟩
    · simp only [resampleLoopA, hres, hres2]
    · intro t j2 ht
      cases t with
      | zero =>
        simp at ht
        subst ht
        exact ⟨hjn, by simpa using hreach, by simpa using hbj⟩
      | succ t =>
        simp at ht
        have := hspec t j2 ht
        rwa [show m + 1 + t = m + (t + 1) by omega] at this

/-- The first index at which the running sum reaches a target is unique. -/
theorem IsFirstReachingA_unique {F : Type} [LinearOrder F] (A : Arith F)
    (set_a : List (pf_sample_t F)) (U : F) (i j : Nat)
    (hi : IsFirstReachingA A set_a U i) (hj : IsFirstReachingA A set_a U j) : i = j := by
  obtain ⟨_, hri, hbi⟩ := hi
  obtain ⟨_, hrj, hbj⟩ := hj
  rcases Nat.lt_trichotomy i j with h | h | h
  · exact absurd hri (not_le.mpr (hbj i h))
  · exact h
  · exact absurd hrj (not_le.mpr (hbi j h))

/-- The targets do not decrease with `m` in a monotone arithmetic, for a
non-negative `count_inv`. -/
theorem drawA_mono_m {F : Type} [LinearOrder F] (A : Arith F) (hA : A.Monotone)
    (r count_inv : F) (hc : A.ofNat 0 ≤ count_inv) (m m' : Nat) (h : m ≤ m') :
    drawA A r count_inv m ≤ drawA A r count_inv m' :=
  hA.add_le_add_left _ _ r (hA.mul_le_mul_right _ _ count_inv hc (hA.ofNat_le m m' h))

/-- The targets do not decrease with the offset `r` in a monotone arithmetic. -/
theorem drawA_mono_r {F : Type} [LinearOrder F] (A : Arith F) (hA : A.Monotone)
    (r r' count_inv : F) (m : Nat) (h : r ≤ r') :
    drawA A r count_inv m ≤ drawA A r' count_inv m :=
  hA.add_le_add_right _ _ _ h

/-- The output of `downsizingSamplingFromA` in terms of the indices copied. -/
theorem downsizingSamplingFromA_of_trace {F : Type} [LinearOrder F] (A : Arith F)
    (set_a set_b : List (pf_sample_t F)) (N : Nat) (r : F) (fuel : Nat) (idxs : List Nat)
    (h : (downsizingTraceA A set_a N r fuel).1 = some idxs) :
    ∃ out, downsizingSamplingFromA A set_a set_b N r fuel = some out ∧
      out.length = idxs.length ∧
      out.map (fun s => s.pose) = idxs.map (fun j => (sampleAtA A set_a j).pose) ∧
      (∀ s ∈ out, s.weight = A.div (A.ofNat 1) (onesTotalA A idxs.length)) ∧
      out.map (fun s => s.logWeight) =
        (List.range idxs.length).map (fun t => (sampleAtA A set_b t).logWeight) := by
  refine ⟨idxs.enum.map (fun p =>
      { pose := (sampleAtA A set_a p.2).pose,
        weight := A.div (A.ofNat 1) (idxs.foldl (fun tot _ => A.add tot (A.ofNat 1)) (A.ofNat 0)),
        logWeight := (sampleAtA A set_b p.1).logWeight }),
    by simp only [downsizingSamplingFromA, h], by simp, ?_, ?_, ?_⟩
  · rw [List.map_map]
    have : idxs.map (fun j => (sampleAtA A set_a j).pose) =
        (idxs.enum.map Prod.snd).map (fun j => (sampleAtA A set_a j).pose) := by
      rw [List.enum_map_snd]
    rw [this, List.map_map]
    rfl
  · intro s hs
    simp only [List.mem_map] at hs
    obtain ⟨p, _, rfl⟩ := hs
    rw [onesTotalA_foldl]
  · rw [List.map_map]
    have : (List.range idxs.length).map (fun t => (sampleAtA A set_b t).logWeight) =
        (idxs.enum.map Prod.fst).map (fun t => (sampleAtA A set_b t).logWeight) := by
      rw [List.enum_map_fst]
    rw [this, List.map_map]
    rfl

/-! ## Termination and bounds of `downsizingSampling` in a given arithmetic -/

set_option exponentiation.threshold 2000 in
set_option maxRecDepth 100000 in
theorem demoTie_gt : demoTieOffset > demoTieW0 := by decide

set_option exponentiation.threshold 2000 in
set_option maxRecDepth 100000 in
theorem demoTie_add (k : Nat) (hk : k < 4) :
    binary64.add demoTieW0 (sampleAtA binary64 demoTieSet (k + 1)).weight = demoTieW0 := by
  interval_cases k <;> decide

set_option exponentiation.threshold 2000 in
set_option maxRecDepth 100000 in
theorem demoTie_draw :
    drawA binary64 demoTieOffset (binary64.div (binary64.ofNat 1) (binary64.ofNat 1)) 0 =
      demoTieOffset := by decide

/-- On `demoTieSet` with the target `1 - 2^-53` the running sum stays at
`1 - 2^-52`: adding `2^-54` is a tie that rounds back to the even significand.
The inner loop runs to the last sample, restarts, and never ends. -/
theorem demoTie_walk (fuel : Nat) :
    ∀ (k : Nat) (reads : List Nat), k ≤ 4 →
      (innerWalkA binary64 demoTieSet demoTieOffset
        (binary64.div (binary64.ofNat 1) (binary64.ofNat 1)) fuel
        { i := k, c := demoTieW0, m := 0, U := demoTieOffset } reads).1 = none := by
  induction fuel with
  | zero => intro k reads _; rfl
  | succ fuel ih =>
    intro k reads hk
    have hlen : demoTieSet.length = 5 := rfl
    rw [innerWalkA]
    simp only
    rw [if_pos demoTie_gt]
    by_cases hw : k + 1 ≥ demoTieSet.length
    · rw [if_pos hw, demoTie_draw]
      exact ih 0 _ (by omega)
    · rw [if_neg hw, demoTie_add k (by omega)]
      exact ih (k + 1) _ (by omega)

/-- In exact arithmetic, with weights summing to at least `1/N` and an offset
`r < 1/N`, the restart target is not above the running sum at the last
sample. -/
theorem restart_le_total_exact (set_a : List (pf_sample_t K)) (N : Nat) (r : K)
    (hn : 1 ≤ set_a.length) (hsum : 1 / (N : K) ≤ totalWeight set_a) (hr : r < 1 / (N : K)) :
    drawA (exactArith K) r ((exactArith K).div ((exactArith K).ofNat 1) ((exactArith K).ofNat N)) 0 ≤
      cumA (exactArith K) set_a (set_a.length - 1) := by
  rw [cumA_exact set_a _ (by omega), cumWeight_last, drawA_exact]
  simp only [Nat.cast_zero, zero_mul, add_zero]
  exact le_of_lt (lt_of_lt_of_le hr hsum)

/-- C18 (amended): for a source set of `n ≥ 1` samples, a target size `N` and an
offset `r`, in any arithmetic of `double`: (1) whatever the fuel, also in a run
that does not end, every index at which `downsizingSampling` reads the source
set is below `n`, and if the run ends it has copied `N` indices below `n`;
(2) when the walk would step past the last source sample it restarts from
index 0 with `m = 0`; (3) if the restart target `r + 0 * count_inv` is not
above the running sum `c` at the last sample, the call terminates, each inner
loop within `2 * n` iterations, with `N` outputs; (4) in exact arithmetic this
condition holds whenever the weights sum to at least `1/N` and `r < 1/N`. -/
theorem downsizingSampling_terminates {F : Type} [LinearOrder F] (A : Arith F)
    (set_a set_b : List (pf_sample_t F)) (N : Nat) (r : F) (hn : 1 ≤ set_a.length) :
    (∀ fuel, (∀ j ∈ (downsizingTraceA A set_a N r fuel).2, j < set_a.length) ∧
      ∀ idxs, (downsizingTraceA A set_a N r fuel).1 = some idxs →
        idxs.length = N ∧ ∀ j ∈ idxs, j < set_a.length) ∧
    (∀ (f : Nat) (c U : F) (m : Nat) (reads : List Nat), U > c →
      innerWalkA A set_a r (A.div (A.ofNat 1) (A.ofNat N)) (f + 1)
          { i := set_a.length - 1, c := c, m := m, U := U } reads =
        innerWalkA A set_a r (A.div (A.ofNat 1) (A.ofNat N)) f
          { i := 0, c := (sampleAtA A set_a 0).weight, m := 0,
            U := drawA A r (A.div (A.ofNat 1) (A.ofNat N)) 0 } (reads ++ [0])) ∧
    (drawA A r (A.div (A.ofNat 1) (A.ofNat N)) 0 ≤ cumA A set_a (set_a.length - 1) →
      ∀ fuel, 2 * set_a.length ≤ fuel →
        ∃ idxs out, (downsizingTraceA A set_a N r fuel).1 = some idxs ∧
          downsizingSamplingFromA A set_a set_b N r fuel = some out ∧ out.length = N ∧
          out.map (fun s => s.pose) = idxs.map (fun j => (sampleAtA A set_a j).pose)) ∧
    (∀ (sa sb : List (pf_sample_t K)) (N1 : Nat) (r1 : K), 1 ≤ sa.length →
      1 / (N1 : K) ≤ totalWeight sa → r1 < 1 / (N1 : K) →
      ∀ fuel, 2 * sa.length ≤ fuel →
        ∃ out, downsizingSamplingFromA (exactArith K) sa sb N1 r1 fuel = some out ∧
          downsizingSamplingFrom sa sb N1 r1 fuel = some out ∧ out.length = N1) := by
  have hterm : ∀ {G : Type} [LinearOrder G] (B : Arith G) (sa sb : List (pf_sample_t G))
      (N1 : Nat) (r1 : G), 1 ≤ sa.length →
      drawA B r1 (B.div (B.ofNat 1) (B.ofNat N1)) 0 ≤ cumA B sa (sa.length - 1) →
      ∀ fuel, 2 * sa.length ≤ fuel →
        ∃ idxs out, (downsizingTraceA B sa N1 r1 fuel).1 = some idxs ∧
          downsizingSamplingFromA B sa sb N1 r1 fuel = some out ∧ out.length = N1 ∧
          out.map (fun s => s.pose) = idxs.map (fun j => (sampleAtA B sa j).pose) := by
    intro G _ B sa sb N1 r1 h1 hr fuel hfuel
    obtain ⟨idxs, hres⟩ := resampleLoopA_terminates B sa r1 (B.div (B.ofNat 1) (B.ofNat N1)) hr
      fuel hfuel N1 0 0 [0] (by omega)
    have htr : (downsizingTraceA B sa N1 r1 fuel).1 = some idxs := hres
    have hlen := ((resampleLoopA_reads B sa r1 (B.div (B.ofNat 1) (B.ofNat N1)) (by omega) fuel
      N1 0 (cumA B sa 0) 0 [0] (by omega)
      (by intro j hj; simp only [List.mem_singleton] at hj; omega)).2 idxs hres).1
    obtain ⟨out, hout, hol, hpose, _, _⟩ :=
      downsizingSamplingFromA_of_trace B sa sb N1 r1 fuel idxs htr
    exact ⟨idxs, out, htr, hout, by rw [hol, hlen], hpose⟩
  refine ⟨?_, ?_, hterm A set_a set_b N r hn, ?_⟩
  · intro fuel
    exact resampleLoopA_reads A set_a r (A.div (A.ofNat 1) (A.ofNat N)) (by omega) fuel N 0
      (sampleAtA A set_a 0).weight 0 [0] (by omega)
      (by intro j hj; simp only [List.mem_singleton] at hj; omega)
  · intro f c U m reads hUc
    have hwrap : set_a.length - 1 + 1 ≥ set_a.length := by omega
    rw [innerWalkA]
    simp only
    rw [if_pos hUc, if_pos hwrap]
  · intro sa sb N1 r1 h1 hsum hr1 fuel hfuel
    obtain ⟨idxs, out, _, hout, hlen, _⟩ := hterm (exactArith K) sa sb N1 r1 h1
      (restart_le_total_exact sa N1 r1 h1 hsum hr1) fuel hfuel
    exact ⟨out, hout, by rw [← downsizingSamplingFromA_exact]; exact hout, hlen⟩

set_option exponentiation.threshold 2000 in
set_option maxRecDepth 100000 in
/-- C18 (amended) in binary64 on two samples of weight `1/4` with `N = 2` and
`r = 1/4`: the second target `3/4` is above the running sum `1/2` at the last
sample; the walk reads sample 1, restarts at sample 0, and both outputs copy
sample 0. -/
theorem downsizingSampling_terminates_witness :
    1 ≤ demoHalfSetD.length ∧
    drawA binary64 (Double.ofBits 1 (-2)) (binary64.div (binary64.ofNat 1) (binary64.ofNat 2)) 0 ≤
      cumA binary64 demoHalfSetD (demoHalfSetD.length - 1) ∧
    downsizingTraceA binary64 demoHalfSetD 2 (Double.ofBits 1 (-2)) 4 =
      (some [0, 0], [0, 0, 1, 0, 0]) ∧
    ∃ idxs out, (downsizingTraceA binary64 demoHalfSetD 2 (Double.ofBits 1 (-2)) 4).1 =
        some idxs ∧
      downsizingSamplingFromA binary64 demoHalfSetD demoHalfSetD 2 (Double.ofBits 1 (-2)) 4 =
        some out ∧ out.length = 2 ∧
      out.map (fun s => s.pose) = idxs.map (fun j => (sampleAtA binary64 demoHalfSetD j).pose) :=
  ⟨by decide, by decide, by decide,
    (downsizingSampling_terminates (K := ℚ) binary64 demoHalfSetD demoHalfSetD 2
      (Double.ofBits 1 (-2)) (by decide)).2.2.1 (by decide) 4 (by decide)⟩

set_option exponentiation.threshold 2000 in
set_option maxRecDepth 100000 in
/-- C18 fails in binary64: the weights `1 - 2^-52, 2^-54, 2^-54, 2^-54, 2^-54`
are values of `double`, non-negative, and sum to 1 as real numbers, `N = 1`, and the offset
`r = 1 - 2^-53` lies in `[0, 1/N)`; yet the running sum stays at `1 - 2^-52`,
below `r`, and `downsizingSampling` does not terminate: for every fuel the run
is still in its first inner loop. -/
theorem downsizingSampling_loops_counterexample :
    (∀ s ∈ demoTieSet, Double.Representable s.weight) ∧ Double.Representable demoTieOffset ∧
    1 ≤ demoTieSet.length ∧ (∀ s ∈ demoTieSet, 0 ≤ s.weight) ∧
    (demoTieSet.map (fun s => s.weight)).sum = Double.ofBits 1 0 ∧
    binary64.div (binary64.ofNat 1) (binary64.ofNat 1) = Double.ofBits 1 0 ∧
    0 ≤ demoTieOffset ∧ demoTieOffset < binary64.div (binary64.ofNat 1) (binary64.ofNat 1) ∧
    ∀ fuel, (downsizingTraceA binary64 demoTieSet 1 demoTieOffset fuel).1 = none ∧
      downsizingSamplingFromA binary64 demoTieSet demoTieSet 1 demoTieOffset fuel = none := by
  refine ⟨by decide, by decide, by decide, by decide, by decide, by decide, by decide,
    by decide, ?_⟩
  intro fuel
  have hw := demoTie_walk fuel 0 [0] (by omega)
  have htr : (downsizingTraceA binary64 demoTieSet 1 demoTieOffset fuel).1 = none := by
    simp only [downsizingTraceA, resampleLoopA]
    rw [demoTie_draw]
    rcases hres : innerWalkA binary64 demoTieSet demoTieOffset
      (binary64.div (binary64.ofNat 1) (binary64.ofNat 1)) fuel
      { i := 0, c := (sampleAtA binary64 demoTieSet 0).weight, m := 0, U := demoTieOffset }
      [0] with ⟨o, reads1⟩
    have : o = none := by
      have h2 : (innerWalkA binary64 demoTieSet demoTieOffset
        (binary64.div (binary64.ofNat 1) (binary64.ofNat 1)) fuel
        { i := 0, c := (sampleAtA binary64 demoTieSet 0).weight, m := 0, U := demoTieOffset }
        [0]).1 = none := hw
      rw [hres] at h2
      exact h2
    subst this
    rfl
  exact ⟨htr, by simp only [downsizingSamplingFromA, htr]⟩

/-! ## Proportional resampling in a given arithmetic -/

theorem downsizingTraceA_exact (set_a : List (pf_sample_t K)) (N : Nat) (r : K) (fuel : Nat) :
    (downsizingTraceA (exactArith K) set_a N r fuel).1 = downsizingIndices set_a N r fuel := by
  simp only [downsizingTraceA, downsizingIndices]
  rw [resampleLoopA_exact, sampleAtA_exact]
  simp [exactArith]

/-- A predicate that holds for all `t < a` is counted at least `a` times over
`0..N-1`. -/
theorem countP_range_ge (p : Nat → Bool) (N : Nat) :
    ∀ a, a ≤ N → (∀ t, t < a → p t = true) → a ≤ (List.range N).countP p := by
  induction N with
  | zero => intro a ha _; omega
  | succ N ih =>
    intro a ha hp
    rw [List.range_succ, List.countP_append]
    rcases Nat.eq_or_lt_of_le ha with heq | hlt
    · have h1 := ih N (le_refl _) (fun t ht => hp t (by omega))
      have h2 : p N = true := hp N (by omega)
      simp only [List.countP_cons, List.countP_nil, h2, if_true]
      omega
    · have h1 := ih a (by omega) hp
      omega

/-- A predicate that fails for all `t` from `b` on is counted at most `b` times
over `0..N-1`. -/
theorem countP_range_le (p : Nat → Bool) (b : Nat) (N : Nat) :
    (∀ t, b ≤ t → t < N → p t = false) → (List.range N).countP p ≤ b := by
  induction N with
  | zero => intro _; simp
  | succ N ih =>
    intro hp
    rw [List.range_succ, List.countP_append]
    have h1 := ih (fun t h1 h2 => hp t h1 (by omega))
    by_cases hb : b ≤ N
    · have h2 : p N = false := hp N hb (by omega)
      simp only [List.countP_cons, List.countP_nil, h2]
      simpa using h1
    · have h3 : (List.range N).countP p ≤ N := by
        have := List.countP_le_length p (l := List.range N)
        simpa using this
      have h4 : List.countP p [N] ≤ 1 := by
        have := List.countP_le_length p (l := [N])
        simpa using this
      omega

set_option exponentiation.threshold 2000 in
set_option maxRecDepth 100000 in
theorem demoTwoCellD_facts :
    binary64.ofNat 0 ≤ binary64.div (binary64.ofNat 1) (binary64.ofNat 1000) ∧
    drawA binary64 (binary64.div (binary64.ofNat 1) (binary64.ofNat 1000))
      (binary64.div (binary64.ofNat 1) (binary64.ofNat 1000)) 999 ≤
        cumA binary64 demoTwoCellD 1 ∧
    drawA binary64 (binary64.div (binary64.ofNat 1) (binary64.ofNat 1000))
      (binary64.div (binary64.ofNat 1) (binary64.ofNat 1000)) 869 ≤
        cumA binary64 demoTwoCellD 0 ∧
    cumA binary64 demoTwoCellD 0 <
      drawA binary64 0 (binary64.div (binary64.ofNat 1) (binary64.ofNat 1000)) 930 :=
  ⟨by decide, by decide, by decide, by decide⟩

/-- Without wrap-around, and with targets that do not decrease, in any
arithmetic: `downsizingSampling` ends, output `t` carries the pose of the first
source sample whose running sum reaches the target `r + t * count_inv` and the
weight `1.0 / total`, and source index `i` is copied once for every target that
it is the first to reach. -/
theorem downsizingSamplingA_spec {F : Type} [LinearOrder F] (A : Arith F)
    (set_a set_b : List (pf_sample_t F)) (N : Nat) (r : F) (fuel : Nat)
    (hn : 1 ≤ set_a.length) (hfuel : set_a.length ≤ fuel)
    (hmono : ∀ t, t + 1 < N →
      drawA A r (A.div (A.ofNat 1) (A.ofNat N)) t ≤
        drawA A r (A.div (A.ofNat 1) (A.ofNat N)) (t + 1))
    (hlast : ∀ t, t < N →
      drawA A r (A.div (A.ofNat 1) (A.ofNat N)) t ≤ cumA A set_a (set_a.length - 1)) :
    ∃ idxs out, (downsizingTraceA A set_a N r fuel).1 = some idxs ∧
      downsizingSamplingFromA A set_a set_b N r fuel = some out ∧
      out.length = N ∧ idxs.length = N ∧
      out.map (fun s => s.pose) = idxs.map (fun j => (sampleAtA A set_a j).pose) ∧
      (∀ s ∈ out, s.weight = A.div (A.ofNat 1) (onesTotalA A N)) ∧
      out.map (fun s => s.logWeight) =
        (List.range N).map (fun t => (sampleAtA A set_b t).logWeight) ∧
      (∀ (t j : Nat), idxs[t]? = some j →
        IsFirstReachingA A set_a (drawA A r (A.div (A.ofNat 1) (A.ofNat N)) t) j) ∧
      ∀ i, idxs.count i = (List.range N).countP (fun t =>
        decide (IsFirstReachingA A set_a (drawA A r (A.div (A.ofNat 1) (A.ofNat N)) t) i)) := by
  obtain ⟨idxs, hres, hlen, hspec⟩ := resampleLoopA_spec A set_a r
    (A.div (A.ofNat 1) (A.ofNat N)) fuel hfuel N 0 0 [0] (by omega)
    (fun _ j' hj' => absurd hj' (by omega))
    (fun t ht => by simpa using hmono t ht)
    (fun t ht => by simpa using hlast t ht)
  have htr : (downsizingTraceA A set_a N r fuel).1 = some idxs := hres
  have hspec1 : ∀ (t j : Nat), idxs[t]? = some j →
      IsFirstReachingA A set_a (drawA A r (A.div (A.ofNat 1) (A.ofNat N)) t) j := by
    intro t j h
    simpa using hspec t j h
  obtain ⟨out, hout, hol, hpose, hwt, hlog⟩ :=
    downsizingSamplingFromA_of_trace A set_a set_b N r fuel idxs htr
  rw [hlen] at hol hwt hlog
  refine ⟨idxs, out, htr, hout, hol, hlen, hpose, hwt, hlog, hspec1, ?_⟩
  intro i
  rw [count_eq_countP_range, hlen]
  apply List.countP_congr
  intro t ht
  have htN : t < idxs.length := by rw [hlen]; exact List.mem_range.mp ht
  have hfirst := hspec1 t idxs[t] (List.getElem?_eq_getElem htN)
  simp only [List.getElem?_eq_getElem htN, Option.some.injEq, decide_eq_true_eq]
  constructor
  · rintro rfl
    exact hfirst
  · intro h
    exact IsFirstReachingA_unique A set_a _ _ _ hfirst h

/-- In exact arithmetic, for non-negative source weights that sum to 1, a
target size `N ≥ 1` and an offset `r` in `[0, 1/N)`: `downsizingSampling` ends,
its outputs carry the poses of the source samples chosen, and every source
index `i` is chosen a number of times within 1 of `N * w_i`. -/
theorem downsizingSampling_exact_count (set_a set_b : List (pf_sample_t K)) (N : Nat) (r : K)
    (fuel : Nat) (hw : ∀ s ∈ set_a, 0 ≤ s.weight) (hsum : totalWeight set_a = 1) (hN : 1 ≤ N)
    (hr0 : 0 ≤ r) (hr1 : r < 1 / (N : K)) (hfuel : set_a.length ≤ fuel) :
    ∃ idxs out, (downsizingTraceA (exactArith K) set_a N r fuel).1 = some idxs ∧
      downsizingSamplingFromA (exactArith K) set_a set_b N r fuel = some out ∧
      downsizingSamplingFrom set_a set_b N r fuel = some out ∧
      out.length = N ∧
      out.map (fun s => s.pose) = idxs.map (fun j => (sampleAt set_a j).pose) ∧
      ∀ i, i < set_a.length →
        |((idxs.count i : Nat) : K) - (N : K) * (sampleAt set_a i).weight| ≤ 1 := by
  obtain ⟨idxs, hres, hlen, hb⟩ := resample_count_bound set_a N r fuel hw hsum hN hr0 hr1 hfuel
  have htr : (downsizingTraceA (exactArith K) set_a N r fuel).1 = some idxs := by
    rw [downsizingTraceA_exact, hres]
  obtain ⟨out, hout, hol, hpose, _, _⟩ :=
    downsizingSamplingFromA_of_trace (exactArith K) set_a set_b N r fuel idxs htr
  refine ⟨idxs, out, htr, hout, by rw [← downsizingSamplingFromA_exact]; exact hout,
    by rw [hol, hlen], ?_, hb⟩
  rw [hpose]
  apply List.map_congr_left
  intro j _
  rw [sampleAtA_exact]

/-- The two-cell belief `{0.9, 0.1}` resampled to 1000 outputs in binary64: for
every offset `r` with `0 ≤ r ≤ count_inv` the call ends without wrap-around and
between 870 and 930 outputs are copies of cell 0. -/
theorem twoCellD_count (set_b : List (pf_sample_t Double)) (r : Double) (hr0 : 0 ≤ r)
    (hr1 : r ≤ binary64.div (binary64.ofNat 1) (binary64.ofNat 1000)) (fuel : Nat)
    (hfuel : 2 ≤ fuel) :
    ∃ idxs out, (downsizingTraceA binary64 demoTwoCellD 1000 r fuel).1 = some idxs ∧
      downsizingSamplingFromA binary64 demoTwoCellD set_b 1000 r fuel = some out ∧
      out.length = 1000 ∧
      out.map (fun s => s.pose) = idxs.map (fun j => (sampleAtA binary64 demoTwoCellD j).pose) ∧
      870 ≤ idxs.count 0 ∧ idxs.count 0 ≤ 930 := by
  obtain ⟨hc0, hf1, hf2, hf3⟩ := demoTwoCellD_facts
  have hlen2 : demoTwoCellD.length = 2 := rfl
  have hup : ∀ t, t ≤ 999 →
      drawA binary64 r (binary64.div (binary64.ofNat 1) (binary64.ofNat 1000)) t ≤
        drawA binary64 (binary64.div (binary64.ofNat 1) (binary64.ofNat 1000))
          (binary64.div (binary64.ofNat 1) (binary64.ofNat 1000)) 999 := fun t ht =>
    le_trans (drawA_mono_r binary64 binary64_monotone _ _ _ t hr1)
      (drawA_mono_m binary64 binary64_monotone _ _ hc0 t 999 ht)
  obtain ⟨idxs, out, htr, hout, hol, hlen, hpose, _, _, hspec, hcount⟩ :=
    downsizingSamplingA_spec binary64 demoTwoCellD set_b 1000 r fuel (by rw [hlen2]; omega)
      (by rw [hlen2]; exact hfuel)
      (fun t _ => drawA_mono_m binary64 binary64_monotone _ _ hc0 t (t + 1) (by omega))
      (fun t ht => le_trans (hup t (by omega)) hf1)
  refine ⟨idxs, out, htr, hout, hol, hpose, ?_, ?_⟩
  · rw [hcount 0]
    apply countP_range_ge _ 1000 870 (by omega)
    intro t ht
    simp only [decide_eq_true_eq]
    refine ⟨by rw [hlen2]; omega, ?_, fun j' hj' => absurd hj' (by omega)⟩
    exact le_trans (le_trans (drawA_mono_r binary64 binary64_monotone _ _ _ t hr1)
      (drawA_mono_m binary64 binary64_monotone _ _ hc0 t 869 (by omega))) hf2
  · rw [hcount 0]
    apply countP_range_le _ 930 1000
    intro t hb _
    simp only [decide_eq_false_iff_not]
    rintro ⟨_, hreach, _⟩
    have h1 : drawA binary64 0 (binary64.div (binary64.ofNat 1) (binary64.ofNat 1000)) 930 ≤
        drawA binary64 r (binary64.div (binary64.ofNat 1) (binary64.ofNat 1000)) t :=
      le_trans (drawA_mono_m binary64 binary64_monotone _ _ hc0 930 t hb)
        (drawA_mono_r binary64 binary64_monotone _ _ _ t hr0)
    exact absurd (lt_of_lt_of_le hf3 (le_trans h1 hreach)) (lt_irrefl _)

/-- C4 (amended): (1) in any arithmetic of `double`, for a source set of
`n ≥ 1` samples, a target size `N` and an offset `r` such that the targets
`r + t * count_inv` do not decrease with `t` and none is above the running sum
`c` at the last source sample: `downsizingSampling` ends without wrap-around
with `N` outputs, output `t` carries the pose of the first source sample whose
running sum reaches target `t` and the weight `1.0 / total`, and source index
`i` is copied once for every target that it is the first to reach; (2) in
exact arithmetic, for non-negative weights summing to 1, `N ≥ 1` and `r` in
`[0, 1/N)`, the number of outputs copied from source index `i` differs from
`N * w_i` by at most 1; (3) in binary64, for the two-cell belief `{0.9, 0.1}`,
`N = 1000` and every `r` with `0 ≤ r ≤ count_inv`, between 870 and 930 outputs
are copies of cell 0. -/
theorem downsizingSampling_proportional {F : Type} [LinearOrder F] (A : Arith F)
    (set_a set_b : List (pf_sample_t F)) (N : Nat) (r : F) (fuel : Nat)
    (hn : 1 ≤ set_a.length) (hfuel : set_a.length ≤ fuel)
    (hmono : ∀ t, t + 1 < N →
      drawA A r (A.div (A.ofNat 1) (A.ofNat N)) t ≤
        drawA A r (A.div (A.ofNat 1) (A.ofNat N)) (t + 1))
    (hlast : ∀ t, t < N →
      drawA A r (A.div (A.ofNat 1) (A.ofNat N)) t ≤ cumA A set_a (set_a.length - 1)) :
    (∃ idxs out, (downsizingTraceA A set_a N r fuel).1 = some idxs ∧
      downsizingSamplingFromA A set_a set_b N r fuel = some out ∧
      out.length = N ∧ idxs.length = N ∧
      out.map (fun s => s.pose) = idxs.map (fun j => (sampleAtA A set_a j).pose) ∧
      (∀ s ∈ out, s.weight = A.div (A.ofNat 1) (onesTotalA A N)) ∧
      out.map (fun s => s.logWeight) =
        (List.range N).map (fun t => (sampleAtA A set_b t).logWeight) ∧
      (∀ (t j : Nat), idxs[t]? = some j →
        IsFirstReachingA A set_a (drawA A r (A.div (A.ofNat 1) (A.ofNat N)) t) j) ∧
      ∀ i, idxs.count i = (List.range N).countP (fun t =>
        decide (IsFirstReachingA A set_a (drawA A r (A.div (A.ofNat 1) (A.ofNat N)) t) i))) ∧
    (∀ (sa sb : List (pf_sample_t K)) (N1 : Nat) (r1 : K) (fuel1 : Nat),
      (∀ s ∈ sa, 0 ≤ s.weight) → totalWeight sa = 1 → 1 ≤ N1 → 0 ≤ r1 → r1 < 1 / (N1 : K) →
      sa.length ≤ fuel1 →
      ∃ idxs out, (downsizingTraceA (exactArith K) sa N1 r1 fuel1).1 = some idxs ∧
        downsizingSamplingFromA (exactArith K) sa sb N1 r1 fuel1 = some out ∧
        downsizingSamplingFrom sa sb N1 r1 fuel1 = some out ∧
        out.length = N1 ∧
        out.map (fun s => s.pose) = idxs.map (fun j => (sampleAt sa j).pose) ∧
        ∀ i, i < sa.length →
          |((idxs.count i : Nat) : K) - (N1 : K) * (sampleAt sa i).weight| ≤ 1) ∧
    (∀ (sb : List (pf_sample_t Double)) (r1 : Double), 0 ≤ r1 →
      r1 ≤ binary64.div (binary64.ofNat 1) (binary64.ofNat 1000) →
      ∃ idxs out, (downsizingTraceA binary64 demoTwoCellD 1000 r1 2).1 = some idxs ∧
        downsizingSamplingFromA binary64 demoTwoCellD sb 1000 r1 2 = some out ∧
        out.length = 1000 ∧
        out.map (fun s => s.pose) =
          idxs.map (fun j => (sampleAtA binary64 demoTwoCellD j).pose) ∧
        870 ≤ idxs.count 0 ∧ idxs.count 0 ≤ 930) :=
  ⟨downsizingSamplingA_spec A set_a set_b N r fuel hn hfuel hmono hlast,
    fun sa sb N1 r1 fuel1 hw hsum hN hr0 hr1 hf =>
      downsizingSampling_exact_count sa sb N1 r1 fuel1 hw hsum hN hr0 hr1 hf,
    fun sb r1 hr0 hr1 => twoCellD_count sb r1 hr0 hr1 2 (le_refl _)⟩

set_option exponentiation.threshold 2000 in
set_option maxRecDepth 100000 in
/-- C4 (amended) in binary64 at the two-cell belief `{0.9, 0.1}` with `N = 10`
and `r = 0.05`: nine outputs copy cell 0 and one copies cell 1. -/
theorem downsizingSampling_proportional_witness :
    1 ≤ demoTwoCellD.length ∧
    (∀ t, t < 10 →
      drawA binary64 (Double.ofRat 1 20) (binary64.div (binary64.ofNat 1) (binary64.ofNat 10)) t ≤
        cumA binary64 demoTwoCellD (demoTwoCellD.length - 1)) ∧
    (downsizingTraceA binary64 demoTwoCellD 10 (Double.ofRat 1 20) 2).1 =
      some [0, 0, 0, 0, 0, 0, 0, 0, 0, 1] ∧
    ∃ idxs out, (downsizingTraceA binary64 demoTwoCellD 10 (Double.ofRat 1 20) 2).1 =
        some idxs ∧
      downsizingSamplingFromA binary64 demoTwoCellD demoTwoCellD 10 (Double.ofRat 1 20) 2 =
        some out ∧
      out.length = 10 ∧ idxs.length = 10 ∧
      out.map (fun s => s.pose) = idxs.map (fun j => (sampleAtA binary64 demoTwoCellD j).pose) ∧
      (∀ s ∈ out, s.weight = binary64.div (binary64.ofNat 1) (onesTotalA binary64 10)) ∧
      out.map (fun s => s.logWeight) =
        (List.range 10).map (fun t => (sampleAtA binary64 demoTwoCellD t).logWeight) ∧
      (∀ (t j : Nat), idxs[t]? = some j →
        IsFirstReachingA binary64 demoTwoCellD
          (drawA binary64 (Double.ofRat 1 20)
            (binary64.div (binary64.ofNat 1) (binary64.ofNat 10)) t) j) ∧
      ∀ i, idxs.count i = (List.range 10).countP (fun t =>
        decide (IsFirstReachingA binary64 demoTwoCellD
          (drawA binary64 (Double.ofRat 1 20)
            (binary64.div (binary64.ofNat 1) (binary64.ofNat 10)) t) i)) :=
  ⟨by decide, by decide, by decide,
    (downsizingSampling_proportional (K := ℚ) binary64 demoTwoCellD demoTwoCellD 10
      (Double.ofRat 1 20) 2 (by decide) (by decide)
      (fun t _ => drawA_mono_m binary64 binary64_monotone _ _ (by decide) t (t + 1) (by omega))
      (by decide)).1⟩

set_option exponentiation.threshold 2000 in
set_option maxRecDepth 100000 in
/-- C4 fails in binary64: the weights `7/16, 1/8, 7/16 - 2^-52, 2^-54, 2^-54,
2^-54, 2^-54` are values of `double`, non-negative, and sum to 1 as real
numbers, `N = 2`, and the
offset `r = 1/2 - 2^-53` lies in `[0, 1/N)`.  The second target `1 - 2^-53` is
above the running sum, which stays at `1 - 2^-52`; the walk runs past the last
sample, restarts, and both outputs are copies of source index 1, whose
`N * w_1` is `1/4`: the count 2 differs from it by more than 1. -/
theorem downsizingSampling_proportional_counterexample :
    (∀ s ∈ demoSkewSet, Double.Representable s.weight) ∧ Double.Representable demoSkewOffset ∧
    (∀ s ∈ demoSkewSet, 0 ≤ s.weight) ∧
    (demoSkewSet.map (fun s => s.weight)).sum = Double.ofBits 1 0 ∧
    binary64.div (binary64.ofNat 1) (binary64.ofNat 2) = Double.ofBits 1 (-1) ∧
    0 ≤ demoSkewOffset ∧ demoSkewOffset < Double.ofBits 1 (-1) ∧
    downsizingTraceA binary64 demoSkewSet 2 demoSkewOffset 14 =
      (some [1, 1], [0, 1, 1, 2, 3, 4, 5, 6, 0, 1, 1]) ∧
    downsizingSamplingFromA binary64 demoSkewSet demoSkewSet 2 demoSkewOffset 14 =
      some [⟨⟨Double.ofBits 1 0, 0, 0⟩, Double.ofBits 1 (-1), 0⟩,
        ⟨⟨Double.ofBits 1 0, 0, 0⟩, Double.ofBits 1 (-1), 0⟩] ∧
    ([1, 1] : List Nat).count 1 = 2 ∧
    2 * (sampleAtA binary64 demoSkewSet 1).weight = Double.ofBits 1 (-2) := by
  refine ⟨by decide, by decide, by decide, by decide, by decide, by decide, by decide,
    by decide, by decide, by decide, by decide⟩

/-! ## The per-beam probability in a given arithmetic -/

theorem pzOfDistA_exact (exp : K → K) (z_hit z_rand sigma_hit range_max z : K) :
    pzOfDistA (exactArith K) exp z_hit z_rand sigma_hit range_max z =
      pzOfDist exp z_hit z_rand sigma_hit range_max z := by
  simp [pzOfDistA, pzOfDist, exactArith]

theorem beamDistA_exact (m : LibM K) (self : AMCLLaser K) (pose : pf_vector_t K)
    (obs_range obs_bearing : K) :
    beamDistA (exactArith K) m self pose obs_range obs_bearing =
      beamDist m self pose obs_range obs_bearing := rfl

theorem beamPzA_exact (m : LibM K) (self : AMCLLaser K) (ldata : AMCLLaserData K)
    (pose : pf_vector_t K) (obs_range obs_bearing : K) :
    beamPzA (exactArith K) m self ldata pose obs_range obs_bearing =
      beamPz m self ldata pose obs_range obs_bearing := by
  simp only [beamPzA, beamPz, pzOfDistA_exact, beamDistA_exact]

/-- In a monotone arithmetic: if `exp` returns a value `e` in `[0, 1]`, the
parameters are non-negative, `range_max` is positive and the value of `pz` for
`e = 1` is at most 1, then `pz` lies in `[0, 1]`. -/
theorem pzOfDistA_bounds {F : Type} [LinearOrder F] (A : Arith F) (hA : A.Monotone)
    (exp : F → F) (z_hit z_rand sigma_hit range_max z : F)
    (he : A.ofNat 0 ≤ exp (A.div (A.neg (A.mul z z)) (A.mul (A.mul (A.ofNat 2) sigma_hit) sigma_hit)) ∧
      exp (A.div (A.neg (A.mul z z)) (A.mul (A.mul (A.ofNat 2) sigma_hit) sigma_hit)) ≤ A.ofNat 1)
    (hh : A.ofNat 0 ≤ z_hit) (hr : A.ofNat 0 ≤ z_rand) (hm : A.ofNat 0 < range_max)
    (hsum : pzBoundA A z_hit z_rand range_max ≤ A.ofNat 1) :
    A.ofNat 0 ≤ pzOfDistA A exp z_hit z_rand sigma_hit range_max z ∧
      pzOfDistA A exp z_hit z_rand sigma_hit range_max z ≤ A.ofNat 1 := by
  simp only [pzOfDistA]
  constructor
  · apply hA.add_nonneg
    · exact hA.add_nonneg _ _ (le_refl _) (hA.mul_nonneg _ _ hh he.1)
    · exact hA.mul_nonneg _ _ hr (hA.div_nonneg _ _ (hA.ofNat_le 0 1 (by omega)) hm)
  · refine le_trans ?_ hsum
    simp only [pzBoundA]
    apply hA.add_le_add_right
    apply hA.add_le_add_left
    exact hA.mul_le_mul_left _ _ _ hh he.2

/-- C7 (amended): in any arithmetic of `double` whose operations are monotone
(rounding to nearest is): if `exp` returns a value in `[0, 1]` at the arguments
`-(d*d)/z_hit_denom` it is called with, `z_hit ≥ 0`, `z_rand ≥ 0`,
`range_max > 0`, and `z_hit * 1 + z_rand * (1/range_max)`, evaluated as the
code evaluates `pz`, is at most 1, then the per-beam probability `pz` lies in
`[0, 1]` for every distance `d`, and so does the `pz` of every beam evaluated
by `UpdateParticle` and `UpdateLaser`: both assertions hold.  In exact real
arithmetic with the real exponential the conditions `sigma_hit ≠ 0`,
`z_hit ≥ 0`, `z_rand ≥ 0`, `range_max > 0` and
`z_hit + z_rand * (1/range_max) ≤ 1` are enough. -/
theorem beamPz_in_unit_interval {F : Type} [LinearOrder F] (A : Arith F) (hA : A.Monotone)
    (m : LibM F) (self : AMCLLaser F) (ldata : AMCLLaserData F)
    (hexp : ∀ d : F,
      A.ofNat 0 ≤ m.exp (A.div (A.neg (A.mul d d))
        (A.mul (A.mul (A.ofNat 2) self.sigma_hit) self.sigma_hit)) ∧
      m.exp (A.div (A.neg (A.mul d d))
        (A.mul (A.mul (A.ofNat 2) self.sigma_hit) self.sigma_hit)) ≤ A.ofNat 1)
    (hh : A.ofNat 0 ≤ self.z_hit) (hr : A.ofNat 0 ≤ self.z_rand)
    (hm : A.ofNat 0 < ldata.range_max)
    (hsum : pzBoundA A self.z_hit self.z_rand ldata.range_max ≤ A.ofNat 1) :
    (∀ d : F,
      A.ofNat 0 ≤ pzOfDistA A m.exp self.z_hit self.z_rand self.sigma_hit ldata.range_max d ∧
      pzOfDistA A m.exp self.z_hit self.z_rand self.sigma_hit ldata.range_max d ≤ A.ofNat 1) ∧
    (∀ (pose : pf_vector_t F) (obs_range obs_bearing : F),
      A.ofNat 0 ≤ beamPzA A m self ldata pose obs_range obs_bearing ∧
      beamPzA A m self ldata pose obs_range obs_bearing ≤ A.ofNat 1) ∧
    (∀ (mR : LibM ℝ) (selfR : AMCLLaser ℝ) (ldataR : AMCLLaserData ℝ), mR.exp = Real.exp →
      selfR.sigma_hit ≠ 0 → 0 ≤ selfR.z_hit → 0 ≤ selfR.z_rand → 0 < ldataR.range_max →
      selfR.z_hit + selfR.z_rand * (1 / ldataR.range_max) ≤ 1 →
      (∀ d : ℝ, 0 ≤ d →
        0 ≤ pzOfDistA (exactArith ℝ) mR.exp selfR.z_hit selfR.z_rand selfR.sigma_hit
          ldataR.range_max d ∧
        pzOfDistA (exactArith ℝ) mR.exp selfR.z_hit selfR.z_rand selfR.sigma_hit
          ldataR.range_max d ≤ 1) ∧
      ∀ (pose : pf_vector_t ℝ) (obs_range obs_bearing : ℝ),
        0 ≤ beamPzA (exactArith ℝ) mR selfR ldataR pose obs_range obs_bearing ∧
        beamPzA (exactArith ℝ) mR selfR ldataR pose obs_range obs_bearing ≤ 1) := by
  refine ⟨fun d => pzOfDistA_bounds A hA _ _ _ _ _ _ (hexp d) hh hr hm hsum,
    fun pose obs_range obs_bearing => pzOfDistA_bounds A hA _ _ _ _ _ _ (hexp _) hh hr hm hsum,
    ?_⟩
  intro mR selfR ldataR hR _ hh1 hr1 hm1 hsum1
  constructor
  · intro d _
    rw [pzOfDistA_exact, hR]
    exact pzOfDist_bounds _ _ _ _ _ hh1 hr1 hm1 hsum1
  · intro pose obs_range obs_bearing
    rw [beamPzA_exact]
    simp only [beamPz]
    rw [hR]
    exact pzOfDist_bounds _ _ _ _ _ hh1 hr1 hm1 hsum1

set_option exponentiation.threshold 2000 in
set_option maxRecDepth 100000 in
theorem demoLibD_exp_bounds (x : Double) :
    binary64.ofNat 0 ≤ demoLibD.exp x ∧ demoLibD.exp x ≤ binary64.ofNat 1 := by
  have h1 : binary64.ofNat 0 ≤ Double.ofBits 1 0 ∧ Double.ofBits 1 0 ≤ binary64.ofNat 1 := by
    decide
  have h2 : binary64.ofNat 0 ≤ Double.ofBits 1 (-1) ∧
      Double.ofBits 1 (-1) ≤ binary64.ofNat 1 := by
    decide
  simp only [demoLibD]
  split_ifs
  · exact h1
  · exact h2

set_option exponentiation.threshold 2000 in
set_option maxRecDepth 100000 in
/-- C7 (amended) in binary64 at the laser model with `z_hit = z_rand = 1/2` and
`range_max = 1`: the value of `pz` for `exp = 1` is `1.0`, and the beam of
range `0.5` has `pz = 1.0`. -/
theorem beamPz_in_unit_interval_witness :
    binary64.ofNat 0 ≤ demoHalfLaserD.z_hit ∧ binary64.ofNat 0 ≤ demoHalfLaserD.z_rand ∧
    binary64.ofNat 0 < demoHalfScanD.range_max ∧
    pzBoundA binary64 demoHalfLaserD.z_hit demoHalfLaserD.z_rand demoHalfScanD.range_max ≤
      binary64.ofNat 1 ∧
    beamPzA binary64 demoLibD demoHalfLaserD demoHalfScanD ⟨0, 0, 0⟩ (Double.ofBits 1 (-1)) 0 =
      Double.ofBits 1 0 ∧
    binary64.ofNat 0 ≤
      beamPzA binary64 demoLibD demoHalfLaserD demoHalfScanD ⟨0, 0, 0⟩ (Double.ofBits 1 (-1)) 0 ∧
    beamPzA binary64 demoLibD demoHalfLaserD demoHalfScanD ⟨0, 0, 0⟩ (Double.ofBits 1 (-1)) 0 ≤
      binary64.ofNat 1 :=
  ⟨by decide, by decide, by decide, by decide, by decide,
    (beamPz_in_unit_interval binary64 binary64_monotone demoLibD demoHalfLaserD demoHalfScanD
      (fun _ => demoLibD_exp_bounds _) (by decide) (by decide) (by decide) (by decide)).2.1
      ⟨0, 0, 0⟩ (Double.ofBits 1 (-1)) 0⟩

set_option exponentiation.threshold 2000 in
set_option maxRecDepth 100000 in
/-- C7 fails in binary64: for `sigma_hit = 1`, `z_hit = 0x1.2222222222222p-6`,
`z_rand = 73.671875` and `range_max = 75`, all values of `double`, the
parameters are non-negative and, as real numbers,
`z_hit + z_rand / range_max ≤ 1` (stated in the integers that hold the values,
multiplied by `range_max`); yet for the distance `d = 0`, where `exp` returns
`1.0`, the code computes `pz = 1 + 2^-52`, and `assert(pz <= 1.0)` fails. -/
theorem beamPz_exceeds_one_counterexample :
    Double.Representable demoLaserD.sigma_hit ∧ Double.Representable demoLaserD.z_hit ∧
    Double.Representable demoLaserD.z_rand ∧ Double.Representable demoScanD.range_max ∧
    demoLaserD.sigma_hit ≠ 0 ∧ 0 ≤ demoLaserD.z_hit ∧ 0 ≤ demoLaserD.z_rand ∧
    0 < demoScanD.range_max ∧
    demoLaserD.z_hit * demoScanD.range_max + demoLaserD.z_rand * (Double.scale : Int) ≤
      demoScanD.range_max * (Double.scale : Int) ∧
    ∀ m : LibM Double, m.exp 0 = Double.ofBits 1 0 →
      pzOfDistA binary64 m.exp demoLaserD.z_hit demoLaserD.z_rand demoLaserD.sigma_hit
        demoScanD.range_max 0 = Double.ofBits (2 ^ 52 + 1) (-52) ∧
      beamPzA binary64 m demoLaserD demoScanD ⟨0, 0, 0⟩ (Double.ofBits 1 0) 0 =
        Double.ofBits (2 ^ 52 + 1) (-52) ∧
      ¬ (beamPzA binary64 m demoLaserD demoScanD ⟨0, 0, 0⟩ (Double.ofBits 1 0) 0 ≤
        binary64.ofNat 1) := by
  refine ⟨by decide, by decide, by decide, by decide, by decide, by decide, by decide,
    by decide, by decide, ?_⟩
  intro m hm
  have harg : binary64.div (binary64.neg (binary64.mul 0 0))
      (binary64.mul (binary64.mul (binary64.ofNat 2) demoLaserD.sigma_hit)
        demoLaserD.sigma_hit) = 0 := by decide
  have hval : binary64.add (binary64.add (binary64.ofNat 0)
      (binary64.mul demoLaserD.z_hit (Double.ofBits 1 0)))
      (binary64.mul demoLaserD.z_rand (binary64.div (binary64.ofNat 1) demoScanD.range_max)) =
      Double.ofBits (2 ^ 52 + 1) (-52) := by decide
  have hpz : pzOfDistA binary64 m.exp demoLaserD.z_hit demoLaserD.z_rand demoLaserD.sigma_hit
      demoScanD.range_max 0 = Double.ofBits (2 ^ 52 + 1) (-52) := by
    simp only [pzOfDistA]
    rw [harg, hm]
    exact hval
  have hbeam : beamPzA binary64 m demoLaserD demoScanD ⟨0, 0, 0⟩ (Double.ofBits 1 0) 0 =
      Double.ofBits (2 ^ 52 + 1) (-52) := hpz
  refine ⟨hpz, hbeam, ?_⟩
  rw [hbeam]
  decide

/-! ## The sensor update in a given arithmetic -/

theorem sumFromA_append {F : Type} (A : Arith F) (t : F) (l₁ l₂ : List (pf_sample_t F)) :
    sumFromA A t (l₁ ++ l₂) = sumFromA A (sumFromA A t l₁) l₂ := by
  simp [sumFromA, List.foldl_append]

theorem sumFromA_exact (t : K) (l : List (pf_sample_t K)) :
    sumFromA (exactArith K) t l = t + totalWeight l := by
  induction l generalizing t with
  | nil => simp [sumFromA, totalWeight]
  | cons s rest ih =>
    have h : sumFromA (exactArith K) t (s :: rest) =
        sumFromA (exactArith K) (t + s.weight) rest := rfl
    rw [h, ih, totalWeight_cons, add_assoc]

/-- The sample loop of `UpdateLaserA` applies the body of `UpdateParticleA` to
every sample and adds the new weights to the running total, in order. -/
theorem UpdateLaserLoopA_eq {F : Type} [LinearOrder F] (A : Arith F) (m : LibM F)
    (self : AMCLLaser F) (ldata : AMCLLaserData F) (samples : List (pf_sample_t F)) (t : F) :
    UpdateLaserLoopA A m self ldata samples t =
      (sumFromA A t (samples.map (UpdateParticleA A m self ldata)),
        samples.map (UpdateParticleA A m self ldata)) := by
  induction samples generalizing t with
  | nil => rfl
  | cons s rest ih =>
    simp only [UpdateLaserLoopA, ih, List.map_cons]
    rfl

/-- A worker started at `sidx = pre.length` updates the next `n` samples and
adds their new weights to the running total, in order. -/
theorem laserWorkerA_eq {F : Type} [LinearOrder F] (A : Arith F) (m : LibM F)
    (self : AMCLLaser F) (ldata : AMCLLaserData F)
    (n : Nat) (pre rest : List (pf_sample_t F)) (t : F) (hn : n ≤ rest.length) :
    laserWorkerA A m self ldata n pre.length (t, pre ++ rest) =
      (sumFromA A t ((rest.take n).map (UpdateParticleA A m self ldata)),
        pre ++ (rest.take n).map (UpdateParticleA A m self ldata) ++ rest.drop n) := by
  induction n generalizing pre rest t with
  | zero => simp [laserWorkerA, sumFromA]
  | succ n ih =>
    cases rest with
    | nil => simp at hn
    | cons s rest =>
      have hn1 : n ≤ rest.length := by simpa using hn
      have hget : (pre ++ s :: rest)[pre.length]? = some s := by
        rw [List.getElem?_append_right (le_refl _)]; simp
      have hset : (pre ++ s :: rest).set pre.length (UpdateParticleA A m self ldata s) =
          (pre ++ [UpdateParticleA A m self ldata s]) ++ rest := by
        simp [List.set_append]
      have hlen : pre.length + 1 = (pre ++ [UpdateParticleA A m self ldata s]).length := by simp
      simp only [laserWorkerA, hget, hset]
      rw [hlen, ih _ _ _ hn1]
      simp [sumFromA]

/-- The state of `UpdateLaserParallelA` once the samples `[0, p)` are done. -/
theorem laserWorkerA_done {F : Type} [LinearOrder F] (A : Arith F) (m : LibM F)
    (self : AMCLLaser F) (ldata : AMCLLaserData F)
    (samples : List (pf_sample_t F)) (p n : Nat) (hpn : p + n ≤ samples.length) :
    laserWorkerA A m self ldata n p
        (sumFromA A (A.ofNat 0) ((samples.take p).map (UpdateParticleA A m self ldata)),
          (samples.take p).map (UpdateParticleA A m self ldata) ++ samples.drop p) =
      (sumFromA A (A.ofNat 0) ((samples.take (p + n)).map (UpdateParticleA A m self ldata)),
        (samples.take (p + n)).map (UpdateParticleA A m self ldata) ++
          samples.drop (p + n)) := by
  have hp : ((samples.take p).map (UpdateParticleA A m self ldata)).length = p := by
    simp; omega
  have hn : n ≤ (samples.drop p).length := by simp; omega
  have h := laserWorkerA_eq A m self ldata n
    ((samples.take p).map (UpdateParticleA A m self ldata)) (samples.drop p)
    (sumFromA A (A.ofNat 0) ((samples.take p).map (UpdateParticleA A m self ldata))) hn
  rw [hp] at h
  have ht : samples.take p ++ (samples.drop p).take n = samples.take (p + n) := by
    rw [List.take_add]
  rw [h, ← sumFromA_append, ← List.map_append, ht, List.drop_drop]

/-- Folding the workers over the ranges produced by `spawnRanges` advances the
done prefix by `k * grainsize`. -/
theorem spawnRanges_foldA {F : Type} [LinearOrder F] (A : Arith F) (m : LibM F)
    (self : AMCLLaser F) (ldata : AMCLLaserData F)
    (samples : List (pf_sample_t F)) (g k p : Nat) (h : p + k * g ≤ samples.length) :
    (spawnRanges g k p).2 = p + k * g ∧
    (spawnRanges g k p).1.foldl (fun st r => laserWorkerA A m self ldata (r.2 - r.1) r.1 st)
        (sumFromA A (A.ofNat 0) ((samples.take p).map (UpdateParticleA A m self ldata)),
          (samples.take p).map (UpdateParticleA A m self ldata) ++ samples.drop p) =
      (sumFromA A (A.ofNat 0)
          ((samples.take (p + k * g)).map (UpdateParticleA A m self ldata)),
        (samples.take (p + k * g)).map (UpdateParticleA A m self ldata) ++
          samples.drop (p + k * g)) := by
  induction k generalizing p with
  | zero => simp [spawnRanges]
  | succ k ih =>
    have h1 : p + g + k * g ≤ samples.length := by
      have : (k + 1) * g = g + k * g := by ring
      omega
    have hk : p + (k + 1) * g = p + g + k * g := by ring
    obtain ⟨ih1, ih2⟩ := ih (p + g) h1
    refine ⟨by simp [spawnRanges, ih1, hk], ?_⟩
    simp only [spawnRanges, List.foldl_cons, Nat.add_sub_cancel_left]
    rw [laserWorkerA_done A m self ldata samples p g (by omega), ih2, hk]

theorem UpdateLaserParallelA_eq {F : Type} [LinearOrder F] (A : Arith F) (m : LibM F)
    (self : AMCLLaser F) (ldata : AMCLLaserData F)
    (nb_threads_hint : Nat) (samples : List (pf_sample_t F)) :
    UpdateLaserParallelA A m self ldata nb_threads_hint samples =
      (sumFromA A (A.ofNat 0) (samples.map (UpdateParticleA A m self ldata)),
        samples.map (UpdateParticleA A m self ldata)) := by
  have hle : 0 + (nbThreads nb_threads_hint - 1) * (samples.length / nbThreads nb_threads_hint)
      ≤ samples.length := by
    have h1 : (nbThreads nb_threads_hint - 1) * (samples.length / nbThreads nb_threads_hint)
        ≤ nbThreads nb_threads_hint * (samples.length / nbThreads nb_threads_hint) :=
      Nat.mul_le_mul_right _ (Nat.sub_le _ _)
    have h2 := Nat.mul_div_le samples.length (nbThreads nb_threads_hint)
    omega
  obtain ⟨h1, h2⟩ := spawnRanges_foldA A m self ldata samples
    (samples.length / nbThreads nb_threads_hint) (nbThreads nb_threads_hint - 1) 0 hle
  have h0 : (A.ofNat 0, samples) =
      (sumFromA A (A.ofNat 0) ((samples.take 0).map (UpdateParticleA A m self ldata)),
        (samples.take 0).map (UpdateParticleA A m self ldata) ++ samples.drop 0) := by
    simp [sumFromA]
  simp only [UpdateLaserParallelA, workerRanges, List.foldl_append, List.foldl_cons,
    List.foldl_nil]
  rw [h0, h2, h1]
  have h3 := laserWorkerA_done A m self ldata samples
    (0 + (nbThreads nb_threads_hint - 1) * (samples.length / nbThreads nb_threads_hint))
    (samples.length -
      (0 + (nbThreads nb_threads_hint - 1) * (samples.length / nbThreads nb_threads_hint)))
    (by omega)
  rw [h3]
  have h4 : 0 + (nbThreads nb_threads_hint - 1) * (samples.length / nbThreads nb_threads_hint) +
      (samples.length -
        (0 + (nbThreads nb_threads_hint - 1) * (samples.length / nbThreads nb_threads_hint)))
      = samples.length := by omega
  rw [h4]
  simp

theorem beamBodyA_exact (m : LibM K) (self : AMCLLaser K) (ldata : AMCLLaserData K)
    (pose : pf_vector_t K) (logWeight : K) (i : Nat) :
    beamBodyA (exactArith K) m self ldata pose logWeight i =
      beamBody m self ldata pose logWeight i := by
  have h0 : (exactArith K).ofNat 0 = (0 : K) := by simp [exactArith]
  simp only [beamBodyA, beamBody, beamPzA_exact, h0]
  rcases ldata.ranges.getD i (none, 0) with ⟨_ | obs_range, obs_bearing⟩
  · rfl
  · rfl

theorem UpdateParticleA_exact (m : LibM K) (self : AMCLLaser K) (ldata : AMCLLaserData K)
    (sample : pf_sample_t K) :
    UpdateParticleA (exactArith K) m self ldata sample = UpdateParticle m self ldata sample := by
  have h : sampleLogWeightA (exactArith K) m self ldata sample =
      sampleLogWeight m self ldata sample := by
    simp only [sampleLogWeightA, sampleLogWeight]
    have hb : beamBodyA (exactArith K) m self ldata
        (self.coord_add self.laser_pose sample.pose) =
        beamBody m self ldata (self.coord_add self.laser_pose sample.pose) := by
      funext lw i
      exact beamBodyA_exact m self ldata _ lw i
    rw [hb]
    simp [exactArith]
  simp only [UpdateParticleA, UpdateParticle, h]
  rfl

theorem UpdateParticleA_exact_fun (m : LibM K) (self : AMCLLaser K) (ldata : AMCLLaserData K) :
    UpdateParticleA (exactArith K) m self ldata = UpdateParticle m self ldata :=
  funext (UpdateParticleA_exact m self ldata)

/-- Whatever the order in which the iterations take the mutex, as long as every
index occurs at most once: the samples whose index occurs are replaced by the
result of `UpdateParticleA`, the others are left as they were, and the total
receives the new weights in that order. -/
theorem laserScheduleA_spec {F : Type} [LinearOrder F] (A : Arith F) (m : LibM F)
    (self : AMCLLaser F) (ldata : AMCLLaserData F) (order : List Nat) :
    ∀ (t : F) (samples : List (pf_sample_t F)), order.Nodup →
      (∀ i ∈ order, i < samples.length) →
      (laserScheduleA A m self ldata order (t, samples)).1 =
        order.foldl (fun tot i =>
          A.add tot (UpdateParticleA A m self ldata (sampleAtA A samples i)).weight) t ∧
      (laserScheduleA A m self ldata order (t, samples)).2.length = samples.length ∧
      ∀ i, i < samples.length →
        sampleAtA A (laserScheduleA A m self ldata order (t, samples)).2 i =
          if i ∈ order then UpdateParticleA A m self ldata (sampleAtA A samples i)
          else sampleAtA A samples i := by
  induction order with
  | nil =>
    intro t samples _ _
    exact ⟨rfl, rfl, fun i _ => by simp [laserScheduleA]⟩
  | cons sidx rest ih =>
    intro t samples hnd hlt
    have hs : sidx < samples.length := hlt sidx (List.mem_cons_self _ _)
    have hnotin : sidx ∉ rest := (List.nodup_cons.mp hnd).1
    have hget : samples[sidx]? = some samples[sidx] := List.getElem?_eq_getElem hs
    have hat : sampleAtA A samples sidx = samples[sidx] := by
      simp [sampleAtA, List.getD, hget]
    obtain ⟨ih1, ih2, ih3⟩ := ih
      (A.add t (UpdateParticleA A m self ldata samples[sidx]).weight)
      (samples.set sidx (UpdateParticleA A m self ldata samples[sidx]))
      (List.nodup_cons.mp hnd).2
      (fun i hi => by rw [List.length_set]; exact hlt i (List.mem_cons_of_mem _ hi))
    have hother : ∀ i, i ≠ sidx →
        sampleAtA A (samples.set sidx (UpdateParticleA A m self ldata samples[sidx])) i =
          sampleAtA A samples i := by
      intro i hne
      simp [sampleAtA, List.getD, List.getElem?_set_ne (Ne.symm hne)]
    simp only [laserScheduleA, hget]
    refine ⟨?_, by rw [ih2, List.length_set], ?_⟩
    · rw [ih1, List.foldl_cons, hat]
      apply List.foldl_ext
      intro tot i hi
      rw [hother i (fun h => hnotin (h ▸ hi))]
    · intro i hi
      rw [ih3 i (by rw [List.length_set]; exact hi)]
      by_cases hie : i = sidx
      · subst hie
        have : sampleAtA A (samples.set i (UpdateParticleA A m self ldata samples[i])) i =
            UpdateParticleA A m self ldata samples[i] := by
          simp [sampleAtA, List.getD, List.getElem?_set_self, hs]
        simp [hnotin, this, hat]
      · rw [hother i hie]
        simp [hie]

theorem sampleAtA_of_lt {F : Type} (A : Arith F) (set : List (pf_sample_t F)) (i : Nat)
    (h : i < set.length) : sampleAtA A set i = set[i] := by
  simp [sampleAtA, List.getElem?_eq_getElem h]

theorem map_sampleAtA_range {F : Type} (A : Arith F) (l : List (pf_sample_t F)) :
    (List.range l.length).map (sampleAtA A l) = l := by
  apply List.ext_getElem
  · simp
  · intro i h1 h2
    simp only [List.getElem_map, List.getElem_range]
    exact sampleAtA_of_lt A l i h2

/-- When every sample index takes the mutex once, in whatever order, every
sample is replaced by the result of `UpdateParticleA` and the total receives
the new weights in that order. -/
theorem laserScheduleA_perm {F : Type} [LinearOrder F] (A : Arith F) (m : LibM F)
    (self : AMCLLaser F) (ldata : AMCLLaserData F) (samples : List (pf_sample_t F))
    (order : List Nat) (hperm : order.Perm (List.range samples.length)) :
    (laserScheduleA A m self ldata order (A.ofNat 0, samples)).2 =
      samples.map (UpdateParticleA A m self ldata) ∧
    (laserScheduleA A m self ldata order (A.ofNat 0, samples)).1 =
      order.foldl (fun tot i =>
        A.add tot (UpdateParticleA A m self ldata (sampleAtA A samples i)).weight) (A.ofNat 0) := by
  have hnd : order.Nodup := hperm.nodup_iff.mpr (List.nodup_range _)
  have hlt : ∀ i ∈ order, i < samples.length := fun i hi =>
    List.mem_range.mp (hperm.mem_iff.mp hi)
  obtain ⟨h1, h2, h3⟩ := laserScheduleA_spec A m self ldata order (A.ofNat 0) samples hnd hlt
  refine ⟨?_, h1⟩
  apply List.ext_getElem
  · rw [h2, List.length_map]
  · intro i hi1 hi2
    have hi : i < samples.length := by rw [← h2]; exact hi1
    have hmem : i ∈ order := hperm.mem_iff.mpr (List.mem_range.mpr hi)
    have := h3 i hi
    rw [sampleAtA_of_lt A _ i hi1, if_pos hmem, sampleAtA_of_lt A _ i hi] at this
    rw [this, List.getElem_map]

/-- The run of `UpdateLaserParallelA`, in thread order, is the schedule in which
the sample indices take the mutex in increasing order. -/
theorem UpdateLaserParallelA_schedule {F : Type} [LinearOrder F] (A : Arith F) (m : LibM F)
    (self : AMCLLaser F) (ldata : AMCLLaserData F) (nb_threads_hint : Nat)
    (samples : List (pf_sample_t F)) :
    UpdateLaserParallelA A m self ldata nb_threads_hint samples =
      laserScheduleA A m self ldata (List.range samples.length) (A.ofNat 0, samples) := by
  obtain ⟨h1, h2⟩ := laserScheduleA_perm A m self ldata samples (List.range samples.length)
    (List.Perm.refl _)
  rw [UpdateLaserParallelA_eq]
  apply Prod.ext
  · rw [h2]
    simp only [sumFromA]
    conv_lhs => rw [← map_sampleAtA_range A samples]
    rw [List.map_map, List.foldl_map]
    rfl
  · rw [h1]

/-- In exact arithmetic the total does not depend on the order in which the
sample indices take the mutex. -/
theorem laserScheduleA_exact_total (m : LibM K) (self : AMCLLaser K) (ldata : AMCLLaserData K)
    (samples : List (pf_sample_t K)) (order : List Nat)
    (hperm : order.Perm (List.range samples.length)) :
    (laserScheduleA (exactArith K) m self ldata order ((exactArith K).ofNat 0, samples)).1 =
      totalWeight (samples.map (UpdateParticle m self ldata)) := by
  rw [(laserScheduleA_perm (exactArith K) m self ldata samples order hperm).2]
  have h0 : (exactArith K).ofNat 0 = (0 : K) := by simp [exactArith]
  have hf : order.foldl (fun tot i => (exactArith K).add tot
      (UpdateParticleA (exactArith K) m self ldata (sampleAtA (exactArith K) samples i)).weight)
      ((exactArith K).ofNat 0) =
      (0 : K) + (order.map (fun i =>
        (UpdateParticle m self ldata (sampleAt samples i)).weight)).sum := by
    rw [h0, ← foldl_add_eq]
    apply List.foldl_ext
    intro tot i _
    rw [UpdateParticleA_exact, sampleAtA_exact]
    rfl
  rw [hf, zero_add, (hperm.map _).sum_eq]
  simp only [totalWeight]
  conv_rhs => rw [← map_sampleAt_range samples]
  simp only [List.map_map]
  rfl

/-- C1 (amended): in any arithmetic of `double`, `UpdateLaser` replaces every
sample of the current set by the result of `UpdateParticle` and returns the
running total obtained by adding the updated weights to `0.0` one by one, in
the order of the sample index.  `UpdateLaserParallel` does the same, with the
additions made in the order in which the iterations of its workers take the
mutex, whatever that order is; run in thread order, it adds in the order of the
sample index.  In exact arithmetic the returned value is, in every such order,
the sum of the weights the current set holds after the call, and when it is
non-zero, dividing every weight by it leaves weights that sum to exactly 1. -/
theorem UpdateLaser_returns_total {F : Type} [LinearOrder F] (A : Arith F) (m : LibM F)
    (self : AMCLLaser F) (ldata : AMCLLaserData F) (nb_threads_hint : Nat)
    (samples : List (pf_sample_t F)) :
    ((UpdateLaserA A m self ldata samples).2 = samples.map (UpdateParticleA A m self ldata) ∧
      (UpdateLaserA A m self ldata samples).1 =
        sumFromA A (A.ofNat 0) (UpdateLaserA A m self ldata samples).2) ∧
    (∀ order : List Nat, order.Perm (List.range samples.length) →
      (laserScheduleA A m self ldata order (A.ofNat 0, samples)).2 =
        samples.map (UpdateParticleA A m self ldata) ∧
      (laserScheduleA A m self ldata order (A.ofNat 0, samples)).1 =
        order.foldl (fun tot i =>
          A.add tot (UpdateParticleA A m self ldata (sampleAtA A samples i)).weight)
          (A.ofNat 0)) ∧
    (UpdateLaserParallelA A m self ldata nb_threads_hint samples =
        laserScheduleA A m self ldata (List.range samples.length) (A.ofNat 0, samples) ∧
      (UpdateLaserParallelA A m self ldata nb_threads_hint samples).2 =
        samples.map (UpdateParticleA A m self ldata) ∧
      (UpdateLaserParallelA A m self ldata nb_threads_hint samples).1 =
        sumFromA A (A.ofNat 0) (UpdateLaserParallelA A m self ldata nb_threads_hint samples).2) ∧
    (∀ (mK : LibM K) (selfK : AMCLLaser K) (ldataK : AMCLLaserData K) (hintK : Nat)
        (samplesK : List (pf_sample_t K)),
      UpdateLaserA (exactArith K) mK selfK ldataK samplesK =
        UpdateLaser mK selfK ldataK samplesK ∧
      UpdateLaserParallelA (exactArith K) mK selfK ldataK hintK samplesK =
        UpdateLaserParallel mK selfK ldataK hintK samplesK ∧
      (UpdateLaser mK selfK ldataK samplesK).2 = samplesK.map (UpdateParticle mK selfK ldataK) ∧
      (UpdateLaserParallel mK selfK ldataK hintK samplesK).2 =
        samplesK.map (UpdateParticle mK selfK ldataK) ∧
      (UpdateLaser mK selfK ldataK samplesK).1 =
        totalWeight (UpdateLaser mK selfK ldataK samplesK).2 ∧
      (UpdateLaserParallel mK selfK ldataK hintK samplesK).1 =
        totalWeight (UpdateLaserParallel mK selfK ldataK hintK samplesK).2 ∧
      (∀ order : List Nat, order.Perm (List.range samplesK.length) →
        (laserScheduleA (exactArith K) mK selfK ldataK order
          ((exactArith K).ofNat 0, samplesK)).1 =
            totalWeight (UpdateLaserParallel mK selfK ldataK hintK samplesK).2) ∧
      ((UpdateLaser mK selfK ldataK samplesK).1 ≠ 0 →
        totalWeight (pf_normalize_set (UpdateLaser mK selfK ldataK samplesK).2
          (UpdateLaser mK selfK ldataK samplesK).1) = 1) ∧
      ((UpdateLaserParallel mK selfK ldataK hintK samplesK).1 ≠ 0 →
        totalWeight (pf_normalize_set (UpdateLaserParallel mK selfK ldataK hintK samplesK).2
          (UpdateLaserParallel mK selfK ldataK hintK samplesK).1) = 1)) := by
  refine ⟨?_, ?_, ⟨?_, ?_⟩, ?_⟩
  · simp only [UpdateLaserA, UpdateLaserLoopA_eq, and_self]
  · intro order hperm
    exact laserScheduleA_perm A m self ldata samples order hperm
  · exact UpdateLaserParallelA_schedule A m self ldata nb_threads_hint samples
  · simp only [UpdateLaserParallelA_eq, and_self]
  · intro mK selfK ldataK hintK samplesK
    have h0 : (exactArith K).ofNat 0 = (0 : K) := by simp [exactArith]
    refine ⟨?_, ?_, ?_, ?_, ?_, ?_, ?_, ?_, ?_⟩
    · rw [UpdateLaserA, UpdateLaserLoopA_eq, UpdateLaser_eq, sumFromA_exact,
        UpdateParticleA_exact_fun, h0, zero_add]
    · rw [UpdateLaserParallelA_eq, UpdateLaserParallel_eq, sumFromA_exact,
        UpdateParticleA_exact_fun, h0, zero_add]
    · rw [UpdateLaser_eq]
    · rw [UpdateLaserParallel_eq]
    · rw [UpdateLaser_eq]
    · rw [UpdateLaserParallel_eq]
    · intro order hperm
      rw [UpdateLaserParallel_eq]
      exact laserScheduleA_exact_total mK selfK ldataK samplesK order hperm
    · intro hne
      rw [totalWeight_pf_normalize_set]
      rw [UpdateLaser_eq] at hne ⊢
      exact div_self hne
    · intro hne
      rw [totalWeight_pf_normalize_set]
      rw [UpdateLaserParallel_eq] at hne ⊢
      exact div_self hne

set_option exponentiation.threshold 2000 in
set_option maxRecDepth 100000 in
/-- C1 (amended) in binary64 with two workers, on two samples of weights `1/4`
and `3/4` and a beam of probability `0.75`, for which the stand-in `log` gives
`-1.0` and the stand-in `exp` gives `0.5`: the weights become `1/8` and `3/8`
and the returned total is `1/2`, also when sample 1 takes the mutex before
sample 0. -/
theorem UpdateLaser_returns_total_witness :
    UpdateLaserParallelA binary64 demoLibD demoFarLaserD demoHalfScanD 2 demoSamplesD =
      (Double.ofBits 1 (-1),
        [⟨⟨0, 0, 0⟩, Double.ofBits 1 (-3), -Double.ofBits 1 0⟩,
          ⟨⟨Double.ofBits 1 0, 0, 0⟩, Double.ofBits 3 (-3), -Double.ofBits 1 0⟩]) ∧
    UpdateLaserA binary64 demoLibD demoFarLaserD demoHalfScanD demoSamplesD =
      UpdateLaserParallelA binary64 demoLibD demoFarLaserD demoHalfScanD 2 demoSamplesD ∧
    laserScheduleA binary64 demoLibD demoFarLaserD demoHalfScanD [1, 0]
        (binary64.ofNat 0, demoSamplesD) =
      UpdateLaserParallelA binary64 demoLibD demoFarLaserD demoHalfScanD 2 demoSamplesD ∧
    UpdateLaserParallelA binary64 demoLibD demoFarLaserD demoHalfScanD 2 demoSamplesD =
      laserScheduleA binary64 demoLibD demoFarLaserD demoHalfScanD
        (List.range demoSamplesD.length) (binary64.ofNat 0, demoSamplesD) ∧
    (UpdateLaserParallelA binary64 demoLibD demoFarLaserD demoHalfScanD 2 demoSamplesD).2 =
        demoSamplesD.map (UpdateParticleA binary64 demoLibD demoFarLaserD demoHalfScanD) ∧
    (UpdateLaserParallelA binary64 demoLibD demoFarLaserD demoHalfScanD 2 demoSamplesD).1 =
      sumFromA binary64 (binary64.ofNat 0)
        (UpdateLaserParallelA binary64 demoLibD demoFarLaserD demoHalfScanD 2 demoSamplesD).2 :=
  ⟨by decide, by decide, by decide,
    (UpdateLaser_returns_total (K := ℚ) binary64 demoLibD demoFarLaserD demoHalfScanD 2
      demoSamplesD).2.2.1⟩

set_option exponentiation.threshold 2000 in
set_option maxRecDepth 100000 in
/-- On the laser model `demoHalfLaserD` and the scan `demoHalfScanD`, with a
libm whose `exp(0)` is `1.0` and whose `log(1.0)` is 0: the one evaluated beam
has `pz = 1.0`, and `UpdateParticle` leaves a weight of `1.0` as it is. -/
theorem demoHalf_UpdateParticleA (m : LibM Double) (hexp : m.exp 0 = Double.ofBits 1 0)
    (hlog : m.log (Double.ofBits 1 0) = 0) (p : pf_vector_t Double) (l : Double) :
    (∀ pose, beamPzA binary64 m demoHalfLaserD demoHalfScanD pose (Double.ofBits 1 (-1)) 0 =
      Double.ofBits 1 0) ∧
    UpdateParticleA binary64 m demoHalfLaserD demoHalfScanD ⟨p, Double.ofBits 1 0, l⟩ =
      ⟨p, Double.ofBits 1 0, 0⟩ := by
  have harg : binary64.div (binary64.neg (binary64.mul 0 0))
      (binary64.mul (binary64.mul (binary64.ofNat 2) demoHalfLaserD.sigma_hit)
        demoHalfLaserD.sigma_hit) = 0 := by decide
  have hval : binary64.add (binary64.add (binary64.ofNat 0)
      (binary64.mul demoHalfLaserD.z_hit (Double.ofBits 1 0)))
      (binary64.mul demoHalfLaserD.z_rand
        (binary64.div (binary64.ofNat 1) demoHalfScanD.range_max)) = Double.ofBits 1 0 := by
    decide
  have hpz : ∀ pose, beamPzA binary64 m demoHalfLaserD demoHalfScanD pose
      (Double.ofBits 1 (-1)) 0 = Double.ofBits 1 0 := by
    intro pose
    have hd : beamDistA binary64 m demoHalfLaserD pose (Double.ofBits 1 (-1)) 0 = 0 := rfl
    simp only [beamPzA, hd, pzOfDistA]
    rw [harg, hexp]
    exact hval
  refine ⟨hpz, ?_⟩
  have hidx : beamIndices demoHalfScanD.ranges.length demoHalfLaserD.max_beams = [0, 1] := by
    decide
  have hg0 : demoHalfScanD.ranges.getD 0 (none, binary64.ofNat 0) =
      (some (Double.ofBits 1 (-1)), 0) := rfl
  have hg1 : demoHalfScanD.ranges.getD 1 (none, binary64.ofNat 0) =
      (some (Double.ofBits 1 0), 0) := rfl
  have hif0 : ¬ (Double.ofBits 1 (-1) ≥ demoHalfScanD.range_max) := by decide
  have hif1 : Double.ofBits 1 0 ≥ demoHalfScanD.range_max := by decide
  have hadd : binary64.add (binary64.ofNat 0) 0 = 0 := by decide
  have hmul : binary64.mul (Double.ofBits 1 0) (Double.ofBits 1 0) = Double.ofBits 1 0 := by
    decide
  have hb0 : ∀ pose, beamBodyA binary64 m demoHalfLaserD demoHalfScanD pose
      (binary64.ofNat 0) 0 = 0 := by
    intro pose
    simp only [beamBodyA, hg0, if_neg hif0, hpz, hlog, hadd]
  have hb1 : ∀ pose lw, beamBodyA binary64 m demoHalfLaserD demoHalfScanD pose lw 1 = lw := by
    intro pose lw
    simp only [beamBodyA, hg1, if_pos hif1]
  simp only [UpdateParticleA, sampleLogWeightA, hidx, List.foldl_cons, List.foldl_nil, hb0, hb1,
    hexp, hmul]

set_option exponentiation.threshold 2000 in
set_option maxRecDepth 100000 in
/-- C1 fails in binary64: on ten samples of weight `1.0`, with the libm
`demoLibD` (`exp(0) = 1.0` and `log(1.0) = 0`, as for every libm, see
`demoHalf_UpdateParticleA`), every evaluated beam has the positive probability
`pz = 1.0`, and `UpdateLaser` and `UpdateLaserParallel` return `10.0`, which is
not zero.  Dividing every weight by it leaves ten weights equal to the `double`
nearest to `0.1`; added up as `double`s they give `1 - 2^-53`, and as real
numbers their sum is not 1 either. -/
theorem UpdateLaser_normalized_counterexample :
    (∀ pose,
      0 < beamPzA binary64 demoLibD demoHalfLaserD demoHalfScanD pose (Double.ofBits 1 (-1)) 0) ∧
    UpdateLaserParallelA binary64 demoLibD demoHalfLaserD demoHalfScanD 2 demoTenSamples =
      (Double.ofBits 10 0, demoTenSamples) ∧
    UpdateLaserA binary64 demoLibD demoHalfLaserD demoHalfScanD demoTenSamples =
      (Double.ofBits 10 0, demoTenSamples) ∧
    Double.ofBits 10 0 ≠ 0 ∧
    (∀ s ∈ pf_normalize_setA binary64 demoTenSamples (Double.ofBits 10 0),
      s.weight = Double.ofRat 1 10) ∧
    sumFromA binary64 (binary64.ofNat 0)
      (pf_normalize_setA binary64 demoTenSamples (Double.ofBits 10 0)) =
        Double.ofBits (2 ^ 53 - 1) (-53) ∧
    sumFromA binary64 (binary64.ofNat 0)
      (pf_normalize_setA binary64 demoTenSamples (Double.ofBits 10 0)) ≠ Double.ofBits 1 0 ∧
    ((pf_normalize_setA binary64 demoTenSamples (Double.ofBits 10 0)).map
      (fun s => s.weight)).sum ≠ Double.ofBits 1 0 := by
  have hexp : demoLibD.exp 0 = Double.ofBits 1 0 := rfl
  have hlog : demoLibD.log (Double.ofBits 1 0) = 0 := rfl
  have hmap : demoTenSamples.map
      (UpdateParticleA binary64 demoLibD demoHalfLaserD demoHalfScanD) = demoTenSamples := by
    simp only [demoTenSamples, List.map_map]
    apply List.map_congr_left
    intro i _
    exact (demoHalf_UpdateParticleA demoLibD hexp hlog _ _).2
  have hsum : sumFromA binary64 (binary64.ofNat 0) demoTenSamples = Double.ofBits 10 0 := by
    decide
  have hpos : (0 : Double) < Double.ofBits 1 0 := by decide
  refine ⟨?_, ?_, ?_, by decide, by decide, by decide, by decide, by decide⟩
  · intro pose
    rw [(demoHalf_UpdateParticleA demoLibD hexp hlog ⟨0, 0, 0⟩ 0).1 pose]
    exact hpos
  · rw [UpdateLaserParallelA_eq, hmap, hsum]
  · rw [UpdateLaserA, UpdateLaserLoopA_eq, hmap, hsum]

end MarkovNode
